import Mathlib

/-!
# QP/C 6.9.3 (QV kernel, ARM Cortex-M port): verification development

Shallow embedding of the framework sources under `src/qpc` and proofs of
properties of the embedded functions.

Conventions of the embedding

* Pointers are natural numbers, `0` is the null pointer.
* Machine integers are natural numbers reduced explicitly modulo `2^w`
  wherever the C code stores into a fixed-width object or casts to one.
  The configuration is the one selected by the headers and the port:
  `QEQueueCtr = uint8_t`, `QMPoolSize = QMPoolCtr = uint16_t`,
  `sizeof(QFreeBlock) = sizeof(void *) = 4`, `QHSM_MAX_NEST_DEPTH_ = 6`.
* A call that does not return normally yields a `Fault`: a failed assertion
  (`Q_onAssert` never returns), undefined behaviour of the C program (an
  access outside an array, a call through a null pointer), or exhausted fuel
  for a loop that has no bound in the source.
* Software tracing (`Q_SPY`) is disabled, assertions (`Q_NASSERT` undefined)
  are enabled; critical sections have no sequential effect.
-/

namespace QP

/-! ## Definitions -/

/-- Source module of a failed assertion (`Q_DEFINE_THIS_MODULE`). -/
inductive Module where
  | qep_hsm
  | qf_qeq
  | qf_mem
  | qf_dyn
  | qf_actq
  | qf_act
  | qf_time
  | qf_ps
  | qf_defer
  | qv
deriving DecidableEq, Repr

/-- Abnormal termination of an embedded function. -/
inductive Fault where
  | assertion (m : Module) (id : Nat)
  | undefined
  | timeout
deriving DecidableEq, Repr

/-- Store into a `uint8_t` object. -/
def u8 (n : Nat) : Nat := n % 256

/-- Store into a `uint16_t` object. -/
def u16 (n : Nat) : Nat := n % 65536

/-- Store into a `uint32_t` object. -/
def u32 (n : Nat) : Nat := n % 4294967296

/-- Decrement of a `uint8_t` object (wraps from 0 to 255). -/
def dec8 (n : Nat) : Nat := (n + 255) % 256

/-- Decrement of a `uint16_t` object (wraps from 0 to 65535). -/
def dec16 (n : Nat) : Nat := (n + 65535) % 65536

/-- The sentinel `QF_NO_MARGIN` of `qf.h`. -/
def QF_NO_MARGIN : Nat := 0xFFFF

/-- The event base structure `QEvt` of `qep.h`. -/
structure QEvt where
  sig : Nat
  poolId_ : Nat
  refCtr_ : Nat
deriving DecidableEq, Repr

/-- Event objects in memory, indexed by address. -/
abbrev EvtMem := Nat → QEvt

/-- The macro `QF_EVT_REF_CTR_INC_` of `qf_pkg.h`: `++e->refCtr_` on a `uint8_t`. -/
def QF_EVT_REF_CTR_INC_ (mem : EvtMem) (e : Nat) : EvtMem :=
  fun a => if a = e then { mem e with refCtr_ := u8 ((mem e).refCtr_ + 1) } else mem a

/-- The macro `QF_EVT_REF_CTR_DEC_` of `qf_pkg.h`: `--e->refCtr_` on a `uint8_t`. -/
def QF_EVT_REF_CTR_DEC_ (mem : EvtMem) (e : Nat) : EvtMem :=
  fun a => if a = e then { mem e with refCtr_ := dec8 (mem e).refCtr_ } else mem a

/-! ### Event queue (`qequeue.h`, `qf_qeq.c`) -/

/-- The structure `QEQueue`; `ring` holds the contents of the caller-provided
storage array, whose length is the length of the list. -/
structure QEQueue where
  frontEvt : Nat
  ring : List Nat
  end_ : Nat
  head : Nat
  tail : Nat
  nFree : Nat
  nMin : Nat
deriving DecidableEq, Repr

/-- Write `QF_PTR_AT_(ring, i) = v`; outside the storage array the behaviour is undefined. -/
def ringWrite (ring : List Nat) (i v : Nat) : Except Fault (List Nat) :=
  if i < ring.length then .ok (ring.set i v) else .error .undefined

/-- Read `QF_PTR_AT_(ring, i)`; outside the storage array the behaviour is undefined. -/
def ringRead (ring : List Nat) (i : Nat) : Except Fault Nat :=
  if i < ring.length then .ok (ring.getD i 0) else .error .undefined

/-- `QEQueue_init` (qf_qeq.c:68). `me` is the previous content of the object,
which survives in `head` and `tail` when `qLen` is 0. -/
def QEQueue_init (me : QEQueue) (qSto : List Nat) (qLen : Nat) : QEQueue :=
  let me := { me with frontEvt := 0, ring := qSto, end_ := u8 qLen }
  let me := if qLen ≠ 0 then { me with head := 0, tail := 0 } else me
  let me := { me with nFree := u8 (qLen + 1) }
  { me with nMin := me.nFree }

/-- `QEQueue_post` (qf_qeq.c:110). -/
def QEQueue_post (me : QEQueue) (mem : EvtMem) (e : Nat) (margin : Nat) :
    Except Fault (Bool × QEQueue × EvtMem) :=
  if e = 0 then .error (.assertion .qf_qeq 200)
  else
    let nFree := me.nFree
    if (margin = QF_NO_MARGIN ∧ nFree > 0) ∨ nFree > u8 margin then
      let mem := if (mem e).poolId_ ≠ 0 then QF_EVT_REF_CTR_INC_ mem e else mem
      let nFree := dec8 nFree
      let me := { me with nFree := nFree }
      let me := if me.nMin > nFree then { me with nMin := nFree } else me
      if me.frontEvt = 0 then
        .ok (true, { me with frontEvt := e }, mem)
      else
        match ringWrite me.ring me.head e with
        | .error f => .error f
        | .ok ring =>
          let me := { me with ring := ring }
          let me := if me.head = 0 then { me with head := me.end_ } else me
          .ok (true, { me with head := dec8 me.head }, mem)
    else
      if margin = QF_NO_MARGIN then .error (.assertion .qf_qeq 210)
      else .ok (false, me, mem)

/-- `QEQueue_postLIFO` (qf_qeq.c:199). The event is dereferenced without a
null check, so a null `e` is undefined behaviour. -/
def QEQueue_postLIFO (me : QEQueue) (mem : EvtMem) (e : Nat) :
    Except Fault (QEQueue × EvtMem) :=
  let nFree := me.nFree
  if nFree = 0 then .error (.assertion .qf_qeq 300)
  else if e = 0 then .error .undefined
  else
    let mem := if (mem e).poolId_ ≠ 0 then QF_EVT_REF_CTR_INC_ mem e else mem
    let nFree := dec8 nFree
    let me := { me with nFree := nFree }
    let me := if me.nMin > nFree then { me with nMin := nFree } else me
    let frontEvt := me.frontEvt
    let me := { me with frontEvt := e }
    if frontEvt ≠ 0 then
      let me := { me with tail := u8 (me.tail + 1) }
      let me := if me.tail = me.end_ then { me with tail := 0 } else me
      match ringWrite me.ring me.tail frontEvt with
      | .error f => .error f
      | .ok ring => .ok ({ me with ring := ring }, mem)
    else .ok (me, mem)

/-- `QEQueue_get` (qf_qeq.c:264). -/
def QEQueue_get (me : QEQueue) : Except Fault (Nat × QEQueue) :=
  let e := me.frontEvt
  if e ≠ 0 then
    let nFree := u8 (me.nFree + 1)
    let me := { me with nFree := nFree }
    if nFree ≤ me.end_ then
      match ringRead me.ring me.tail with
      | .error f => .error f
      | .ok f =>
        let me := { me with frontEvt := f }
        let me := if me.tail = 0 then { me with tail := me.end_ } else me
        .ok (e, { me with tail := dec8 me.tail })
    else
      let me := { me with frontEvt := 0 }
      if nFree = me.end_ + 1 then .ok (e, me)
      else .error (.assertion .qf_qeq 410)
  else .ok (e, me)

/-- Post the events of `es` one after the other with the same margin,
collecting the returned status flags. -/
def postAll (margin : Nat) : QEQueue → EvtMem → List Nat →
    Except Fault (List Bool × QEQueue × EvtMem)
  | me, mem, [] => .ok ([], me, mem)
  | me, mem, e :: es =>
    match QEQueue_post me mem e margin with
    | .error f => .error f
    | .ok (b, me1, mem1) =>
      match postAll margin me1 mem1 es with
      | .error f => .error f
      | .ok (bs, me2, mem2) => .ok (b :: bs, me2, mem2)

/-- Call `QEQueue_get` `n` times, collecting the returned pointers. -/
def getN : Nat → QEQueue → Except Fault (List Nat × QEQueue)
  | 0, me => .ok ([], me)
  | n + 1, me =>
    match QEQueue_get me with
    | .error f => .error f
    | .ok (e, me1) =>
      match getN n me1 with
      | .error f => .error f
      | .ok (es, me2) => .ok (e :: es, me2)

/-- Ring index of the `k`-th queued event behind the front event: `k` steps
of the wrapping decrement applied to `tail`. -/
def slot (end_ tail k : Nat) : Nat :=
  if k ≤ tail then tail - k else tail + end_ - k

/-- Number of events stored in the ring (the front event not counted). -/
def QEQueue.inRing (q : QEQueue) : Nat := q.end_ - q.nFree

/-- The queued events, oldest first. -/
def QEQueue.toList (q : QEQueue) : List Nat :=
  if q.frontEvt = 0 then []
  else q.frontEvt :: (List.range q.inRing).map (fun k => q.ring.getD (slot q.end_ q.tail k) 0)

/-- Consistency of a queue object: the counters, the indices and the ring
contents describe a queue of `end_ + 1 - nFree` non-null events. -/
def QEQueue.WF (q : QEQueue) : Prop :=
  q.end_ < 255 ∧ q.end_ ≤ q.ring.length ∧ q.nFree ≤ q.end_ + 1 ∧ q.nMin ≤ q.nFree ∧
  (q.frontEvt = 0 ↔ q.nFree = q.end_ + 1) ∧
  (0 < q.end_ → q.tail < q.end_ ∧ q.head = slot q.end_ q.tail q.inRing) ∧
  (∀ k, k < q.inRing → q.ring.getD (slot q.end_ q.tail k) 0 ≠ 0)

instance (q : QEQueue) : Decidable q.WF := by
  unfold QEQueue.WF
  exact inferInstance

/-! ### Memory pool (`qmpool.h`, `qf_mem.c`) -/

/-- `sizeof(QFreeBlock)`: one pointer, 4 bytes on the 32-bit Cortex-M port. -/
def sizeof_QFreeBlock : Nat := 4

/-- The `next` field of the `QFreeBlock` stored at each address. -/
abbrev BlockMem := Nat → Nat

/-- Store `v` into the `next` field of the block at address `a`. -/
def BlockMem.write (mem : BlockMem) (a v : Nat) : BlockMem :=
  fun x => if x = a then v else mem x

/-- The structure `QMPool` of `qmpool.h`. -/
structure QMPool where
  free_head : Nat
  start : Nat
  end_ : Nat
  blockSize : Nat
  nTot : Nat
  nFree : Nat
  nMin : Nat
deriving DecidableEq, Repr

/-- First loop of `QMPool_init` (qf_mem.c:96): round the block size up to a
multiple of `sizeof(QFreeBlock)`. `bs` is `me->blockSize` (a `QMPoolSize`),
`nblocks` a `uint_fast16_t` (32 bits on this port), `target` is
`(QMPoolSize)blockSize`. The loop has no bound in the source, hence the fuel. -/
def QMPool_init_round : Nat → Nat → Nat → Nat → Except Fault (Nat × Nat)
  | 0, bs, nblocks, target =>
    if bs < target then .error .timeout else .ok (bs, nblocks)
  | fuel + 1, bs, nblocks, target =>
    if bs < target then
      QMPool_init_round fuel (u16 (bs + u16 sizeof_QFreeBlock)) (u32 (nblocks + 1)) target
    else .ok (bs, nblocks)

/-- Second loop of `QMPool_init` (qf_mem.c:111): chain the blocks. Returns the
last block `fb`, the counter `me->nTot` (a `QMPoolCtr`) and the memory. -/
def QMPool_init_link : Nat → Nat → Nat → Nat → Nat → Nat → BlockMem →
    Except Fault (Nat × Nat × BlockMem)
  | 0, poolSize, blockSize, _, fb, nTot, mem =>
    if poolSize ≥ blockSize then .error .timeout else .ok (fb, nTot, mem)
  | fuel + 1, poolSize, blockSize, nblocks, fb, nTot, mem =>
    if poolSize ≥ blockSize then
      let next := fb + nblocks * sizeof_QFreeBlock
      QMPool_init_link fuel (poolSize - blockSize) blockSize nblocks next (u16 (nTot + 1))
        (mem.write fb next)
    else .ok (fb, nTot, mem)

/-- `QMPool_init` (qf_mem.c:79). `poolSize` is a `uint_fast32_t` and
`blockSize` a `uint_fast16_t`, both 32 bits wide on this port. -/
def QMPool_init (fuel : Nat) (me : QMPool) (mem : BlockMem) (poolSto poolSize blockSize : Nat) :
    Except Fault (QMPool × BlockMem) :=
  if ¬ (poolSto ≠ 0 ∧ poolSize ≥ sizeof_QFreeBlock ∧
      u32 (blockSize + sizeof_QFreeBlock) > blockSize) then
    .error (.assertion .qf_mem 100)
  else
    let me := { me with free_head := poolSto }
    match QMPool_init_round fuel (u16 sizeof_QFreeBlock) 1 (u16 blockSize) with
    | .error f => .error f
    | .ok (bs, nblocks) =>
      let me := { me with blockSize := bs }
      let blockSize := bs
      if ¬ (poolSize ≥ blockSize) then .error (.assertion .qf_mem 110)
      else
        let poolSize := poolSize - blockSize
        let me := { me with nTot := 1 }
        match QMPool_init_link fuel poolSize blockSize nblocks me.free_head me.nTot mem with
        | .error f => .error f
        | .ok (fb, nTot, mem) =>
          let me := { me with nTot := nTot }
          let mem := mem.write fb 0
          let me := { me with nFree := me.nTot }
          let me := { me with nMin := me.nTot }
          let me := { me with start := poolSto }
          .ok ({ me with end_ := fb }, mem)

/-- The macro `QF_PTR_RANGE_` of `qf_pkg.h`. -/
def QF_PTR_RANGE_ (x min max : Nat) : Prop := min ≤ x ∧ x ≤ max

instance (x min max : Nat) : Decidable (QF_PTR_RANGE_ x min max) := by
  unfold QF_PTR_RANGE_
  exact inferInstance

/-- `QMPool_put` (qf_mem.c:139). -/
def QMPool_put (me : QMPool) (mem : BlockMem) (b : Nat) : Except Fault (QMPool × BlockMem) :=
  if ¬ (me.nFree < me.nTot ∧ QF_PTR_RANGE_ b me.start me.end_) then
    .error (.assertion .qf_mem 200)
  else
    let mem := mem.write b me.free_head
    let me := { me with free_head := b }
    .ok ({ me with nFree := u16 (me.nFree + 1) }, mem)

/-- `QMPool_get` (qf_mem.c:181); returns the block pointer (null when the
margin is not met) and the updated pool. The memory is only read. -/
def QMPool_get (me : QMPool) (mem : BlockMem) (margin : Nat) : Except Fault (Nat × QMPool) :=
  if me.nFree > u16 margin then
    let fb := me.free_head
    if fb = 0 then .error (.assertion .qf_mem 310)
    else
      let fb_next := mem fb
      let me := { me with nFree := dec16 me.nFree }
      if me.nFree = 0 then
        if fb_next ≠ 0 then .error (.assertion .qf_mem 320)
        else
          let me := { me with nMin := 0 }
          .ok (fb, { me with free_head := fb_next })
      else
        if ¬ QF_PTR_RANGE_ fb_next me.start me.end_ then .error (.assertion .qf_mem 330)
        else
          let me := if me.nMin > me.nFree then { me with nMin := me.nFree } else me
          .ok (fb, { me with free_head := fb_next })
  else .ok (0, me)

/-- The first `n` blocks of the free list starting at `p`. -/
def freeChain (mem : BlockMem) : Nat → Nat → List Nat
  | _, 0 => []
  | p, n + 1 => p :: freeChain mem (mem p) n

/-- The pointer reached from `p` after following `n` links of the free list. -/
def chainEnd (mem : BlockMem) : Nat → Nat → Nat
  | p, 0 => p
  | p, n + 1 => chainEnd mem (mem p) n

/-- The addresses of the blocks of a pool. -/
def QMPool.blocks (p : QMPool) : List Nat :=
  (List.range p.nTot).map (fun i => p.start + i * p.blockSize)

/-- A pool together with the blocks handed out to its users. -/
structure PoolState where
  pool : QMPool
  mem : BlockMem
  held : List Nat

/-- Consistency of a pool: the free list from `free_head` has exactly `nFree`
blocks and ends with null, and the free blocks together with the blocks held
outside the pool are exactly the blocks of the pool, each once. -/
def PoolInv (s : PoolState) : Prop :=
  0 < s.pool.start ∧ 0 < s.pool.blockSize ∧ 0 < s.pool.nTot ∧ s.pool.nTot < 65536 ∧
  s.pool.end_ = s.pool.start + (s.pool.nTot - 1) * s.pool.blockSize ∧
  chainEnd s.mem s.pool.free_head s.pool.nFree = 0 ∧
  List.Perm (freeChain s.mem s.pool.free_head s.pool.nFree ++ s.held) s.pool.blocks

/-- The operations of a pool user: acquire a block, release a block, write
into a block. -/
inductive PoolOp where
  | get (margin : Nat)
  | put (b : Nat)
  | use (b v : Nat)
deriving DecidableEq, Repr

/-- One pool operation, tracking the set of blocks held outside the pool. -/
def poolStep (s : PoolState) : PoolOp → Except Fault PoolState
  | .get margin =>
    match QMPool_get s.pool s.mem margin with
    | .error f => .error f
    | .ok (b, p) => .ok { pool := p, mem := s.mem, held := if b = 0 then s.held else b :: s.held }
  | .put b =>
    match QMPool_put s.pool s.mem b with
    | .error f => .error f
    | .ok (p, mem) => .ok { pool := p, mem := mem, held := s.held.erase b }
  | .use b v => .ok { s with mem := s.mem.write b v }

/-- A sequence of pool operations. -/
def runPool : PoolState → List PoolOp → Except Fault PoolState
  | s, [] => .ok s
  | s, op :: ops =>
    match poolStep s op with
    | .error f => .error f
    | .ok s1 => runPool s1 ops

/-- The caller's obligation: a block that is released or written to is held
outside the pool at that moment. -/
def opAllowed (s : PoolState) : PoolOp → Bool
  | .get _ => true
  | .put b => s.held.contains b
  | .use b _ => s.held.contains b

/-- The caller's obligation along a sequence of operations. -/
def runAllowed : PoolState → List PoolOp → Bool
  | _, [] => true
  | s, op :: ops =>
    opAllowed s op &&
      match poolStep s op with
      | .error _ => true
      | .ok s1 => runAllowed s1 ops

/-! ### Framework state (`qf_pkg.h`, `qf.h`, `qv.h`) -/

/-- The configuration constant `QF_MAX_EPOOL` of `qf.h`. -/
def QF_MAX_EPOOL : Nat := 3

/-- The configuration constant `QF_MAX_ACTIVE` of the port (Cortex-M3/M4/M7). -/
def QF_MAX_ACTIVE : Nat := 16

/-- The configuration constant `QF_MAX_TICK_RATE` of the port. -/
def QF_MAX_TICK_RATE : Nat := 2

/-- The members of `QActive` used by the framework: priority and event queue. -/
structure QActive where
  prio : Nat
  eQueue : QEQueue
deriving DecidableEq, Repr

/-- The members of `QTimeEvt` after its first member `super`; the `QEvt`
`super` is the event stored at the same address in the event memory. -/
structure QTimeEvt where
  next : Nat
  act : Nat
  ctr : Nat
  interval : Nat
deriving DecidableEq, Repr

/-- The package-scope objects of the framework together with the objects they
point to. `QF_pool_` and `QF_active_` are the arrays of `qf_dyn.c` and
`qf_act.c`; `QF_timeEvtHead_` lists the addresses of the elements of the
array of `qf_time.c`, whose contents are time events in memory like any
other; `QF_subscrList_` is the content of the array registered with
`QF_psInit`; `emem`, `bmem`, `aobj`, `tevt` are the events, pool blocks,
active objects and time events in memory, by address.
The event header written into a pool block and the free-list link written
by `QMPool_put` are kept in separate maps. -/
structure QFState where
  emem : EvtMem
  bmem : BlockMem
  QF_pool_ : List QMPool
  QF_maxPool_ : Nat
  QF_active_ : List Nat
  aobj : Nat → QActive
  QV_readySet_ : Nat
  QF_subscrList_ : List Nat
  QF_maxPubSignal_ : Nat
  tevt : Nat → QTimeEvt
  QF_timeEvtHead_ : List Nat

/-- Store an event header at address `e`. -/
def EvtMem.write (mem : EvtMem) (e : Nat) (v : QEvt) : EvtMem :=
  fun a => if a = e then v else mem a

/-! ### Dynamic events (`qf_dyn.c`) -/

/-- `QF_poolInit` (qf_dyn.c:100). -/
def QF_poolInit (fuel : Nat) (st : QFState) (poolSto poolSize evtSize : Nat) :
    Except Fault QFState :=
  if ¬ (st.QF_maxPool_ < QF_MAX_EPOOL) then .error (.assertion .qf_dyn 200)
  else
    match (if st.QF_maxPool_ = 0 then some true
      else (st.QF_pool_[st.QF_maxPool_ - 1]?).map (fun p => decide (p.blockSize < evtSize))) with
    | none => .error .undefined
    | some false => .error (.assertion .qf_dyn 201)
    | some true =>
      match st.QF_pool_[st.QF_maxPool_]? with
      | none => .error .undefined
      | some p =>
        match QMPool_init fuel p st.bmem poolSto poolSize evtSize with
        | .error f => .error f
        | .ok (p1, bmem1) =>
          .ok { st with QF_pool_ := st.QF_pool_.set st.QF_maxPool_ p1, bmem := bmem1,
                        QF_maxPool_ := st.QF_maxPool_ + 1 }

/-- The pool search loop of `QF_newX_` (qf_dyn.c:151); `n` counts the
iterations left, `idx` is the loop variable. -/
def QF_newX_scan (pools : List QMPool) (evtSize : Nat) : Nat → Nat → Except Fault Nat
  | 0, idx => .ok idx
  | n + 1, idx =>
    match pools[idx]? with
    | none => .error .undefined
    | some p => if evtSize ≤ p.blockSize then .ok idx else QF_newX_scan pools evtSize n (idx + 1)

/-- `QF_newX_` (qf_dyn.c:143); returns the event pointer (possibly null). -/
def QF_newX_ (st : QFState) (evtSize margin sig : Nat) : Except Fault (Nat × QFState) :=
  match QF_newX_scan st.QF_pool_ evtSize st.QF_maxPool_ 0 with
  | .error f => .error f
  | .ok idx =>
    if ¬ (idx < st.QF_maxPool_) then .error (.assertion .qf_dyn 310)
    else
      match st.QF_pool_[idx]? with
      | none => .error .undefined
      | some p =>
        match QMPool_get p st.bmem (if margin ≠ QF_NO_MARGIN then margin else 0) with
        | .error f => .error f
        | .ok (e, p1) =>
          let st := { st with QF_pool_ := st.QF_pool_.set idx p1 }
          if e ≠ 0 then
            .ok (e, { st with emem := st.emem.write e (QEvt.mk (u16 sig) (u8 (idx + 1)) 0) })
          else if ¬ (margin ≠ QF_NO_MARGIN) then .error (.assertion .qf_dyn 320)
          else .ok (0, st)

/-- `QF_gc` (qf_dyn.c:211). -/
def QF_gc (st : QFState) (e : Nat) : Except Fault QFState :=
  if (st.emem e).poolId_ ≠ 0 then
    if (st.emem e).refCtr_ > 1 then
      .ok { st with emem := QF_EVT_REF_CTR_DEC_ st.emem e }
    else
      let idx := (st.emem e).poolId_ - 1
      if ¬ (idx < st.QF_maxPool_) then .error (.assertion .qf_dyn 410)
      else
        match st.QF_pool_[idx]? with
        | none => .error .undefined
        | some p =>
          match QMPool_put p st.bmem e with
          | .error f => .error f
          | .ok (p1, bmem1) => .ok { st with QF_pool_ := st.QF_pool_.set idx p1, bmem := bmem1 }
  else .ok st

/-- `QF_newRef_` (qf_dyn.c:272). -/
def QF_newRef_ (st : QFState) (e evtRef : Nat) : Except Fault (Nat × QFState) :=
  if ¬ ((st.emem e).poolId_ ≠ 0 ∧ evtRef = 0) then .error (.assertion .qf_dyn 500)
  else .ok (e, { st with emem := QF_EVT_REF_CTR_INC_ st.emem e })

/-- `QF_deleteRef_` (qf_dyn.c:306). -/
def QF_deleteRef_ (st : QFState) (evtRef : Nat) : Except Fault QFState :=
  QF_gc st evtRef

/-- `n` successive calls `QF_newRef_(e, 0)`. -/
def newRefN : Nat → QFState → Nat → Except Fault QFState
  | 0, st, _ => .ok st
  | n + 1, st, e =>
    match QF_newRef_ st e 0 with
    | .error f => .error f
    | .ok (_, st1) => newRefN n st1 e

/-- `n` successive calls `QF_gc(e)`. -/
def gcN : Nat → QFState → Nat → Except Fault QFState
  | 0, st, _ => .ok st
  | n + 1, st, e =>
    match QF_gc st e with
    | .error f => .error f
    | .ok st1 => gcN n st1 e

/-- A sequence of `QF_poolInit` calls with arguments `(poolSto, poolSize, evtSize)`. -/
def runPoolInit (fuel : Nat) : QFState → List (Nat × Nat × Nat) → Except Fault QFState
  | st, [] => .ok st
  | st, (poolSto, poolSize, evtSize) :: rs =>
    match QF_poolInit fuel st poolSto poolSize evtSize with
    | .error f => .error f
    | .ok st1 => runPoolInit fuel st1 rs

/-- The state after `QF_init` (qv.c:71) as far as the event pools are
concerned: no pool is registered. The arrays have their declared sizes. -/
def QFState.start : QFState :=
  { emem := fun _ => ⟨0, 0, 0⟩, bmem := fun _ => 0,
    QF_pool_ := List.replicate QF_MAX_EPOOL ⟨0, 0, 0, 0, 0, 0, 0⟩, QF_maxPool_ := 0,
    QF_active_ := List.replicate (QF_MAX_ACTIVE + 1) 0,
    aobj := fun _ => ⟨0, ⟨0, [], 0, 0, 0, 0, 0⟩⟩,
    QV_readySet_ := 0, QF_subscrList_ := [], QF_maxPubSignal_ := 0,
    tevt := fun _ => ⟨0, 0, 0, 0⟩,
    QF_timeEvtHead_ := [16, 32] }

/-- An example configuration: one registered event pool with two 8-byte
blocks at addresses 1000 and 1008, both free. -/
def exampleState : QFState :=
  { QFState.start with
    QF_pool_ := [⟨1000, 1000, 1008, 8, 2, 2, 2⟩, ⟨0, 0, 0, 0, 0, 0, 0⟩, ⟨0, 0, 0, 0, 0, 0, 0⟩],
    QF_maxPool_ := 1,
    bmem := BlockMem.write (BlockMem.write (fun _ => 0) 1000 1008) 1008 0 }

/-- The example configuration after `QF_newX_` has allocated the block at
address 1000 for an event with signal 5. -/
def exampleState1 : QFState :=
  { exampleState with
    QF_pool_ := [⟨1008, 1000, 1008, 8, 2, 1, 1⟩, ⟨0, 0, 0, 0, 0, 0, 0⟩, ⟨0, 0, 0, 0, 0, 0, 0⟩],
    emem := EvtMem.write (fun _ => ⟨0, 0, 0⟩) 1000 ⟨5, 1, 0⟩ }

/-- The registered pools have strictly ascending block sizes. -/
def PoolsAscending (st : QFState) : Prop :=
  ∀ i j p q, i < j → j < st.QF_maxPool_ → st.QF_pool_[i]? = some p →
    st.QF_pool_[j]? = some q → p.blockSize < q.blockSize

/-! ### Priority sets (`qpset.h`, `QPSetBits = uint16_t`) -/

/-- The macro `QF_LOG2` of the port: `32 - __clz(n)`, the number of
significant bits of `n`. -/
def QF_LOG2 (n : Nat) : Nat := if n = 0 then 0 else Nat.log2 n + 1

/-- The macro `QPSet_notEmpty`. -/
def QPSet_notEmpty (bits : Nat) : Bool := bits != 0

/-- The macro `QPSet_hasElement`, for `n` in `1..QF_MAX_ACTIVE`. -/
def QPSet_hasElement (bits n : Nat) : Bool := (bits &&& u16 (1 <<< (n - 1))) != 0

/-- The macro `QPSet_insert`, for `n` in `1..QF_MAX_ACTIVE`. -/
def QPSet_insert (bits n : Nat) : Nat := u16 (bits ||| (1 <<< (n - 1)))

/-- The macro `QPSet_remove`, for `n` in `1..QF_MAX_ACTIVE`. -/
def QPSet_remove (bits n : Nat) : Nat := bits &&& (65535 ^^^ u16 (1 <<< (n - 1)))

/-- The macro `QPSet_findMax`. -/
def QPSet_findMax (bits : Nat) : Nat := QF_LOG2 bits

/-! ### Active object event queue (`qf_actq.c`, QV kernel macros of `qv.h`) -/

/-- `QActive_post_` (qf_actq.c:83); `me` is the address of the active object. -/
def QActive_post_ (st : QFState) (me e margin : Nat) : Except Fault (Bool × QFState) :=
  if e = 0 then .error (.assertion .qf_actq 100)
  else
    let a := st.aobj me
    let nFree := a.eQueue.nFree
    match (if margin = QF_NO_MARGIN then
        (if nFree > 0 then Except.ok true else Except.error (Fault.assertion .qf_actq 110))
      else if nFree > u8 margin then Except.ok true else Except.ok false) with
    | .error f => .error f
    | .ok status =>
      let st := if (st.emem e).poolId_ ≠ 0 then
        { st with emem := QF_EVT_REF_CTR_INC_ st.emem e } else st
      if status then
        let nFree := dec8 nFree
        let q : QEQueue := { a.eQueue with nFree := nFree }
        let q := if q.nMin > nFree then { q with nMin := nFree } else q
        if q.frontEvt = 0 then
          let q : QEQueue := { q with frontEvt := e }
          .ok (true, { st with aobj := Function.update st.aobj me { a with eQueue := q },
                               QV_readySet_ := QPSet_insert st.QV_readySet_ a.prio })
        else
          match ringWrite q.ring q.head e with
          | .error f => .error f
          | .ok ring =>
            let q : QEQueue := { q with ring := ring }
            let q := if q.head = 0 then { q with head := q.end_ } else q
            let q : QEQueue := { q with head := dec8 q.head }
            .ok (true, { st with aobj := Function.update st.aobj me { a with eQueue := q } })
      else
        match QF_gc st e with
        | .error f => .error f
        | .ok st => .ok (false, st)

/-- `QActive_postLIFO_` (qf_actq.c:208). -/
def QActive_postLIFO_ (st : QFState) (me e : Nat) : Except Fault QFState :=
  let a := st.aobj me
  let nFree := a.eQueue.nFree
  if ¬ (nFree ≠ 0) then .error (.assertion .qf_actq 210)
  else if e = 0 then .error .undefined
  else
    let st := if (st.emem e).poolId_ ≠ 0 then
      { st with emem := QF_EVT_REF_CTR_INC_ st.emem e } else st
    let nFree := dec8 nFree
    let q : QEQueue := { a.eQueue with nFree := nFree }
    let q := if q.nMin > nFree then { q with nMin := nFree } else q
    let frontEvt := q.frontEvt
    let q : QEQueue := { q with frontEvt := e }
    if frontEvt = 0 then
      .ok { st with aobj := Function.update st.aobj me { a with eQueue := q },
                    QV_readySet_ := QPSet_insert st.QV_readySet_ a.prio }
    else
      let q : QEQueue := { q with tail := u8 (q.tail + 1) }
      let q := if q.tail = q.end_ then { q with tail := 0 } else q
      match ringWrite q.ring q.tail frontEvt with
      | .error f => .error f
      | .ok ring =>
        .ok { st with aobj := Function.update st.aobj me { a with eQueue := { q with ring := ring } } }

/-- `QActive_get_` (qf_actq.c:291); `QACTIVE_EQUEUE_WAIT_` of the QV kernel
asserts (id 0) that the queue is not empty. -/
def QActive_get_ (st : QFState) (me : Nat) : Except Fault (Nat × QFState) :=
  let a := st.aobj me
  if ¬ (a.eQueue.frontEvt ≠ 0) then .error (.assertion .qf_actq 0)
  else
    let e := a.eQueue.frontEvt
    let nFree := u8 (a.eQueue.nFree + 1)
    let q : QEQueue := { a.eQueue with nFree := nFree }
    if nFree ≤ q.end_ then
      match ringRead q.ring q.tail with
      | .error f => .error f
      | .ok f =>
        let q : QEQueue := { q with frontEvt := f }
        let q := if q.tail = 0 then { q with tail := q.end_ } else q
        let q : QEQueue := { q with tail := dec8 q.tail }
        .ok (e, { st with aobj := Function.update st.aobj me { a with eQueue := q } })
    else
      let q : QEQueue := { q with frontEvt := 0 }
      if ¬ (nFree = q.end_ + 1) then .error (.assertion .qf_actq 310)
      else .ok (e, { st with aobj := Function.update st.aobj me { a with eQueue := q } })

/-- The example configuration with an active object of priority 3 at address
500, registered in `QF_active_`, whose event queue has a two-slot ring. -/
def exampleState2 : QFState :=
  { exampleState with
    aobj := Function.update exampleState.aobj 500
      ⟨3, QEQueue_init ⟨0, [], 0, 0, 0, 0, 0⟩ [0, 0] 2⟩,
    QF_active_ := exampleState.QF_active_.set 3 500 }

/-! ### Publish-subscribe (`qf_ps.c`) -/

/-- The subscriber loop of `QF_publish_` (qf_ps.c:141), a `do ... while`
loop over the local copy `subscrList`. `QACTIVE_POST` is `QActive_post_` with
`QF_NO_MARGIN`. The first component of the result lists the priorities for
which `QACTIVE_POST` was called, in call order. -/
def QF_publish_loop : Nat → QFState → Nat → Nat → Nat → Except Fault (List Nat × QFState)
  | 0, _, _, _, _ => .error .timeout
  | fuel + 1, st, e, subscrList, p =>
    match st.QF_active_[p]? with
    | none => .error .undefined
    | some a =>
      if ¬ (a ≠ 0) then .error (.assertion .qf_ps 210)
      else
        match QActive_post_ st a e QF_NO_MARGIN with
        | .error f => .error f
        | .ok (_, st) =>
          let subscrList := QPSet_remove subscrList p
          let p1 := if QPSet_notEmpty subscrList then QPSet_findMax subscrList else 0
          if p1 ≠ 0 then
            match QF_publish_loop fuel st e subscrList p1 with
            | .error f => .error f
            | .ok (ps, st) => .ok (p :: ps, st)
          else .ok ([p], st)

/-- `QF_publish_` (qf_ps.c:100). The event is dereferenced without a null
check. The first component of the result lists the priorities posted to, in
call order. -/
def QF_publish_ (fuel : Nat) (st : QFState) (e : Nat) : Except Fault (List Nat × QFState) :=
  if e = 0 then .error .undefined
  else if ¬ ((st.emem e).sig < u16 st.QF_maxPubSignal_) then .error (.assertion .qf_ps 200)
  else
    let st := if (st.emem e).poolId_ ≠ 0 then
      { st with emem := QF_EVT_REF_CTR_INC_ st.emem e } else st
    match st.QF_subscrList_[(st.emem e).sig]? with
    | none => .error .undefined
    | some subscrList =>
      match (if QPSet_notEmpty subscrList then
          QF_publish_loop fuel st e subscrList (QPSet_findMax subscrList)
        else .ok ([], st)) with
      | .error f => .error f
      | .ok (ps, st) =>
        match QF_gc st e with
        | .error f => .error f
        | .ok st => .ok (ps, st)

/-- The elements of a priority set in descending order. -/
def QPSet.toList (bits : Nat) : List Nat :=
  ((List.range QF_MAX_ACTIVE).reverse.map (· + 1)).filter (fun n => QPSet_hasElement bits n)

/-- The list `[n, n - 1, ..., 1]`. -/
def desc : Nat → List Nat
  | 0 => []
  | n + 1 => (n + 1) :: desc n

/-- The parts of the framework state that posting an event never touches. -/
def QFState.sameStatic (s t : QFState) : Prop :=
  t.bmem = s.bmem ∧ t.QF_pool_ = s.QF_pool_ ∧ t.QF_maxPool_ = s.QF_maxPool_ ∧
  t.QF_active_ = s.QF_active_ ∧ t.QF_subscrList_ = s.QF_subscrList_ ∧
  t.QF_maxPubSignal_ = s.QF_maxPubSignal_ ∧ t.tevt = s.tevt ∧
  t.QF_timeEvtHead_ = s.QF_timeEvtHead_

/-- Every priority of the set `bits` is registered in `QF_active_` with an
active object of that priority whose queue is consistent and has a free slot. -/
def Subscribed (st : QFState) (bits : Nat) : Prop :=
  ∀ k, k ∈ QPSet.toList bits → ∃ a, st.QF_active_[k]? = some a ∧ a ≠ 0 ∧
    (st.aobj a).prio = k ∧ (st.aobj a).eQueue.WF ∧ (st.aobj a).eQueue.nFree > 0

/-- The event memory after `n` increments of the reference counter of `e`. -/
def incN (mem : EvtMem) (e : Nat) : Nat → EvtMem
  | 0 => mem
  | n + 1 => incN (QF_EVT_REF_CTR_INC_ mem e) e n

/-- The event `e` is a static event, or a dynamic event that was taken from
a consistent registered pool, is held outside that pool, and whose reference
counter leaves room for one increment per active object and one more. -/
def EvtValid (st : QFState) (e : Nat) : Prop :=
  (st.emem e).poolId_ = 0 ∨
    ∃ idx p held, (st.emem e).poolId_ = idx + 1 ∧ idx < st.QF_maxPool_ ∧
      st.QF_pool_[idx]? = some p ∧ PoolInv ⟨p, st.bmem, held⟩ ∧ e ∈ held ∧
      (st.emem e).refCtr_ + 17 ≤ 255

/-- An example configuration: the active object of priority 3 at address 500
subscribes to signal 5; the event at address 1000 (signal 5) has been
allocated from the event pool, the event at address 700 (signal 5) is static. -/
def exampleState3 : QFState :=
  { exampleState2 with
    QF_pool_ := exampleState1.QF_pool_,
    emem := EvtMem.write (EvtMem.write (fun _ => ⟨0, 0, 0⟩) 1000 ⟨5, 1, 0⟩) 700 ⟨5, 0, 0⟩,
    QF_subscrList_ := [0, 0, 0, 0, 0, 4],
    QF_maxPubSignal_ := 6 }

/-! ### Time events (`qf_time.c`) -/

/-- The flag `TE_IS_LINKED` of `qf_pkg.h`. -/
def TE_IS_LINKED : Nat := 128

/-- The flag `TE_WAS_DISARMED` of `qf_pkg.h`. -/
def TE_WAS_DISARMED : Nat := 64

/-- The mask `TE_TICK_RATE` of `qf_pkg.h`. -/
def TE_TICK_RATE : Nat := 15

/-- The first signal available to the application, `Q_USER_SIG` of `qep.h`. -/
def Q_USER_SIG : Nat := 4

/-- Store the members of the time event at address `a`. -/
def QFState.setTE (st : QFState) (a : Nat) (v : QTimeEvt) : QFState :=
  { st with tevt := Function.update st.tevt a v }

/-- Store the `refCtr_` member of the event at address `a`. -/
def QFState.setRefCtr (st : QFState) (a v : Nat) : QFState :=
  { st with emem := st.emem.write a { st.emem a with refCtr_ := v } }

/-- The statement `t->super.refCtr_ &= (uint8_t)(~TE_IS_LINKED & 0xFFU)`. -/
def teUnlink (st : QFState) (t : Nat) : QFState :=
  st.setRefCtr t ((st.emem t).refCtr_ &&& 127)

/-- `QTimeEvt_armX` (qf_time.c:265); `nTicks` and `interval` are values of
`QTimeEvtCtr`. -/
def QTimeEvt_armX (st : QFState) (me nTicks interval : Nat) : Except Fault QFState :=
  let tickRate := (st.emem me).refCtr_ &&& TE_TICK_RATE
  let ctr := (st.tevt me).ctr
  if ¬ ((st.tevt me).act ≠ 0 ∧ ctr = 0 ∧ nTicks ≠ 0 ∧ tickRate < QF_MAX_TICK_RATE ∧
      (st.emem me).sig ≥ Q_USER_SIG) then .error (.assertion .qf_time 400)
  else
    let st := st.setTE me { st.tevt me with ctr := nTicks, interval := interval }
    if (st.emem me).refCtr_ &&& TE_IS_LINKED = 0 then
      let st := st.setRefCtr me (u8 ((st.emem me).refCtr_ ||| TE_IS_LINKED))
      match st.QF_timeEvtHead_[tickRate]? with
      | none => .error .undefined
      | some hd =>
        let st := st.setTE me { st.tevt me with next := (st.tevt hd).act }
        .ok (st.setTE hd { st.tevt hd with act := me })
    else .ok st

/-- `QTimeEvt_disarm` (qf_time.c:329). -/
def QTimeEvt_disarm (st : QFState) (me : Nat) : Bool × QFState :=
  if (st.tevt me).ctr ≠ 0 then
    let st := st.setRefCtr me (u8 ((st.emem me).refCtr_ ||| TE_WAS_DISARMED))
    (true, st.setTE me { st.tevt me with ctr := 0 })
  else
    (false, st.setRefCtr me ((st.emem me).refCtr_ &&& 191))

/-- The head of the loop body of `QF_tickX_` (qf_time.c:91-107): fetch the
next time event `t`; at the end of the list splice in the newly armed events,
or leave the loop (`none`). `hd` is `&QF_timeEvtHead_[tickRate]`. -/
def tickFetch (st : QFState) (hd prev : Nat) : Except Fault (Option (Nat × QFState)) :=
  let t := (st.tevt prev).next
  if t = 0 then
    if (st.tevt hd).act ≠ 0 then
      if ¬ (prev ≠ 0) then .error (.assertion .qf_time 110)
      else
        let st := st.setTE prev { st.tevt prev with next := (st.tevt hd).act }
        let st := st.setTE hd { st.tevt hd with act := 0 }
        .ok (some ((st.tevt prev).next, st))
    else .ok none
  else .ok (some (t, st))

/-- The rest of the loop body of `QF_tickX_` (qf_time.c:109-163) for the time
event `t`: returns the post made, if any, as the pair (owner, event), the
new state and the new value of `prev`. `QACTIVE_POST` is `QActive_post_` with
`QF_NO_MARGIN`; a null owner is dereferenced. -/
def tickStep (st : QFState) (prev t : Nat) :
    Except Fault (Option (Nat × Nat) × QFState × Nat) :=
  if (st.tevt t).ctr = 0 then
    let st := st.setTE prev { st.tevt prev with next := (st.tevt t).next }
    .ok (none, teUnlink st t, prev)
  else
    let st := st.setTE t { st.tevt t with ctr := dec16 (st.tevt t).ctr }
    if (st.tevt t).ctr = 0 then
      let act := (st.tevt t).act
      let r : QFState × Nat :=
        if (st.tevt t).interval ≠ 0 then
          (st.setTE t { st.tevt t with ctr := (st.tevt t).interval }, t)
        else
          let st := st.setTE prev { st.tevt prev with next := (st.tevt t).next }
          (teUnlink st t, prev)
      if act = 0 then .error .undefined
      else
        match QActive_post_ r.1 act t QF_NO_MARGIN with
        | .error f => .error f
        | .ok (_, st) => .ok (some (act, t), st, r.2)
    else .ok (none, st, t)

/-- The loop of `QF_tickX_` (qf_time.c:90). The first component of the result
lists the posts made, as pairs (owner, event), in call order. -/
def QF_tickX_loop : Nat → QFState → Nat → Nat → Except Fault (List (Nat × Nat) × QFState)
  | 0, _, _, _ => .error .timeout
  | fuel + 1, st, hd, prev =>
    match tickFetch st hd prev with
    | .error f => .error f
    | .ok none => .ok ([], st)
    | .ok (some (t, st)) =>
      match tickStep st prev t with
      | .error f => .error f
      | .ok (post, st, prev) =>
        match QF_tickX_loop fuel st hd prev with
        | .error f => .error f
        | .ok (posts, st) => .ok (post.toList ++ posts, st)

/-- `QF_tickX_` (qf_time.c:75). -/
def QF_tickX_ (fuel : Nat) (st : QFState) (tickRate : Nat) :
    Except Fault (List (Nat × Nat) × QFState) :=
  match st.QF_timeEvtHead_[tickRate]? with
  | none => .error .undefined
  | some hd =>
    QF_tickX_loop fuel (st.setTE hd { st.tevt hd with ctr := u16 ((st.tevt hd).ctr + 1) }) hd hd

/-- `QTimeEvt_ctorX` (qf_time.c:221). -/
def QTimeEvt_ctorX (st : QFState) (me act sig tickRate : Nat) : Except Fault QFState :=
  if ¬ (sig ≥ Q_USER_SIG ∧ tickRate < QF_MAX_TICK_RATE) then .error (.assertion .qf_time 300)
  else
    .ok { (st.setTE me ⟨0, act, 0, 0⟩) with emem := st.emem.write me ⟨u16 sig, 0, u8 tickRate⟩ }

/-! ### Cooperative kernel (`qv.c`) -/

/-- One iteration of the loop of `QF_run` (qv.c:127). `dispatch st a e` is the
effect of `QHSM_DISPATCH(&a->super, e, a->prio)`, the run-to-completion step
of the state machine of the active object at address `a`. The first
component of the result is the priority and event serviced, or `none` when
the iteration calls `QV_onIdle`. A null entry of `QF_active_` is dereferenced. -/
def QF_run_iter (dispatch : QFState → Nat → Nat → Except Fault QFState) (st : QFState) :
    Except Fault (Option (Nat × Nat) × QFState) :=
  if QPSet_notEmpty st.QV_readySet_ then
    let p := QPSet_findMax st.QV_readySet_
    match st.QF_active_[p]? with
    | none => .error .undefined
    | some a =>
      if a = 0 then .error .undefined
      else
        match QActive_get_ st a with
        | .error f => .error f
        | .ok (e, st) =>
          match dispatch st a e with
          | .error f => .error f
          | .ok st =>
            match QF_gc st e with
            | .error f => .error f
            | .ok st =>
              if (st.aobj a).eQueue.frontEvt = 0 then
                .ok (some (p, e), { st with QV_readySet_ := QPSet_remove st.QV_readySet_ p })
              else .ok (some (p, e), st)
  else .ok (none, st)

/-- The value `Q_RET_SUPER` of the enumeration in `qep.h`. -/
def Q_RET_SUPER : Nat := 0

/-- The value `Q_RET_UNHANDLED`. -/
def Q_RET_UNHANDLED : Nat := 2

/-- The value `Q_RET_HANDLED`. -/
def Q_RET_HANDLED : Nat := 3

/-- The value `Q_RET_IGNORED`. -/
def Q_RET_IGNORED : Nat := 4

/-- The value `Q_RET_TRAN`. -/
def Q_RET_TRAN : Nat := 8

/-- The reserved signal `QEP_EMPTY_SIG_`. -/
def QEP_EMPTY_SIG_ : Nat := 0

/-- The reserved signal `Q_ENTRY_SIG`. -/
def Q_ENTRY_SIG : Nat := 1

/-- The reserved signal `Q_EXIT_SIG`. -/
def Q_EXIT_SIG : Nat := 2

/-- The reserved signal `Q_INIT_SIG`. -/
def Q_INIT_SIG : Nat := 3

/-- The constant `QHSM_MAX_NEST_DEPTH_` of `qep_hsm.c`. -/
def QHSM_MAX_NEST_DEPTH_ : Nat := 6

/-- The structure `QHsm`: the virtual pointer and the members `state.fun` and
`temp.fun`, state handlers being identified by their addresses. -/
structure QHsm where
  vptr : Nat
  state : Nat
  temp : Nat
deriving DecidableEq, Repr

/-- The address of the state handler `QHsm_top` (qep_hsm.c:237). -/
def QHsm_top : Nat := 1

/-- The address of the virtual table installed by `QHsm_ctor`. -/
def QHsm_vtable : Nat := 1

/-- The state handlers of an application: the handler at address `s`, called
with the state machine `me`, the other members `x` of the derived class and
the event (represented by its signal), returns a `QState` value and the new
contents of `me` and of the other members. `Q_TRAN` and `Q_SUPER` store the
target resp. the superstate in `me->temp.fun`. -/
abbrev Handlers (σ : Type) := Nat → QHsm → σ → Nat → Nat × QHsm × σ

/-- A state machine object while the event processor runs: the `QHsm` part,
the other members of the derived class, and the record of the state handler
calls made so far as pairs (handler, signal), oldest first. -/
structure Hsm (σ : Type) where
  me : QHsm
  ext : σ
  calls : List (Nat × Nat)

/-- A call `(*s)(me, e)` of a state handler through a pointer; `QHsm_top`
ignores every event; a null pointer must not be called. -/
def QEP_call {σ : Type} (H : Handlers σ) (s : Nat) (c : Hsm σ) (e : Nat) :
    Except Fault (Nat × Hsm σ) :=
  if s = 0 then .error .undefined
  else if s = QHsm_top then .ok (Q_RET_IGNORED, { c with calls := c.calls ++ [(s, e)] })
  else
    .ok ((H s c.me c.ext e).1,
      { me := (H s c.me c.ext e).2.1, ext := (H s c.me c.ext e).2.2,
        calls := c.calls ++ [(s, e)] })

/-- The macro `QEP_TRIG_` with its result discarded, which is also what the
macros `QEP_ENTER_` and `QEP_EXIT_` amount to without software tracing. -/
def QEP_trig {σ : Type} (H : Handlers σ) (s : Nat) (c : Hsm σ) (sig : Nat) :
    Except Fault (Hsm σ) :=
  match QEP_call H s c sig with
  | .error f => .error f
  | .ok (_, c) => .ok c

/-- Store into `path[ip]`; the array has `QHSM_MAX_NEST_DEPTH_` elements. -/
def pathSet (path : List Nat) (ip : Nat) (v : Nat) : Except Fault (List Nat) :=
  if ip < path.length then .ok (path.set ip v) else .error .undefined

/-- Read `path[ip]`. -/
def pathGet (path : List Nat) (ip : Nat) : Except Fault Nat :=
  if ip < path.length then .ok (path.getD ip 0) else .error .undefined

/-- `QHsm_ctor` (qep_hsm.c:126). -/
def QHsm_ctor (_me : QHsm) (initial : Nat) : QHsm :=
  { vptr := QHsm_vtable, state := QHsm_top, temp := initial }

/-- The loop `do { QEP_ENTER_(path[ip]); --ip; } while (ip >= 0)` started
with `ip = n`. -/
def enterPath {σ : Type} (H : Handlers σ) (path : List Nat) : Nat → Hsm σ → Except Fault (Hsm σ)
  | 0, c =>
    match pathGet path 0 with
    | .error f => .error f
    | .ok s => QEP_trig H s c Q_ENTRY_SIG
  | n + 1, c =>
    match pathGet path (n + 1) with
    | .error f => .error f
    | .ok s =>
      match QEP_trig H s c Q_ENTRY_SIG with
      | .error f => .error f
      | .ok c => enterPath H path n c

/-- The loop `while (me->temp.fun != t)` of `QHsm_init_` (qep_hsm.c:185),
which checks assertion 220 before it stores into `path`. -/
def QHsm_init_walk {σ : Type} (H : Handlers σ) :
    Nat → Hsm σ → Nat → List Nat → Nat → Except Fault (Hsm σ × List Nat × Nat)
  | 0, c, t, path, ip =>
    if c.me.temp ≠ t then .error .timeout else .ok (c, path, ip)
  | fuel + 1, c, t, path, ip =>
    if c.me.temp ≠ t then
      if ¬ (ip + 1 < QHSM_MAX_NEST_DEPTH_) then .error (.assertion .qep_hsm 220)
      else
        match pathSet path (ip + 1) c.me.temp with
        | .error f => .error f
        | .ok path =>
          match QEP_trig H c.me.temp c QEP_EMPTY_SIG_ with
          | .error f => .error f
          | .ok c => QHsm_init_walk H fuel c t path (ip + 1)
    else .ok (c, path, ip)

/-- The loop `do ... while (r == Q_RET_TRAN)` of `QHsm_init_` (qep_hsm.c:179);
returns the state machine and the final value of `t`. -/
def QHsm_init_loop {σ : Type} (H : Handlers σ) :
    Nat → Hsm σ → Nat → Except Fault (Hsm σ × Nat)
  | 0, _, _ => .error .timeout
  | fuel + 1, c, t =>
    match pathSet (List.replicate QHSM_MAX_NEST_DEPTH_ 0) 0 c.me.temp with
    | .error f => .error f
    | .ok path =>
      match QEP_trig H c.me.temp c QEP_EMPTY_SIG_ with
      | .error f => .error f
      | .ok c =>
        match QHsm_init_walk H fuel c t path 0 with
        | .error f => .error f
        | .ok (c, path, ip) =>
          match pathGet path 0 with
          | .error f => .error f
          | .ok p0 =>
            match enterPath H path ip { c with me := { c.me with temp := p0 } } with
            | .error f => .error f
            | .ok c =>
              match QEP_call H p0 c Q_INIT_SIG with
              | .error f => .error f
              | .ok (r, c) =>
                if r = Q_RET_TRAN then QHsm_init_loop H fuel c p0 else .ok (c, p0)

/-- `QHsm_init_` (qep_hsm.c:156); `e` is the initialisation parameter. -/
def QHsm_init_ {σ : Type} (fuel : Nat) (H : Handlers σ) (c : Hsm σ) (e : Nat) :
    Except Fault (Hsm σ) :=
  let t := c.me.state
  if ¬ (c.me.vptr ≠ 0 ∧ c.me.temp ≠ 0 ∧ t = QHsm_top) then .error (.assertion .qep_hsm 200)
  else
    match QEP_call H c.me.temp c e with
    | .error f => .error f
    | .ok (r, c) =>
      if ¬ (r = Q_RET_TRAN) then .error (.assertion .qep_hsm 210)
      else
        match QHsm_init_loop H fuel c t with
        | .error f => .error f
        | .ok (c, t) => .ok { c with me := { c.me with state := t, temp := t } }

/-- The first loop of `QHsm_dispatch_` (qep_hsm.c:280): offer the event to
the current state and its superstates; returns the last handler called `s`,
its result `r` and the state machine. -/
def QHsm_dispatch_bubble {σ : Type} (H : Handlers σ) :
    Nat → Hsm σ → Nat → Except Fault (Nat × Nat × Hsm σ)
  | 0, _, _ => .error .timeout
  | fuel + 1, c, e =>
    let s := c.me.temp
    match QEP_call H s c e with
    | .error f => .error f
    | .ok (r, c) =>
      match (if r = Q_RET_UNHANDLED then QEP_call H s c QEP_EMPTY_SIG_ else .ok (r, c)) with
      | .error f => .error f
      | .ok (r, c) =>
        if r = Q_RET_SUPER then QHsm_dispatch_bubble H fuel c e else .ok (s, r, c)

/-- The loop `for (; t != s; t = me->temp.fun)` of `QHsm_dispatch_`
(qep_hsm.c:306): exit the states from the current state up to the source. -/
def QHsm_dispatch_exit {σ : Type} (H : Handlers σ) :
    Nat → Hsm σ → Nat → Nat → Except Fault (Hsm σ)
  | 0, c, t, s => if t ≠ s then .error .timeout else .ok c
  | fuel + 1, c, t, s =>
    if t ≠ s then
      match QEP_call H t c Q_EXIT_SIG with
      | .error f => .error f
      | .ok (r, c) =>
        match (if r = Q_RET_HANDLED then QEP_trig H t c QEP_EMPTY_SIG_ else .ok c) with
        | .error f => .error f
        | .ok c => QHsm_dispatch_exit H fuel c c.me.temp s
    else .ok c

/-- The loop `while (r == Q_RET_SUPER)` of step (e) of `QHsm_tran_`
(qep_hsm.c:469); returns the state machine, `path`, `ip` and `iq`. -/
def QHsm_tran_e {σ : Type} (H : Handlers σ) :
    Nat → Nat → Hsm σ → List Nat → Nat → Nat → Except Fault (Hsm σ × List Nat × Nat × Nat)
  | 0, r, c, path, ip, _ =>
    if r = Q_RET_SUPER then .error .timeout else .ok (c, path, ip, 0)
  | fuel + 1, r, c, path, ip, s =>
    if r = Q_RET_SUPER then
      match pathSet path (ip + 1) c.me.temp with
      | .error f => .error f
      | .ok path =>
        if c.me.temp = s then
          if ¬ (ip + 1 < QHSM_MAX_NEST_DEPTH_) then .error (.assertion .qep_hsm 510)
          else .ok (c, path, ip, 1)
        else
          match QEP_call H c.me.temp c QEP_EMPTY_SIG_ with
          | .error f => .error f
          | .ok (r, c) => QHsm_tran_e H fuel r c path (ip + 1) s
    else .ok (c, path, ip, 0)

/-- The search loop `do ... while (iq >= 0)` of steps (f) and (g) of
`QHsm_tran_` (qep_hsm.c:498, 524) started with the given `iq`: the new value
of `ip` when `t` is found in `path`. -/
def QHsm_tran_search (path : List Nat) (t : Nat) : Nat → Except Fault (Option Int)
  | 0 =>
    match pathGet path 0 with
    | .error f => .error f
    | .ok p => if t = p then .ok (some (-1)) else .ok none
  | iq + 1 =>
    match pathGet path (iq + 1) with
    | .error f => .error f
    | .ok p => if t = p then .ok (some (iq : Int)) else QHsm_tran_search path t iq

/-- The loop `do ... while (r != Q_RET_HANDLED)` of step (g) of `QHsm_tran_`
(qep_hsm.c:512). -/
def QHsm_tran_g {σ : Type} (H : Handlers σ) :
    Nat → Hsm σ → List Nat → Nat → Nat → Except Fault (Int × Hsm σ)
  | 0, _, _, _, _ => .error .timeout
  | fuel + 1, c, path, t, ip =>
    match QEP_call H t c Q_EXIT_SIG with
    | .error f => .error f
    | .ok (r, c) =>
      match (if r = Q_RET_HANDLED then QEP_trig H t c QEP_EMPTY_SIG_ else .ok c) with
      | .error f => .error f
      | .ok c =>
        match QHsm_tran_search path c.me.temp ip with
        | .error f => .error f
        | .ok (some ip1) => .ok (ip1, c)
        | .ok none => QHsm_tran_g H fuel c path c.me.temp ip

/-- `QHsm_tran_` (qep_hsm.c:426); returns `ip`, the array `path` and the
state machine. -/
def QHsm_tran_ {σ : Type} (fuel : Nat) (H : Handlers σ) (c : Hsm σ) (path : List Nat) :
    Except Fault (Int × List Nat × Hsm σ) :=
  match pathGet path 0, pathGet path 2 with
  | .ok t, .ok s =>
    if s = t then
      match QEP_trig H s c Q_EXIT_SIG with
      | .error f => .error f
      | .ok c => .ok (0, path, c)
    else
      match QEP_trig H t c QEP_EMPTY_SIG_ with
      | .error f => .error f
      | .ok c =>
        let t1 := c.me.temp
        if s = t1 then .ok (0, path, c)
        else
          match QEP_trig H s c QEP_EMPTY_SIG_ with
          | .error f => .error f
          | .ok c =>
            if c.me.temp = t1 then
              match QEP_trig H s c Q_EXIT_SIG with
              | .error f => .error f
              | .ok c => .ok (0, path, c)
            else if c.me.temp = t then
              match QEP_trig H s c Q_EXIT_SIG with
              | .error f => .error f
              | .ok c => .ok (-1, path, c)
            else
              match pathSet path 1 t1 with
              | .error f => .error f
              | .ok path =>
                let t2 := c.me.temp
                match QEP_call H t1 c QEP_EMPTY_SIG_ with
                | .error f => .error f
                | .ok (r, c) =>
                  match QHsm_tran_e H fuel r c path 1 s with
                  | .error f => .error f
                  | .ok (c, path, ip, iq) =>
                    if iq = 0 then
                      if ¬ (ip < QHSM_MAX_NEST_DEPTH_) then .error (.assertion .qep_hsm 520)
                      else
                        match QEP_trig H s c Q_EXIT_SIG with
                        | .error f => .error f
                        | .ok c =>
                          match QHsm_tran_search path t2 ip with
                          | .error f => .error f
                          | .ok (some ip1) => .ok (ip1, path, c)
                          | .ok none =>
                            match QHsm_tran_g H fuel c path t2 ip with
                            | .error f => .error f
                            | .ok (ip1, c) => .ok (ip1, path, c)
                    else .ok (ip, path, c)
  | _, _ => .error .undefined

/-- The loop `for (; ip >= 0; --ip) QEP_ENTER_(path[ip])` of `QHsm_dispatch_`
(qep_hsm.c:335). -/
def QHsm_dispatch_enter {σ : Type} (H : Handlers σ) (path : List Nat) (ip : Int) (c : Hsm σ) :
    Except Fault (Hsm σ) :=
  if ip < 0 then .ok c else enterPath H path ip.toNat c

/-- The loop `while (me->temp.fun != t)` inside the drill-down loop of
`QHsm_dispatch_` (qep_hsm.c:356), which stores into `path` before
assertion 410 is checked. -/
def QHsm_dispatch_walk {σ : Type} (H : Handlers σ) :
    Nat → Hsm σ → Nat → List Nat → Nat → Except Fault (Hsm σ × List Nat × Nat)
  | 0, c, t, path, ip =>
    if c.me.temp ≠ t then .error .timeout else .ok (c, path, ip)
  | fuel + 1, c, t, path, ip =>
    if c.me.temp ≠ t then
      match pathSet path (ip + 1) c.me.temp with
      | .error f => .error f
      | .ok path =>
        match QEP_trig H c.me.temp c QEP_EMPTY_SIG_ with
        | .error f => .error f
        | .ok c => QHsm_dispatch_walk H fuel c t path (ip + 1)
    else .ok (c, path, ip)

/-- The loop `while (QEP_TRIG_(t, Q_INIT_SIG) == Q_RET_TRAN)` of
`QHsm_dispatch_` (qep_hsm.c:343): drill into the target hierarchy; returns
the state machine and the final `t`. -/
def QHsm_dispatch_drill {σ : Type} (H : Handlers σ) :
    Nat → Hsm σ → List Nat → Nat → Except Fault (Hsm σ × Nat)
  | 0, _, _, _ => .error .timeout
  | fuel + 1, c, path, t =>
    match QEP_call H t c Q_INIT_SIG with
    | .error f => .error f
    | .ok (r, c) =>
      if r = Q_RET_TRAN then
        match pathSet path 0 c.me.temp with
        | .error f => .error f
        | .ok path =>
          match QEP_trig H c.me.temp c QEP_EMPTY_SIG_ with
          | .error f => .error f
          | .ok c =>
            match QHsm_dispatch_walk H fuel c t path 0 with
            | .error f => .error f
            | .ok (c, path, ip) =>
              match pathGet path 0 with
              | .error f => .error f
              | .ok p0 =>
                if ¬ (ip < QHSM_MAX_NEST_DEPTH_) then .error (.assertion .qep_hsm 410)
                else
                  match enterPath H path ip { c with me := { c.me with temp := p0 } } with
                  | .error f => .error f
                  | .ok c => QHsm_dispatch_drill H fuel c path p0
      else .ok (c, t)

/-- `QHsm_dispatch_` (qep_hsm.c:261). -/
def QHsm_dispatch_ {σ : Type} (fuel : Nat) (H : Handlers σ) (c : Hsm σ) (e : Nat) :
    Except Fault (Hsm σ) :=
  let t := c.me.state
  if ¬ (t ≠ 0 ∧ t = c.me.temp) then .error (.assertion .qep_hsm 400)
  else
    match QHsm_dispatch_bubble H fuel c e with
    | .error f => .error f
    | .ok (s, r, c) =>
      if r ≥ Q_RET_TRAN then
        let path := [c.me.temp, t, s, 0, 0, 0]
        match QHsm_dispatch_exit H fuel c t s with
        | .error f => .error f
        | .ok c =>
          match QHsm_tran_ fuel H c path with
          | .error f => .error f
          | .ok (ip, path, c) =>
            match QHsm_dispatch_enter H path ip c with
            | .error f => .error f
            | .ok c =>
              match pathGet path 0 with
              | .error f => .error f
              | .ok t =>
                match QHsm_dispatch_drill H fuel { c with me := { c.me with temp := t } }
                    path t with
                | .error f => .error f
                | .ok (c, t) => .ok { c with me := { c.me with state := t, temp := t } }
      else .ok { c with me := { c.me with state := t, temp := t } }

/-- The state handler at `s` names `p` as its superstate: it answers the
reserved empty signal with `Q_SUPER(p)` and changes nothing else. -/
def IsSuper {σ : Type} (H : Handlers σ) (s p : Nat) : Prop :=
  ∀ me x, H s me x QEP_EMPTY_SIG_ = (Q_RET_SUPER, { me with temp := p }, x)

/-- The state handler at `s` has no initial transition. -/
def NoInit {σ : Type} (H : Handlers σ) (s : Nat) : Prop :=
  ∀ me x, (H s me x Q_INIT_SIG).1 ≠ Q_RET_TRAN

/-- The state handler at `s` does not handle the event `e`: it returns
`Q_SUPER(p)` or `Q_UNHANDLED()`. -/
def Delegates {σ : Type} (H : Handlers σ) (s p e : Nat) : Prop :=
  ∀ me x, ((H s me x e).1 = Q_RET_SUPER ∧ (H s me x e).2.1.temp = p) ∨
    (H s me x e).1 = Q_RET_UNHANDLED

/-- The state handler at `s` either handles the exit signal or answers it
with `Q_SUPER(p)`. -/
def ExitsTo {σ : Type} (H : Handlers σ) (s p : Nat) : Prop :=
  ∀ me x, (H s me x Q_EXIT_SIG).1 = Q_RET_HANDLED ∨ (H s me x Q_EXIT_SIG).2.1.temp = p

/-- The entry and exit actions among a list of state handler calls. -/
def actions (calls : List (Nat × Nat)) : List (Nat × Nat) :=
  calls.filter (fun p => p.2 = Q_ENTRY_SIG ∨ p.2 = Q_EXIT_SIG)

/-- An example state machine: states 10 (A), 11 (B) and 12 (C), B and C
being substates of A and A a substate of the top state. In B signal 5 is a
transition to C, signal 6 a transition to B itself; in A signal 7 is a
transition to A itself and signal 8 is handled. The handler at 20 is the
initial pseudostate, with a transition to A, and A has an initial transition
to B. -/
def exampleHandlers : Handlers Unit := fun s me x e =>
  if s = 10 then
    if e = 1 ∨ e = 2 ∨ e = 8 then (Q_RET_HANDLED, me, x)
    else if e = 3 then (Q_RET_TRAN, { me with temp := 11 }, x)
    else if e = 7 then (Q_RET_TRAN, { me with temp := 10 }, x)
    else (Q_RET_SUPER, { me with temp := QHsm_top }, x)
  else if s = 11 then
    if e = 5 then (Q_RET_TRAN, { me with temp := 12 }, x)
    else if e = 6 then (Q_RET_TRAN, { me with temp := 11 }, x)
    else if e = 1 ∨ e = 2 then (Q_RET_HANDLED, me, x)
    else (Q_RET_SUPER, { me with temp := 10 }, x)
  else if s = 12 then
    if e = 1 ∨ e = 2 then (Q_RET_HANDLED, me, x)
    else (Q_RET_SUPER, { me with temp := 10 }, x)
  else if s = 20 then (Q_RET_TRAN, { me with temp := 10 }, x)
  else (Q_RET_IGNORED, me, x)

/-- The states of `chain`, innermost first, each a substate of the next and
the last one a substate of `h`, all leave the event `e` to their superstate. -/
def Bubbles {σ : Type} (H : Handlers σ) (e : Nat) : List Nat → Nat → Prop
  | [], _ => True
  | s :: rest, h =>
    s ≠ 0 ∧ s ≠ QHsm_top ∧ Delegates H s (rest.headD h) e ∧ IsSuper H s (rest.headD h) ∧
      Bubbles H e rest h

/-- The states of `chain`, innermost first, each a substate of the next and
the last one a substate of `s`, none of them `s` itself, with exit actions
that are handled or left to the superstate. -/
def ExitChain {σ : Type} (H : Handlers σ) : List Nat → Nat → Prop
  | [], _ => True
  | t :: rest, s =>
    t ≠ 0 ∧ t ≠ QHsm_top ∧ t ≠ s ∧ ExitsTo H t (rest.headD s) ∧ IsSuper H t (rest.headD s) ∧
      ExitChain H rest s

/-- The states of `up`, innermost first, each a substate of the next and the
last one a substate of `src`, none of them `src` itself. -/
def Ancestry {σ : Type} (H : Handlers σ) : List Nat → Nat → Prop
  | [], _ => True
  | u :: rest, src =>
    u ≠ 0 ∧ u ≠ QHsm_top ∧ u ≠ src ∧ IsSuper H u (rest.headD src) ∧ Ancestry H rest src

/-- Nested initial transitions: `up` lists, innermost first, the states from
the target of an initial transition up to (excluding) its source `src`, at
most `QHSM_MAX_NEST_DEPTH_` of them; `more` lists the same for the initial
transitions that follow, each taken from the target of the one before; the
last target has no initial transition. -/
def InitSegs {σ : Type} (H : Handlers σ) : List Nat → List (List Nat) → Nat → Prop
  | up, [], src =>
    up ≠ [] ∧ up.length ≤ QHSM_MAX_NEST_DEPTH_ ∧ Ancestry H up src ∧ NoInit H (up.headD 0)
  | up, up1 :: more, src =>
    up ≠ [] ∧ up.length ≤ QHSM_MAX_NEST_DEPTH_ ∧ Ancestry H up src ∧
      (∀ me x, (H (up.headD 0) me x Q_INIT_SIG).1 = Q_RET_TRAN ∧
        (H (up.headD 0) me x Q_INIT_SIG).2.1.temp = up1.headD 0) ∧
      InitSegs H up1 more (up.headD 0)

/-- The entry actions of nested initial transitions, in the order from the
outermost to the innermost state. -/
def entriesOf (segs : List (List Nat)) : List (Nat × Nat) :=
  (segs.map List.reverse).flatten.map (fun s => (s, Q_ENTRY_SIG))

/-- The target of the last of a list of nested initial transitions. -/
def lastTarget (up : List Nat) (more : List (List Nat)) : Nat :=
  ((up :: more).getLastD []).headD 0

/-- The initial transitions taken from the state `t`: none when `more` is
empty; otherwise the initial transition of `t` targets the first state of
the first segment and the remaining segments continue from there as in
`InitSegs`. -/
def DrillSegs {σ : Type} (H : Handlers σ) (t : Nat) : List (List Nat) → Prop
  | [] => NoInit H t
  | up1 :: more =>
    (∀ me x, (H t me x Q_INIT_SIG).1 = Q_RET_TRAN ∧
      (H t me x Q_INIT_SIG).2.1.temp = up1.headD 0) ∧
    InitSegs H up1 more t

/-- The time events linked from the pointer `p` through their `next` members
are exactly those of the list, which ends with a null pointer. -/
def Chain (tevt : Nat → QTimeEvt) : Nat → List Nat → Prop
  | p, [] => p = 0
  | p, t :: L => p = t ∧ t ≠ 0 ∧ Chain tevt (tevt t).next L

/-- The time events that the loop of `QF_tickX_` has still to visit when it
stands at `prev`: the rest of the main list followed by the list of newly
armed time events, which hangs from the `act` member of the head `hd`. -/
def Pending (tevt : Nat → QTimeEvt) (hd prev : Nat) (X : List Nat) : Prop :=
  ∃ R A, X = R ++ A ∧ Chain tevt (tevt prev).next R ∧ Chain tevt (tevt hd).act A

/-- The countdown of a time event after one clock tick. -/
def newCtr (v : QTimeEvt) : Nat :=
  if v.ctr = 0 then 0 else if v.ctr = 1 then v.interval else v.ctr - 1

/-- The time event stays in the list over one clock tick. -/
def keeps (v : QTimeEvt) : Bool :=
  decide (v.ctr ≠ 0 ∧ (v.ctr ≠ 1 ∨ v.interval ≠ 0))

/-- The posts `(owner, event)` due at one clock tick for the listed time
events: those whose countdown is 1. -/
def postsOf (tevt : Nat → QTimeEvt) (X : List Nat) : List (Nat × Nat) :=
  (X.filter (fun t => decide ((tevt t).ctr = 1))).map (fun t => ((tevt t).act, t))

/-- Every listed active object has a consistent event queue with at least
`B` free slots. -/
def Room (st : QFState) (owners : List Nat) (B : Nat) : Prop :=
  ∀ a, a ∈ owners → (st.aobj a).eQueue.WF ∧ B ≤ (st.aobj a).eQueue.nFree

/-- The listed time events are static events (`poolId_` 0) owned by listed
active objects, with countdowns that fit `QTimeEvtCtr`. -/
def TimeEvts (st : QFState) (owners X : List Nat) : Prop :=
  ∀ t, t ∈ X → (st.emem t).poolId_ = 0 ∧ (st.tevt t).act ∈ owners ∧
    (st.tevt t).ctr < 65536 ∧ (st.tevt t).interval < 65536

/-- The time events of one tick rate: `hd` is the head `QF_timeEvtHead_[rate]`
and `X` lists the time events linked from it, the main list followed by the
newly armed ones, without repetition. -/
def TickInv (st : QFState) (rate hd : Nat) (owners X : List Nat) : Prop :=
  st.QF_timeEvtHead_[rate]? = some hd ∧ hd ≠ 0 ∧ hd ∉ X ∧ X.Nodup ∧ 0 ∉ owners ∧
    Pending st.tevt hd hd X ∧ TimeEvts st owners X

/-- What runs between two clock ticks (`env j` before tick `j + 1`) leaves
the time events alone and leaves at least `B` free slots in the queues of the
listed active objects. -/
def EnvOk (env : Nat → QFState → QFState) (owners : List Nat) (B : Nat) : Prop :=
  ∀ j st, Room st owners 0 →
    (env j st).tevt = st.tevt ∧ (env j st).emem = st.emem ∧
    (env j st).QF_timeEvtHead_ = st.QF_timeEvtHead_ ∧ Room (env j st) owners B

/-- `k` calls of `QF_tickX_` for the same tick rate, `env j` running before
call `j + 1`; the result lists the posts of every call. -/
def tickN (fuel : Nat) (env : Nat → QFState → QFState) (rate : Nat) :
    Nat → QFState → Except Fault (List (List (Nat × Nat)) × QFState)
  | 0, st => .ok ([], st)
  | k + 1, st =>
    match tickN fuel env rate k st with
    | .error f => .error f
    | .ok (log, s1) =>
      match QF_tickX_ fuel (env k s1) rate with
      | .error f => .error f
      | .ok (posts, s2) => .ok (log ++ [posts], s2)

/-- One clock tick seen from a single time event with interval `i`: `v.1`
tells whether it is linked, `v.2` is its countdown. -/
def teStep (i : Nat) (v : Bool × Nat) : Bool × Nat :=
  if v.1 then (keeps ⟨0, 0, v.2, i⟩, newCtr ⟨0, 0, v.2, i⟩) else v

/-- The view of a single time event after `k` clock ticks. -/
def teIter (i : Nat) : Nat → Bool × Nat → Bool × Nat
  | 0, v => v
  | k + 1, v => teStep i (teIter i k v)

/-- The number of clock ticks among the first `k` at which the time event
viewed by `teIter` is posted: those it enters linked with countdown 1. -/
def teFired (i : Nat) : Nat → Bool × Nat → Nat
  | 0, _ => 0
  | k + 1, v =>
    teFired i k v + (if (teIter i k v).1 = true ∧ (teIter i k v).2 = 1 then 1 else 0)

/-- The example configuration with a time event at address 800, constructed
by `QTimeEvt_ctorX` for the active object at address 500, signal 9 and tick
rate 0. -/
def exampleState5 : QFState :=
  { exampleState3 with
    tevt := Function.update exampleState3.tevt 800 ⟨0, 500, 0, 0⟩,
    emem := exampleState3.emem.write 800 ⟨9, 0, 0⟩ }

/-- The example configuration after the time event at 800 has been armed for
5 ticks with interval 5: it is the only newly armed time event of rate 0. -/
def exampleState6 : QFState :=
  { exampleState5 with
    tevt := Function.update (Function.update exampleState5.tevt 800 ⟨0, 500, 5, 5⟩) 16
      ⟨0, 800, 0, 0⟩,
    emem := exampleState5.emem.write 800 ⟨9, 0, 128⟩ }

/-- An example of what runs between clock ticks: the active objects consume
all their events, which leaves their queues as in `exampleState3`. -/
def exampleEnv : Nat → QFState → QFState :=
  fun _ st => { st with aobj := exampleState3.aobj, QV_readySet_ := 0 }

/-- `QTimeEvt_rearm` (qf_time.c:386); `nTicks` is a value of `QTimeEvtCtr`. -/
def QTimeEvt_rearm (st : QFState) (me nTicks : Nat) : Except Fault (Bool × QFState) :=
  let tickRate := (st.emem me).refCtr_ &&& TE_TICK_RATE
  if ¬ ((st.tevt me).act ≠ 0 ∧ tickRate < QF_MAX_TICK_RATE ∧ nTicks ≠ 0 ∧
      (st.emem me).sig ≥ Q_USER_SIG) then .error (.assertion .qf_time 600)
  else if (st.tevt me).ctr = 0 then
    if (st.emem me).refCtr_ &&& TE_IS_LINKED = 0 then
      let st := st.setRefCtr me (u8 ((st.emem me).refCtr_ ||| TE_IS_LINKED))
      match st.QF_timeEvtHead_[tickRate]? with
      | none => .error .undefined
      | some hd =>
        let st := st.setTE me { st.tevt me with next := (st.tevt hd).act }
        let st := st.setTE hd { st.tevt hd with act := me }
        .ok (false, st.setTE me { st.tevt me with ctr := nTicks })
    else .ok (false, st.setTE me { st.tevt me with ctr := nTicks })
  else .ok (true, st.setTE me { st.tevt me with ctr := nTicks })

/-- `QTimeEvt_wasDisarmed` (qf_time.c:434). -/
def QTimeEvt_wasDisarmed (st : QFState) (me : Nat) : Bool × QFState :=
  let wasDisarmed := (st.emem me).refCtr_ &&& TE_WAS_DISARMED
  (wasDisarmed != 0, st.setRefCtr me (u8 ((st.emem me).refCtr_ ||| TE_WAS_DISARMED)))

/-! ### Subscriptions (`qf_ps.c`) -/

/-- The array element `QF_PTR_AT_(QF_subscrList_, sig)` updated by `f`; the
array has the length given to `QF_psInit`. -/
def subscrUpdate (st : QFState) (sig : Nat) (f : Nat → Nat) : Except Fault QFState :=
  match st.QF_subscrList_[sig]? with
  | none => .error .undefined
  | some bits => .ok { st with QF_subscrList_ := st.QF_subscrList_.set sig (f bits) }

/-- `QActive_subscribe` (qf_ps.c:172); `sig` is an `enum_t`, a signed
integer. The conjunction of precondition 300 is evaluated from the left, so
that `QF_active_[p]` is only read for `p <= QF_MAX_ACTIVE`. -/
def QActive_subscribe (st : QFState) (me : Nat) (sig : Int) : Except Fault QFState :=
  let p := (st.aobj me).prio
  if ¬ ((Q_USER_SIG : Int) ≤ sig ∧ sig < (st.QF_maxPubSignal_ : Int) ∧ 0 < p ∧
      p ≤ QF_MAX_ACTIVE) then .error (.assertion .qf_ps 300)
  else
    match st.QF_active_[p]? with
    | none => .error .undefined
    | some a =>
      if a ≠ me then .error (.assertion .qf_ps 300)
      else subscrUpdate st sig.toNat (fun bits => QPSet_insert bits p)

/-- `QActive_unsubscribe` (qf_ps.c:208). -/
def QActive_unsubscribe (st : QFState) (me : Nat) (sig : Int) : Except Fault QFState :=
  let p := (st.aobj me).prio
  if ¬ ((Q_USER_SIG : Int) ≤ sig ∧ sig < (st.QF_maxPubSignal_ : Int) ∧ 0 < p ∧
      p ≤ QF_MAX_ACTIVE) then .error (.assertion .qf_ps 400)
  else
    match st.QF_active_[p]? with
    | none => .error .undefined
    | some a =>
      if a ≠ me then .error (.assertion .qf_ps 400)
      else subscrUpdate st sig.toNat (fun bits => QPSet_remove bits p)

/-- The loop `for (sig = Q_USER_SIG; sig < QF_maxPubSignal_; ++sig)` of
`QActive_unsubscribeAll` (qf_ps.c:258) with `n` iterations left. -/
def QActive_unsubscribeAll_loop (p : Nat) : Nat → Nat → QFState → Except Fault QFState
  | 0, _, st => .ok st
  | n + 1, sig, st =>
    match st.QF_subscrList_[sig]? with
    | none => .error .undefined
    | some bits =>
      if QPSet_hasElement bits p then
        QActive_unsubscribeAll_loop p n (sig + 1)
          { st with QF_subscrList_ := st.QF_subscrList_.set sig (QPSet_remove bits p) }
      else QActive_unsubscribeAll_loop p n (sig + 1) st

/-- `QActive_unsubscribeAll` (qf_ps.c:249). -/
def QActive_unsubscribeAll (st : QFState) (me : Nat) : Except Fault QFState :=
  let p := (st.aobj me).prio
  if ¬ (0 < p ∧ p ≤ QF_MAX_ACTIVE) then .error (.assertion .qf_ps 500)
  else
    match st.QF_active_[p]? with
    | none => .error .undefined
    | some a =>
      if a ≠ me then .error (.assertion .qf_ps 500)
      else QActive_unsubscribeAll_loop p (st.QF_maxPubSignal_ - Q_USER_SIG) Q_USER_SIG st

/-- The loop of `QHsm_isIn` (qep_hsm.c:575). -/
def QHsm_isIn_loop {σ : Type} (H : Handlers σ) : Nat → Hsm σ → Nat → Except Fault (Bool × Hsm σ)
  | 0, _, _ => .error .timeout
  | fuel + 1, c, state =>
    if c.me.temp = state then .ok (true, c)
    else
      match QEP_call H c.me.temp c QEP_EMPTY_SIG_ with
      | .error f => .error f
      | .ok (r, c) =>
        if r ≠ Q_RET_IGNORED then QHsm_isIn_loop H fuel c state else .ok (false, c)

/-- `QHsm_isIn` (qep_hsm.c:567). -/
def QHsm_isIn {σ : Type} (fuel : Nat) (H : Handlers σ) (c : Hsm σ) (state : Nat) :
    Except Fault (Bool × Hsm σ) :=
  if ¬ (c.me.temp = c.me.state) then .error (.assertion .qep_hsm 600)
  else
    match QHsm_isIn_loop H fuel c state with
    | .error f => .error f
    | .ok (inState, c) => .ok (inState, { c with me := { c.me with temp := c.me.state } })

/-- The loop of `QHsm_childState_` (qep_hsm.c:600); returns `isFound`,
`child` and the state machine. -/
def QHsm_childState_loop {σ : Type} (H : Handlers σ) :
    Nat → Hsm σ → Nat → Nat → Except Fault (Bool × Nat × Hsm σ)
  | 0, _, _, _ => .error .timeout
  | fuel + 1, c, parent, child =>
    if c.me.temp = parent then .ok (true, child, c)
    else
      match QEP_call H c.me.temp c QEP_EMPTY_SIG_ with
      | .error f => .error f
      | .ok (r, c1) =>
        if r ≠ Q_RET_IGNORED then QHsm_childState_loop H fuel c1 parent c.me.temp
        else .ok (false, c.me.temp, c1)

/-- `QHsm_childState_` (qep_hsm.c:590). -/
def QHsm_childState_ {σ : Type} (fuel : Nat) (H : Handlers σ) (c : Hsm σ) (parent : Nat) :
    Except Fault (Nat × Hsm σ) :=
  match QHsm_childState_loop H fuel { c with me := { c.me with temp := c.me.state } } parent
      c.me.state with
  | .error f => .error f
  | .ok (isFound, child, c) =>
    if ¬ (isFound ≠ false) then .error (.assertion .qep_hsm 810)
    else .ok (child, { c with me := { c.me with temp := c.me.state } })

/-! ### Deferred events (`qf_defer.c`) -/

/-- A second example state machine, with two branches below the top state:
10 (A) with substate 11 (B), which has substate 13 (D); and 14 (E) with
substate 15 (F), which has substate 16 (G). In B signal 9 is a transition to
F, and F has an initial transition to G. A has an entry action but no exit
action; the other states have both. -/
def exampleHandlers2 : Handlers Unit := fun s me x e =>
  if s = 10 then
    if e = 1 then (Q_RET_HANDLED, me, x)
    else (Q_RET_SUPER, { me with temp := QHsm_top }, x)
  else if s = 11 then
    if e = 9 then (Q_RET_TRAN, { me with temp := 15 }, x)
    else if e = 1 ∨ e = 2 then (Q_RET_HANDLED, me, x)
    else (Q_RET_SUPER, { me with temp := 10 }, x)
  else if s = 13 then
    if e = 1 ∨ e = 2 then (Q_RET_HANDLED, me, x)
    else (Q_RET_SUPER, { me with temp := 11 }, x)
  else if s = 14 then
    if e = 1 ∨ e = 2 then (Q_RET_HANDLED, me, x)
    else (Q_RET_SUPER, { me with temp := QHsm_top }, x)
  else if s = 15 then
    if e = 3 then (Q_RET_TRAN, { me with temp := 16 }, x)
    else if e = 1 ∨ e = 2 then (Q_RET_HANDLED, me, x)
    else (Q_RET_SUPER, { me with temp := 14 }, x)
  else if s = 16 then
    if e = 1 ∨ e = 2 then (Q_RET_HANDLED, me, x)
    else (Q_RET_SUPER, { me with temp := 15 }, x)
  else (Q_RET_IGNORED, me, x)

/-- The table `log2LUT` of the portable `QF_LOG2` (qf_act.c:144). -/
def log2LUT : List Nat := [0, 1, 2, 2, 3, 3, 3, 3, 4, 4, 4, 4, 4, 4, 4, 4]

/-- The portable function `QF_LOG2` of qf_act.c:142, which is compiled when
the port does not define a macro of this name. The argument is converted to
`QPSetBits`; with `QF_MAX_ACTIVE = 16` the step for the upper 16 bits is not
compiled and the step for the upper 8 bits is. A read outside the table is
undefined behaviour. -/
def QF_LOG2_portable (x : Nat) : Except Fault Nat :=
  let x := u16 x
  let n := 0
  let t := x >>> 8
  let n := if t ≠ 0 then n + 8 else n
  let x := if t ≠ 0 then t else x
  let t := x >>> 4
  let n := if t ≠ 0 then n + 4 else n
  let x := if t ≠ 0 then t else x
  match log2LUT[x]? with
  | some v => .ok (n + v)
  | none => .error .undefined

/-- The framework state in which the event queue of the active object at
address `me` has been replaced by `q`. -/
def QFState.setQueue (st : QFState) (me : Nat) (q : QEQueue) : QFState :=
  { st with aobj := Function.update st.aobj me { st.aobj me with eQueue := q } }

/-- The effect of `QACTIVE_EQUEUE_SIGNAL_` of the QV kernel (`qv.h`) when an
event arrives at the queue of the active object at `me`: its priority is
inserted into `QV_readySet_` if the queue was empty. -/
def QFState.signal (st : QFState) (me : Nat) (wasEmpty : Bool) : QFState :=
  if wasEmpty then
    { st with QV_readySet_ := QPSet_insert st.QV_readySet_ (st.aobj me).prio }
  else st

/-- The operations of the user of an event queue. -/
inductive QueueOp where
  | post (e margin : Nat)
  | postLIFO (e : Nat)
  | get
deriving DecidableEq, Repr

/-- One queue operation on a queue, the event memory and a count of the
events that have been posted and not yet retrieved: the count goes up by one
when `QEQueue_post` returns true and when `QEQueue_postLIFO` returns, and
down by one when `QEQueue_get` returns an event. -/
def queueStep (s : QEQueue × EvtMem × Nat) : QueueOp → Except Fault (QEQueue × EvtMem × Nat)
  | .post e margin =>
    match QEQueue_post s.1 s.2.1 e margin with
    | .error f => .error f
    | .ok (b, q, mem) => .ok (q, mem, if b then s.2.2 + 1 else s.2.2)
  | .postLIFO e =>
    match QEQueue_postLIFO s.1 s.2.1 e with
    | .error f => .error f
    | .ok (q, mem) => .ok (q, mem, s.2.2 + 1)
  | .get =>
    match QEQueue_get s.1 with
    | .error f => .error f
    | .ok (e, q) => .ok (q, s.2.1, if e ≠ 0 then s.2.2 - 1 else s.2.2)

/-- A sequence of queue operations. -/
def runQueue : QEQueue × EvtMem × Nat → List QueueOp → Except Fault (QEQueue × EvtMem × Nat)
  | s, [] => .ok s
  | s, op :: ops =>
    match queueStep s op with
    | .error f => .error f
    | .ok s1 => runQueue s1 ops

/-- The preconditions of the queue operations: the event is not null, and
`QEQueue_postLIFO` and `QEQueue_post` with `QF_NO_MARGIN` are called with a
free slot. -/
def queueOpAllowed (q : QEQueue) : QueueOp → Bool
  | .post e margin => decide (e ≠ 0 ∧ (margin = QF_NO_MARGIN → q.nFree > 0))
  | .postLIFO e => decide (e ≠ 0 ∧ q.nFree ≠ 0)
  | .get => true

/-- The preconditions along a sequence of operations. -/
def runQueueAllowed : QEQueue × EvtMem × Nat → List QueueOp → Bool
  | _, [] => true
  | s, op :: ops =>
    queueOpAllowed s.1 op &&
      match queueStep s op with
      | .error _ => true
      | .ok s1 => runQueueAllowed s1 ops

/-! ### Starting active objects and running the kernel (`qf_act.c`, `qv.c`) -/

/-- `QF_add_` (qf_act.c:71): registers the active object at address `a` at
its priority. -/
def QF_add_ (st : QFState) (a : Nat) : Except Fault QFState :=
  let p := (st.aobj a).prio
  if ¬ (0 < p ∧ p ≤ QF_MAX_ACTIVE) then .error (.assertion .qf_act 100)
  else
    match st.QF_active_[p]? with
    | none => .error .undefined
    | some r =>
      if ¬ (r = 0) then .error (.assertion .qf_act 100)
      else .ok { st with QF_active_ := st.QF_active_.set p a }

/-- `QActive_start_` (qv.c:207). `init st me` is the effect of
`QHSM_INIT(&me->super, par, me->prio)`, the top-most initial transition of
the state machine of the active object at address `me`. -/
def QActive_start_ (init : QFState → Nat → Except Fault QFState) (st : QFState)
    (me prio : Nat) (qSto : List Nat) (qLen stkSto : Nat) : Except Fault QFState :=
  if ¬ (0 < prio ∧ prio ≤ QF_MAX_ACTIVE ∧ stkSto = 0) then .error (.assertion .qv 500)
  else
    let a := st.aobj me
    let a : QActive := { a with eQueue := QEQueue_init a.eQueue qSto qLen }
    let a : QActive := { a with prio := u8 prio }
    let st := { st with aobj := Function.update st.aobj me a }
    match QF_add_ st me with
    | .error f => .error f
    | .ok st => init st me

/-- A call of `QActive_post_` or `QActive_postLIFO_`. -/
inductive PostOp where
  | post (a e margin : Nat)
  | postLIFO (a e : Nat)
deriving DecidableEq, Repr

/-- The active object a post is addressed to. -/
def PostOp.target : PostOp → Nat
  | .post a _ _ => a
  | .postLIFO a _ => a

/-- A sequence of posts, as made by application code. -/
def runPosts : QFState → List PostOp → Except Fault QFState
  | st, [] => .ok st
  | st, .post a e margin :: ps =>
    match QActive_post_ st a e margin with
    | .error f => .error f
    | .ok (_, st1) => runPosts st1 ps
  | st, .postLIFO a e :: ps =>
    match QActive_postLIFO_ st a e with
    | .error f => .error f
    | .ok st1 => runPosts st1 ps

/-- An operation on the kernel: the start of an active object, whose
top-most initial transition makes the posts `acts`; a post made between two
iterations of the loop of `QF_run` (by an interrupt handler, or before
`QF_run` is called); or one iteration of the loop of `QF_run`, in which the
state machine dispatched to makes the posts `acts`. -/
inductive KernelOp where
  | start (me prio : Nat) (qSto : List Nat) (qLen stkSto : Nat) (acts : List PostOp)
  | act (p : PostOp)
  | iter (acts : List PostOp)
deriving DecidableEq, Repr

/-- One operation on the kernel. -/
def kernelStep (st : QFState) : KernelOp → Except Fault QFState
  | .start me prio qSto qLen stkSto acts =>
    QActive_start_ (fun st1 _ => runPosts st1 acts) st me prio qSto qLen stkSto
  | .act p => runPosts st [p]
  | .iter acts =>
    match QF_run_iter (fun st1 _ _ => runPosts st1 acts) st with
    | .error f => .error f
    | .ok (_, st1) => .ok st1

/-- A sequence of operations on the kernel; it stops at the first failure. -/
def runKernel : QFState → List KernelOp → Except Fault QFState
  | st, [] => .ok st
  | st, op :: ops =>
    match kernelStep st op with
    | .error f => .error f
    | .ok st1 => runKernel st1 ops

/-- The usage protocol of active objects: an active object is started at
most once and its address is not null, and events are posted only to active
objects that have been started (the top-most initial transition of an active
object may post to that object). `started` lists the active objects started
so far. -/
def opsProtocol : List Nat → List KernelOp → Bool
  | _, [] => true
  | started, .start me _ _ _ _ acts :: ops =>
    decide (me ≠ 0) && decide (me ∉ started) &&
      acts.all (fun p => decide (p.target ∈ me :: started)) && opsProtocol (me :: started) ops
  | started, .act p :: ops => decide (p.target ∈ started) && opsProtocol started ops
  | started, .iter acts :: ops =>
    acts.all (fun p => decide (p.target ∈ started)) && opsProtocol started ops

/-- The ready set agrees with the queues: for every priority `p` other than
`busy`, bit `p` of `QV_readySet_` is set if and only if an active object is
registered at `p` and its queue is not empty; bit `busy` is set. `busy` is
the priority whose active object is being dispatched to, or 0 between two
iterations of the loop of `QF_run`. -/
def ReadyInv (busy : Nat) (st : QFState) : Prop :=
  ∀ p, 1 ≤ p → p ≤ QF_MAX_ACTIVE →
    if p = busy then QPSet_hasElement st.QV_readySet_ p = true
    else (QPSet_hasElement st.QV_readySet_ p = true ↔
      ∃ a, st.QF_active_[p]? = some a ∧ a ≠ 0 ∧ (st.aobj a).eQueue.frontEvt ≠ 0)

/-- The registry of active objects is consistent: `QF_active_` has its
declared size, entry 0 is null, the active object registered at a priority
has that priority and is one of `started`, and every active object of
`started` is registered at its priority. -/
def Registry (started : List Nat) (st : QFState) : Prop :=
  st.QF_active_.length = QF_MAX_ACTIVE + 1 ∧ st.QV_readySet_ < 65536 ∧
  (∀ p a, st.QF_active_[p]? = some a → a ≠ 0 →
    1 ≤ p ∧ (st.aobj a).prio = p ∧ a ∈ started) ∧
  (∀ a, a ∈ started → a ≠ 0 ∧ st.QF_active_[(st.aobj a).prio]? = some a)

/-- What a successful post to the active object at address `a` changes of
the registry, the queues and the ready set: the queue of `a` only, which
either is empty after the post exactly if it was before, with the ready set
unchanged, or is not empty, with the priority of `a` inserted into the ready
set. -/
def PostEffect (st st1 : QFState) (a : Nat) : Prop :=
  st1.QF_active_ = st.QF_active_ ∧ (∀ b, b ≠ a → st1.aobj b = st.aobj b) ∧
  (st1.aobj a).prio = (st.aobj a).prio ∧
  ((((st1.aobj a).eQueue.frontEvt = 0 ↔ (st.aobj a).eQueue.frontEvt = 0) ∧
      st1.QV_readySet_ = st.QV_readySet_) ∨
    ((st1.aobj a).eQueue.frontEvt ≠ 0 ∧
      st1.QV_readySet_ = QPSet_insert st.QV_readySet_ (st.aobj a).prio))

/-! ### Sequences of operations on time events (`qf_time.c`) -/

/-- The state `s` with the event queues replaced by empty queues of capacity 2. -/
def QFState.roomy (s : QFState) : QFState :=
  { s with aobj := fun _ => ⟨0, QEQueue_init ⟨0, [], 0, 0, 0, 0, 0⟩ [0] 1⟩ }

/-- An operation on the time events: a call of `QTimeEvt_ctorX`,
`QTimeEvt_armX`, `QTimeEvt_disarm`, `QTimeEvt_rearm` or `QF_tickX_`, or any
other activity `f` of the application, of which only the effect on the active
objects is kept (they consume and exchange events). -/
inductive TimeOp where
  | ctorX (me act sig tickRate : Nat)
  | armX (me nTicks interval : Nat)
  | disarm (me : Nat)
  | rearm (me nTicks : Nat)
  | tickX (tickRate : Nat)
  | other (f : QFState → QFState)

/-- One operation on the time events. -/
def timeStep (fuel : Nat) (st : QFState) : TimeOp → Except Fault QFState
  | .ctorX me act sig tickRate => QTimeEvt_ctorX st me act sig tickRate
  | .armX me nTicks interval => QTimeEvt_armX st me nTicks interval
  | .disarm me => .ok (QTimeEvt_disarm st me).2
  | .rearm me nTicks =>
    match QTimeEvt_rearm st me nTicks with
    | .error f => .error f
    | .ok (_, st1) => .ok st1
  | .tickX tickRate =>
    match QF_tickX_ fuel st tickRate with
    | .error f => .error f
    | .ok (_, st1) => .ok st1
  | .other f =>
    .ok { st with aobj := (f st).aobj, QV_readySet_ := (f st).QV_readySet_ }

/-- A sequence of operations on the time events; it stops at the first
failure. -/
def runTime (fuel : Nat) : QFState → List TimeOp → Except Fault QFState
  | st, [] => .ok st
  | st, op :: ops =>
    match timeStep fuel st op with
    | .error f => .error f
    | .ok st1 => runTime fuel st1 ops

/-- The usage protocol of time events: `QTimeEvt_ctorX` is called at most
once for a time event, which is neither null nor one of the heads
`QF_timeEvtHead_` (listed in `heads`), and the tick counts passed are values
of `QTimeEvtCtr`. `made` lists the time events constructed so far. -/
def timeProtocol (heads : List Nat) : List Nat → List TimeOp → Bool
  | _, [] => true
  | made, .ctorX me _ _ _ :: ops =>
    decide (me ≠ 0) && decide (me ∉ heads) && decide (me ∉ made) &&
      timeProtocol heads (me :: made) ops
  | made, .armX _ nTicks interval :: ops =>
    decide (nTicks < 65536) && decide (interval < 65536) && timeProtocol heads made ops
  | made, .rearm _ nTicks :: ops => decide (nTicks < 65536) && timeProtocol heads made ops
  | made, _ :: ops => timeProtocol heads made ops

/-- The linked flag `TE_IS_LINKED` of the time event at `t`. -/
def teLinked (st : QFState) (t : Nat) : Prop := (st.emem t).refCtr_ &&& TE_IS_LINKED ≠ 0

/-- The tick rate recorded in the time event at `t`. -/
def teRate (st : QFState) (t : Nat) : Nat := (st.emem t).refCtr_ &&& TE_TICK_RATE

/-- The state of the time events before any of them is constructed, as after
`QF_init`: there are `QF_MAX_TICK_RATE` distinct heads, which are zero, and
no time event is armed or linked. -/
def TimeInit (st : QFState) : Prop :=
  st.QF_timeEvtHead_.length = QF_MAX_TICK_RATE ∧ 0 ∉ st.QF_timeEvtHead_ ∧
  st.QF_timeEvtHead_.Nodup ∧
  (∀ h, h ∈ st.QF_timeEvtHead_ → (st.emem h).sig = 0 ∧ (st.tevt h).next = 0) ∧
  (∀ t, (st.tevt t).act = 0 ∧ (t ∉ st.QF_timeEvtHead_ → (st.tevt t).ctr = 0) ∧
    ¬ teLinked st t)

/-- The time events linked from the head of tick rate `r`: `R` is the active
list, which hangs from the `next` member of the head, and `A` the list of
the newly armed time events, which hangs from its `act` member. -/
def Lists (st : QFState) (r : Nat) (R A : List Nat) : Prop :=
  ∃ hd, st.QF_timeEvtHead_[r]? = some hd ∧ Chain st.tevt (st.tevt hd).next R ∧
    Chain st.tevt (st.tevt hd).act A

/-- The invariant of the time events: `made` lists the time events
constructed, `X r` the time events linked from the head of tick rate `r`. -/
def TEInv (made : List Nat) (X : Nat → List Nat) (st : QFState) : Prop :=
  st.QF_timeEvtHead_.length = QF_MAX_TICK_RATE ∧ 0 ∉ st.QF_timeEvtHead_ ∧
  st.QF_timeEvtHead_.Nodup ∧
  (∀ h, h ∈ st.QF_timeEvtHead_ → (st.emem h).sig = 0 ∧ h ∉ made) ∧
  (∀ t, t ∉ made → t ∉ st.QF_timeEvtHead_ →
    (st.tevt t).act = 0 ∧ (st.tevt t).ctr = 0 ∧ ¬ teLinked st t) ∧
  (∀ t, t ∈ made → t ≠ 0 ∧ (st.emem t).poolId_ = 0 ∧ (st.emem t).refCtr_ < 256 ∧
    teRate st t < QF_MAX_TICK_RATE ∧ (st.tevt t).ctr < 65536 ∧
    (st.tevt t).interval < 65536 ∧ ((st.tevt t).ctr ≠ 0 → teLinked st t) ∧
    (teLinked st t → (st.tevt t).act ≠ 0)) ∧
  (∀ r hd, st.QF_timeEvtHead_[r]? = some hd →
    Pending st.tevt hd hd (X r) ∧ (X r).Nodup ∧
    ∀ t, t ∈ X r ↔ (t ∈ made ∧ teLinked st t ∧ teRate st t = r))

/-! ## Theorems -/

/-! ### Event queue -/

theorem slot_lt {end_ tail k : Nat} (ht : tail < end_) (hk : k ≤ end_) :
    slot end_ tail k < end_ := by
  unfold slot
  split <;> omega

theorem slot_zero (end_ tail : Nat) : slot end_ tail 0 = tail := by
  simp [slot]

theorem slot_inj {end_ tail j k : Nat} (_ : tail < end_) (hj : j < end_) (hk : k < end_)
    (h : slot end_ tail j = slot end_ tail k) : j = k := by
  unfold slot at h
  split at h <;> split at h <;> omega

theorem slot_dec {end_ tail k : Nat} (he : end_ ≤ 255) (ht : tail < end_) (hk : k < end_) :
    slot end_ (dec8 (if tail = 0 then end_ else tail)) k = slot end_ tail (k + 1) := by
  unfold slot dec8
  split <;> split <;> split <;> omega

theorem slot_inc {end_ tail k : Nat} (he : end_ ≤ 255) (ht : tail < end_) (hk : k < end_) :
    slot end_ (if u8 (tail + 1) = end_ then 0 else u8 (tail + 1)) (k + 1) = slot end_ tail k := by
  unfold slot u8
  split <;> split <;> split <;> omega

theorem toList_length (q : QEQueue) (h : q.WF) : q.toList.length = q.end_ + 1 - q.nFree := by
  obtain ⟨_, _, h3, _, h5, _, _⟩ := h
  unfold QEQueue.toList QEQueue.inRing
  split
  · have := h5.1 (by assumption)
    simp; omega
  · have : q.nFree ≠ q.end_ + 1 := fun hh => by have := h5.2 hh; contradiction
    simp; omega

theorem init_WF (me : QEQueue) (qSto : List Nat) (qLen : Nat)
    (hlen : qSto.length = qLen) (hq : qLen + 1 < 256) :
    (QEQueue_init me qSto qLen).WF ∧ (QEQueue_init me qSto qLen).toList = [] := by
  have h1 : qLen % 256 = qLen := Nat.mod_eq_of_lt (by omega)
  have h2 : (qLen + 1) % 256 = qLen + 1 := Nat.mod_eq_of_lt hq
  refine ⟨?_, ?_⟩
  · by_cases h0 : qLen = 0
    · subst h0
      simp [QEQueue_init, QEQueue.WF, QEQueue.inRing, u8]
    · simp [QEQueue_init, QEQueue.WF, QEQueue.inRing, u8, h0, h1, h2, hlen, slot]
      omega
  · by_cases h0 : qLen = 0 <;> simp [QEQueue_init, QEQueue.toList, h0]

theorem post_spec (q : QEQueue) (mem : EvtMem) (e margin : Nat) (h : q.WF) (he : e ≠ 0)
    (hm : (margin = QF_NO_MARGIN ∧ q.nFree > 0) ∨ q.nFree > u8 margin) :
    ∃ q1 mem1, QEQueue_post q mem e margin = .ok (true, q1, mem1) ∧ q1.WF ∧
      q1.toList = q.toList ++ [e] ∧ q1.nFree + 1 = q.nFree ∧ q1.end_ = q.end_ := by
  obtain ⟨h1, h2, h3, h4, h5, h6, h7⟩ := h
  have hpos : 0 < q.nFree := by rcases hm with hm | hm <;> omega
  have hdec : dec8 q.nFree = q.nFree - 1 := by unfold dec8; omega
  by_cases hf : q.frontEvt = 0
  · have hn := h5.1 hf
    refine ⟨{ q with nFree := q.nFree - 1, nMin := if q.nMin > q.nFree - 1 then q.nFree - 1 else q.nMin,
                     frontEvt := e },
            (if (mem e).poolId_ ≠ 0 then QF_EVT_REF_CTR_INC_ mem e else mem), ?_, ?_, ?_, ?_, ?_⟩
    · simp only [QEQueue_post, he, hm, hf, if_true, if_false, hdec]
      by_cases hmin : q.nMin > q.nFree - 1 <;> by_cases hp : (mem e).poolId_ = 0 <;>
        simp [hmin, hp, hf]
    · have hin0 : q.end_ - (q.nFree - 1) = 0 := by omega
      have hin : q.inRing = 0 := by unfold QEQueue.inRing; omega
      refine ⟨h1, h2, by simp; omega, by simp; split <;> omega, by simp [he]; omega,
        fun hep => ?_, ?_⟩
      · simp only [QEQueue.inRing, hin0]
        have := h6 hep
        rw [hin] at this
        exact this
      · intro k hk
        simp only [QEQueue.inRing, hin0] at hk
        omega
    · have hin0 : q.end_ - (q.nFree - 1) = 0 := by omega
      simp [QEQueue.toList, QEQueue.inRing, hf, he, hin0]
    · simp; omega
    · rfl
  · have hn : q.nFree ≠ q.end_ + 1 := fun hh => hf (h5.2 hh)
    have hep : 0 < q.end_ := by omega
    obtain ⟨ht, hh⟩ := h6 hep
    have hin : q.inRing < q.end_ := by unfold QEQueue.inRing; omega
    have hhl : q.head < q.ring.length := by
      have := @slot_lt q.end_ q.tail q.inRing ht (by omega)
      omega
    have hin1 : q.end_ - (q.nFree - 1) = q.inRing + 1 := by unfold QEQueue.inRing; omega
    have hhead : dec8 (if q.head = 0 then q.end_ else q.head) = slot q.end_ q.tail (q.inRing + 1) := by
      rw [hh]
      unfold slot dec8
      split <;> split <;> split <;> omega
    have hget : ∀ k, k < q.inRing → (q.ring.set q.head e).getD (slot q.end_ q.tail k) 0
        = q.ring.getD (slot q.end_ q.tail k) 0 := by
      intro k hk
      have hne : q.head ≠ slot q.end_ q.tail k := by
        rw [hh]
        intro hc
        have := slot_inj ht hin (by omega) hc
        omega
      simp [List.getD_eq_getElem?_getD, List.getElem?_set_ne hne]
    have hgetn : (q.ring.set q.head e).getD (slot q.end_ q.tail q.inRing) 0 = e := by
      rw [← hh]
      simp [List.getD_eq_getElem?_getD, hhl]
    refine ⟨{ q with nFree := q.nFree - 1, nMin := if q.nMin > q.nFree - 1 then q.nFree - 1 else q.nMin,
                     ring := q.ring.set q.head e,
                     head := dec8 (if q.head = 0 then q.end_ else q.head) },
            (if (mem e).poolId_ ≠ 0 then QF_EVT_REF_CTR_INC_ mem e else mem), ?_, ?_, ?_, ?_, ?_⟩
    · simp only [QEQueue_post, he, hm, hf, if_true, if_false, ringWrite, hhl, hdec]
      have hl0 : 0 < q.ring.length := by omega
      by_cases hmin : q.nMin > q.nFree - 1 <;> by_cases hh0 : q.head = 0 <;>
        simp [hmin, hh0, hf, hhl, hl0]
    · refine ⟨h1, by simpa using h2, by simp; omega, by simp; split <;> omega, by simp [hf]; omega,
        fun _ => ⟨ht, ?_⟩, ?_⟩
      · simp only [QEQueue.inRing, hin1]
        exact hhead
      · intro k hk
        simp only [QEQueue.inRing, hin1] at hk
        simp only []
        by_cases hk2 : k < q.inRing
        · rw [hget k hk2]; exact h7 k hk2
        · have : k = q.inRing := by omega
          subst this
          rw [hgetn]; exact he
    · simp only [QEQueue.toList, hf, if_false, QEQueue.inRing, hin1, List.range_succ, List.map_append,
        List.map_cons, List.map_nil, List.cons_append, List.cons.injEq, true_and]
      congr 1
      · apply List.map_congr_left
        intro k hk
        exact hget k (by simpa [QEQueue.inRing] using List.mem_range.mp hk)
      · simpa [QEQueue.inRing] using hgetn
    · simp; omega
    · rfl

theorem toList_headD (q : QEQueue) : q.toList.headD 0 = q.frontEvt := by
  unfold QEQueue.toList
  split
  · simp [*]
  · simp

theorem get_spec (q : QEQueue) (h : q.WF) :
    ∃ q1, QEQueue_get q = .ok (q.frontEvt, q1) ∧ q1.WF ∧ q1.toList = q.toList.tail ∧
      q1.end_ = q.end_ ∧ q1.nMin = q.nMin ∧ q1.head = q.head ∧
      (q.frontEvt ≠ 0 → q1.nFree = q.nFree + 1) ∧ (q.frontEvt = 0 → q1 = q) ∧
      q1.tail = (if q.frontEvt ≠ 0 ∧ q.nFree + 1 ≤ q.end_ then
        dec8 (if q.tail = 0 then q.end_ else q.tail) else q.tail) := by
  obtain ⟨h1, h2, h3, h4, h5, h6, h7⟩ := h
  by_cases hf : q.frontEvt = 0
  · refine ⟨q, ?_, ⟨h1, h2, h3, h4, h5, h6, h7⟩, ?_, rfl, rfl, rfl, fun hc => absurd hf hc, fun _ => rfl,
      by simp [hf]⟩
    · simp [QEQueue_get, hf]
    · simp [QEQueue.toList, hf]
  · have hn : q.nFree ≠ q.end_ + 1 := fun hh => hf (h5.2 hh)
    have hinc : u8 (q.nFree + 1) = q.nFree + 1 := by unfold u8; omega
    by_cases hlast : q.nFree + 1 ≤ q.end_
    · have hep : 0 < q.end_ := by omega
      obtain ⟨ht, hh⟩ := h6 hep
      have htl : q.tail < q.ring.length := by omega
      have hin : q.inRing = (q.end_ - (q.nFree + 1)) + 1 := by unfold QEQueue.inRing; omega
      have hfront : q.ring.getD q.tail 0 ≠ 0 := by
        have := h7 0 (by omega)
        rwa [slot_zero] at this
      refine ⟨{ q with nFree := q.nFree + 1, frontEvt := q.ring.getD q.tail 0,
                       tail := dec8 (if q.tail = 0 then q.end_ else q.tail) }, ?_, ?_, ?_, rfl, rfl, rfl,
              fun _ => rfl, fun hc => absurd hc hf, by simp [hf, hlast]⟩
      · simp only [QEQueue_get, ne_eq, hf, not_false_eq_true, if_true, hinc, hlast, ringRead, htl]
        by_cases ht0 : q.tail = 0 <;> simp [ht0]
      · refine ⟨h1, h2, by simp; omega, by simp; omega, ?_, fun _ => ⟨?_, ?_⟩, ?_⟩
        · show q.ring.getD q.tail 0 = 0 ↔ q.nFree + 1 = q.end_ + 1
          constructor
          · intro hc; exact absurd hc hfront
          · intro hc; omega
        · show dec8 (if q.tail = 0 then q.end_ else q.tail) < q.end_
          unfold dec8; split <;> omega
        · show q.head = slot q.end_ (dec8 (if q.tail = 0 then q.end_ else q.tail)) (q.end_ - (q.nFree + 1))
          rw [slot_dec (by omega) ht (by omega), hh, hin]
        · intro k hk
          show q.ring.getD (slot q.end_ (dec8 (if q.tail = 0 then q.end_ else q.tail)) k) 0 ≠ 0
          have hk2 : k < q.end_ - (q.nFree + 1) := hk
          rw [slot_dec (by omega) ht (by omega)]
          exact h7 (k + 1) (by omega)
      · simp only [QEQueue.toList, hf, hfront, if_false, List.tail_cons, QEQueue.inRing]
        have : q.end_ - q.nFree = (q.end_ - (q.nFree + 1)) + 1 := by omega
        rw [this, List.range_succ_eq_map, List.map_cons, slot_zero, List.map_map]
        congr 1
        apply List.map_congr_left
        intro k hk
        have hk2 := List.mem_range.mp hk
        simp only [Function.comp]
        rw [slot_dec (by omega) ht (by omega)]
    · have hfull : q.nFree = q.end_ := by omega
      refine ⟨{ q with nFree := q.nFree + 1, frontEvt := 0 }, ?_, ?_, ?_, rfl, rfl, rfl,
              fun _ => rfl, fun hc => absurd hc hf, by simp [hlast]⟩
      · simp only [QEQueue_get, ne_eq, hf, not_false_eq_true, if_true, hinc, hlast, if_false]
        simp [hfull]
      · have hin : q.inRing = 0 := by unfold QEQueue.inRing; omega
        refine ⟨h1, h2, by simp; omega, by simp; omega, by simp; omega, fun hep => ?_, ?_⟩
        · have := h6 hep
          rw [hin] at this
          have hin2 : q.end_ - (q.nFree + 1) = 0 := by omega
          simpa [QEQueue.inRing, hin2] using this
        · intro k hk
          have hk2 : k < q.end_ - (q.nFree + 1) := hk
          omega
      · have hin : q.inRing = 0 := by unfold QEQueue.inRing; omega
        simp [QEQueue.toList, hf, hin]

theorem getN_spec (n : Nat) (q : QEQueue) (h : q.WF) :
    ∃ q1, getN n q = .ok (q.toList.take n ++ List.replicate (n - q.toList.length) 0, q1) ∧
      q1.WF ∧ q1.toList = q.toList.drop n := by
  induction n generalizing q with
  | zero => exact ⟨q, by simp [getN], h, by simp⟩
  | succ n ih =>
    obtain ⟨q1, hg, hwf, htl, -⟩ := get_spec q h
    obtain ⟨q2, hg2, hwf2, htl2⟩ := ih q1 hwf
    refine ⟨q2, ?_, hwf2, ?_⟩
    · simp only [getN, hg, hg2, htl]
      have hhd := toList_headD q
      cases hl : q.toList with
      | nil =>
        rw [hl] at hhd
        simp at hhd
        simp [← hhd, List.replicate_succ]
      | cons a l =>
        rw [hl] at hhd
        simp at hhd
        simp [← hhd]
    · rw [htl2, htl]
      simp

theorem postLIFO_spec (q : QEQueue) (mem : EvtMem) (e : Nat) (h : q.WF) (he : e ≠ 0)
    (hfree : q.nFree ≠ 0) :
    ∃ q1 mem1, QEQueue_postLIFO q mem e = .ok (q1, mem1) ∧ q1.WF ∧
      q1.toList = e :: q.toList ∧ q1.nFree + 1 = q.nFree ∧ q1.end_ = q.end_ ∧
      q1.head = q.head ∧ q1.frontEvt = e ∧
      q1.tail = (if q.frontEvt ≠ 0 then
        (if u8 (q.tail + 1) = q.end_ then 0 else u8 (q.tail + 1)) else q.tail) := by
  obtain ⟨h1, h2, h3, h4, h5, h6, h7⟩ := h
  have hdec : dec8 q.nFree = q.nFree - 1 := by unfold dec8; omega
  by_cases hf : q.frontEvt = 0
  · have hn := h5.1 hf
    have hin0 : q.end_ - (q.nFree - 1) = 0 := by omega
    have hin : q.inRing = 0 := by unfold QEQueue.inRing; omega
    refine ⟨{ q with nFree := q.nFree - 1, nMin := if q.nMin > q.nFree - 1 then q.nFree - 1 else q.nMin,
                     frontEvt := e },
            (if (mem e).poolId_ ≠ 0 then QF_EVT_REF_CTR_INC_ mem e else mem),
            ?_, ?_, ?_, ?_, rfl, rfl, rfl, by simp [hf]⟩
    · simp only [QEQueue_postLIFO, he, hfree, hf, if_true, if_false, hdec]
      by_cases hmin : q.nMin > q.nFree - 1 <;> by_cases hp : (mem e).poolId_ = 0 <;>
        simp [hmin, hp, hf]
    · refine ⟨h1, h2, by simp; omega, by simp; split <;> omega, by simp [he]; omega,
        fun hep => ?_, ?_⟩
      · simp only [QEQueue.inRing, hin0]
        have := h6 hep
        rw [hin] at this
        exact this
      · intro k hk
        simp only [QEQueue.inRing, hin0] at hk
        omega
    · simp [QEQueue.toList, QEQueue.inRing, hf, he, hin0]
    · simp; omega
  · have hn : q.nFree ≠ q.end_ + 1 := fun hh => hf (h5.2 hh)
    have hep : 0 < q.end_ := by omega
    obtain ⟨ht, hh⟩ := h6 hep
    have hin : q.inRing < q.end_ := by unfold QEQueue.inRing; omega
    have hin1 : q.end_ - (q.nFree - 1) = q.inRing + 1 := by unfold QEQueue.inRing; omega
    set t1 := (if u8 (q.tail + 1) = q.end_ then 0 else u8 (q.tail + 1)) with ht1
    have ht1lt : t1 < q.end_ := by
      rw [ht1]; unfold u8; split <;> omega
    have ht1l : t1 < q.ring.length := by omega
    have hslot : ∀ k, k < q.end_ → slot q.end_ t1 (k + 1) = slot q.end_ q.tail k := by
      intro k hk
      rw [ht1]
      exact slot_inc (by omega) ht hk
    have hget : ∀ k, k < q.inRing → (q.ring.set t1 q.frontEvt).getD (slot q.end_ t1 (k + 1)) 0
        = q.ring.getD (slot q.end_ q.tail k) 0 := by
      intro k hk
      have hne : t1 ≠ slot q.end_ t1 (k + 1) := by
        intro hc
        have h0 : slot q.end_ t1 0 = slot q.end_ t1 (k + 1) := by rw [slot_zero]; exact hc
        have := slot_inj ht1lt (by omega) (by omega) h0
        omega
      rw [← hslot k (by omega)]
      simp [List.getD_eq_getElem?_getD, List.getElem?_set_ne hne]
    have hget0 : (q.ring.set t1 q.frontEvt).getD (slot q.end_ t1 0) 0 = q.frontEvt := by
      rw [slot_zero]
      simp [List.getD_eq_getElem?_getD, ht1l]
    refine ⟨{ q with nFree := q.nFree - 1, nMin := if q.nMin > q.nFree - 1 then q.nFree - 1 else q.nMin,
                     frontEvt := e, tail := t1, ring := q.ring.set t1 q.frontEvt },
            (if (mem e).poolId_ ≠ 0 then QF_EVT_REF_CTR_INC_ mem e else mem),
            ?_, ?_, ?_, ?_, rfl, rfl, rfl, by simp [hf]⟩
    · simp only [QEQueue_postLIFO, he, hfree, hf, if_true, if_false, hdec, ne_eq, not_false_eq_true,
        ringWrite]
      by_cases hmin : q.nMin > q.nFree - 1 <;> by_cases hw : u8 (q.tail + 1) = q.end_ <;>
        simp [hmin, hw, ht1, hf] at ht1l ⊢ <;> simp [ht1l]
    · refine ⟨h1, by simpa using h2, by simp; omega, by simp; split <;> omega, by simp [he]; omega,
        fun _ => ⟨ht1lt, ?_⟩, ?_⟩
      · show q.head = slot q.end_ t1 (q.end_ - (q.nFree - 1))
        rw [hin1, hslot _ hin, hh]
      · intro k hk
        have hk2 : k < q.inRing + 1 := by
          have : k < q.end_ - (q.nFree - 1) := hk
          omega
        show (q.ring.set t1 q.frontEvt).getD (slot q.end_ t1 k) 0 ≠ 0
        cases k with
        | zero => rw [hget0]; exact hf
        | succ k => rw [hget k (by omega)]; exact h7 k (by omega)
    · simp only [QEQueue.toList, he, hf, if_false, QEQueue.inRing, hin1, List.range_succ_eq_map,
        List.map_cons, List.map_map, List.cons.injEq, true_and]
      refine ⟨hget0, ?_⟩
      apply List.map_congr_left
      intro k hk
      have hk2 := List.mem_range.mp hk
      simp only [Function.comp]
      exact hget k (by simpa [QEQueue.inRing] using hk2)
    · simp; omega

theorem postAll_spec (es : List Nat) (q : QEQueue) (mem : EvtMem) (h : q.WF)
    (hes : ∀ e ∈ es, e ≠ 0) (hroom : es.length ≤ q.nFree) :
    ∃ q1 mem1, postAll 0 q mem es = .ok (List.replicate es.length true, q1, mem1) ∧ q1.WF ∧
      q1.toList = q.toList ++ es ∧ q1.nFree + es.length = q.nFree ∧ q1.end_ = q.end_ := by
  induction es generalizing q mem with
  | nil => exact ⟨q, mem, by simp [postAll], h, by simp, by simp, rfl⟩
  | cons e es ih =>
    have he : e ≠ 0 := hes e (by simp)
    have hlen : es.length + 1 ≤ q.nFree := by simpa using hroom
    obtain ⟨q1, mem1, hp, hwf, htl, hnf, hend⟩ :=
      post_spec q mem e 0 h he (Or.inr (by simp [u8]; omega))
    obtain ⟨q2, mem2, hp2, hwf2, htl2, hnf2, hend2⟩ :=
      ih q1 mem1 hwf (fun x hx => hes x (by simp [hx])) (by omega)
    refine ⟨q2, mem2, ?_, hwf2, ?_, ?_, ?_⟩
    · simp [postAll, hp, hp2, List.replicate_succ]
    · rw [htl2, htl]; simp
    · simp; omega
    · rw [hend2, hend]

/-- C1: on a queue initialised by `QEQueue_init` with ring length `qLen`
(`qLen + 1` representable in `QEQueueCtr`), posting the non-null events
`e1..eN`, `N <= qLen + 1`, with margin 0 succeeds every time, the following
`N` calls of `QEQueue_get` return `e1..eN` in the order posted, and one more
`QEQueue_get` returns null. -/
theorem C1_fifo_order (me : QEQueue) (mem : EvtMem) (qSto : List Nat) (qLen : Nat)
    (es : List Nat) (hsto : qSto.length = qLen) (hq : qLen + 1 < 256)
    (hN : es.length ≤ qLen + 1) (hes : ∀ e ∈ es, e ≠ 0) :
    ∃ q1 mem1 q2 q3,
      postAll 0 (QEQueue_init me qSto qLen) mem es
        = .ok (List.replicate es.length true, q1, mem1) ∧
      getN es.length q1 = .ok (es, q2) ∧
      QEQueue_get q2 = .ok (0, q3) := by
  obtain ⟨hwf, hnil⟩ := init_WF me qSto qLen hsto hq
  have hnf : (QEQueue_init me qSto qLen).nFree = qLen + 1 := by
    have h2 : (qLen + 1) % 256 = qLen + 1 := Nat.mod_eq_of_lt hq
    by_cases h0 : qLen = 0 <;> simp [QEQueue_init, u8, h0, h2]
  obtain ⟨q1, mem1, hp, hwf1, htl1, -, -⟩ :=
    postAll_spec es (QEQueue_init me qSto qLen) mem hwf hes (by omega)
  obtain ⟨q2, hg, hwf2, htl2⟩ := getN_spec es.length q1 hwf1
  obtain ⟨q3, hg3, -⟩ := get_spec q2 hwf2
  refine ⟨q1, mem1, q2, q3, hp, ?_, ?_⟩
  · rw [hg, htl1, hnil]; simp
  · have : q2.frontEvt = 0 := by
      rw [← toList_headD, htl2, htl1, hnil]; simp
    rw [hg3, this]

/-- Witness of C1: a ring of length 2 and the three events 11, 22, 33. -/
theorem C1_fifo_order_witness :
    ([0, 0] : List Nat).length = 2 ∧ 2 + 1 < 256 ∧ ([11, 22, 33] : List Nat).length ≤ 2 + 1 ∧
    (∀ e ∈ ([11, 22, 33] : List Nat), e ≠ 0) ∧
    ∃ q1 mem1 q2 q3,
      postAll 0 (QEQueue_init ⟨0, [], 0, 7, 9, 0, 0⟩ [0, 0] 2) (fun _ => ⟨4, 0, 0⟩) [11, 22, 33]
        = .ok (List.replicate ([11, 22, 33] : List Nat).length true, q1, mem1) ∧
      getN ([11, 22, 33] : List Nat).length q1 = .ok ([11, 22, 33], q2) ∧
      QEQueue_get q2 = .ok (0, q3) :=
  ⟨rfl, by decide, by decide, by decide,
    C1_fifo_order ⟨0, [], 0, 7, 9, 0, 0⟩ (fun _ => ⟨4, 0, 0⟩) [0, 0] 2 [11, 22, 33] rfl
      (by decide) (by decide) (by decide)⟩

/-- Counterexample to C7 as stated: on a freshly initialised queue with two
free slots, margin 256 (not `QF_NO_MARGIN`) is truncated to 0 by the cast to
`QEQueueCtr`, so `QEQueue_post` returns true although `nFree > 256` is false. -/
theorem C7_counterexample :
    (256 : Nat) ≠ QF_NO_MARGIN ∧
    (QEQueue_init ⟨0, [], 0, 0, 0, 0, 0⟩ [0] 1).WF ∧
    ¬ ((QEQueue_init ⟨0, [], 0, 0, 0, 0, 0⟩ [0] 1).nFree > 256) ∧
    ∃ q1 mem1, QEQueue_post (QEQueue_init ⟨0, [], 0, 0, 0, 0, 0⟩ [0] 1) (fun _ => ⟨4, 0, 0⟩) 5 256
      = .ok (true, q1, mem1) := by
  refine ⟨by decide, by decide, by decide, ?_⟩
  exact ⟨_, _, rfl⟩

/-- C7 (amended): for every consistent queue state, every non-null event and
every margin `M <= 255` (representable in `QEQueueCtr`, hence different from
`QF_NO_MARGIN`), `QEQueue_post` returns, and it returns true if and only if the
current free count `nFree` is strictly greater than `M`. -/
theorem C7_margin_iff (q : QEQueue) (mem : EvtMem) (e margin : Nat) (h : q.WF) (he : e ≠ 0)
    (hm : margin < 256) :
    ∃ b q1 mem1, QEQueue_post q mem e margin = .ok (b, q1, mem1) ∧
      (b = true ↔ q.nFree > margin) := by
  have hu : u8 margin = margin := Nat.mod_eq_of_lt hm
  have hne : margin ≠ QF_NO_MARGIN := by unfold QF_NO_MARGIN; omega
  by_cases hgt : q.nFree > margin
  · obtain ⟨q1, mem1, hp, -⟩ := post_spec q mem e margin h he (Or.inr (by rw [hu]; exact hgt))
    exact ⟨true, q1, mem1, hp, by simp [hgt]⟩
  · refine ⟨false, q, mem, ?_, by simp [hgt]⟩
    simp [QEQueue_post, he, hne, hu, hgt]

/-- Witness of C7 (amended): a fresh queue of ring length 1 and margin 1. -/
theorem C7_margin_iff_witness :
    (QEQueue_init ⟨0, [], 0, 0, 0, 0, 0⟩ [0] 1).WF ∧ (5 : Nat) ≠ 0 ∧ (1 : Nat) < 256 ∧
    ∃ b q1 mem1,
      QEQueue_post (QEQueue_init ⟨0, [], 0, 0, 0, 0, 0⟩ [0] 1) (fun _ => ⟨4, 0, 0⟩) 5 1
        = .ok (b, q1, mem1) ∧
      (b = true ↔ (QEQueue_init ⟨0, [], 0, 0, 0, 0, 0⟩ [0] 1).nFree > 1) :=
  ⟨by decide, by decide, by decide,
    C7_margin_iff (QEQueue_init ⟨0, [], 0, 0, 0, 0, 0⟩ [0] 1) (fun _ => ⟨4, 0, 0⟩) 5 1
      (by decide) (by decide) (by decide)⟩

/-- C8: whenever `QEQueue_post` returns true (on a queue whose free count is a
`QEQueueCtr` value), the free count afterwards is the free count before minus
exactly 1, and `nMin` afterwards is the minimum of its previous value and the
new free count; it changes iff the new free count is below the previous `nMin`. -/
theorem C8_post_counts (q : QEQueue) (mem : EvtMem) (e margin : Nat) (q1 : QEQueue)
    (mem1 : EvtMem) (hty : q.nFree < 256)
    (hp : QEQueue_post q mem e margin = .ok (true, q1, mem1)) :
    q1.nFree + 1 = q.nFree ∧ q1.nMin = min q.nMin q1.nFree ∧
      (q1.nMin ≠ q.nMin ↔ q1.nFree < q.nMin) := by
  unfold QEQueue_post at hp
  by_cases he : e = 0
  · simp [he] at hp
  · by_cases hm : (margin = QF_NO_MARGIN ∧ q.nFree > 0) ∨ q.nFree > u8 margin
    · have hpos : 0 < q.nFree := by rcases hm with hm | hm <;> omega
      have hdec : dec8 q.nFree = q.nFree - 1 := by unfold dec8; omega
      simp only [he, hm, if_true, if_false, hdec] at hp
      by_cases hmin : q.nMin > q.nFree - 1 <;> by_cases hf : q.frontEvt = 0
      · simp [hmin, hf] at hp
        obtain ⟨rfl, -⟩ := hp
        simp; omega
      · simp only [hmin, hf, if_true, if_false, ringWrite] at hp
        by_cases hl : q.head < q.ring.length
        · simp [hl] at hp
          obtain ⟨rfl, -⟩ := hp
          by_cases hh : q.head = 0 <;> simp [hh] <;> omega
        · simp [hl] at hp
      · simp [hmin, hf] at hp
        obtain ⟨rfl, -⟩ := hp
        simp; omega
      · simp only [hmin, hf, if_true, if_false, ringWrite] at hp
        by_cases hl : q.head < q.ring.length
        · simp [hl] at hp
          obtain ⟨rfl, -⟩ := hp
          by_cases hh : q.head = 0 <;> simp [hh] <;> omega
        · simp [hl] at hp
    · simp only [he, hm, if_false] at hp
      by_cases hn : margin = QF_NO_MARGIN <;> simp [hn] at hp

/-- Witness of C8: posting to a fresh queue of ring length 1 with margin 0. -/
theorem C8_post_counts_witness :
    (QEQueue_init ⟨0, [], 0, 0, 0, 0, 0⟩ [0] 1).nFree < 256 ∧
    (⟨5, [0], 1, 0, 0, 1, 1⟩ : QEQueue).nFree + 1 = (QEQueue_init ⟨0, [], 0, 0, 0, 0, 0⟩ [0] 1).nFree ∧
    (⟨5, [0], 1, 0, 0, 1, 1⟩ : QEQueue).nMin
      = min (QEQueue_init ⟨0, [], 0, 0, 0, 0, 0⟩ [0] 1).nMin (⟨5, [0], 1, 0, 0, 1, 1⟩ : QEQueue).nFree ∧
    ((⟨5, [0], 1, 0, 0, 1, 1⟩ : QEQueue).nMin ≠ (QEQueue_init ⟨0, [], 0, 0, 0, 0, 0⟩ [0] 1).nMin ↔
      (⟨5, [0], 1, 0, 0, 1, 1⟩ : QEQueue).nFree < (QEQueue_init ⟨0, [], 0, 0, 0, 0, 0⟩ [0] 1).nMin) :=
  ⟨by decide,
    C8_post_counts (QEQueue_init ⟨0, [], 0, 0, 0, 0, 0⟩ [0] 1) (fun _ => ⟨4, 0, 0⟩) 5 0
      ⟨5, [0], 1, 0, 0, 1, 1⟩ (fun _ => ⟨4, 0, 0⟩) (by decide) rfl⟩

/-- C9: in every consistent queue state with at least one free slot and for
every non-null event `x`, `QEQueue_postLIFO x` followed by `QEQueue_get`
returns `x`; afterwards `frontEvt`, `head`, `tail` and `nFree` have their
earlier values and any number of further `QEQueue_get` calls returns the same
sequence of events as it would have returned before the `postLIFO`. -/
theorem C9_lifo_then_get (q : QEQueue) (mem : EvtMem) (x : Nat) (h : q.WF)
    (hfree : 0 < q.nFree) (hx : x ≠ 0) :
    ∃ q1 mem1 q2, QEQueue_postLIFO q mem x = .ok (q1, mem1) ∧
      QEQueue_get q1 = .ok (x, q2) ∧
      q2.frontEvt = q.frontEvt ∧ q2.head = q.head ∧ q2.tail = q.tail ∧ q2.nFree = q.nFree ∧
      ∀ n, ∃ r2 r, getN n q2 = .ok (r2) ∧ getN n q = .ok r ∧ r2.1 = r.1 := by
  obtain ⟨q1, mem1, hp, hwf1, htl1, hnf1, hend1, hhead1, hfront1, htail1⟩ :=
    postLIFO_spec q mem x h hx (by omega)
  obtain ⟨q2, hg, hwf2, htl2, hend2, -, hhead2, hnf2, -, htail2⟩ := get_spec q1 hwf1
  have htl : q2.toList = q.toList := by rw [htl2, htl1]; rfl
  obtain ⟨h1, h2, h3, h4, h5, h6, h7⟩ := h
  refine ⟨q1, mem1, q2, hp, by rw [hg, hfront1], ?_, by rw [hhead2, hhead1], ?_, ?_, ?_⟩
  · rw [← toList_headD q2, htl, toList_headD]
  · rw [htail2, htail1, hfront1, hend1]
    by_cases hf : q.frontEvt = 0
    · have := h5.1 hf
      have hno : ¬ (q1.nFree + 1 ≤ q.end_) := by omega
      simp [hf, hno]
    · have hn : q.nFree ≠ q.end_ + 1 := fun hh => hf (h5.2 hh)
      have hep : 0 < q.end_ := by omega
      obtain ⟨ht, -⟩ := h6 hep
      have hyes : q1.nFree + 1 ≤ q.end_ := by omega
      simp only [ne_eq, hx, not_false_eq_true, hyes, and_self, if_true, hf]
      unfold u8 dec8
      split <;> split <;> omega
  · have := hnf2 (by rw [hfront1]; exact hx)
    omega
  · intro n
    obtain ⟨a, ha, -⟩ := getN_spec n q2 hwf2
    obtain ⟨b, hb, -⟩ := getN_spec n q ⟨h1, h2, h3, h4, h5, h6, h7⟩
    exact ⟨_, _, ha, hb, by rw [htl]⟩

/-- Witness of C9: a queue holding the events 11 (front) and 22 (ring), ring length 2. -/
theorem C9_lifo_then_get_witness :
    (⟨11, [22, 0], 2, 1, 0, 1, 1⟩ : QEQueue).WF ∧ 0 < (⟨11, [22, 0], 2, 1, 0, 1, 1⟩ : QEQueue).nFree ∧
    (33 : Nat) ≠ 0 ∧
    ∃ q1 mem1 q2, QEQueue_postLIFO ⟨11, [22, 0], 2, 1, 0, 1, 1⟩ (fun _ => ⟨4, 0, 0⟩) 33 = .ok (q1, mem1) ∧
      QEQueue_get q1 = .ok (33, q2) ∧
      q2.frontEvt = (⟨11, [22, 0], 2, 1, 0, 1, 1⟩ : QEQueue).frontEvt ∧
      q2.head = (⟨11, [22, 0], 2, 1, 0, 1, 1⟩ : QEQueue).head ∧
      q2.tail = (⟨11, [22, 0], 2, 1, 0, 1, 1⟩ : QEQueue).tail ∧
      q2.nFree = (⟨11, [22, 0], 2, 1, 0, 1, 1⟩ : QEQueue).nFree ∧
      ∀ n, ∃ r2 r, getN n q2 = .ok (r2) ∧ getN n ⟨11, [22, 0], 2, 1, 0, 1, 1⟩ = .ok r ∧ r2.1 = r.1 :=
  ⟨by decide, by decide, by decide,
    C9_lifo_then_get ⟨11, [22, 0], 2, 1, 0, 1, 1⟩ (fun _ => ⟨4, 0, 0⟩) 33 (by decide) (by decide)
      (by decide)⟩

/-! ### Memory pool -/

theorem freeChain_length (mem : BlockMem) (p n : Nat) : (freeChain mem p n).length = n := by
  induction n generalizing p with
  | zero => rfl
  | succ n ih => simp [freeChain, ih]

theorem freeChain_write (mem : BlockMem) (b v p n : Nat) (h : b ∉ freeChain mem p n) :
    freeChain (mem.write b v) p n = freeChain mem p n ∧
      chainEnd (mem.write b v) p n = chainEnd mem p n := by
  induction n generalizing p with
  | zero => exact ⟨rfl, rfl⟩
  | succ n ih =>
    simp only [freeChain, List.mem_cons, not_or] at h
    have hp : (mem.write b v) p = mem p := by
      unfold BlockMem.write
      rw [if_neg (fun hc => h.1 hc.symm)]
    simp only [freeChain, chainEnd, hp]
    exact ⟨by rw [(ih (mem p) h.2).1], (ih (mem p) h.2).2⟩

theorem blocks_nodup (p : QMPool) (hbs : 0 < p.blockSize) : p.blocks.Nodup := by
  unfold QMPool.blocks
  refine List.Nodup.map ?_ (List.nodup_range _)
  intro i j hij
  have h : i * p.blockSize = j * p.blockSize := by simpa using hij
  exact Nat.eq_of_mul_eq_mul_right hbs h

theorem blocks_range (p : QMPool) (b : Nat) (hb : b ∈ p.blocks)
    (hend : p.end_ = p.start + (p.nTot - 1) * p.blockSize) :
    0 < p.start → (b ≠ 0 ∧ QF_PTR_RANGE_ b p.start p.end_) := by
  intro hs
  unfold QMPool.blocks at hb
  obtain ⟨i, hi, rfl⟩ := List.mem_map.mp hb
  have hi2 : i ≤ p.nTot - 1 := by have := List.mem_range.mp hi; omega
  have hmul : i * p.blockSize ≤ (p.nTot - 1) * p.blockSize := Nat.mul_le_mul_right _ hi2
  unfold QF_PTR_RANGE_
  omega

theorem PoolInv.counts {s : PoolState} (h : PoolInv s) :
    s.pool.nFree + s.held.length = s.pool.nTot := by
  obtain ⟨-, -, -, -, -, -, hperm⟩ := h
  have := hperm.length_eq
  simp [freeChain_length, QMPool.blocks] at this
  exact this

theorem PoolInv.nodup {s : PoolState} (h : PoolInv s) :
    (freeChain s.mem s.pool.free_head s.pool.nFree ++ s.held).Nodup := by
  obtain ⟨-, hbs, -, -, -, -, hperm⟩ := h
  exact hperm.nodup_iff.mpr (blocks_nodup _ hbs)

theorem PoolInv.held_not_free {s : PoolState} (h : PoolInv s) (b : Nat) (hb : b ∈ s.held) :
    b ∉ freeChain s.mem s.pool.free_head s.pool.nFree := by
  intro hc
  exact (List.nodup_append.mp h.nodup).2.2 hc hb

theorem get_inv (s : PoolState) (margin : Nat) (h : PoolInv s) :
    ∃ s1, poolStep s (.get margin) = .ok s1 ∧ PoolInv s1 ∧ s1.pool.nTot = s.pool.nTot ∧
      s1.pool.start = s.pool.start ∧ s1.pool.blockSize = s.pool.blockSize := by
  have hcnt := h.counts
  obtain ⟨hs, hbs, hn0, hn, hend, hce, hperm⟩ := h
  by_cases hm : s.pool.nFree > u16 margin
  · obtain ⟨n, hn1⟩ : ∃ n, s.pool.nFree = n + 1 := ⟨s.pool.nFree - 1, by omega⟩
    have hdec : dec16 s.pool.nFree = n := by unfold dec16; omega
    rw [hn1] at hce hperm
    simp only [freeChain, chainEnd] at hce hperm
    have hmemb : ∀ b ∈ s.pool.free_head :: freeChain s.mem (s.mem s.pool.free_head) n,
        b ∈ s.pool.blocks := fun b hb => hperm.subset (List.mem_append_left _ hb)
    have hhead := blocks_range s.pool _ (hmemb _ (List.mem_cons_self _ _)) hend hs
    have hperm2 : List.Perm (freeChain s.mem (s.mem s.pool.free_head) n ++
        s.pool.free_head :: s.held) s.pool.blocks :=
      List.Perm.trans List.perm_middle hperm
    by_cases hz : n = 0
    · subst hz
      simp only [chainEnd] at hce
      refine ⟨⟨{ s.pool with nFree := 0, nMin := 0, free_head := s.mem s.pool.free_head },
        s.mem, s.pool.free_head :: s.held⟩, ?_, ?_, rfl, rfl, rfl⟩
      · simp [poolStep, QMPool_get, hm, hhead.1, hdec, hce]
      · exact ⟨hs, hbs, hn0, hn, hend, by simp [chainEnd, hce], hperm2⟩
    · obtain ⟨n2, rfl⟩ : ∃ n2, n = n2 + 1 := ⟨n - 1, by omega⟩
      have hnext := blocks_range s.pool _
        (hmemb (s.mem s.pool.free_head) (by simp [freeChain])) hend hs
      refine ⟨⟨⟨s.mem s.pool.free_head, s.pool.start, s.pool.end_, s.pool.blockSize,
          s.pool.nTot, n2 + 1, (if s.pool.nMin > n2 + 1 then n2 + 1 else s.pool.nMin)⟩,
          s.mem, s.pool.free_head :: s.held⟩, ?_, ?_, rfl, rfl, rfl⟩
      · simp only [poolStep, QMPool_get, hm, if_true, hhead.1, if_false, hdec]
        by_cases hmin : s.pool.nMin > n2 + 1 <;> simp [hmin, hnext.2, hhead.1]
      · exact ⟨hs, hbs, hn0, hn, hend, hce, hperm2⟩
  · refine ⟨s, ?_, ⟨hs, hbs, hn0, hn, hend, hce, hperm⟩, rfl, rfl, rfl⟩
    simp [poolStep, QMPool_get, hm]

theorem put_inv (s : PoolState) (b : Nat) (h : PoolInv s) (hb : b ∈ s.held) :
    ∃ s1, poolStep s (.put b) = .ok s1 ∧ PoolInv s1 ∧ s1.pool.nTot = s.pool.nTot ∧
      s1.pool.start = s.pool.start ∧ s1.pool.blockSize = s.pool.blockSize := by
  have hcnt := h.counts
  have hnot := h.held_not_free b hb
  obtain ⟨hs, hbs, hn0, hn, hend, hce, hperm⟩ := h
  have hlen : 0 < s.held.length := List.length_pos_of_mem hb
  have hrange := blocks_range s.pool b (hperm.subset (List.mem_append_right _ hb)) hend hs
  have hinc : u16 (s.pool.nFree + 1) = s.pool.nFree + 1 := by unfold u16; omega
  obtain ⟨hfc, hfe⟩ := freeChain_write s.mem b s.pool.free_head s.pool.free_head s.pool.nFree hnot
  refine ⟨⟨{ s.pool with free_head := b, nFree := s.pool.nFree + 1 },
    s.mem.write b s.pool.free_head, s.held.erase b⟩, ?_, ?_, rfl, rfl, rfl⟩
  · have hlt : s.pool.nFree < s.pool.nTot := by omega
    simp [poolStep, QMPool_put, hlt, hrange.2, hinc]
  · refine ⟨hs, hbs, hn0, hn, hend, ?_, ?_⟩
    · show chainEnd (s.mem.write b s.pool.free_head) b (s.pool.nFree + 1) = 0
      simp only [chainEnd]
      have : (s.mem.write b s.pool.free_head) b = s.pool.free_head := by simp [BlockMem.write]
      rw [this, hfe, hce]
    · show List.Perm (freeChain (s.mem.write b s.pool.free_head) b (s.pool.nFree + 1) ++
        s.held.erase b) s.pool.blocks
      simp only [freeChain]
      have : (s.mem.write b s.pool.free_head) b = s.pool.free_head := by simp [BlockMem.write]
      rw [this, hfc]
      refine List.Perm.trans ?_ hperm
      have h1 : List.Perm (b :: s.held.erase b) s.held := (List.perm_cons_erase hb).symm
      exact List.Perm.trans List.perm_middle.symm (List.Perm.append_left _ h1)

theorem use_inv (s : PoolState) (b v : Nat) (h : PoolInv s) (hb : b ∈ s.held) :
    ∃ s1, poolStep s (.use b v) = .ok s1 ∧ PoolInv s1 ∧ s1.pool.nTot = s.pool.nTot ∧
      s1.pool.start = s.pool.start ∧ s1.pool.blockSize = s.pool.blockSize := by
  have hnot := h.held_not_free b hb
  obtain ⟨hs, hbs, hn0, hn, hend, hce, hperm⟩ := h
  obtain ⟨hfc, hfe⟩ := freeChain_write s.mem b v s.pool.free_head s.pool.nFree hnot
  refine ⟨{ s with mem := s.mem.write b v }, rfl, ⟨hs, hbs, hn0, hn, hend, ?_, ?_⟩, rfl, rfl, rfl⟩
  · show chainEnd (s.mem.write b v) s.pool.free_head s.pool.nFree = 0
    rw [hfe, hce]
  · show List.Perm (freeChain (s.mem.write b v) s.pool.free_head s.pool.nFree ++ s.held) _
    rw [hfc]; exact hperm

theorem runPool_inv (ops : List PoolOp) (s : PoolState) (h : PoolInv s)
    (hal : runAllowed s ops = true) :
    ∃ s1, runPool s ops = .ok s1 ∧ PoolInv s1 ∧ s1.pool.nTot = s.pool.nTot ∧
      s1.pool.start = s.pool.start ∧ s1.pool.blockSize = s.pool.blockSize := by
  induction ops generalizing s with
  | nil => exact ⟨s, rfl, h, rfl, rfl, rfl⟩
  | cons op ops ih =>
    simp only [runAllowed, Bool.and_eq_true] at hal
    obtain ⟨hop, hrest⟩ := hal
    have hstep : ∃ s1, poolStep s op = .ok s1 ∧ PoolInv s1 ∧ s1.pool.nTot = s.pool.nTot ∧
        s1.pool.start = s.pool.start ∧ s1.pool.blockSize = s.pool.blockSize := by
      cases op with
      | get m => exact get_inv s m h
      | put b => exact put_inv s b h (by simpa [opAllowed] using hop)
      | use b v => exact use_inv s b v h (by simpa [opAllowed] using hop)
    obtain ⟨s1, hs1, hinv1, e1, e2, e3⟩ := hstep
    rw [hs1] at hrest
    obtain ⟨s2, hs2, hinv2, f1, f2, f3⟩ := ih s1 hinv1 hrest
    exact ⟨s2, by simp [runPool, hs1, hs2], hinv2, by rw [f1, e1], by rw [f2, e2], by rw [f3, e3]⟩

theorem round_diverge (fuel bs nb target : Nat) (ht : 65532 < target) (h4 : bs % 4 = 0)
    (hb : bs < 65536) : QMPool_init_round fuel bs nb target = .error .timeout := by
  induction fuel generalizing bs nb with
  | zero =>
    have : bs < target := by omega
    simp [QMPool_init_round, this]
  | succ fuel ih =>
    have : bs < target := by omega
    simp only [QMPool_init_round, this, if_true]
    apply ih
    · unfold u16 sizeof_QFreeBlock; omega
    · unfold u16; omega

theorem round_ok (fuel bs nb target : Nat) (ht : target ≤ 65532) (h4 : bs = 4 * nb)
    (h1 : 1 ≤ nb) (hb : bs ≤ 65532) (r : Nat × Nat)
    (h : QMPool_init_round fuel bs nb target = .ok r) :
    r.1 = 4 * r.2 ∧ 1 ≤ r.2 ∧ r.1 ≤ 65532 ∧ target ≤ r.1 := by
  induction fuel generalizing bs nb with
  | zero =>
    by_cases hlt : bs < target
    · simp [QMPool_init_round, hlt] at h
    · simp [QMPool_init_round, hlt] at h
      subst h
      exact ⟨h4, h1, hb, by simpa using hlt⟩
  | succ fuel ih =>
    by_cases hlt : bs < target
    · simp only [QMPool_init_round, hlt, if_true] at h
      have e1 : u16 (bs + u16 sizeof_QFreeBlock) = bs + 4 := by
        unfold u16 sizeof_QFreeBlock; omega
      have e2 : u32 (nb + 1) = nb + 1 := by unfold u32; omega
      rw [e1, e2] at h
      exact ih (bs + 4) (nb + 1) (by omega) (by omega) (by omega) h
    · simp [QMPool_init_round, hlt] at h
      subst h
      exact ⟨h4, h1, hb, by simpa using hlt⟩

theorem round_spec (fuel target : Nat) (r : Nat × Nat)
    (h : QMPool_init_round fuel (u16 sizeof_QFreeBlock) 1 target = .ok r) :
    r.1 = r.2 * sizeof_QFreeBlock ∧ 0 < r.1 ∧ r.1 ≤ 65532 ∧ target ≤ r.1 := by
  have e : u16 sizeof_QFreeBlock = 4 := by decide
  rw [e] at h
  by_cases ht : target ≤ 65532
  · have := round_ok fuel 4 1 target ht (by omega) (by omega) (by omega) r h
    unfold sizeof_QFreeBlock
    omega
  · rw [round_diverge fuel 4 1 target (by omega) (by omega) (by omega)] at h
    cases h

theorem link_spec (fuel ps bs nb fb nTot : Nat) (mem : BlockMem)
    (hbs : nb * sizeof_QFreeBlock = bs) (hpos : 0 < bs) (hn : nTot < 65536)
    (r : Nat × Nat × BlockMem)
    (h : QMPool_init_link fuel ps bs nb fb nTot mem = .ok r) :
    r.1 = fb + (ps / bs) * bs ∧ r.2.1 = (nTot + ps / bs) % 65536 ∧
      (∀ i, i < ps / bs → r.2.2 (fb + i * bs) = fb + (i + 1) * bs) ∧
      (∀ a, a < fb → r.2.2 a = mem a) := by
  induction fuel generalizing ps fb nTot mem with
  | zero =>
    by_cases hge : ps ≥ bs
    · simp [QMPool_init_link, hge] at h
    · simp [QMPool_init_link, hge] at h
      subst h
      have hd : ps / bs = 0 := Nat.div_eq_of_lt (by omega)
      simp [hd, Nat.mod_eq_of_lt hn]
  | succ fuel ih =>
    by_cases hge : ps ≥ bs
    · simp only [QMPool_init_link, hge, if_true, hbs] at h
      obtain ⟨h1, h2, h3, h4⟩ := ih _ _ _ _ (by unfold u16; omega) h
      have hd : ps / bs = (ps - bs) / bs + 1 := by
        rw [Nat.div_eq ps bs, if_pos ⟨hpos, hge⟩]
      rw [hd]
      refine ⟨?_, ?_, ?_, ?_⟩
      · rw [h1, Nat.add_mul]; omega
      · rw [h2]; unfold u16; omega
      · intro i hi
        cases i with
        | zero =>
          have := h4 fb (by omega)
          simp [this, BlockMem.write]
        | succ i =>
          have := h3 i (by omega)
          rw [Nat.add_mul] at this
          rw [Nat.add_mul (i + 1), Nat.add_mul i]
          have e : fb + (i * bs + 1 * bs) = fb + bs + i * bs := by omega
          rw [e, this]; omega
      · intro a ha
        rw [h4 a (by omega)]
        unfold BlockMem.write
        rw [if_neg (by omega)]
    · simp [QMPool_init_link, hge] at h
      subst h
      have hd : ps / bs = 0 := Nat.div_eq_of_lt (by omega)
      simp [hd, Nat.mod_eq_of_lt hn]

theorem chainEnd_succ (mem : BlockMem) (p n : Nat) :
    chainEnd mem p (n + 1) = mem (chainEnd mem p n) := by
  induction n generalizing p with
  | zero => rfl
  | succ n ih =>
    show chainEnd mem (mem p) (n + 1) = mem (chainEnd mem (mem p) n)
    exact ih (mem p)

theorem chain_of_links (mem : BlockMem) (a bs k : Nat)
    (hl : ∀ i, i < k → mem (a + i * bs) = a + (i + 1) * bs) (n j : Nat) (hj : j + n ≤ k + 1) :
    freeChain mem (a + j * bs) n = (List.range n).map (fun i => a + (j + i) * bs) ∧
      (j + n ≤ k → chainEnd mem (a + j * bs) n = a + (j + n) * bs) := by
  induction n generalizing j with
  | zero => exact ⟨rfl, fun _ => rfl⟩
  | succ n ih =>
    by_cases hn : n = 0
    · subst hn
      refine ⟨by simp [freeChain, List.range_succ], ?_⟩
      intro hjk
      simp only [chainEnd]
      exact hl j (by omega)
    · have hjk : j < k := by omega
      obtain ⟨h1, h2⟩ := ih (j + 1) (by omega)
      refine ⟨?_, ?_⟩
      · simp only [freeChain, hl j hjk, h1, List.range_succ_eq_map, List.map_cons,
          List.map_map, Nat.add_zero]
        congr 1
        apply List.map_congr_left
        intro i _
        simp only [Function.comp, Nat.succ_eq_add_one]
        congr 2
        omega
      · intro hle
        simp only [chainEnd, hl j hjk]
        rw [h2 (by omega)]
        congr 2
        omega

theorem init_spec (fuel : Nat) (me : QMPool) (mem : BlockMem) (poolSto poolSize blockSize : Nat)
    (p : QMPool) (m : BlockMem)
    (h : QMPool_init fuel me mem poolSto poolSize blockSize = .ok (p, m)) :
    poolSto ≠ 0 ∧ 0 < p.blockSize ∧ p.blockSize % 4 = 0 ∧ u16 blockSize ≤ p.blockSize ∧
      p.blockSize ≤ poolSize ∧
      p.start = poolSto ∧ p.free_head = poolSto ∧
      p.nTot = (poolSize / p.blockSize) % 65536 ∧ p.nFree = p.nTot ∧ p.nMin = p.nTot ∧
      p.end_ = poolSto + (poolSize / p.blockSize - 1) * p.blockSize ∧
      (∀ i, i < poolSize / p.blockSize - 1 →
        m (poolSto + i * p.blockSize) = poolSto + (i + 1) * p.blockSize) ∧
      m p.end_ = 0 := by
  unfold QMPool_init at h
  split at h
  · cases h
  · rename_i hpre
    simp only [not_not] at hpre
    split at h
    · cases h
    · rename_i bs nb hround
      obtain ⟨r1, r2, r3, r4⟩ := round_spec fuel _ _ hround
      simp only at r1 r2 r3 r4
      dsimp only at h
      split at h
      · cases h
      · rename_i hge
        simp only [not_not] at hge
        split at h
        · cases h
        · rename_i fb nTot m1 hlink
          obtain ⟨l1, l2, l3, l4⟩ := link_spec _ _ _ _ _ _ _ r1.symm r2 (by omega) _ hlink
          simp only at l1 l2 l3 l4
          simp only [Except.ok.injEq, Prod.mk.injEq] at h
          obtain ⟨hp, hm⟩ := h
          subst hp hm
          have hd : poolSize / bs = (poolSize - bs) / bs + 1 := by
            rw [Nat.div_eq poolSize bs, if_pos ⟨r2, hge⟩]
          simp only [hd, Nat.add_sub_cancel]
          refine ⟨hpre.1, r2, ?_, r4, hge, trivial, trivial, ?_, trivial, trivial, l1, ?_, ?_⟩
          · unfold sizeof_QFreeBlock at r1; omega
          · show nTot = _
            rw [l2]; congr 1; omega
          · intro i hi
            have hne : poolSto + i * bs ≠ fb := by
              rw [l1]
              have := Nat.mul_lt_mul_of_pos_right hi r2
              omega
            show (m1.write fb 0) (poolSto + i * bs) = _
            unfold BlockMem.write
            rw [if_neg hne]
            exact l3 i hi
          · show (m1.write fb 0) fb = 0
            simp [BlockMem.write]

theorem init_inv (fuel : Nat) (me : QMPool) (mem : BlockMem) (poolSto poolSize blockSize : Nat)
    (p : QMPool) (m : BlockMem)
    (h : QMPool_init fuel me mem poolSto poolSize blockSize = .ok (p, m))
    (hcap : poolSize / p.blockSize < 65536) :
    PoolInv ⟨p, m, []⟩ ∧ p.nFree = p.nTot := by
  obtain ⟨h0, hbs, -, -, hle, hstart, hhead, hnTot, hnFree, -, hend, hlinks, hlast⟩ :=
    init_spec fuel me mem poolSto poolSize blockSize p m h
  have hpos : 0 < poolSize / p.blockSize := Nat.div_pos hle hbs
  rw [Nat.mod_eq_of_lt hcap] at hnTot
  obtain ⟨k, hk⟩ : ∃ k, poolSize / p.blockSize = k + 1 :=
    ⟨poolSize / p.blockSize - 1, by omega⟩
  rw [hk] at hnTot hend hlinks
  simp only [Nat.add_sub_cancel] at hend hlinks
  have hc1 := chain_of_links m poolSto p.blockSize k hlinks (k + 1) 0 (by omega)
  have hc2 := chain_of_links m poolSto p.blockSize k hlinks k 0 (by omega)
  simp only [Nat.zero_mul, Nat.add_zero, Nat.zero_add] at hc1 hc2
  refine ⟨⟨?_, hbs, ?_, ?_, ?_, ?_, ?_⟩, hnFree⟩
  · show 0 < p.start
    omega
  · show 0 < p.nTot
    omega
  · show p.nTot < 65536
    omega
  · show p.end_ = p.start + (p.nTot - 1) * p.blockSize
    rw [hend, hstart, hnTot, Nat.add_sub_cancel]
  · show chainEnd m p.free_head p.nFree = 0
    rw [hnFree, hnTot, hhead, chainEnd_succ, hc2.2 (by omega), ← hend, hlast]
  · show List.Perm (freeChain m p.free_head p.nFree ++ []) p.blocks
    rw [List.append_nil, hnFree, hnTot, hhead, hc1.1]
    unfold QMPool.blocks
    rw [hnTot, hstart]

theorem round_done (fuel bs nb target : Nat) (h : ¬ bs < target) :
    QMPool_init_round fuel bs nb target = .ok (bs, nb) := by
  cases fuel <;> simp [QMPool_init_round, h]

theorem link_total (fuel ps bs nb fb nTot : Nat) (mem : BlockMem) (hpos : 0 < bs)
    (hf : ps / bs ≤ fuel) : ∃ r, QMPool_init_link fuel ps bs nb fb nTot mem = .ok r := by
  induction fuel generalizing ps fb nTot mem with
  | zero =>
    have hlt : ¬ ps ≥ bs := fun hge => by
      have := Nat.div_pos hge hpos
      omega
    exact ⟨(fb, nTot, mem), by simp only [QMPool_init_link, hlt, if_false]⟩
  | succ fuel ih =>
    by_cases hge : ps ≥ bs
    · simp only [QMPool_init_link, hge, if_true]
      apply ih
      have hd : ps / bs = (ps - bs) / bs + 1 := by
        rw [Nat.div_eq ps bs, if_pos ⟨hpos, hge⟩]
      omega
    · exact ⟨(fb, nTot, mem), by simp only [QMPool_init_link, hge, if_false]⟩

theorem runAllowed_take (ops : List PoolOp) (s : PoolState) (n : Nat)
    (h : runAllowed s ops = true) : runAllowed s (ops.take n) = true := by
  induction ops generalizing s n with
  | nil => simpa using h
  | cons op ops ih =>
    cases n with
    | zero => rfl
    | succ n =>
      simp only [runAllowed, Bool.and_eq_true, List.take_succ_cons] at h ⊢
      refine ⟨h.1, ?_⟩
      have h2 := h.2
      cases hps : poolStep s op with
      | error f => rfl
      | ok s1 =>
        rw [hps] at h2
        exact ih s1 n h2

/-- C10 (amended to pools of at most 65535 blocks, the range of `QMPoolCtr`):
for a pool set up by `QMPool_init` whose buffer holds fewer than 65536 blocks,
every sequence of `QMPool_get`, `QMPool_put` and writes into held blocks, in
which each released or written block is held outside the pool at that moment,
runs without assertion failure, and after every call `nFree` plus the number
of held blocks equals `nTot`, `nFree <= nTot`, and the free list from
`free_head` consists of exactly `nFree` distinct non-null blocks of the pool,
none of them held, followed by null. -/
theorem C10_pool_conservation (fuel : Nat) (me : QMPool) (mem : BlockMem)
    (poolSto poolSize blockSize : Nat) (p : QMPool) (m : BlockMem) (ops : List PoolOp)
    (hinit : QMPool_init fuel me mem poolSto poolSize blockSize = .ok (p, m))
    (hcap : poolSize / p.blockSize < 65536)
    (hops : runAllowed ⟨p, m, []⟩ ops = true) :
    ∀ n, ∃ s, runPool ⟨p, m, []⟩ (ops.take n) = .ok s ∧
      s.pool.nFree + s.held.length = s.pool.nTot ∧ s.pool.nFree ≤ s.pool.nTot ∧
      s.pool.nTot = p.nTot ∧
      (freeChain s.mem s.pool.free_head s.pool.nFree).Nodup ∧
      (∀ b ∈ freeChain s.mem s.pool.free_head s.pool.nFree,
        b ≠ 0 ∧ b ∈ s.pool.blocks ∧ b ∉ s.held) ∧
      chainEnd s.mem s.pool.free_head s.pool.nFree = 0 := by
  intro n
  obtain ⟨hinv, -⟩ := init_inv fuel me mem poolSto poolSize blockSize p m hinit hcap
  obtain ⟨s, hrun, hs, hnT, -, -⟩ :=
    runPool_inv (ops.take n) ⟨p, m, []⟩ hinv (runAllowed_take ops _ n hops)
  have hcnt := hs.counts
  have hnd := hs.nodup
  obtain ⟨h1, -, -, -, h5, h6, h7⟩ := hs
  refine ⟨s, hrun, hcnt, by omega, hnT, (List.nodup_append.mp hnd).1, ?_, h6⟩
  intro b hb
  have hmem : b ∈ s.pool.blocks := h7.subset (List.mem_append_left _ hb)
  exact ⟨(blocks_range s.pool b hmem h5 h1).1, hmem,
    fun hh => (List.nodup_append.mp hnd).2.2 hb hh⟩

theorem C10_pool_conservation_witness :
    QMPool_init 100 ⟨0, 0, 0, 0, 0, 0, 0⟩ (fun _ => 0) 1000 20 7 =
        .ok (⟨1000, 1000, 1008, 8, 2, 2, 2⟩,
          (BlockMem.write (BlockMem.write (fun _ => 0) 1000 1008) 1008 0)) ∧
      20 / (8 : Nat) < 65536 ∧
      runAllowed ⟨⟨1000, 1000, 1008, 8, 2, 2, 2⟩,
        (BlockMem.write (BlockMem.write (fun _ => 0) 1000 1008) 1008 0), []⟩
        [.get 0, .use 1000 77, .get 0, .put 1000, .get 5, .put 1008] = true ∧
      ∀ n, ∃ s, runPool ⟨⟨1000, 1000, 1008, 8, 2, 2, 2⟩,
          (BlockMem.write (BlockMem.write (fun _ => 0) 1000 1008) 1008 0), []⟩
          (List.take n [.get 0, .use 1000 77, .get 0, .put 1000, .get 5, .put 1008]) = .ok s ∧
        s.pool.nFree + s.held.length = s.pool.nTot ∧ s.pool.nFree ≤ s.pool.nTot ∧
        s.pool.nTot = 2 ∧
        (freeChain s.mem s.pool.free_head s.pool.nFree).Nodup ∧
        (∀ b ∈ freeChain s.mem s.pool.free_head s.pool.nFree,
          b ≠ 0 ∧ b ∈ s.pool.blocks ∧ b ∉ s.held) ∧
        chainEnd s.mem s.pool.free_head s.pool.nFree = 0 :=
  ⟨rfl, by decide, rfl,
    C10_pool_conservation 100 ⟨0, 0, 0, 0, 0, 0, 0⟩ (fun _ => 0) 1000 20 7
      ⟨1000, 1000, 1008, 8, 2, 2, 2⟩
      (BlockMem.write (BlockMem.write (fun _ => 0) 1000 1008) 1008 0)
      [.get 0, .use 1000 77, .get 0, .put 1000, .get 5, .put 1008] rfl (by decide) rfl⟩

theorem init_ok_of (fuel : Nat) (me : QMPool) (mem : BlockMem)
    (poolSto poolSize blockSize bs nb fb nTot : Nat) (m1 : BlockMem)
    (hpre : poolSto ≠ 0 ∧ poolSize ≥ sizeof_QFreeBlock ∧
      u32 (blockSize + sizeof_QFreeBlock) > blockSize)
    (hr : QMPool_init_round fuel (u16 sizeof_QFreeBlock) 1 (u16 blockSize) = .ok (bs, nb))
    (hge : poolSize ≥ bs)
    (hl : QMPool_init_link fuel (poolSize - bs) bs nb poolSto 1 mem = .ok (fb, nTot, m1)) :
    QMPool_init fuel me mem poolSto poolSize blockSize =
      .ok (⟨poolSto, poolSto, fb, bs, nTot, nTot, nTot⟩, m1.write fb 0) := by
  unfold QMPool_init
  rw [if_neg (not_not.mpr hpre), hr]
  dsimp only
  rw [if_neg (not_not.mpr hge), hl]

theorem init_chain (fuel : Nat) (me : QMPool) (mem : BlockMem)
    (poolSto poolSize blockSize : Nat) (p : QMPool) (m : BlockMem)
    (h : QMPool_init fuel me mem poolSto poolSize blockSize = .ok (p, m)) :
    p.free_head ≠ 0 ∧ p.nFree = (poolSize / p.blockSize) % 65536 ∧ p.nTot = p.nFree ∧
      (freeChain m p.free_head (poolSize / p.blockSize)).Nodup ∧
      chainEnd m p.free_head (poolSize / p.blockSize) = 0 := by
  obtain ⟨h0, hbs, -, -, hle, hstart, hhead, hnTot, hnFree, -, hend, hlinks, hlast⟩ :=
    init_spec fuel me mem poolSto poolSize blockSize p m h
  have hpos : 0 < poolSize / p.blockSize := Nat.div_pos hle hbs
  obtain ⟨k, hk⟩ : ∃ k, poolSize / p.blockSize = k + 1 :=
    ⟨poolSize / p.blockSize - 1, by omega⟩
  rw [hk] at hend hlinks hnTot
  simp only [Nat.add_sub_cancel] at hend hlinks
  have hc1 := chain_of_links m poolSto p.blockSize k hlinks (k + 1) 0 (by omega)
  have hc2 := chain_of_links m poolSto p.blockSize k hlinks k 0 (by omega)
  simp only [Nat.zero_mul, Nat.add_zero, Nat.zero_add] at hc1 hc2
  rw [hk, hhead]
  refine ⟨h0, by rw [hnFree, hnTot], hnFree.symm, ?_, ?_⟩
  · rw [hc1.1]
    refine List.Nodup.map ?_ (List.nodup_range _)
    intro i j hij
    have h : i * p.blockSize = j * p.blockSize := by simpa using hij
    exact Nat.eq_of_mul_eq_mul_right hbs h
  · rw [chainEnd_succ, hc2.2 (by omega), ← hend, hlast]

/-- C10 (the claim as written fails): a buffer of 262144 bytes cut into 4-byte
blocks holds 65536 blocks, the 16-bit counter `nTot` wraps to 0, and right
after `QMPool_init` the pool has `nFree = 0` while the free list starting at
`free_head` does not end after `nFree` blocks: it runs through 65536 distinct
blocks before reaching null. -/
theorem C10_counterexample :
    ∃ p m, QMPool_init 65536 ⟨0, 0, 0, 0, 0, 0, 0⟩ (fun _ => 0) 1000 262144 4 = .ok (p, m) ∧
      runAllowed ⟨p, m, []⟩ [] = true ∧
      p.nFree = 0 ∧ p.nTot = 0 ∧ chainEnd m p.free_head p.nFree ≠ 0 ∧
      262144 / p.blockSize = 65536 ∧
      (freeChain m p.free_head (262144 / p.blockSize)).Nodup ∧
      chainEnd m p.free_head (262144 / p.blockSize) = 0 := by
  obtain ⟨⟨fb, nTot, m1⟩, hl⟩ :=
    link_total 65536 (262144 - 4) 4 1 1000 1 (fun _ => 0) (by decide) (by decide)
  have hinit := init_ok_of 65536 ⟨0, 0, 0, 0, 0, 0, 0⟩ _ 1000 262144 4 4 1 fb nTot m1
    (by decide) (round_done _ _ _ _ (by decide)) (by decide) hl
  obtain ⟨c1, c2, c3, c4, c5⟩ := init_chain _ _ _ _ _ _ _ _ hinit
  have hdiv : 262144 / (QMPool.mk 1000 1000 fb 4 nTot nTot nTot).blockSize = 65536 :=
    (by decide : 262144 / 4 = 65536)
  have hz : (QMPool.mk 1000 1000 fb 4 nTot nTot nTot).nFree = 0 := by
    rw [c2, hdiv]
  refine ⟨_, _, hinit, rfl, hz, by rw [c3, hz], ?_, hdiv, c4, c5⟩
  rw [hz]
  exact c1

theorem get_ok_cases (me : QMPool) (mem : BlockMem) (margin b : Nat) (p1 : QMPool)
    (h : QMPool_get me mem margin = .ok (b, p1)) :
    (me.nFree > u16 margin ∧ b = me.free_head ∧ b ≠ 0 ∧ p1.nFree = dec16 me.nFree ∧
        p1.free_head = mem b) ∨
      (¬ me.nFree > u16 margin ∧ b = 0 ∧ p1 = me) := by
  unfold QMPool_get at h
  by_cases hm : me.nFree > u16 margin
  · left
    rw [if_pos hm] at h
    dsimp only at h
    by_cases h0 : me.free_head = 0
    · rw [if_pos h0] at h; cases h
    · rw [if_neg h0] at h
      by_cases hz : dec16 me.nFree = 0
      · rw [if_pos hz] at h
        split at h
        · cases h
        · simp only [Except.ok.injEq, Prod.mk.injEq] at h
          obtain ⟨rfl, rfl⟩ := h
          exact ⟨hm, rfl, h0, rfl, rfl⟩
      · rw [if_neg hz] at h
        split at h
        · cases h
        · simp only [Except.ok.injEq, Prod.mk.injEq] at h
          obtain ⟨rfl, rfl⟩ := h
          refine ⟨hm, rfl, h0, ?_, rfl⟩
          split <;> rfl
  · right
    rw [if_neg hm] at h
    simp only [Except.ok.injEq, Prod.mk.injEq] at h
    exact ⟨hm, h.1.symm, h.2.symm⟩

/-- C11 (the claim as written fails): with one free block and margin 0,
`QMPool_get` hands out the block although the free count remaining after the
allocation, 0, is not strictly greater than the margin. -/
theorem C11_counterexample :
    QMPool_get ⟨1008, 1000, 1008, 8, 2, 1, 1⟩ (fun _ => 0) 0 =
        .ok (1008, ⟨0, 1000, 1008, 8, 2, 0, 0⟩) ∧
      ¬ (1 - 1 > 0) := by
  exact ⟨rfl, by decide⟩

/-- C11 (amended: the margin is compared with the free count before the
allocation, and is a value of the counter type `QMPoolCtr`): for every pool
state and every margin `m < 65536`, if `nFree <= m` then `QMPool_get` returns
null and leaves the pool unchanged; if it returns a block then `nFree > m`
held before the call and the free count afterwards is `nFree - 1 >= m`; and
on a consistent pool with `nFree > m` it does return a non-null block. -/
theorem C11_get_margin (me : QMPool) (mem : BlockMem) (margin : Nat) (hm : margin < 65536)
    (hn : me.nFree < 65536) :
    (me.nFree ≤ margin → QMPool_get me mem margin = .ok (0, me)) ∧
      (∀ b p1, QMPool_get me mem margin = .ok (b, p1) → b ≠ 0 →
        me.nFree > margin ∧ p1.nFree + 1 = me.nFree ∧ p1.nFree ≥ margin) ∧
      (∀ held, PoolInv ⟨me, mem, held⟩ → me.nFree > margin →
        ∃ b p1, QMPool_get me mem margin = .ok (b, p1) ∧ b ≠ 0) := by
  have hu : u16 margin = margin := Nat.mod_eq_of_lt hm
  refine ⟨?_, ?_, ?_⟩
  · intro hle
    unfold QMPool_get
    rw [hu, if_neg (by omega)]
  · intro b p1 h hb
    rcases get_ok_cases me mem margin b p1 h with ⟨h1, -, -, h4, -⟩ | ⟨-, h2, -⟩
    · rw [hu] at h1
      rw [h4]
      unfold dec16
      omega
    · exact absurd h2 hb
  · intro held hinv hgt
    obtain ⟨s1, hs1, -⟩ := get_inv ⟨me, mem, held⟩ margin hinv
    simp only [poolStep] at hs1
    cases hg : QMPool_get me mem margin with
    | error f => rw [hg] at hs1; cases hs1
    | ok r =>
      obtain ⟨b, p1⟩ := r
      rcases get_ok_cases me mem margin b p1 hg with ⟨-, -, h3, -, -⟩ | ⟨h1, -, -⟩
      · exact ⟨b, p1, rfl, h3⟩
      · rw [hu] at h1; omega

theorem C11_get_margin_witness :
    (1 : Nat) < 65536 ∧ (QMPool.mk 1000 1000 1008 8 2 2 2).nFree < 65536 ∧
      (((QMPool.mk 1000 1000 1008 8 2 2 2).nFree ≤ 1 →
          QMPool_get ⟨1000, 1000, 1008, 8, 2, 2, 2⟩
            (BlockMem.write (fun _ => 0) 1000 1008) 1 =
            .ok (0, ⟨1000, 1000, 1008, 8, 2, 2, 2⟩)) ∧
        (∀ b p1, QMPool_get ⟨1000, 1000, 1008, 8, 2, 2, 2⟩
            (BlockMem.write (fun _ => 0) 1000 1008) 1 = .ok (b, p1) →
          b ≠ 0 → (QMPool.mk 1000 1000 1008 8 2 2 2).nFree > 1 ∧
            p1.nFree + 1 = (QMPool.mk 1000 1000 1008 8 2 2 2).nFree ∧ p1.nFree ≥ 1) ∧
        (∀ held, PoolInv ⟨⟨1000, 1000, 1008, 8, 2, 2, 2⟩,
            (BlockMem.write (fun _ => 0) 1000 1008), held⟩ →
          (QMPool.mk 1000 1000 1008 8 2 2 2).nFree > 1 →
          ∃ b p1, QMPool_get ⟨1000, 1000, 1008, 8, 2, 2, 2⟩
            (BlockMem.write (fun _ => 0) 1000 1008) 1 = .ok (b, p1) ∧ b ≠ 0)) :=
  ⟨by decide, by decide,
    C11_get_margin ⟨1000, 1000, 1008, 8, 2, 2, 2⟩ (BlockMem.write (fun _ => 0) 1000 1008) 1
      (by decide) (by decide)⟩

/-! ### Dynamic events -/

theorem put_ok (p : QMPool) (mem : BlockMem) (held : List Nat) (b : Nat)
    (h : PoolInv ⟨p, mem, held⟩) (hb : b ∈ held) :
    QMPool_put p mem b =
      .ok ({ p with free_head := b, nFree := p.nFree + 1 }, mem.write b p.free_head) := by
  have hcnt := h.counts
  obtain ⟨hs, hbs, hn0, hn, hend, hce, hperm⟩ := h
  have hlen : 0 < held.length := List.length_pos_of_mem hb
  have hrange := blocks_range p b (hperm.subset (List.mem_append_right _ hb)) hend hs
  simp only at hcnt hn
  have hinc : u16 (p.nFree + 1) = p.nFree + 1 := by unfold u16; omega
  have hlt : p.nFree < p.nTot := by omega
  simp [QMPool_put, hlt, hrange.2, hinc]

theorem get_held (p : QMPool) (mem : BlockMem) (held : List Nat) (margin e : Nat) (p1 : QMPool)
    (h : PoolInv ⟨p, mem, held⟩) (hg : QMPool_get p mem margin = .ok (e, p1)) (he : e ≠ 0) :
    PoolInv ⟨p1, mem, e :: held⟩ := by
  obtain ⟨s1, hs1, hinv1, -⟩ := get_inv ⟨p, mem, held⟩ margin h
  simp only [poolStep, hg, he, if_false] at hs1
  cases hs1
  exact hinv1

theorem scan_spec (pools : List QMPool) (evtSize n idx r : Nat)
    (h : QF_newX_scan pools evtSize n idx = .ok r) :
    idx ≤ r ∧ r ≤ idx + n ∧
      (∀ j, idx ≤ j → j < r → ∃ q, pools[j]? = some q ∧ q.blockSize < evtSize) ∧
      (r < idx + n → ∃ q, pools[r]? = some q ∧ evtSize ≤ q.blockSize) := by
  induction n generalizing idx with
  | zero =>
    simp only [QF_newX_scan, Except.ok.injEq] at h
    subst h
    exact ⟨le_refl _, le_refl _, fun j h1 h2 => by omega, fun h1 => by omega⟩
  | succ n ih =>
    simp only [QF_newX_scan] at h
    cases hp : pools[idx]? with
    | none => rw [hp] at h; cases h
    | some p =>
      rw [hp] at h
      simp only at h
      by_cases hfit : evtSize ≤ p.blockSize
      · rw [if_pos hfit] at h
        simp only [Except.ok.injEq] at h
        subst h
        exact ⟨le_refl _, by omega, fun j h1 h2 => by omega, fun _ => ⟨p, hp, hfit⟩⟩
      · rw [if_neg hfit] at h
        obtain ⟨h1, h2, h3, h4⟩ := ih (idx + 1) h
        refine ⟨by omega, by omega, ?_, fun hr => h4 (by omega)⟩
        intro j hj1 hj2
        by_cases hj : j = idx
        · subst hj
          exact ⟨p, hp, by omega⟩
        · exact h3 j (by omega) hj2

theorem newX_spec (st st1 : QFState) (evtSize margin sig e : Nat)
    (h : QF_newX_ st evtSize margin sig = .ok (e, st1)) :
    ∃ idx p p1, idx < st.QF_maxPool_ ∧ st.QF_pool_[idx]? = some p ∧ evtSize ≤ p.blockSize ∧
      (∀ j, j < idx → ∃ q, st.QF_pool_[j]? = some q ∧ q.blockSize < evtSize) ∧
      QMPool_get p st.bmem (if margin ≠ QF_NO_MARGIN then margin else 0) = .ok (e, p1) ∧
      (e ≠ 0 → st1 =
        { st with QF_pool_ := st.QF_pool_.set idx p1,
                  emem := st.emem.write e (QEvt.mk (u16 sig) (u8 (idx + 1)) 0) }) ∧
      (e = 0 → margin ≠ QF_NO_MARGIN ∧ st1 = { st with QF_pool_ := st.QF_pool_.set idx p1 }) := by
  unfold QF_newX_ at h
  cases hscan : QF_newX_scan st.QF_pool_ evtSize st.QF_maxPool_ 0 with
  | error f => rw [hscan] at h; cases h
  | ok idx =>
    rw [hscan] at h
    simp only at h
    obtain ⟨-, -, s3, s4⟩ := scan_spec _ _ _ _ _ hscan
    by_cases hidx : idx < st.QF_maxPool_
    · rw [if_neg (not_not.mpr hidx)] at h
      obtain ⟨p, hp, hfit⟩ := s4 (by omega)
      rw [hp] at h
      simp only at h
      cases hg : QMPool_get p st.bmem (if margin ≠ QF_NO_MARGIN then margin else 0) with
      | error f => rw [hg] at h; cases h
      | ok r =>
        obtain ⟨e1, p1⟩ := r
        rw [hg] at h
        simp only at h
        by_cases he1 : e1 = 0
        · rw [if_neg (not_not.mpr he1)] at h
          by_cases hm : margin ≠ QF_NO_MARGIN
          · rw [if_neg (not_not.mpr hm)] at h
            simp only [Except.ok.injEq, Prod.mk.injEq] at h
            obtain ⟨rfl, rfl⟩ := h
            exact ⟨idx, p, p1, hidx, hp, hfit, fun j hj => s3 j (by omega) hj, by rw [hg, he1],
              fun hc => absurd rfl hc, fun _ => ⟨hm, rfl⟩⟩
          · rw [if_pos hm] at h; cases h
        · rw [if_pos he1] at h
          simp only [Except.ok.injEq, Prod.mk.injEq] at h
          obtain ⟨rfl, rfl⟩ := h
          exact ⟨idx, p, p1, hidx, hp, hfit, fun j hj => s3 j (by omega) hj, hg,
            fun _ => rfl, fun hc => absurd hc he1⟩
    · rw [if_pos hidx] at h; cases h

theorem newRefN_spec (n : Nat) (st : QFState) (e : Nat) (hp : (st.emem e).poolId_ ≠ 0)
    (hr : (st.emem e).refCtr_ + n ≤ 255) :
    ∃ st2, newRefN n st e = .ok st2 ∧ st2.QF_pool_ = st.QF_pool_ ∧ st2.bmem = st.bmem ∧
      st2.QF_maxPool_ = st.QF_maxPool_ ∧ (st2.emem e).poolId_ = (st.emem e).poolId_ ∧
      (st2.emem e).refCtr_ = (st.emem e).refCtr_ + n := by
  induction n generalizing st with
  | zero => exact ⟨st, rfl, rfl, rfl, rfl, rfl, rfl⟩
  | succ n ih =>
    have h1 : QF_newRef_ st e 0 = .ok (e, { st with emem := QF_EVT_REF_CTR_INC_ st.emem e }) := by
      simp [QF_newRef_, hp]
    have hinc : u8 ((st.emem e).refCtr_ + 1) = (st.emem e).refCtr_ + 1 := by
      unfold u8; omega
    obtain ⟨st2, h2, h3, h4, h5, h6, h7⟩ :=
      ih { st with emem := QF_EVT_REF_CTR_INC_ st.emem e }
        (by simpa [QF_EVT_REF_CTR_INC_] using hp)
        (by simp only [QF_EVT_REF_CTR_INC_, if_true, hinc]; omega)
    refine ⟨st2, by simp only [newRefN, h1, h2], h3, h4, h5, ?_, ?_⟩
    · rw [h6]; simp [QF_EVT_REF_CTR_INC_]
    · rw [h7]; simp only [QF_EVT_REF_CTR_INC_, if_true, hinc]; omega

theorem gcN_succ (n : Nat) (st : QFState) (e : Nat) :
    gcN (n + 1) st e =
      match gcN n st e with
      | .error f => .error f
      | .ok s => QF_gc s e := by
  induction n generalizing st with
  | zero =>
    simp only [gcN]
    cases QF_gc st e <;> rfl
  | succ n ih =>
    rw [gcN]
    cases h : QF_gc st e with
    | error f => simp only [gcN, h]
    | ok s => simp only [ih s]; conv_rhs => rw [gcN, h]

theorem gcN_dec (j : Nat) (st : QFState) (e : Nat) (hp : (st.emem e).poolId_ ≠ 0)
    (hr : j < (st.emem e).refCtr_) (h255 : (st.emem e).refCtr_ ≤ 255) :
    ∃ st3, gcN j st e = .ok st3 ∧ st3.QF_pool_ = st.QF_pool_ ∧ st3.bmem = st.bmem ∧
      st3.QF_maxPool_ = st.QF_maxPool_ ∧ (st3.emem e).poolId_ = (st.emem e).poolId_ ∧
      (st3.emem e).refCtr_ = (st.emem e).refCtr_ - j := by
  induction j generalizing st with
  | zero => exact ⟨st, rfl, rfl, rfl, rfl, rfl, rfl⟩
  | succ j ih =>
    have hgt : (st.emem e).refCtr_ > 1 := by omega
    have h1 : QF_gc st e = .ok { st with emem := QF_EVT_REF_CTR_DEC_ st.emem e } := by
      simp [QF_gc, hp, hgt]
    have hdec : dec8 (st.emem e).refCtr_ = (st.emem e).refCtr_ - 1 := by
      unfold dec8; omega
    obtain ⟨st3, h2, h3, h4, h5, h6, h7⟩ :=
      ih { st with emem := QF_EVT_REF_CTR_DEC_ st.emem e }
        (by simpa [QF_EVT_REF_CTR_DEC_] using hp)
        (by simp only [QF_EVT_REF_CTR_DEC_, if_true, hdec]; omega)
        (by simp only [QF_EVT_REF_CTR_DEC_, if_true, hdec]; omega)
    refine ⟨st3, by simp only [gcN, h1, h2], h3, h4, h5, ?_, ?_⟩
    · rw [h6]; simp [QF_EVT_REF_CTR_DEC_]
    · rw [h7]; simp only [QF_EVT_REF_CTR_DEC_, if_true, hdec]; omega

theorem gc_free (st : QFState) (e idx : Nat) (p : QMPool) (held : List Nat)
    (hp : (st.emem e).poolId_ = idx + 1) (hr : (st.emem e).refCtr_ ≤ 1)
    (hidx : idx < st.QF_maxPool_) (hpool : st.QF_pool_[idx]? = some p)
    (hinv : PoolInv ⟨p, st.bmem, held⟩) (hb : e ∈ held) :
    QF_gc st e = .ok { st with
      QF_pool_ := st.QF_pool_.set idx { p with free_head := e, nFree := p.nFree + 1 },
      bmem := st.bmem.write e p.free_head } := by
  have hput := put_ok p st.bmem held e hinv hb
  have hgt : ¬ (st.emem e).refCtr_ > 1 := by omega
  simp [QF_gc, hp, hgt, hidx, hpool, hput]

theorem gcN_keep (j : Nat) (st : QFState) (e : Nat) (hp : (st.emem e).poolId_ ≠ 0)
    (h255 : (st.emem e).refCtr_ ≤ 255) (hj : j < max (st.emem e).refCtr_ 1) :
    ∃ st3, gcN j st e = .ok st3 ∧ st3.QF_pool_ = st.QF_pool_ ∧ st3.bmem = st.bmem ∧
      st3.QF_maxPool_ = st.QF_maxPool_ ∧ (st3.emem e).poolId_ = (st.emem e).poolId_ ∧
      (st3.emem e).refCtr_ = (st.emem e).refCtr_ - j := by
  by_cases h0 : (st.emem e).refCtr_ = 0
  · have hj0 : j = 0 := by omega
    subst hj0
    exact ⟨st, rfl, rfl, rfl, rfl, rfl, rfl⟩
  · exact gcN_dec j st e hp (by omega) h255

/-- C2 (the claim as written fails for K = 1): a freshly allocated event has
reference count 0; after one `QF_newRef_` the count is 1, and the first
`QF_gc` call (fewer than K + 1 = 2 calls) already returns the block to its
pool: the pool has both blocks free again and the block heads the free list. -/
theorem C2_counterexample :
    ∃ st2 st3, QF_newX_ exampleState 8 0 5 = .ok (1000, exampleState1) ∧
      (exampleState1.emem 1000).refCtr_ = 0 ∧
      newRefN 1 exampleState1 1000 = .ok st2 ∧ gcN 1 st2 1000 = .ok st3 ∧
      exampleState1.QF_pool_[0]? = some ⟨1008, 1000, 1008, 8, 2, 1, 1⟩ ∧
      st3.QF_pool_[0]? = some ⟨1000, 1000, 1008, 8, 2, 2, 1⟩ :=
  ⟨_, _, rfl, rfl, rfl, rfl, rfl, rfl⟩

/-- C2 (amended: the block is returned by call number max(K, 1), for K up to
255, the range of the 8-bit reference counter): after `QF_newX_` returned a
non-null event `e` from a consistent pool (reference count 0) and `K`
calls of `QF_newRef_`, the reference count is `K`; the first `max K 1 - 1`
calls of `QF_gc` leave every pool and the block memory as they were after the
allocation (the block is not on the free list), and call number `max K 1`
puts the block at the head of the free list of its pool and increments that
pool's free count. -/
theorem C2_gc_after_refs (st st1 : QFState) (evtSize margin sig e K : Nat)
    (hlen : st.QF_pool_.length = QF_MAX_EPOOL)
    (hinv : ∀ i p, i < st.QF_maxPool_ → st.QF_pool_[i]? = some p →
      ∃ held, PoolInv ⟨p, st.bmem, held⟩)
    (hnew : QF_newX_ st evtSize margin sig = .ok (e, st1)) (he : e ≠ 0) (hK : K ≤ 255) :
    ∃ st2 idx p1, newRefN K st1 e = .ok st2 ∧
      (st1.emem e).refCtr_ = 0 ∧ (st2.emem e).refCtr_ = K ∧
      (st1.emem e).poolId_ = idx + 1 ∧ st1.QF_pool_[idx]? = some p1 ∧
      e ∉ freeChain st1.bmem p1.free_head p1.nFree ∧
      (∀ j, j < max K 1 → ∃ st3, gcN j st2 e = .ok st3 ∧
        st3.QF_pool_ = st1.QF_pool_ ∧ st3.bmem = st1.bmem) ∧
      ∃ st4, gcN (max K 1) st2 e = .ok st4 ∧
        st4.QF_pool_ = st1.QF_pool_.set idx { p1 with free_head := e, nFree := p1.nFree + 1 } ∧
        st4.bmem = st1.bmem.write e p1.free_head := by
  obtain ⟨idx, p, p1, hidx, hp, -, -, hg, hst1, -⟩ := newX_spec st st1 evtSize margin sig e hnew
  have hst1 := hst1 he
  subst hst1
  obtain ⟨held, hinv0⟩ := hinv idx p hidx hp
  have hinv1 := get_held p st.bmem held _ e p1 hinv0 hg he
  have hil : idx < st.QF_pool_.length := by
    rcases List.getElem?_eq_some_iff.mp hp with ⟨h, -⟩
    exact h
  have hi3 : idx < 3 := by rw [hlen] at hil; exact hil
  have hu8 : u8 (idx + 1) = idx + 1 := by unfold u8; omega
  have hpool1 : (st.QF_pool_.set idx p1)[idx]? = some p1 := by
    simp [List.getElem?_set, hil]
  have hev : (st.emem.write e (QEvt.mk (u16 sig) (u8 (idx + 1)) 0)) e =
      QEvt.mk (u16 sig) (idx + 1) 0 := by
    simp [EvtMem.write, hu8]
  obtain ⟨st2, r1, r2, r3, r4, r5, r6⟩ :=
    newRefN_spec K { st with QF_pool_ := st.QF_pool_.set idx p1,
                             emem := st.emem.write e (QEvt.mk (u16 sig) (u8 (idx + 1)) 0) } e
      (by simp only [hev]; omega) (by simp only [hev]; omega)
  simp only [hev] at r5 r6
  simp only at r2 r3 r4
  have hr6 : (st2.emem e).refCtr_ = K := by omega
  refine ⟨st2, idx, p1, r1, by simp only [hev], hr6, by simp only [hev], hpool1,
    hinv1.held_not_free e (List.mem_cons_self _ _), ?_, ?_⟩
  · intro j hj
    obtain ⟨st3, g1, g2, g3, -⟩ :=
      gcN_keep j st2 e (by rw [r5]; omega) (by omega) (by rw [hr6]; exact hj)
    exact ⟨st3, g1, by rw [g2, r2], by rw [g3, r3]⟩
  · obtain ⟨st3, g1, g2, g3, g4, g5, g6⟩ :=
      gcN_keep (max K 1 - 1) st2 e (by rw [r5]; omega) (by omega) (by rw [hr6]; omega)
    have hm : max K 1 = (max K 1 - 1) + 1 := by omega
    have hfree := gc_free st3 e idx p1 (e :: held) (by rw [g5, r5]) (by rw [g6, hr6]; omega)
      (by rw [g4, r4]; exact hidx) (by rw [g2, r2]; exact hpool1)
      (by rw [g3, r3]; exact hinv1) (List.mem_cons_self _ _)
    refine ⟨_, by rw [hm, gcN_succ, g1]; exact hfree, ?_, ?_⟩
    · show st3.QF_pool_.set idx _ = _
      rw [g2, r2]
    · show st3.bmem.write e p1.free_head = _
      rw [g3, r3]

theorem C2_gc_after_refs_witness :
    exampleState.QF_pool_.length = QF_MAX_EPOOL ∧
      (∀ i p, i < exampleState.QF_maxPool_ → exampleState.QF_pool_[i]? = some p →
        ∃ held, PoolInv ⟨p, exampleState.bmem, held⟩) ∧
      QF_newX_ exampleState 8 0 5 = .ok (1000, exampleState1) ∧ 1000 ≠ 0 ∧ 3 ≤ 255 ∧
      ∃ st2 idx p1, newRefN 3 exampleState1 1000 = .ok st2 ∧
        (exampleState1.emem 1000).refCtr_ = 0 ∧ (st2.emem 1000).refCtr_ = 3 ∧
        (exampleState1.emem 1000).poolId_ = idx + 1 ∧ exampleState1.QF_pool_[idx]? = some p1 ∧
        1000 ∉ freeChain exampleState1.bmem p1.free_head p1.nFree ∧
        (∀ j, j < max 3 1 → ∃ st3, gcN j st2 1000 = .ok st3 ∧
          st3.QF_pool_ = exampleState1.QF_pool_ ∧ st3.bmem = exampleState1.bmem) ∧
        ∃ st4, gcN (max 3 1) st2 1000 = .ok st4 ∧
          st4.QF_pool_ = exampleState1.QF_pool_.set idx
            { p1 with free_head := 1000, nFree := p1.nFree + 1 } ∧
          st4.bmem = exampleState1.bmem.write 1000 p1.free_head :=
  have hinv : ∀ i p, i < exampleState.QF_maxPool_ → exampleState.QF_pool_[i]? = some p →
      ∃ held, PoolInv ⟨p, exampleState.bmem, held⟩ := by
    intro i p hi hp
    have hi0 : i = 0 := by
      have : exampleState.QF_maxPool_ = 1 := rfl
      omega
    subst hi0
    have hp0 : p = ⟨1000, 1000, 1008, 8, 2, 2, 2⟩ := by
      have h0 : exampleState.QF_pool_[0]? = some ⟨1000, 1000, 1008, 8, 2, 2, 2⟩ := rfl
      rw [h0] at hp
      exact (Option.some.inj hp).symm
    subst hp0
    refine ⟨[], ?_⟩
    unfold PoolInv
    refine ⟨by decide, by decide, by decide, by decide, by decide, by decide, ?_⟩
    decide
  ⟨rfl, hinv, rfl, by decide, by decide,
    C2_gc_after_refs exampleState exampleState1 8 0 5 1000 3 rfl hinv rfl (by decide)
      (by decide)⟩

theorem poolInit_spec (fuel : Nat) (st st1 : QFState) (poolSto poolSize evtSize : Nat)
    (h : QF_poolInit fuel st poolSto poolSize evtSize = .ok st1) :
    st.QF_maxPool_ < QF_MAX_EPOOL ∧
      (st.QF_maxPool_ ≠ 0 →
        ∃ q, st.QF_pool_[st.QF_maxPool_ - 1]? = some q ∧ q.blockSize < evtSize) ∧
      ∃ p p1 bmem1, st.QF_pool_[st.QF_maxPool_]? = some p ∧
        QMPool_init fuel p st.bmem poolSto poolSize evtSize = .ok (p1, bmem1) ∧
        st1 = { st with QF_pool_ := st.QF_pool_.set st.QF_maxPool_ p1, bmem := bmem1,
                        QF_maxPool_ := st.QF_maxPool_ + 1 } := by
  unfold QF_poolInit at h
  by_cases hmax : st.QF_maxPool_ < QF_MAX_EPOOL
  · rw [if_neg (not_not.mpr hmax)] at h
    split at h
    · cases h
    · cases h
    · rename_i hord
      cases hp : st.QF_pool_[st.QF_maxPool_]? with
      | none => rw [hp] at h; cases h
      | some p =>
        rw [hp] at h
        simp only at h
        cases hinit : QMPool_init fuel p st.bmem poolSto poolSize evtSize with
        | error f => rw [hinit] at h; cases h
        | ok r =>
          obtain ⟨p1, bmem1⟩ := r
          rw [hinit] at h
          simp only [Except.ok.injEq] at h
          refine ⟨hmax, ?_, p, p1, bmem1, rfl, hinit, h.symm⟩
          intro h0
          rw [if_neg h0] at hord
          cases hq : st.QF_pool_[st.QF_maxPool_ - 1]? with
          | none => rw [hq] at hord; cases hord
          | some q =>
            rw [hq] at hord
            simp only [Option.map_some', Option.some.injEq, decide_eq_true_eq] at hord
            exact ⟨q, rfl, hord⟩
  · rw [if_pos hmax] at h; cases h

theorem poolInit_ascending (fuel : Nat) (st st1 : QFState) (poolSto poolSize evtSize : Nat)
    (hasc : PoolsAscending st) (he : evtSize < 65536)
    (h : QF_poolInit fuel st poolSto poolSize evtSize = .ok st1) : PoolsAscending st1 := by
  obtain ⟨hmax, hprev, p, p1, bmem1, hp, hinit, rfl⟩ := poolInit_spec _ _ _ _ _ _ h
  obtain ⟨-, -, -, hge, -⟩ := init_spec _ _ _ _ _ _ _ _ hinit
  have hu : u16 evtSize = evtSize := Nat.mod_eq_of_lt he
  rw [hu] at hge
  have hlen : st.QF_maxPool_ < st.QF_pool_.length := by
    rcases List.getElem?_eq_some_iff.mp hp with ⟨h, -⟩
    exact h
  intro i j a b hij hj ha hb
  simp only at hj ha hb
  have hai : st.QF_pool_[i]? = some a := by
    rw [List.getElem?_set_ne (by omega)] at ha
    exact ha
  by_cases hjm : j = st.QF_maxPool_
  · subst hjm
    rw [List.getElem?_set_self hlen] at hb
    cases hb
    obtain ⟨q, hq, hqlt⟩ := hprev (by omega)
    by_cases hi : i = st.QF_maxPool_ - 1
    · subst hi
      rw [hq] at hai
      cases hai
      omega
    · have := hasc i (st.QF_maxPool_ - 1) a q (by omega) (by omega) hai hq
      omega
  · rw [List.getElem?_set_ne (by omega)] at hb
    exact hasc i j a b hij (by omega) hai hb

theorem runPoolInit_ascending (fuel : Nat) (regs : List (Nat × Nat × Nat)) (st st1 : QFState)
    (hasc : PoolsAscending st) (he : ∀ r ∈ regs, r.2.2 < 65536)
    (h : runPoolInit fuel st regs = .ok st1) : PoolsAscending st1 := by
  induction regs generalizing st with
  | nil =>
    simp only [runPoolInit, Except.ok.injEq] at h
    subst h
    exact hasc
  | cons r rs ih =>
    obtain ⟨poolSto, poolSize, evtSize⟩ := r
    simp only [runPoolInit] at h
    cases hs : QF_poolInit fuel st poolSto poolSize evtSize with
    | error f => rw [hs] at h; cases h
    | ok s =>
      rw [hs] at h
      exact ih s (poolInit_ascending fuel st s poolSto poolSize evtSize hasc
        (he (poolSto, poolSize, evtSize) (List.mem_cons_self _ _)) hs)
        (fun r hr => he r (List.mem_cons_of_mem _ hr)) h

theorem runPoolInit_max (fuel : Nat) (regs : List (Nat × Nat × Nat)) (st st1 : QFState)
    (hm : st.QF_maxPool_ ≤ QF_MAX_EPOOL) (h : runPoolInit fuel st regs = .ok st1) :
    st1.QF_maxPool_ ≤ QF_MAX_EPOOL := by
  induction regs generalizing st with
  | nil =>
    simp only [runPoolInit, Except.ok.injEq] at h
    subst h
    exact hm
  | cons r rs ih =>
    obtain ⟨poolSto, poolSize, evtSize⟩ := r
    simp only [runPoolInit] at h
    cases hs : QF_poolInit fuel st poolSto poolSize evtSize with
    | error f => rw [hs] at h; cases h
    | ok s =>
      rw [hs] at h
      obtain ⟨hlt, -, p, p1, bm, -, -, rfl⟩ := poolInit_spec _ _ _ _ _ _ hs
      exact ih _ (by show st.QF_maxPool_ + 1 ≤ QF_MAX_EPOOL; omega) h

/-- C16 (the claim as written fails): registering a first pool for event size
7 (block size 8) and a second pool for event size 65540 passes the ascending
order check of `QF_poolInit`, but `QMPool_init` truncates the size to 16 bits
and sets up 4-byte blocks. A request for 3 bytes is then served from the
first pool (block size 8, pool id 1), although the registered pool with the
smallest block size that fits is the second one (block size 4). -/
theorem C16_counterexample :
    ∃ st st1, runPoolInit 100 QFState.start [(1000, 20, 7), (2000, 64, 65540)] = .ok st ∧
      QF_newX_ st 3 0 5 = .ok (1000, st1) ∧
      st.QF_maxPool_ = 2 ∧
      st.QF_pool_[0]? = some ⟨1000, 1000, 1008, 8, 2, 2, 2⟩ ∧
      st.QF_pool_[1]? = some ⟨2000, 2000, 2060, 4, 16, 16, 16⟩ ∧
      st1.emem 1000 = ⟨5, 1, 0⟩ ∧ 3 ≤ 4 ∧ 4 < 8 :=
  ⟨_, _, rfl, rfl, rfl, rfl, rfl, rfl, by decide, by decide⟩

/-- C16 (amended: the pools are registered with event sizes representable in
`QMPoolSize`, i.e. below 65536, and the signal is a `QSignal` value): if the
pools were registered by a sequence of `QF_poolInit` calls starting with no
pool registered, and `QF_newX_` returns a non-null event, then the event is
the head block of a registered pool that fits the requested size, no
registered pool that fits has a smaller block size, only that pool changed,
and the event has the given signal, the 1-based index of that pool as
`poolId_`, and reference count 0. -/
theorem C16_newX_pool (fuel : Nat) (st0 st st1 : QFState) (regs : List (Nat × Nat × Nat))
    (evtSize margin sig e : Nat)
    (h0 : st0.QF_maxPool_ = 0)
    (hsz : ∀ r ∈ regs, r.2.2 < 65536)
    (hreg : runPoolInit fuel st0 regs = .ok st)
    (hsig : sig < 65536)
    (hnew : QF_newX_ st evtSize margin sig = .ok (e, st1)) (he : e ≠ 0) :
    ∃ idx p p1, idx < st.QF_maxPool_ ∧ st.QF_pool_[idx]? = some p ∧
      evtSize ≤ p.blockSize ∧
      (∀ j q, j < st.QF_maxPool_ → st.QF_pool_[j]? = some q → evtSize ≤ q.blockSize →
        p.blockSize ≤ q.blockSize) ∧
      e = p.free_head ∧ st1.QF_pool_ = st.QF_pool_.set idx p1 ∧
      p1.nFree = dec16 p.nFree ∧
      st1.emem e = ⟨sig, idx + 1, 0⟩ := by
  have hasc0 : PoolsAscending st0 := by
    intro i j p q _ hj
    rw [h0] at hj
    omega
  have hasc := runPoolInit_ascending fuel regs st0 st hasc0 hsz hreg
  obtain ⟨idx, p, p1, hidx, hp, hfit, hsm, hg, hst1, -⟩ :=
    newX_spec st st1 evtSize margin sig e hnew
  have hst1 := hst1 he
  subst hst1
  have hmax : st.QF_maxPool_ ≤ QF_MAX_EPOOL :=
    runPoolInit_max fuel regs st0 st (by rw [h0]; exact Nat.zero_le _) hreg
  have hu8 : u8 (idx + 1) = idx + 1 := by
    unfold QF_MAX_EPOOL at hmax
    unfold u8
    omega
  have hu16 : u16 sig = sig := Nat.mod_eq_of_lt hsig
  rcases get_ok_cases p st.bmem _ e p1 hg with hc | hc
  · refine ⟨idx, p, p1, hidx, hp, hfit, ?_, hc.2.1, rfl, hc.2.2.2.1, ?_⟩
    · intro j q hj hq hqfit
      by_cases hji : j < idx
      · obtain ⟨q2, hq2, hlt⟩ := hsm j hji
        rw [hq] at hq2
        cases hq2
        omega
      · by_cases hje : j = idx
        · subst hje
          rw [hp] at hq
          cases hq
          exact le_refl _
        · exact Nat.le_of_lt (hasc idx j p q (by omega) hj hp hq)
    · show (st.emem.write e (QEvt.mk (u16 sig) (u8 (idx + 1)) 0)) e = _
      simp [EvtMem.write, hu8, hu16]
  · exact absurd hc.2.1 he

theorem C16_newX_pool_witness :
    QFState.start.QF_maxPool_ = 0 ∧
      (∀ r ∈ [((1000 : Nat), (20 : Nat), (7 : Nat))], r.2.2 < 65536) ∧
      runPoolInit 100 QFState.start [(1000, 20, 7)] = .ok exampleState ∧
      (5 : Nat) < 65536 ∧
      QF_newX_ exampleState 8 0 5 = .ok (1000, exampleState1) ∧ 1000 ≠ 0 ∧
      ∃ idx p p1, idx < exampleState.QF_maxPool_ ∧ exampleState.QF_pool_[idx]? = some p ∧
        8 ≤ p.blockSize ∧
        (∀ j q, j < exampleState.QF_maxPool_ → exampleState.QF_pool_[j]? = some q →
          8 ≤ q.blockSize → p.blockSize ≤ q.blockSize) ∧
        1000 = p.free_head ∧ exampleState1.QF_pool_ = exampleState.QF_pool_.set idx p1 ∧
        p1.nFree = dec16 p.nFree ∧
        exampleState1.emem 1000 = ⟨5, idx + 1, 0⟩ :=
  ⟨rfl, by decide, rfl, by decide, rfl, by decide,
    C16_newX_pool 100 QFState.start exampleState exampleState1 [(1000, 20, 7)] 8 0 5 1000
      rfl (by decide) rfl (by decide) rfl (by decide)⟩

/-! ### Active object queue -/

theorem QActive_post_ok (st : QFState) (me e margin : Nat) (q1 : QEQueue) (mem1 : EvtMem)
    (h : QEQueue_post (st.aobj me).eQueue st.emem e margin = .ok (true, q1, mem1)) :
    QActive_post_ st me e margin = .ok (true,
      { st with emem := mem1,
                aobj := Function.update st.aobj me { st.aobj me with eQueue := q1 },
                QV_readySet_ := if (st.aobj me).eQueue.frontEvt = 0 then
                  QPSet_insert st.QV_readySet_ (st.aobj me).prio else st.QV_readySet_ }) := by
  unfold QEQueue_post at h
  unfold QActive_post_
  by_cases he : e = 0
  · rw [if_pos he] at h; cases h
  · rw [if_neg he] at h
    rw [if_neg he]
    dsimp only at h ⊢
    by_cases hc : (margin = QF_NO_MARGIN ∧ (st.aobj me).eQueue.nFree > 0) ∨
        (st.aobj me).eQueue.nFree > u8 margin
    · rw [if_pos hc] at h
      have hstat : (if margin = QF_NO_MARGIN then
          (if (st.aobj me).eQueue.nFree > 0 then Except.ok true
            else Except.error (Fault.assertion .qf_actq 110))
          else if (st.aobj me).eQueue.nFree > u8 margin then Except.ok true
            else Except.ok false) = (Except.ok true : Except Fault Bool) := by
        by_cases hm : margin = QF_NO_MARGIN
        · have : (st.aobj me).eQueue.nFree > 0 := by
            rcases hc with hc | hc
            · exact hc.2
            · omega
          simp [hm, this]
        · have : (st.aobj me).eQueue.nFree > u8 margin := by
            rcases hc with hc | hc
            · exact absurd hc.1 hm
            · exact hc
          simp [hm, this]
      rw [hstat]
      dsimp only
      rw [if_pos rfl]
      by_cases hp : (st.emem e).poolId_ ≠ 0 <;>
      by_cases hmin : (st.aobj me).eQueue.nMin > dec8 (st.aobj me).eQueue.nFree <;>
      by_cases hf : (st.aobj me).eQueue.frontEvt = 0 <;>
      simp only [hp, hmin, hf, if_true, if_false, not_true_eq_false, not_false_eq_true,
        ne_eq] at h ⊢
      all_goals first
        | (simp only [Except.ok.injEq, Prod.mk.injEq, true_and] at h
           obtain ⟨rfl, rfl⟩ := h
           rfl)
        | (cases hw : ringWrite (st.aobj me).eQueue.ring (st.aobj me).eQueue.head e with
           | error f => rw [hw] at h; cases h
           | ok ring =>
             rw [hw] at h
             dsimp only at h ⊢
             by_cases hh : (st.aobj me).eQueue.head = 0 <;>
             simp only [hh, if_true, if_false] at h ⊢ <;>
             (simp only [Except.ok.injEq, Prod.mk.injEq, true_and] at h
              obtain ⟨rfl, rfl⟩ := h
              rfl))
    · rw [if_neg hc] at h
      split at h <;> cases h

theorem get_some (p : QMPool) (mem : BlockMem) (held : List Nat) (margin : Nat)
    (hinv : PoolInv ⟨p, mem, held⟩) (hgt : p.nFree > u16 margin) :
    ∃ b p1, QMPool_get p mem margin = .ok (b, p1) ∧ b ≠ 0 := by
  obtain ⟨s1, hs1, -⟩ := get_inv ⟨p, mem, held⟩ margin hinv
  simp only [poolStep] at hs1
  cases hg : QMPool_get p mem margin with
  | error f => rw [hg] at hs1; cases hs1
  | ok r =>
    obtain ⟨b, p1⟩ := r
    rcases get_ok_cases p mem margin b p1 hg with ⟨-, -, h3, -, -⟩ | ⟨h1, -, -⟩
    · exact ⟨b, p1, rfl, h3⟩
    · exact absurd hgt h1

theorem get_none (p : QMPool) (mem : BlockMem) (margin : Nat) (hle : p.nFree ≤ u16 margin) :
    QMPool_get p mem margin = .ok (0, p) := by
  unfold QMPool_get
  rw [if_neg (by omega)]

theorem post_fail (st : QFState) (me e margin : Nat) (he : e ≠ 0) (hm : margin ≠ QF_NO_MARGIN)
    (hle : (st.aobj me).eQueue.nFree ≤ u8 margin)
    (hev : (st.emem e).poolId_ = 0 ∨
      (1 ≤ (st.emem e).refCtr_ ∧ (st.emem e).refCtr_ < 255) ∨
      ∃ idx p held, (st.emem e).poolId_ = idx + 1 ∧ (st.emem e).refCtr_ = 0 ∧
        idx < st.QF_maxPool_ ∧ st.QF_pool_[idx]? = some p ∧ PoolInv ⟨p, st.bmem, held⟩ ∧
        e ∈ held) :
    ∃ st1, QActive_post_ st me e margin = .ok (false, st1) := by
  unfold QActive_post_
  rw [if_neg he]
  dsimp only
  rw [if_neg hm, if_neg (by omega)]
  dsimp only
  by_cases hp : (st.emem e).poolId_ = 0
  · have hg : QF_gc st e = .ok st := by simp [QF_gc, hp]
    simp [hp, hg]
  · rw [if_pos hp]
    simp only [Bool.false_eq_true, if_false]
    rcases hev with h0 | ⟨h1, h2⟩ | ⟨idx, p, held, h1, h2, h3, h4, h5, h6⟩
    · exact absurd h0 hp
    · have hinc : u8 ((st.emem e).refCtr_ + 1) = (st.emem e).refCtr_ + 1 := by
        unfold u8; omega
      have hg : QF_gc { st with emem := QF_EVT_REF_CTR_INC_ st.emem e } e =
          .ok { st with emem := QF_EVT_REF_CTR_DEC_ (QF_EVT_REF_CTR_INC_ st.emem e) e } := by
        have h3 : (QF_EVT_REF_CTR_INC_ st.emem e e).refCtr_ > 1 := by
          simp only [QF_EVT_REF_CTR_INC_, if_true, hinc]; omega
        have h4 : (QF_EVT_REF_CTR_INC_ st.emem e e).poolId_ ≠ 0 := by
          simpa [QF_EVT_REF_CTR_INC_] using hp
        simp [QF_gc, h3, h4]
      rw [hg]
      exact ⟨_, rfl⟩
    · have hg := gc_free { st with emem := QF_EVT_REF_CTR_INC_ st.emem e } e idx p held
        (by simpa [QF_EVT_REF_CTR_INC_] using h1)
        (by simp only [QF_EVT_REF_CTR_INC_, if_true, h2]; decide) h3 h4 h5 h6
      rw [hg]
      exact ⟨_, rfl⟩

/-- C17: under `QF_NO_MARGIN`, `QEQueue_post` and `QActive_post_` return true
when the (consistent) queue has a free slot and otherwise fail assertion 210
resp. 110; `QF_newX_` returns a non-null event when the selected (consistent)
pool has a free block and otherwise fails assertion 320. With any other
margin `m`, a queue whose free count does not exceed `m` (in particular a
full queue) makes both post operations return false, and a pool whose free
count does not exceed `m` (in particular an exhausted pool) makes `QF_newX_`
return null, without any assertion. -/
theorem C17_no_margin (st : QFState) (q : QEQueue) (mem : EvtMem)
    (me e evtSize sig m idx : Nat) (p : QMPool) (held : List Nat)
    (he : e ≠ 0) (hq : q.WF) (ha : (st.aobj me).eQueue.WF)
    (hev : (st.emem e).poolId_ = 0 ∨
      (1 ≤ (st.emem e).refCtr_ ∧ (st.emem e).refCtr_ < 255) ∨
      ∃ idx p held, (st.emem e).poolId_ = idx + 1 ∧ (st.emem e).refCtr_ = 0 ∧
        idx < st.QF_maxPool_ ∧ st.QF_pool_[idx]? = some p ∧ PoolInv ⟨p, st.bmem, held⟩ ∧
        e ∈ held)
    (hscan : QF_newX_scan st.QF_pool_ evtSize st.QF_maxPool_ 0 = .ok idx)
    (hidx : idx < st.QF_maxPool_) (hp : st.QF_pool_[idx]? = some p)
    (hinv : PoolInv ⟨p, st.bmem, held⟩) (hm : m ≠ QF_NO_MARGIN) :
    (q.nFree > 0 → ∃ q1 mem1, QEQueue_post q mem e QF_NO_MARGIN = .ok (true, q1, mem1)) ∧
    (q.nFree = 0 → QEQueue_post q mem e QF_NO_MARGIN = .error (.assertion .qf_qeq 210)) ∧
    (q.nFree ≤ u8 m → QEQueue_post q mem e m = .ok (false, q, mem)) ∧
    ((st.aobj me).eQueue.nFree > 0 →
      ∃ st1, QActive_post_ st me e QF_NO_MARGIN = .ok (true, st1)) ∧
    ((st.aobj me).eQueue.nFree = 0 →
      QActive_post_ st me e QF_NO_MARGIN = .error (.assertion .qf_actq 110)) ∧
    ((st.aobj me).eQueue.nFree ≤ u8 m → ∃ st1, QActive_post_ st me e m = .ok (false, st1)) ∧
    (p.nFree > 0 →
      ∃ e1 st1, QF_newX_ st evtSize QF_NO_MARGIN sig = .ok (e1, st1) ∧ e1 ≠ 0) ∧
    (p.nFree = 0 → QF_newX_ st evtSize QF_NO_MARGIN sig = .error (.assertion .qf_dyn 320)) ∧
    (p.nFree ≤ u16 m → ∃ st1, QF_newX_ st evtSize m sig = .ok (0, st1)) := by
  have hnm : u8 QF_NO_MARGIN = 255 := by decide
  refine ⟨?_, ?_, ?_, ?_, ?_, ?_, ?_, ?_, ?_⟩
  · intro hfree
    obtain ⟨q1, mem1, h1, -⟩ := post_spec q mem e QF_NO_MARGIN hq he (Or.inl ⟨rfl, hfree⟩)
    exact ⟨q1, mem1, h1⟩
  · intro h0
    simp [QEQueue_post, he, h0]
  · intro hle
    have : ¬ q.nFree > u8 m := by omega
    simp [QEQueue_post, he, hm, this]
  · intro hfree
    obtain ⟨q1, mem1, h1, -⟩ :=
      post_spec (st.aobj me).eQueue st.emem e QF_NO_MARGIN ha he (Or.inl ⟨rfl, hfree⟩)
    exact ⟨_, QActive_post_ok st me e QF_NO_MARGIN q1 mem1 h1⟩
  · intro h0
    simp [QActive_post_, he, h0]
  · intro hle
    exact post_fail st me e m he hm hle hev
  · intro hfree
    obtain ⟨b, p1, hg, hb⟩ := get_some p st.bmem held 0 hinv (by simpa [u16] using hfree)
    have hx : ∃ st1, QF_newX_ st evtSize QF_NO_MARGIN sig = .ok (b, st1) := by
      simp only [QF_newX_, hscan, hidx, hp, not_true_eq_false, if_false, ne_eq, hg, hb,
        not_false_eq_true, if_true]
      exact ⟨_, rfl⟩
    obtain ⟨st1, hst1⟩ := hx
    exact ⟨b, st1, hst1, hb⟩
  · intro h0
    have hg := get_none p st.bmem 0 (by rw [h0]; exact Nat.zero_le _)
    simp [QF_newX_, hscan, hidx, hp, hg]
  · intro hle
    have hg := get_none p st.bmem m hle
    simp only [QF_newX_, hscan, hidx, hp, not_true_eq_false, if_false, ne_eq, hm,
      not_false_eq_true, if_true, hg]
    exact ⟨_, rfl⟩

theorem examplePool_inv :
    PoolInv ⟨⟨1000, 1000, 1008, 8, 2, 2, 2⟩, exampleState.bmem, []⟩ := by
  unfold PoolInv
  refine ⟨by decide, by decide, by decide, by decide, by decide, by decide, ?_⟩
  decide

theorem C17_no_margin_witness :
    (700 : Nat) ≠ 0 ∧ (QEQueue_init ⟨0, [], 0, 0, 0, 0, 0⟩ [0, 0] 2).WF ∧
      (exampleState2.aobj 500).eQueue.WF ∧
      ((exampleState2.emem 700).poolId_ = 0 ∨
        (1 ≤ (exampleState2.emem 700).refCtr_ ∧ (exampleState2.emem 700).refCtr_ < 255) ∨
        ∃ idx p held, (exampleState2.emem 700).poolId_ = idx + 1 ∧
          (exampleState2.emem 700).refCtr_ = 0 ∧
          idx < exampleState2.QF_maxPool_ ∧ exampleState2.QF_pool_[idx]? = some p ∧
          PoolInv ⟨p, exampleState2.bmem, held⟩ ∧ 700 ∈ held) ∧
      QF_newX_scan exampleState2.QF_pool_ 8 exampleState2.QF_maxPool_ 0 = .ok 0 ∧
      0 < exampleState2.QF_maxPool_ ∧
      exampleState2.QF_pool_[0]? = some ⟨1000, 1000, 1008, 8, 2, 2, 2⟩ ∧
      PoolInv ⟨⟨1000, 1000, 1008, 8, 2, 2, 2⟩, exampleState2.bmem, []⟩ ∧
      (0 : Nat) ≠ QF_NO_MARGIN ∧
      ((exampleState2.aobj 500).eQueue.nFree > 0 →
        ∃ st1, QActive_post_ exampleState2 500 700 QF_NO_MARGIN = .ok (true, st1)) ∧
      ((QMPool.mk 1000 1000 1008 8 2 2 2).nFree > 0 →
        ∃ e1 st1, QF_newX_ exampleState2 8 QF_NO_MARGIN 5 = .ok (e1, st1) ∧ e1 ≠ 0) :=
  have h := C17_no_margin exampleState2 (QEQueue_init ⟨0, [], 0, 0, 0, 0, 0⟩ [0, 0] 2)
    (fun _ => ⟨0, 0, 0⟩) 500 700 8 5 0 0 ⟨1000, 1000, 1008, 8, 2, 2, 2⟩ []
    (by decide) (by decide) (by decide) (Or.inl rfl) rfl (by decide) rfl examplePool_inv
    (by decide)
  ⟨by decide, by decide, by decide, Or.inl rfl, rfl, by decide, rfl, examplePool_inv,
    by decide, h.2.2.2.1, h.2.2.2.2.2.2.1⟩

/-! ### Priority sets -/

theorem and_two_pow_ne_zero (bits k : Nat) : ((bits &&& 2 ^ k) != 0) = bits.testBit k := by
  cases hb : bits.testBit k with
  | false =>
    have : bits &&& 2 ^ k = 0 := by
      apply Nat.eq_of_testBit_eq
      intro i
      rw [Nat.testBit_and, Nat.testBit_two_pow, Nat.zero_testBit]
      by_cases hki : k = i
      · subst hki; simp [hb]
      · simp [hki]
    simp [this]
  | true =>
    have : (bits &&& 2 ^ k).testBit k = true := by
      rw [Nat.testBit_and, Nat.testBit_two_pow_self, hb]; rfl
    have hne : bits &&& 2 ^ k ≠ 0 := by
      intro h0
      rw [h0, Nat.zero_testBit] at this
      cases this
    simp [hne]

theorem u16_two_pow (k : Nat) (hk : k < 16) : u16 (1 <<< k) = 2 ^ k := by
  rw [Nat.one_shiftLeft]
  unfold u16
  apply Nat.mod_eq_of_lt
  calc 2 ^ k < 2 ^ 16 := Nat.pow_lt_pow_right (by decide) hk
    _ = 65536 := by decide

theorem hasElement_eq (bits n : Nat) (h1 : 1 ≤ n) (h16 : n ≤ 16) :
    QPSet_hasElement bits n = bits.testBit (n - 1) := by
  unfold QPSet_hasElement
  rw [u16_two_pow (n - 1) (by omega)]
  exact and_two_pow_ne_zero bits (n - 1)

theorem findMax_spec (bits : Nat) (h0 : bits ≠ 0) (hlt : bits < 65536) :
    1 ≤ QPSet_findMax bits ∧ QPSet_findMax bits ≤ 16 ∧
      bits.testBit (QPSet_findMax bits - 1) = true ∧
      ∀ k, QPSet_findMax bits ≤ k → bits.testBit k = false := by
  unfold QPSet_findMax QF_LOG2
  rw [if_neg h0]
  have hl : bits.log2 < 16 := (Nat.log2_lt h0).mpr (by simpa using hlt)
  have hlo := Nat.log2_self_le h0
  have hhi : bits < 2 ^ (bits.log2 + 1) := Nat.lt_log2_self
  refine ⟨by omega, by omega, ?_, ?_⟩
  · rw [Nat.add_sub_cancel, Nat.testBit_to_div_mod]
    have hd : bits / 2 ^ bits.log2 = 1 := by
      apply Nat.div_eq_of_lt_le
      · simpa using hlo
      · rw [Nat.pow_succ] at hhi; omega
    rw [hd]
    rfl
  · intro k hk
    apply Nat.testBit_lt_two_pow
    calc bits < 2 ^ (bits.log2 + 1) := hhi
      _ ≤ 2 ^ k := Nat.pow_le_pow_right (by decide) hk

theorem remove_testBit (bits p k : Nat) (h1 : 1 ≤ p) (h16 : p ≤ 16) :
    (QPSet_remove bits p).testBit k =
      (bits.testBit k && (decide (k < 16) && decide (k ≠ p - 1))) := by
  unfold QPSet_remove
  rw [u16_two_pow (p - 1) (by omega), Nat.testBit_and, Nat.testBit_xor, Nat.testBit_two_pow]
  have h : (65535 : Nat) = 2 ^ 16 - 1 := by decide
  rw [h, Nat.testBit_two_pow_sub_one]
  congr 1
  by_cases hk : k < 16
  · by_cases hp : p - 1 = k
    · have hp2 : ¬ k ≠ p - 1 := fun h => h hp.symm
      rw [decide_eq_true hk, decide_eq_true hp, decide_eq_false hp2]
      rfl
    · have hp2 : k ≠ p - 1 := fun h => hp h.symm
      rw [decide_eq_true hk, decide_eq_false hp, decide_eq_true hp2]
      rfl
  · have hp : ¬ p - 1 = k := by omega
    rw [decide_eq_false hk, decide_eq_false hp]
    rfl

theorem remove_lt (bits p : Nat) (hlt : bits < 65536) : QPSet_remove bits p < 65536 := by
  unfold QPSet_remove
  exact Nat.lt_of_le_of_lt Nat.and_le_left hlt

theorem insert_testBit (bits p k : Nat) (h1 : 1 ≤ p) (h16 : p ≤ 16) (hlt : bits < 65536) :
    (QPSet_insert bits p).testBit k = (bits.testBit k || decide (k = p - 1)) := by
  unfold QPSet_insert
  have hp : (1 : Nat) <<< (p - 1) < 65536 := by
    rw [Nat.one_shiftLeft]
    calc 2 ^ (p - 1) < 2 ^ 16 := Nat.pow_lt_pow_right (by decide) (by omega)
      _ = 65536 := by decide
  have hor : bits ||| 1 <<< (p - 1) < 2 ^ 16 :=
    Nat.or_lt_two_pow (by simpa using hlt) (by simpa using hp)
  have hu : u16 (bits ||| 1 <<< (p - 1)) = bits ||| 1 <<< (p - 1) := by
    unfold u16
    exact Nat.mod_eq_of_lt (by simpa using hor)
  rw [hu, Nat.testBit_or, Nat.one_shiftLeft, Nat.testBit_two_pow]
  by_cases hk : k = p - 1 <;> simp [hk, eq_comm]

theorem insert_lt (bits p : Nat) : QPSet_insert bits p < 65536 := by
  unfold QPSet_insert u16
  exact Nat.mod_lt _ (by decide)

theorem filter_desc_trunc (g : Nat → Bool) (n m : Nat) (hm : m ≤ n)
    (hg : ∀ k, m < k → k ≤ n → g k = false) : (desc n).filter g = (desc m).filter g := by
  induction n with
  | zero =>
    have : m = 0 := by omega
    subst this
    rfl
  | succ n ih =>
    by_cases hmn : m = n + 1
    · subst hmn; rfl
    · simp only [desc, List.filter_cons, hg (n + 1) (by omega) (le_refl _)]
      exact ih (by omega) (fun k h1 h2 => hg k h1 (by omega))

theorem filter_desc_congr (f g : Nat → Bool) (n : Nat)
    (h : ∀ k, 1 ≤ k → k ≤ n → f k = g k) : (desc n).filter f = (desc n).filter g := by
  induction n with
  | zero => rfl
  | succ n ih =>
    simp only [desc, List.filter_cons, h (n + 1) (by omega) (le_refl _)]
    rw [ih (fun k h1 h2 => h k h1 (by omega))]

theorem toList_eq_desc (bits : Nat) :
    QPSet.toList bits = (desc 16).filter (fun n => QPSet_hasElement bits n) := by
  rfl

theorem toList_findMax (bits : Nat) (h0 : bits ≠ 0) (hlt : bits < 65536) :
    QPSet.toList bits =
      QPSet_findMax bits :: QPSet.toList (QPSet_remove bits (QPSet_findMax bits)) := by
  obtain ⟨h1, h16, hbit, hhigh⟩ := findMax_spec bits h0 hlt
  rw [toList_eq_desc, toList_eq_desc]
  rw [filter_desc_trunc _ 16 (QPSet_findMax bits) h16
    (fun k hk1 hk2 => by
      show QPSet_hasElement bits k = false
      rw [hasElement_eq bits k (by omega) hk2]
      exact hhigh (k - 1) (by omega))]
  rw [filter_desc_trunc (fun n => QPSet_hasElement (QPSet_remove bits (QPSet_findMax bits)) n)
    16 (QPSet_findMax bits - 1) (by omega)
    (fun k hk1 hk2 => by
      show QPSet_hasElement (QPSet_remove bits (QPSet_findMax bits)) k = false
      rw [hasElement_eq _ k (by omega) hk2, remove_testBit _ _ _ h1 h16]
      by_cases hk : k = QPSet_findMax bits
      · subst hk; simp
      · rw [hhigh (k - 1) (by omega)]; rfl)]
  obtain ⟨m, hm⟩ : ∃ m, QPSet_findMax bits = m + 1 := ⟨QPSet_findMax bits - 1, by omega⟩
  rw [hm] at hbit h16 h1 ⊢
  simp only [Nat.add_sub_cancel] at hbit ⊢
  have hhas : QPSet_hasElement bits (m + 1) = true := by
    rw [hasElement_eq bits (m + 1) (by omega) h16]; exact hbit
  simp only [desc, List.filter_cons, hhas, if_true]
  congr 1
  apply filter_desc_congr
  intro k hk1 hk2
  rw [hasElement_eq _ k hk1 (by omega), hasElement_eq _ k hk1 (by omega),
    remove_testBit _ _ _ (by omega) h16]
  have h3 : k - 1 < 16 := by omega
  have h4 : k - 1 ≠ m := by omega
  simp [h3, h4]

theorem toList_zero : QPSet.toList 0 = [] := by decide

theorem findMax_remove_lt (bits : Nat) (h0 : bits ≠ 0) (hlt : bits < 65536)
    (hne : QPSet_remove bits (QPSet_findMax bits) ≠ 0) :
    QPSet_findMax (QPSet_remove bits (QPSet_findMax bits)) < QPSet_findMax bits := by
  obtain ⟨h1, h16, hbit, hhigh⟩ := findMax_spec bits h0 hlt
  obtain ⟨g1, g16, gbit, -⟩ := findMax_spec _ hne (remove_lt bits _ hlt)
  rw [remove_testBit _ _ _ h1 h16] at gbit
  by_contra hcon
  have hge : QPSet_findMax bits ≤ QPSet_findMax (QPSet_remove bits (QPSet_findMax bits)) := by
    omega
  by_cases heq : QPSet_findMax (QPSet_remove bits (QPSet_findMax bits)) = QPSet_findMax bits
  · rw [heq] at gbit
    simp at gbit
  · rw [hhigh _ (by omega)] at gbit
    simp at gbit

/-! ### Publish-subscribe -/

theorem mem_toList (bits k : Nat) :
    k ∈ QPSet.toList bits ↔ 1 ≤ k ∧ k ≤ 16 ∧ QPSet_hasElement bits k = true := by
  unfold QPSet.toList QF_MAX_ACTIVE
  simp only [List.mem_filter, List.mem_map, List.mem_reverse, List.mem_range]
  constructor
  · rintro ⟨⟨a, ha, rfl⟩, h⟩
    exact ⟨by omega, by omega, h⟩
  · rintro ⟨h1, h2, h3⟩
    exact ⟨⟨k - 1, by omega, by omega⟩, h3⟩

theorem post_mem (q : QEQueue) (mem : EvtMem) (e margin : Nat) (q1 : QEQueue) (mem1 : EvtMem)
    (h : QEQueue_post q mem e margin = .ok (true, q1, mem1)) :
    mem1 = if (mem e).poolId_ ≠ 0 then QF_EVT_REF_CTR_INC_ mem e else mem := by
  unfold QEQueue_post at h
  by_cases he : e = 0
  · rw [if_pos he] at h; cases h
  · rw [if_neg he] at h
    dsimp only at h
    by_cases hc : (margin = QF_NO_MARGIN ∧ q.nFree > 0) ∨ q.nFree > u8 margin
    · rw [if_pos hc] at h
      by_cases hmin : q.nMin > dec8 q.nFree <;>
      by_cases hf : q.frontEvt = 0 <;>
      simp only [hmin, hf, if_true, if_false] at h
      all_goals first
        | (simp only [Except.ok.injEq, Prod.mk.injEq, true_and] at h
           exact h.2.symm)
        | (cases hw : ringWrite q.ring q.head e with
           | error f => rw [hw] at h; cases h
           | ok ring =>
             rw [hw] at h
             simp only [Except.ok.injEq, Prod.mk.injEq, true_and] at h
             exact h.2.symm)
    · rw [if_neg hc] at h
      split at h <;> cases h

theorem QActive_post_spec (st : QFState) (a e : Nat) (he : e ≠ 0)
    (hwf : (st.aobj a).eQueue.WF) (hfree : (st.aobj a).eQueue.nFree > 0) :
    ∃ st1, QActive_post_ st a e QF_NO_MARGIN = .ok (true, st1) ∧ st.sameStatic st1 ∧
      st1.emem = (if (st.emem e).poolId_ ≠ 0 then QF_EVT_REF_CTR_INC_ st.emem e else st.emem) ∧
      (st1.aobj a).prio = (st.aobj a).prio ∧ (st1.aobj a).eQueue.WF ∧
      (st1.aobj a).eQueue.toList = (st.aobj a).eQueue.toList ++ [e] ∧
      (st1.aobj a).eQueue.nFree + 1 = (st.aobj a).eQueue.nFree ∧
      (∀ b, b ≠ a → st1.aobj b = st.aobj b) ∧
      st1.QV_readySet_ = (if (st.aobj a).eQueue.frontEvt = 0 then
        QPSet_insert st.QV_readySet_ (st.aobj a).prio else st.QV_readySet_) := by
  obtain ⟨q1, mem1, h1, h2, h3, h4, -⟩ :=
    post_spec (st.aobj a).eQueue st.emem e QF_NO_MARGIN hwf he (Or.inl ⟨rfl, hfree⟩)
  have hm := post_mem _ _ _ _ _ _ h1
  refine ⟨_, QActive_post_ok st a e QF_NO_MARGIN q1 mem1 h1,
    ⟨rfl, rfl, rfl, rfl, rfl, rfl, rfl, rfl⟩, hm, ?_, ?_, ?_, ?_, ?_, rfl⟩
  · simp
  · simpa using h2
  · simpa using h3
  · simpa using h4
  · intro b hb
    simp [Function.update_noteq hb]

theorem incN_poolId (mem : EvtMem) (e n : Nat) :
    (incN mem e n e).poolId_ = (mem e).poolId_ ∧ (incN mem e n e).sig = (mem e).sig ∧
      ∀ a, a ≠ e → incN mem e n a = mem a := by
  induction n generalizing mem with
  | zero => exact ⟨rfl, rfl, fun _ _ => rfl⟩
  | succ n ih =>
    obtain ⟨h1, h2, h3⟩ := ih (QF_EVT_REF_CTR_INC_ mem e)
    refine ⟨?_, ?_, ?_⟩
    · show (incN (QF_EVT_REF_CTR_INC_ mem e) e n e).poolId_ = _
      rw [h1]; simp [QF_EVT_REF_CTR_INC_]
    · show (incN (QF_EVT_REF_CTR_INC_ mem e) e n e).sig = _
      rw [h2]; simp [QF_EVT_REF_CTR_INC_]
    · intro a ha
      show incN (QF_EVT_REF_CTR_INC_ mem e) e n a = _
      rw [h3 a ha]; simp [QF_EVT_REF_CTR_INC_, ha]

theorem incN_refCtr (mem : EvtMem) (e n : Nat) (h : (mem e).refCtr_ + n ≤ 255) :
    (incN mem e n e).refCtr_ = (mem e).refCtr_ + n := by
  induction n generalizing mem with
  | zero => rfl
  | succ n ih =>
    have hinc : u8 ((mem e).refCtr_ + 1) = (mem e).refCtr_ + 1 := by unfold u8; omega
    show (incN (QF_EVT_REF_CTR_INC_ mem e) e n e).refCtr_ = _
    rw [ih]
    · simp only [QF_EVT_REF_CTR_INC_, if_true, hinc]; omega
    · simp only [QF_EVT_REF_CTR_INC_, if_true, hinc]; omega

theorem sameStatic_trans (s t u : QFState) (h1 : s.sameStatic t) (h2 : t.sameStatic u) :
    s.sameStatic u := by
  obtain ⟨a1, a2, a3, a4, a5, a6, a7, a8⟩ := h1
  obtain ⟨b1, b2, b3, b4, b5, b6, b7, b8⟩ := h2
  exact ⟨by rw [b1, a1], by rw [b2, a2], by rw [b3, a3], by rw [b4, a4], by rw [b5, a5],
    by rw [b6, a6], by rw [b7, a7], by rw [b8, a8]⟩

theorem publish_loop_spec (fuel : Nat) (st : QFState) (e sl : Nat) (he : e ≠ 0)
    (h0 : sl ≠ 0) (hlt : sl < 65536) (hf : QPSet_findMax sl ≤ fuel)
    (hsub : Subscribed st sl) :
    ∃ st1, QF_publish_loop fuel st e sl (QPSet_findMax sl) = .ok (QPSet.toList sl, st1) ∧
      st.sameStatic st1 ∧
      st1.emem = (if (st.emem e).poolId_ ≠ 0 then incN st.emem e (QPSet.toList sl).length
        else st.emem) ∧
      (∀ k a, k ∈ QPSet.toList sl → st.QF_active_[k]? = some a →
        (st1.aobj a).prio = k ∧ (st1.aobj a).eQueue.WF ∧
        (st1.aobj a).eQueue.toList = (st.aobj a).eQueue.toList ++ [e] ∧
        (st1.aobj a).eQueue.nFree + 1 = (st.aobj a).eQueue.nFree) ∧
      (∀ a, (∀ k, k ∈ QPSet.toList sl → st.QF_active_[k]? ≠ some a) →
        st1.aobj a = st.aobj a) := by
  induction fuel generalizing st sl with
  | zero =>
    have := (findMax_spec sl h0 hlt).1
    omega
  | succ fuel ih =>
    obtain ⟨hp1, hp16, hbit, hhigh⟩ := findMax_spec sl h0 hlt
    have hlist := toList_findMax sl h0 hlt
    have hpmem : QPSet_findMax sl ∈ QPSet.toList sl := by
      rw [hlist]; exact List.mem_cons_self _ _
    obtain ⟨a, ha, ha0, haprio, hawf, hafree⟩ := hsub _ hpmem
    obtain ⟨st', hpost, hstat, hemem, hprio', hwf', hlist', hnfree', hframe', -⟩ :=
      QActive_post_spec st a e he hawf hafree
    have hact : st'.QF_active_ = st.QF_active_ := hstat.2.2.2.1
    have hother : ∀ k, k ∈ QPSet.toList (QPSet_remove sl (QPSet_findMax sl)) →
        k ∈ QPSet.toList sl ∧ k ≠ QPSet_findMax sl := by
      intro k hk
      rw [hlist]
      have hk2 := (mem_toList _ k).mp hk
      rw [hasElement_eq _ k hk2.1 hk2.2.1, remove_testBit _ _ _ hp1 hp16] at hk2
      have hne : k ≠ QPSet_findMax sl := by
        intro heq
        rw [heq] at hk2
        simp at hk2
      exact ⟨List.mem_cons_of_mem _ hk, hne⟩
    have hdiff : ∀ k b, k ∈ QPSet.toList sl → k ≠ QPSet_findMax sl →
        st.QF_active_[k]? = some b → b ≠ a := by
      intro k b hk hne hb hba
      obtain ⟨b', hb', -, hbprio, -⟩ := hsub k hk
      rw [hb] at hb'
      cases hb'
      rw [hba, haprio] at hbprio
      exact hne hbprio.symm
    rw [QF_publish_loop, ha]
    simp only [ha0, ne_eq, not_false_eq_true, not_true_eq_false, if_false, hpost]
    by_cases hrem : QPSet_remove sl (QPSet_findMax sl) = 0
    · have hne : QPSet_notEmpty (QPSet_remove sl (QPSet_findMax sl)) = false := by
        simp [QPSet_notEmpty, hrem]
      simp only [hne, Bool.false_eq_true, if_false, if_true, not_true_eq_false]
      have hl1 : QPSet.toList sl = [QPSet_findMax sl] := by
        rw [hlist, hrem, toList_zero]
      refine ⟨st', by rw [hl1], hstat, ?_, ?_, ?_⟩
      · rw [hemem, hl1]; rfl
      · intro k b hk hb
        rw [hl1, List.mem_singleton] at hk
        subst hk
        rw [ha] at hb
        cases hb
        exact ⟨by rw [hprio', haprio], hwf', hlist', hnfree'⟩
      · intro b hb
        apply hframe'
        intro hba
        exact hb _ hpmem (by rw [hba]; exact ha)
    · have hne : QPSet_notEmpty (QPSet_remove sl (QPSet_findMax sl)) = true := by
        simp [QPSet_notEmpty, hrem]
      have hlt' := remove_lt sl (QPSet_findMax sl) hlt
      have hdec := findMax_remove_lt sl h0 hlt hrem
      have hp1' := (findMax_spec _ hrem hlt').1
      have hsub' : Subscribed st' (QPSet_remove sl (QPSet_findMax sl)) := by
        intro k hk
        obtain ⟨hk1, hk2⟩ := hother k hk
        obtain ⟨b, hb, hb0, hbprio, hbwf, hbfree⟩ := hsub k hk1
        have hba := hdiff k b hk1 hk2 hb
        exact ⟨b, by rw [hact]; exact hb, hb0, by rw [hframe' b hba]; exact hbprio,
          by rw [hframe' b hba]; exact hbwf, by rw [hframe' b hba]; exact hbfree⟩
      obtain ⟨st1, hloop, hstat1, hemem1, hq1, hframe1⟩ :=
        ih st' (QPSet_remove sl (QPSet_findMax sl)) hrem hlt' (by omega) hsub'
      have hp1ne : QPSet_findMax (QPSet_remove sl (QPSet_findMax sl)) ≠ 0 := by omega
      simp only [hne, if_true, hp1ne, ne_eq, not_false_eq_true, hloop]
      refine ⟨st1, by rw [hlist], sameStatic_trans _ _ _ hstat hstat1, ?_, ?_, ?_⟩
      · rw [hemem1, hemem, hlist]
        by_cases hpool : (st.emem e).poolId_ = 0
        · simp [hpool]
        · have : (QF_EVT_REF_CTR_INC_ st.emem e e).poolId_ ≠ 0 := by
            simpa [QF_EVT_REF_CTR_INC_] using hpool
          simp only [hpool, ne_eq, not_false_eq_true, if_true, this, List.length_cons]
          rfl
      · intro k b hk hb
        rw [hlist, List.mem_cons] at hk
        rcases hk with hk | hk
        · subst hk
          rw [ha] at hb
          cases hb
          have hsame : st1.aobj a = st'.aobj a := by
            apply hframe1
            intro k hk hkb
            obtain ⟨hk1, hk2⟩ := hother k hk
            rw [hact] at hkb
            exact hdiff k a hk1 hk2 hkb rfl
          rw [hsame]
          exact ⟨by rw [hprio', haprio], hwf', hlist', hnfree'⟩
        · obtain ⟨hk1, hk2⟩ := hother k hk
          have hba := hdiff k b hk1 hk2 hb
          have := hq1 k b hk (by rw [hact]; exact hb)
          rw [hframe' b hba] at this
          exact this
      · intro b hb
        have hba : b ≠ a := by
          intro hba
          exact hb _ hpmem (by rw [hba]; exact ha)
        rw [hframe1 b (fun k hk hkb => hb k (hother k hk).1 (by rw [← hact]; exact hkb))]
        exact hframe' b hba

theorem toList_length_le (bits : Nat) : (QPSet.toList bits).length ≤ 16 := by
  unfold QPSet.toList
  refine le_trans (List.length_filter_le _ _) ?_
  simp [QF_MAX_ACTIVE]

theorem toList_sorted (bits : Nat) : (QPSet.toList bits).Pairwise (· > ·) := by
  unfold QPSet.toList
  apply List.Pairwise.filter
  decide

theorem publish_spec (fuel : Nat) (st : QFState) (e sl : Nat) (he : e ≠ 0)
    (hsig : (st.emem e).sig < u16 st.QF_maxPubSignal_)
    (hsl : st.QF_subscrList_[(st.emem e).sig]? = some sl) (hlt : sl < 65536)
    (hfuel : 16 ≤ fuel) (hsub : Subscribed st sl) :
    ∃ st', st.sameStatic st' ∧
      st'.emem = (if (st.emem e).poolId_ ≠ 0 then
        incN st.emem e ((QPSet.toList sl).length + 1) else st.emem) ∧
      (∀ k a, k ∈ QPSet.toList sl → st.QF_active_[k]? = some a →
        (st'.aobj a).prio = k ∧ (st'.aobj a).eQueue.WF ∧
        (st'.aobj a).eQueue.toList = (st.aobj a).eQueue.toList ++ [e] ∧
        (st'.aobj a).eQueue.nFree + 1 = (st.aobj a).eQueue.nFree) ∧
      (∀ a, (∀ k, k ∈ QPSet.toList sl → st.QF_active_[k]? ≠ some a) →
        st'.aobj a = st.aobj a) ∧
      QF_publish_ fuel st e =
        match QF_gc st' e with
        | .error f => .error f
        | .ok s => .ok (QPSet.toList sl, s) := by
  have hsig' : ((if (st.emem e).poolId_ ≠ 0 then
      { st with emem := QF_EVT_REF_CTR_INC_ st.emem e } else st).emem e).sig =
      (st.emem e).sig := by
    by_cases hp : (st.emem e).poolId_ = 0
    · simp [hp]
    · simp [hp, QF_EVT_REF_CTR_INC_]
  unfold QF_publish_
  rw [if_neg he, if_neg (not_not.mpr hsig)]
  dsimp only
  rw [hsig', show (if (st.emem e).poolId_ ≠ 0 then
      { st with emem := QF_EVT_REF_CTR_INC_ st.emem e } else st).QF_subscrList_ =
      st.QF_subscrList_ by split <;> rfl, hsl]
  dsimp only
  by_cases h0 : sl = 0
  · subst h0
    have hne : QPSet_notEmpty 0 = false := rfl
    rw [hne, toList_zero]
    simp only [Bool.false_eq_true, if_false, List.length_nil, Nat.zero_add]
    refine ⟨_, ?_, ?_, ?_, ?_, rfl⟩
    · split <;> exact ⟨rfl, rfl, rfl, rfl, rfl, rfl, rfl, rfl⟩
    · by_cases hp : (st.emem e).poolId_ = 0
      · simp [hp]
      · simp only [hp, ne_eq, not_false_eq_true, if_true]; rfl
    · intro k a hk
      cases hk
    · intro a _
      split <;> rfl
  · have hne : QPSet_notEmpty sl = true := by simp [QPSet_notEmpty, h0]
    rw [hne]
    simp only [if_true]
    have hsub' : Subscribed (if (st.emem e).poolId_ ≠ 0 then
        { st with emem := QF_EVT_REF_CTR_INC_ st.emem e } else st) sl := by
      intro k hk
      obtain ⟨a, h1, h2, h3, h4, h5⟩ := hsub k hk
      refine ⟨a, ?_, h2, ?_, ?_, ?_⟩ <;> (split <;> assumption)
    have hmax := (findMax_spec sl h0 hlt).2.1
    obtain ⟨st1, hloop, hstat, hemem, hq, hframe⟩ :=
      publish_loop_spec fuel _ e sl he h0 hlt (by omega) hsub'
    rw [hloop]
    dsimp only
    refine ⟨st1, ?_, ?_, ?_, ?_, rfl⟩
    · refine sameStatic_trans _ _ _ ?_ hstat
      split <;> exact ⟨rfl, rfl, rfl, rfl, rfl, rfl, rfl, rfl⟩
    · rw [hemem]
      by_cases hp : (st.emem e).poolId_ = 0
      · simp [hp]
      · have : (QF_EVT_REF_CTR_INC_ st.emem e e).poolId_ ≠ 0 := by
          simpa [QF_EVT_REF_CTR_INC_] using hp
        simp only [hp, ne_eq, not_false_eq_true, if_true, this]
        rfl
    · intro k a hk ha
      have := hq k a hk (by split <;> exact ha)
      by_cases hp : (st.emem e).poolId_ = 0
      · simpa [hp] using this
      · simpa [hp] using this
    · intro a ha
      have := hframe a (fun k hk => by split <;> exact ha k hk)
      by_cases hp : (st.emem e).poolId_ = 0
      · simpa [hp] using this
      · simpa [hp] using this

theorem gc_valid (s : QFState) (e : Nat)
    (hev : (s.emem e).poolId_ = 0 ∨ (s.emem e).refCtr_ > 1 ∨
      ∃ idx p held, (s.emem e).poolId_ = idx + 1 ∧ idx < s.QF_maxPool_ ∧
        s.QF_pool_[idx]? = some p ∧ PoolInv ⟨p, s.bmem, held⟩ ∧ e ∈ held) :
    ∃ s1, QF_gc s e = .ok s1 ∧ s1.aobj = s.aobj ∧ s1.QF_subscrList_ = s.QF_subscrList_ ∧
      s1.QF_active_ = s.QF_active_ ∧ s1.QV_readySet_ = s.QV_readySet_ ∧
      s1.tevt = s.tevt ∧ s1.QF_timeEvtHead_ = s.QF_timeEvtHead_ ∧
      s1.QF_maxPubSignal_ = s.QF_maxPubSignal_ := by
  by_cases hp : (s.emem e).poolId_ = 0
  · exact ⟨s, by simp [QF_gc, hp], rfl, rfl, rfl, rfl, rfl, rfl, rfl⟩
  · by_cases hr : (s.emem e).refCtr_ > 1
    · have hg : QF_gc s e = .ok { s with emem := QF_EVT_REF_CTR_DEC_ s.emem e } := by
        simp only [QF_gc, hp, hr, ne_eq, not_false_eq_true, if_true]
      exact ⟨_, hg, rfl, rfl, rfl, rfl, rfl, rfl, rfl⟩
    · rcases hev with h | h | ⟨idx, p, held, h1, h2, h3, h4, h5⟩
      · exact absurd h hp
      · exact absurd h hr
      · exact ⟨_, gc_free s e idx p held h1 (by omega) h2 h3 h4 h5,
          rfl, rfl, rfl, rfl, rfl, rfl, rfl⟩

/-- C14: if the subscriber set `sl` of the event's signal contains only
priorities registered in `QF_active_` with consistent queues that have a free
slot, then `QF_publish_` calls `QACTIVE_POST` exactly for the priorities of
`sl`, each once, in strictly descending order; afterwards the queue of each
subscriber holds its former events followed by the event, every other
active object is unchanged, and the subscriber table is unchanged. -/
theorem C14_publish_fanout (fuel : Nat) (st : QFState) (e sl : Nat) (he : e ≠ 0)
    (hsig : (st.emem e).sig < u16 st.QF_maxPubSignal_)
    (hsl : st.QF_subscrList_[(st.emem e).sig]? = some sl) (hlt : sl < 65536)
    (hfuel : 16 ≤ fuel) (hsub : Subscribed st sl) (hev : EvtValid st e) :
    ∃ st1, QF_publish_ fuel st e = .ok (QPSet.toList sl, st1) ∧
      (QPSet.toList sl).Pairwise (· > ·) ∧
      (∀ k, k ∈ QPSet.toList sl ↔ 1 ≤ k ∧ k ≤ 16 ∧ QPSet_hasElement sl k = true) ∧
      st1.QF_subscrList_ = st.QF_subscrList_ ∧
      (∀ k a, k ∈ QPSet.toList sl → st.QF_active_[k]? = some a →
        (st1.aobj a).eQueue.toList = (st.aobj a).eQueue.toList ++ [e]) ∧
      (∀ a, (∀ k, k ∈ QPSet.toList sl → st.QF_active_[k]? ≠ some a) →
        st1.aobj a = st.aobj a) := by
  obtain ⟨st', hstat, hemem, hq, hframe, hpub⟩ :=
    publish_spec fuel st e sl he hsig hsl hlt hfuel hsub
  obtain ⟨hb, hpl, hmp, -, hsubl, -⟩ := hstat
  have hgc : (st'.emem e).poolId_ = 0 ∨ (st'.emem e).refCtr_ > 1 ∨
      ∃ idx p held, (st'.emem e).poolId_ = idx + 1 ∧ idx < st'.QF_maxPool_ ∧
        st'.QF_pool_[idx]? = some p ∧ PoolInv ⟨p, st'.bmem, held⟩ ∧ e ∈ held := by
    rcases hev with h | ⟨idx, p, held, h1, h2, h3, h4, h5, h6⟩
    · left
      rw [hemem]; simp [h]
    · right; right
      have hp : (st.emem e).poolId_ ≠ 0 := by omega
      refine ⟨idx, p, held, ?_, by rw [hmp]; exact h2, by rw [hpl]; exact h3,
        by rw [hb]; exact h4, h5⟩
      rw [hemem, if_pos hp, (incN_poolId st.emem e _).1]
      exact h1
  obtain ⟨st1, hg, ha, hs, -⟩ := gc_valid st' e hgc
  rw [hg] at hpub
  refine ⟨st1, hpub, toList_sorted sl, mem_toList sl, by rw [hs, hsubl], ?_, ?_⟩
  · intro k a hk hka
    rw [ha]
    exact (hq k a hk hka).2.2.1
  · intro a hna
    rw [ha]
    exact hframe a hna

theorem example3_subscribed : Subscribed exampleState3 4 := by
  intro k hk
  have hl : QPSet.toList 4 = [3] := by decide
  rw [hl, List.mem_singleton] at hk
  subst hk
  exact ⟨500, rfl, by decide, rfl, by decide, by decide⟩

theorem C14_publish_fanout_witness :
    (700 : Nat) ≠ 0 ∧ (exampleState3.emem 700).sig < u16 exampleState3.QF_maxPubSignal_ ∧
      exampleState3.QF_subscrList_[(exampleState3.emem 700).sig]? = some 4 ∧
      (4 : Nat) < 65536 ∧ 16 ≤ 16 ∧ Subscribed exampleState3 4 ∧ EvtValid exampleState3 700 ∧
      ∃ st1, QF_publish_ 16 exampleState3 700 = .ok (QPSet.toList 4, st1) ∧
        (QPSet.toList 4).Pairwise (· > ·) ∧
        (∀ k, k ∈ QPSet.toList 4 ↔ 1 ≤ k ∧ k ≤ 16 ∧ QPSet_hasElement 4 k = true) ∧
        st1.QF_subscrList_ = exampleState3.QF_subscrList_ ∧
        (∀ k a, k ∈ QPSet.toList 4 → exampleState3.QF_active_[k]? = some a →
          (st1.aobj a).eQueue.toList = (exampleState3.aobj a).eQueue.toList ++ [700]) ∧
        (∀ a, (∀ k, k ∈ QPSet.toList 4 → exampleState3.QF_active_[k]? ≠ some a) →
          st1.aobj a = exampleState3.aobj a) :=
  ⟨by decide, by decide, rfl, by decide, by decide, example3_subscribed, Or.inl rfl,
    C14_publish_fanout 16 exampleState3 700 4 (by decide) (by decide) rfl (by decide)
      (by decide) example3_subscribed (Or.inl rfl)⟩

/-- C15: a freshly allocated dynamic event (reference count 0, held outside
its consistent pool) is published to the `n` subscribers of its signal. If
`n = 0` the block is back at the head of its pool's free list when
`QF_publish_` returns. If `n >= 1` the reference count is `n` and the pools
are untouched when `QF_publish_` returns; fewer than `n` subsequent `QF_gc`
calls leave the pools untouched, and the `n`-th call puts the block back at
the head of its pool's free list. -/
theorem C15_publish_refcount (fuel : Nat) (st : QFState) (e sl idx : Nat) (p : QMPool)
    (held : List Nat) (he : e ≠ 0)
    (hsig : (st.emem e).sig < u16 st.QF_maxPubSignal_)
    (hsl : st.QF_subscrList_[(st.emem e).sig]? = some sl) (hlt : sl < 65536)
    (hfuel : 16 ≤ fuel) (hsub : Subscribed st sl)
    (hpool : (st.emem e).poolId_ = idx + 1) (hr0 : (st.emem e).refCtr_ = 0)
    (hidx : idx < st.QF_maxPool_) (hp : st.QF_pool_[idx]? = some p)
    (hinv : PoolInv ⟨p, st.bmem, held⟩) (hheld : e ∈ held) :
    ∃ st1, QF_publish_ fuel st e = .ok (QPSet.toList sl, st1) ∧
      ((QPSet.toList sl).length = 0 →
        st1.QF_pool_ = st.QF_pool_.set idx { p with free_head := e, nFree := p.nFree + 1 } ∧
        st1.bmem = st.bmem.write e p.free_head) ∧
      (1 ≤ (QPSet.toList sl).length →
        (st1.emem e).refCtr_ = (QPSet.toList sl).length ∧
        st1.QF_pool_ = st.QF_pool_ ∧ st1.bmem = st.bmem ∧
        (∀ j, j < (QPSet.toList sl).length → ∃ st3, gcN j st1 e = .ok st3 ∧
          st3.QF_pool_ = st.QF_pool_ ∧ st3.bmem = st.bmem) ∧
        ∃ st4, gcN (QPSet.toList sl).length st1 e = .ok st4 ∧
          st4.QF_pool_ =
            st.QF_pool_.set idx { p with free_head := e, nFree := p.nFree + 1 } ∧
          st4.bmem = st.bmem.write e p.free_head) := by
  obtain ⟨st', hstat, hemem, -, -, hpub⟩ :=
    publish_spec fuel st e sl he hsig hsl hlt hfuel hsub
  obtain ⟨hb, hpl, hmp, -⟩ := hstat
  have hn16 := toList_length_le sl
  have hpne : (st.emem e).poolId_ ≠ 0 := by omega
  rw [if_pos hpne] at hemem
  have hpool' : (st'.emem e).poolId_ = idx + 1 := by
    rw [hemem, (incN_poolId st.emem e _).1]; exact hpool
  have href' : (st'.emem e).refCtr_ = (QPSet.toList sl).length + 1 := by
    rw [hemem, incN_refCtr st.emem e _ (by omega), hr0]; omega
  by_cases hn : (QPSet.toList sl).length = 0
  · have hg := gc_free st' e idx p held hpool' (by omega) (by rw [hmp]; exact hidx)
      (by rw [hpl]; exact hp) (by rw [hb]; exact hinv) hheld
    rw [hg] at hpub
    refine ⟨_, hpub, fun _ => ⟨by simp only [hpl], by simp only [hb]⟩, fun h1 => by omega⟩
  · have hg : QF_gc st' e = .ok { st' with emem := QF_EVT_REF_CTR_DEC_ st'.emem e } := by
      have h1 : (st'.emem e).poolId_ ≠ 0 := by omega
      have h2 : (st'.emem e).refCtr_ > 1 := by omega
      simp only [QF_gc, h1, h2, ne_eq, not_false_eq_true, if_true]
    rw [hg] at hpub
    have hdec : dec8 (st'.emem e).refCtr_ = (QPSet.toList sl).length := by
      rw [href']; unfold dec8; omega
    have hr1 : ((QF_EVT_REF_CTR_DEC_ st'.emem e) e).refCtr_ = (QPSet.toList sl).length := by
      simp only [QF_EVT_REF_CTR_DEC_, if_true, hdec]
    have hp1 : ((QF_EVT_REF_CTR_DEC_ st'.emem e) e).poolId_ = idx + 1 := by
      simp only [QF_EVT_REF_CTR_DEC_, if_true, hpool']
    refine ⟨_, hpub, fun h0 => absurd h0 hn, fun _ => ⟨hr1, hpl, hb, ?_, ?_⟩⟩
    · intro j hj
      obtain ⟨st3, g1, g2, g3, -⟩ :=
        gcN_keep j { st' with emem := QF_EVT_REF_CTR_DEC_ st'.emem e } e
          (by simp only [hp1]; omega) (by simp only [hr1]; omega) (by simp only [hr1]; omega)
      exact ⟨st3, g1, by rw [g2]; exact hpl, by rw [g3]; exact hb⟩
    · obtain ⟨st3, g1, g2, g3, g4, g5, g6⟩ :=
        gcN_keep ((QPSet.toList sl).length - 1)
          { st' with emem := QF_EVT_REF_CTR_DEC_ st'.emem e } e
          (by simp only [hp1]; omega) (by simp only [hr1]; omega) (by simp only [hr1]; omega)
      simp only [hr1, hp1] at g5 g6
      simp only at g2 g3 g4
      have hm : (QPSet.toList sl).length = ((QPSet.toList sl).length - 1) + 1 := by omega
      have hfree := gc_free st3 e idx p held g5 (by rw [g6]; omega)
        (by rw [g4, hmp]; exact hidx) (by rw [g2, hpl]; exact hp)
        (by rw [g3, hb]; exact hinv) hheld
      refine ⟨_, by rw [hm, gcN_succ, g1]; exact hfree, ?_, ?_⟩
      · show st3.QF_pool_.set idx _ = _
        rw [g2, hpl]
      · show st3.bmem.write e p.free_head = _
        rw [g3, hb]

theorem example3_pool_inv :
    PoolInv ⟨⟨1008, 1000, 1008, 8, 2, 1, 1⟩, exampleState3.bmem, [1000]⟩ := by
  unfold PoolInv
  refine ⟨by decide, by decide, by decide, by decide, by decide, by decide, ?_⟩
  decide

theorem C15_publish_refcount_witness :
    (1000 : Nat) ≠ 0 ∧ (exampleState3.emem 1000).sig < u16 exampleState3.QF_maxPubSignal_ ∧
      exampleState3.QF_subscrList_[(exampleState3.emem 1000).sig]? = some 4 ∧
      (4 : Nat) < 65536 ∧ 16 ≤ 16 ∧ Subscribed exampleState3 4 ∧
      (exampleState3.emem 1000).poolId_ = 0 + 1 ∧ (exampleState3.emem 1000).refCtr_ = 0 ∧
      0 < exampleState3.QF_maxPool_ ∧
      exampleState3.QF_pool_[0]? = some ⟨1008, 1000, 1008, 8, 2, 1, 1⟩ ∧
      PoolInv ⟨⟨1008, 1000, 1008, 8, 2, 1, 1⟩, exampleState3.bmem, [1000]⟩ ∧
      1000 ∈ [1000] ∧
      ∃ st1, QF_publish_ 16 exampleState3 1000 = .ok (QPSet.toList 4, st1) ∧
        ((QPSet.toList 4).length = 0 →
          st1.QF_pool_ = exampleState3.QF_pool_.set 0
            { (QMPool.mk 1008 1000 1008 8 2 1 1) with free_head := 1000, nFree := 1 + 1 } ∧
          st1.bmem = exampleState3.bmem.write 1000 1008) ∧
        (1 ≤ (QPSet.toList 4).length →
          (st1.emem 1000).refCtr_ = (QPSet.toList 4).length ∧
          st1.QF_pool_ = exampleState3.QF_pool_ ∧ st1.bmem = exampleState3.bmem ∧
          (∀ j, j < (QPSet.toList 4).length → ∃ st3, gcN j st1 1000 = .ok st3 ∧
            st3.QF_pool_ = exampleState3.QF_pool_ ∧ st3.bmem = exampleState3.bmem) ∧
          ∃ st4, gcN (QPSet.toList 4).length st1 1000 = .ok st4 ∧
            st4.QF_pool_ = exampleState3.QF_pool_.set 0
              { (QMPool.mk 1008 1000 1008 8 2 1 1) with free_head := 1000, nFree := 1 + 1 } ∧
            st4.bmem = exampleState3.bmem.write 1000 1008) :=
  ⟨by decide, by decide, rfl, by decide, by decide, example3_subscribed, rfl, rfl,
    by decide, rfl, example3_pool_inv, by decide,
    C15_publish_refcount 16 exampleState3 1000 4 0 ⟨1008, 1000, 1008, 8, 2, 1, 1⟩ [1000]
      (by decide) (by decide) rfl (by decide) (by decide) example3_subscribed rfl rfl
      (by decide) rfl example3_pool_inv (by decide)⟩

/-! ### Time events -/

set_option maxRecDepth 100000 in
theorem flag_bits : ∀ r, r < 256 →
    u8 (r ||| 64) = r ||| 64 ∧ (r ||| 64) &&& 64 ≠ 0 ∧ (r ||| 64) &&& 15 = r &&& 15 ∧
    (r ||| 64) &&& 128 = r &&& 128 ∧ (r &&& 191) &&& 64 = 0 ∧ (r &&& 191) &&& 15 = r &&& 15 ∧
    (r &&& 191) &&& 128 = r &&& 128 ∧
    u8 (r ||| 128) = r ||| 128 ∧ (r ||| 128) &&& 128 ≠ 0 ∧ (r ||| 128) &&& 15 = r &&& 15 ∧
    (r &&& 127) &&& 128 = 0 ∧ (r &&& 127) &&& 15 = r &&& 15 ∧ r &&& 127 < 256 ∧
    r ||| 128 < 256 ∧ r ||| 64 < 256 ∧ r &&& 191 < 256 := by
  decide

/-- C18: `QTimeEvt_disarm` returns true exactly when the countdown was
non-zero; afterwards the countdown is zero; the was-disarmed flag is set when
it returns true and cleared when it returns false; the interval, the link
and owner pointers, the tick-rate bits and the linked flag of the time event
are unchanged, as are all other time events. -/
theorem C18_disarm (st : QFState) (me : Nat) (hr : (st.emem me).refCtr_ < 256) :
    ((QTimeEvt_disarm st me).1 = true ↔ (st.tevt me).ctr ≠ 0) ∧
      ((QTimeEvt_disarm st me).2.tevt me).ctr = 0 ∧
      ((QTimeEvt_disarm st me).1 = true →
        ((QTimeEvt_disarm st me).2.emem me).refCtr_ &&& TE_WAS_DISARMED ≠ 0) ∧
      ((QTimeEvt_disarm st me).1 = false →
        ((QTimeEvt_disarm st me).2.emem me).refCtr_ &&& TE_WAS_DISARMED = 0) ∧
      ((QTimeEvt_disarm st me).2.tevt me).interval = (st.tevt me).interval ∧
      ((QTimeEvt_disarm st me).2.tevt me).next = (st.tevt me).next ∧
      ((QTimeEvt_disarm st me).2.tevt me).act = (st.tevt me).act ∧
      ((QTimeEvt_disarm st me).2.emem me).refCtr_ &&& TE_TICK_RATE =
        (st.emem me).refCtr_ &&& TE_TICK_RATE ∧
      ((QTimeEvt_disarm st me).2.emem me).refCtr_ &&& TE_IS_LINKED =
        (st.emem me).refCtr_ &&& TE_IS_LINKED ∧
      (∀ a, a ≠ me → (QTimeEvt_disarm st me).2.tevt a = st.tevt a ∧
        (QTimeEvt_disarm st me).2.emem a = st.emem a) := by
  obtain ⟨b1, b2, b3, b4, b5, b6, b7, -⟩ := flag_bits _ hr
  unfold QTimeEvt_disarm TE_WAS_DISARMED TE_TICK_RATE TE_IS_LINKED
  by_cases hc : (st.tevt me).ctr = 0
  · simp only [hc, ne_eq, not_true_eq_false, if_false, QFState.setRefCtr, EvtMem.write,
      if_true, b5, b6, b7]
    refine ⟨by simp, trivial, by simp, fun _ => trivial, trivial, trivial, trivial, trivial,
      trivial, ?_⟩
    intro a ha
    simp [ha]
  · simp only [hc, ne_eq, not_false_eq_true, if_true, QFState.setRefCtr, QFState.setTE,
      EvtMem.write, Function.update_same, b1, b3, b4]
    refine ⟨by simp, trivial, fun _ => b2, by simp, trivial, trivial, trivial, trivial,
      trivial, ?_⟩
    intro a ha
    simp [ha, Function.update_noteq ha]

theorem C18_disarm_witness :
    (exampleState3.emem 800).refCtr_ < 256 ∧
      ((QTimeEvt_disarm exampleState3 800).1 = true ↔ (exampleState3.tevt 800).ctr ≠ 0) ∧
      ((QTimeEvt_disarm exampleState3 800).2.tevt 800).ctr = 0 :=
  ⟨by decide, (C18_disarm exampleState3 800 (by decide)).1,
    (C18_disarm exampleState3 800 (by decide)).2.1⟩

/-! ### Cooperative kernel -/

theorem call_eq {σ : Type} (H : Handlers σ) (s : Nat) (c : Hsm σ) (e : Nat)
    (h0 : s ≠ 0) (ht : s ≠ QHsm_top) :
    QEP_call H s c e = .ok ((H s c.me c.ext e).1,
      ⟨(H s c.me c.ext e).2.1, (H s c.me c.ext e).2.2, c.calls ++ [(s, e)]⟩) := by
  unfold QEP_call
  rw [if_neg h0, if_neg ht]

theorem trig_eq {σ : Type} (H : Handlers σ) (s : Nat) (c : Hsm σ) (e : Nat)
    (h0 : s ≠ 0) (ht : s ≠ QHsm_top) :
    QEP_trig H s c e =
      .ok ⟨(H s c.me c.ext e).2.1, (H s c.me c.ext e).2.2, c.calls ++ [(s, e)]⟩ := by
  unfold QEP_trig
  rw [call_eq H s c e h0 ht]

theorem trig_super {σ : Type} (H : Handlers σ) (s p : Nat) (c : Hsm σ)
    (h0 : s ≠ 0) (ht : s ≠ QHsm_top) (hs : IsSuper H s p) :
    QEP_trig H s c QEP_EMPTY_SIG_ =
      .ok ⟨{ c.me with temp := p }, c.ext, c.calls ++ [(s, QEP_EMPTY_SIG_)]⟩ := by
  rw [trig_eq H s c _ h0 ht, hs c.me c.ext]

theorem call_super {σ : Type} (H : Handlers σ) (s p : Nat) (c : Hsm σ)
    (h0 : s ≠ 0) (ht : s ≠ QHsm_top) (hs : IsSuper H s p) :
    QEP_call H s c QEP_EMPTY_SIG_ =
      .ok (Q_RET_SUPER, ⟨{ c.me with temp := p }, c.ext, c.calls ++ [(s, QEP_EMPTY_SIG_)]⟩) := by
  rw [call_eq H s c _ h0 ht, hs c.me c.ext]

/-- C3: B and C are different states with the same superstate A, B is the
active state in a stable configuration, and the handler of B answers the
event with a transition to C, which has no initial transition. Then
`QHsm_dispatch_` (for a user signal) calls, in this order, B with the event, C and B with the
empty signal (to find their superstates), B with the exit signal, C with
the entry signal and C with the init signal: the only exit and entry actions
run are the exit of B followed by the entry of C, none of A; afterwards
`state.fun` and `temp.fun` are C. -/
theorem C3_sibling_transition {σ : Type} (H : Handlers σ) (c : Hsm σ) (fuel e A B C : Nat)
    (hfuel : 1 ≤ fuel) (he : Q_USER_SIG ≤ e) (hB0 : B ≠ 0) (hBt : B ≠ QHsm_top) (hC0 : C ≠ 0) (hCt : C ≠ QHsm_top)
    (hBC : B ≠ C) (hAB : A ≠ B) (hstate : c.me.state = B) (htemp : c.me.temp = B)
    (htran : (H B c.me c.ext e).1 = Q_RET_TRAN ∧ (H B c.me c.ext e).2.1.temp = C)
    (hsupB : IsSuper H B A) (hsupC : IsSuper H C A) (hinit : NoInit H C) :
    ∃ c1, QHsm_dispatch_ fuel H c e = .ok c1 ∧ c1.me.state = C ∧ c1.me.temp = C ∧
      c1.calls = c.calls ++ [(B, e), (C, QEP_EMPTY_SIG_), (B, QEP_EMPTY_SIG_),
        (B, Q_EXIT_SIG), (C, Q_ENTRY_SIG), (C, Q_INIT_SIG)] ∧
      actions (c1.calls.drop c.calls.length) = [(B, Q_EXIT_SIG), (C, Q_ENTRY_SIG)] := by
  obtain ⟨fuel, rfl⟩ : ∃ f, fuel = f + 1 := ⟨fuel - 1, by omega⟩
  obtain ⟨hr, ht⟩ := htran
  have hbub : QHsm_dispatch_bubble H (fuel + 1) c e = .ok (B, Q_RET_TRAN,
      ⟨(H B c.me c.ext e).2.1, (H B c.me c.ext e).2.2, c.calls ++ [(B, e)]⟩) := by
    simp only [QHsm_dispatch_bubble, htemp, call_eq H B c e hB0 hBt, hr]
    rfl
  have hexit : ∀ c' : Hsm σ, QHsm_dispatch_exit H (fuel + 1) c' B B = .ok c' := by
    intro c'
    simp [QHsm_dispatch_exit]
  have htr : ∀ c' : Hsm σ, ∃ c3 : Hsm σ,
      QHsm_tran_ (fuel + 1) H c' [C, B, B, 0, 0, 0] = .ok (0, [C, B, B, 0, 0, 0], c3) ∧
      c3.calls = c'.calls ++ [(C, QEP_EMPTY_SIG_), (B, QEP_EMPTY_SIG_), (B, Q_EXIT_SIG)] := by
    intro c'
    have hp0 : pathGet [C, B, B, 0, 0, 0] 0 = .ok C := rfl
    have hp2 : pathGet [C, B, B, 0, 0, 0] 2 = .ok B := rfl
    simp only [QHsm_tran_, hp0, hp2, hBC, if_false, trig_super H C A _ hC0 hCt hsupC,
      hAB.symm, trig_super H B A _ hB0 hBt hsupB, if_true, trig_eq H B _ Q_EXIT_SIG hB0 hBt]
    exact ⟨_, rfl, by simp⟩
  obtain ⟨c3, htr1, htr2⟩ := htr ⟨(H B c.me c.ext e).2.1, (H B c.me c.ext e).2.2,
    c.calls ++ [(B, e)]⟩
  have hent : QHsm_dispatch_enter H [C, B, B, 0, 0, 0] 0 c3 =
      .ok ⟨(H C c3.me c3.ext Q_ENTRY_SIG).2.1, (H C c3.me c3.ext Q_ENTRY_SIG).2.2,
        c3.calls ++ [(C, Q_ENTRY_SIG)]⟩ := by
    have hp0 : pathGet [C, B, B, 0, 0, 0] 0 = .ok C := rfl
    simp [QHsm_dispatch_enter, enterPath, hp0, trig_eq H C _ Q_ENTRY_SIG hC0 hCt]
  have hdrill : ∀ c' : Hsm σ, QHsm_dispatch_drill H (fuel + 1) c' [C, B, B, 0, 0, 0] C =
      .ok (⟨(H C c'.me c'.ext Q_INIT_SIG).2.1, (H C c'.me c'.ext Q_INIT_SIG).2.2,
        c'.calls ++ [(C, Q_INIT_SIG)]⟩, C) := by
    intro c'
    simp only [QHsm_dispatch_drill, call_eq H C c' Q_INIT_SIG hC0 hCt, hinit c'.me c'.ext,
      if_false]
  have hp0 : pathGet [C, B, B, 0, 0, 0] 0 = .ok C := rfl
  have hge : Q_RET_TRAN ≥ Q_RET_TRAN := le_refl _
  simp only [QHsm_dispatch_, hstate, htemp, hB0, ne_eq, not_false_eq_true, and_self,
    not_true_eq_false, if_false, hbub, hge, if_true, ht, hexit, htr1, hent, hp0, hdrill]
  refine ⟨_, rfl, rfl, rfl, ?_, ?_⟩
  · simp [htr2]
  · have he1 : e ≠ 1 := by unfold Q_USER_SIG at he; omega
    have he2 : e ≠ 2 := by unfold Q_USER_SIG at he; omega
    simp [htr2, actions, Q_ENTRY_SIG, Q_EXIT_SIG, QEP_EMPTY_SIG_, Q_INIT_SIG, he1, he2]

theorem example_super_B : IsSuper exampleHandlers 11 10 := by
  intro me x
  rfl

theorem example_super_C : IsSuper exampleHandlers 12 10 := by
  intro me x
  rfl

theorem example_super_A : IsSuper exampleHandlers 10 QHsm_top := by
  intro me x
  rfl

theorem example_noInit_C : NoInit exampleHandlers 12 := by
  intro me x
  show Q_RET_SUPER ≠ Q_RET_TRAN
  decide

theorem C3_sibling_transition_witness :
    1 ≤ 1 ∧ Q_USER_SIG ≤ 5 ∧ (11 : Nat) ≠ 0 ∧ 11 ≠ QHsm_top ∧ (12 : Nat) ≠ 0 ∧
      12 ≠ QHsm_top ∧ (11 : Nat) ≠ 12 ∧ (10 : Nat) ≠ 11 ∧
      (Hsm.mk (QHsm.mk 1 11 11) () []).me.state = 11 ∧
      (Hsm.mk (QHsm.mk 1 11 11) () []).me.temp = 11 ∧
      ((exampleHandlers 11 (QHsm.mk 1 11 11) () 5).1 = Q_RET_TRAN ∧
        (exampleHandlers 11 (QHsm.mk 1 11 11) () 5).2.1.temp = 12) ∧
      IsSuper exampleHandlers 11 10 ∧ IsSuper exampleHandlers 12 10 ∧
      NoInit exampleHandlers 12 ∧
      ∃ c1, QHsm_dispatch_ 1 exampleHandlers (Hsm.mk (QHsm.mk 1 11 11) () []) 5 = .ok c1 ∧
        c1.me.state = 12 ∧ c1.me.temp = 12 ∧
        c1.calls = (Hsm.mk (QHsm.mk 1 11 11) () []).calls ++
          [(11, 5), (12, QEP_EMPTY_SIG_), (11, QEP_EMPTY_SIG_),
            (11, Q_EXIT_SIG), (12, Q_ENTRY_SIG), (12, Q_INIT_SIG)] ∧
        actions (c1.calls.drop (Hsm.mk (QHsm.mk 1 11 11) () []).calls.length) =
          [(11, Q_EXIT_SIG), (12, Q_ENTRY_SIG)] :=
  ⟨by decide, by decide, by decide, by decide, by decide, by decide, by decide, by decide,
    rfl, rfl, ⟨rfl, rfl⟩, example_super_B, example_super_C, example_noInit_C,
    C3_sibling_transition exampleHandlers (Hsm.mk (QHsm.mk 1 11 11) () []) 1 5 10 11 12
      (by decide) (by decide) (by decide) (by decide) (by decide) (by decide) (by decide)
      (by decide) rfl rfl ⟨rfl, rfl⟩ example_super_B example_super_C example_noInit_C⟩

theorem actions_append (l1 l2 : List (Nat × Nat)) :
    actions (l1 ++ l2) = actions l1 ++ actions l2 := by
  unfold actions
  exact List.filter_append _ _

theorem bubble_chain {σ : Type} (H : Handlers σ) (e : Nat) (chain : List Nat) (h n : Nat)
    (c : Hsm σ) (hb : Bubbles H e chain h) (ht : c.me.temp = chain.headD h) :
    ∃ (c' : Hsm σ) (L : List (Nat × Nat)),
      QHsm_dispatch_bubble H (n + chain.length) c e = QHsm_dispatch_bubble H n c' e ∧
      c'.me.temp = h ∧ c'.calls = c.calls ++ L ∧
      ∀ p, p ∈ L → (p.2 = e ∨ p.2 = QEP_EMPTY_SIG_) ∧ p.1 ∈ chain := by
  induction chain generalizing c with
  | nil => exact ⟨c, [], rfl, ht, by simp, fun p hp => by cases hp⟩
  | cons s rest ih =>
    obtain ⟨hs0, hst, hdel, hsup, hrest⟩ := hb
    simp only [List.headD_cons] at ht
    have hlen : n + (s :: rest).length = (n + rest.length) + 1 := by simp; omega
    rw [hlen, QHsm_dispatch_bubble]
    simp only [ht, call_eq H s c e hs0 hst]
    rcases hdel c.me c.ext with ⟨h1, h2⟩ | h1
    · have hne : ¬ Q_RET_SUPER = Q_RET_UNHANDLED := by decide
      simp only [h1, hne, if_false, if_true]
      obtain ⟨c', L, e1, e2, e3, e4⟩ := ih
        ⟨(H s c.me c.ext e).2.1, (H s c.me c.ext e).2.2, c.calls ++ [(s, e)]⟩ hrest h2
      refine ⟨c', (s, e) :: L, e1, e2, by simp [e3], ?_⟩
      intro p hp
      rcases List.mem_cons.mp hp with rfl | hp
      · exact ⟨Or.inl rfl, List.mem_cons_self _ _⟩
      · exact ⟨(e4 p hp).1, List.mem_cons_of_mem _ (e4 p hp).2⟩
    · simp only [h1, if_true, call_super H s _ _ hs0 hst hsup]
      obtain ⟨c', L, e1, e2, e3, e4⟩ := ih
        ⟨{ (H s c.me c.ext e).2.1 with temp := rest.headD h }, (H s c.me c.ext e).2.2,
          c.calls ++ [(s, e)] ++ [(s, QEP_EMPTY_SIG_)]⟩ hrest rfl
      refine ⟨c', (s, e) :: (s, QEP_EMPTY_SIG_) :: L, e1, e2, by simp [e3], ?_⟩
      intro p hp
      rcases List.mem_cons.mp hp with rfl | hp
      · exact ⟨Or.inl rfl, List.mem_cons_self _ _⟩
      · rcases List.mem_cons.mp hp with rfl | hp
        · exact ⟨Or.inr rfl, List.mem_cons_self _ _⟩
        · exact ⟨(e4 p hp).1, List.mem_cons_of_mem _ (e4 p hp).2⟩

theorem actions_nil_of (L : List (Nat × Nat)) (e : Nat) (he : Q_USER_SIG ≤ e)
    (h : ∀ p, p ∈ L → p.2 = e ∨ p.2 = QEP_EMPTY_SIG_) : actions L = [] := by
  unfold actions
  rw [List.filter_eq_nil_iff]
  intro p hp
  unfold Q_USER_SIG at he
  rcases h p hp with h1 | h1
  · simp only [h1, Q_ENTRY_SIG, Q_EXIT_SIG, decide_eq_true_eq]
    omega
  · simp [h1, Q_ENTRY_SIG, Q_EXIT_SIG, QEP_EMPTY_SIG_]

/-- C6: the active state and its superstates up to (excluding) `h`, listed
innermost first in `chain`, leave the event to their superstate by returning
`Q_SUPER` or `Q_UNHANDLED`, and the handler of `h` returns `Q_HANDLED`. Then
`QHsm_dispatch_` calls handlers only with the event and the empty signal,
no entry or exit action is invoked, the last call is `h` with the event,
and `state.fun` is unchanged (and equal to `temp.fun`) afterwards. -/
theorem C6_bubble_up {σ : Type} (H : Handlers σ) (c : Hsm σ) (fuel e h : Nat)
    (chain : List Nat) (hfuel : chain.length + 1 ≤ fuel) (he : Q_USER_SIG ≤ e)
    (hb : Bubbles H e chain h) (hh0 : h ≠ 0) (hht : h ≠ QHsm_top)
    (hhandled : ∀ me x, (H h me x e).1 = Q_RET_HANDLED)
    (hstate : c.me.state = chain.headD h) (htemp : c.me.temp = chain.headD h) :
    ∃ (c1 : Hsm σ) (L : List (Nat × Nat)), QHsm_dispatch_ fuel H c e = .ok c1 ∧
      c1.me.state = c.me.state ∧ c1.me.temp = c.me.state ∧
      c1.calls = c.calls ++ L ∧ (∀ p, p ∈ L → p.2 = e ∨ p.2 = QEP_EMPTY_SIG_) ∧
      actions L = [] ∧ L.getLast? = some (h, e) := by
  obtain ⟨n, rfl⟩ : ∃ n, fuel = (n + 1) + chain.length :=
    ⟨fuel - chain.length - 1, by omega⟩
  obtain ⟨c', L, e1, e2, e3, e4⟩ := bubble_chain H e chain h (n + 1) c hb htemp
  have hs0 : chain.headD h ≠ 0 := by
    cases chain with
    | nil => exact hh0
    | cons s rest => exact hb.1
  have hne1 : ¬ Q_RET_HANDLED = Q_RET_UNHANDLED := by decide
  have hne2 : ¬ Q_RET_HANDLED = Q_RET_SUPER := by decide
  have hne3 : ¬ Q_RET_HANDLED ≥ Q_RET_TRAN := by decide
  have hbub : QHsm_dispatch_bubble H (n + 1) c' e = .ok (h, Q_RET_HANDLED,
      ⟨(H h c'.me c'.ext e).2.1, (H h c'.me c'.ext e).2.2, c'.calls ++ [(h, e)]⟩) := by
    simp only [QHsm_dispatch_bubble, e2, call_eq H h c' e hh0 hht, hhandled c'.me c'.ext,
      hne1, hne2, if_false]
  have hall : ∀ p, p ∈ L ++ [(h, e)] → p.2 = e ∨ p.2 = QEP_EMPTY_SIG_ := by
    intro p hp
    rcases List.mem_append.mp hp with hp | hp
    · exact (e4 p hp).1
    · rw [List.mem_singleton] at hp
      subst hp
      exact Or.inl rfl
  simp only [QHsm_dispatch_, hs0, ne_eq, not_false_eq_true, hstate, htemp, and_self,
    not_true_eq_false, if_false, e1, hbub, hne3]
  exact ⟨_, L ++ [(h, e)], rfl, rfl, rfl, by simp [e3], hall, actions_nil_of _ e he hall,
    by simp⟩

theorem example_bubbles : Bubbles exampleHandlers 8 [11] 10 :=
  ⟨by decide, by decide, fun _ _ => Or.inl ⟨rfl, rfl⟩, example_super_B, trivial⟩

theorem C6_bubble_up_witness :
    [(11 : Nat)].length + 1 ≤ 2 ∧ Q_USER_SIG ≤ 8 ∧ Bubbles exampleHandlers 8 [11] 10 ∧
      (10 : Nat) ≠ 0 ∧ 10 ≠ QHsm_top ∧
      (∀ me x, (exampleHandlers 10 me x 8).1 = Q_RET_HANDLED) ∧
      (Hsm.mk (QHsm.mk 1 11 11) () []).me.state = [(11 : Nat)].headD 10 ∧
      (Hsm.mk (QHsm.mk 1 11 11) () []).me.temp = [(11 : Nat)].headD 10 ∧
      ∃ (c1 : Hsm Unit) (L : List (Nat × Nat)),
        QHsm_dispatch_ 2 exampleHandlers (Hsm.mk (QHsm.mk 1 11 11) () []) 8 = .ok c1 ∧
        c1.me.state = (Hsm.mk (QHsm.mk 1 11 11) () []).me.state ∧
        c1.me.temp = (Hsm.mk (QHsm.mk 1 11 11) () []).me.state ∧
        c1.calls = (Hsm.mk (QHsm.mk 1 11 11) () []).calls ++ L ∧
        (∀ p, p ∈ L → p.2 = 8 ∨ p.2 = QEP_EMPTY_SIG_) ∧
        actions L = [] ∧ L.getLast? = some (10, 8) :=
  ⟨by decide, by decide, example_bubbles, by decide, by decide, fun _ _ => rfl, rfl, rfl,
    C6_bubble_up exampleHandlers (Hsm.mk (QHsm.mk 1 11 11) () []) 2 8 10 [11]
      (by decide) (by decide) example_bubbles (by decide) (by decide) (fun _ _ => rfl)
      rfl rfl⟩

theorem exit_chain {σ : Type} (H : Handlers σ) (chain : List Nat) (s n : Nat) (c : Hsm σ)
    (hx : ExitChain H chain s) :
    ∃ (c' : Hsm σ) (L : List (Nat × Nat)),
      QHsm_dispatch_exit H (n + chain.length) c (chain.headD s) s = .ok c' ∧
      c'.calls = c.calls ++ L ∧ actions L = chain.map (fun t => (t, Q_EXIT_SIG)) := by
  induction chain generalizing c with
  | nil =>
    refine ⟨c, [], ?_, by simp, rfl⟩
    cases n <;> simp [QHsm_dispatch_exit]
  | cons t rest ih =>
    obtain ⟨ht0, htt, hts, hex, hsup, hrest⟩ := hx
    have hlen : n + (t :: rest).length = (n + rest.length) + 1 := by simp; omega
    rw [hlen, QHsm_dispatch_exit]
    simp only [List.headD_cons, hts, ne_eq, not_false_eq_true, if_true,
      call_eq H t c Q_EXIT_SIG ht0 htt]
    have hact1 : actions [(t, Q_EXIT_SIG)] = [(t, Q_EXIT_SIG)] := by
      simp [actions, Q_EXIT_SIG, Q_ENTRY_SIG]
    have hact2 : actions [(t, QEP_EMPTY_SIG_)] = [] := by
      simp [actions, Q_EXIT_SIG, Q_ENTRY_SIG, QEP_EMPTY_SIG_]
    by_cases hr : (H t c.me c.ext Q_EXIT_SIG).1 = Q_RET_HANDLED
    · simp only [hr, if_true, trig_super H t _ _ ht0 htt hsup]
      obtain ⟨c', L, e1, e2, e3⟩ := ih
        ⟨{ (H t c.me c.ext Q_EXIT_SIG).2.1 with temp := rest.headD s },
          (H t c.me c.ext Q_EXIT_SIG).2.2,
          c.calls ++ [(t, Q_EXIT_SIG)] ++ [(t, QEP_EMPTY_SIG_)]⟩ hrest
      refine ⟨c', [(t, Q_EXIT_SIG)] ++ ([(t, QEP_EMPTY_SIG_)] ++ L), e1, by simp [e2], ?_⟩
      rw [actions_append, actions_append, hact1, hact2, e3]
      rfl
    · have htemp : (H t c.me c.ext Q_EXIT_SIG).2.1.temp = rest.headD s := by
        rcases hex c.me c.ext with h1 | h1
        · exact absurd h1 hr
        · exact h1
      simp only [hr, if_false, htemp]
      obtain ⟨c', L, e1, e2, e3⟩ := ih
        ⟨(H t c.me c.ext Q_EXIT_SIG).2.1, (H t c.me c.ext Q_EXIT_SIG).2.2,
          c.calls ++ [(t, Q_EXIT_SIG)]⟩ hrest
      refine ⟨c', [(t, Q_EXIT_SIG)] ++ L, e1, by simp [e2], ?_⟩
      rw [actions_append, hact1, e3]
      rfl

theorem example_exitChain : ExitChain exampleHandlers [11] 10 :=
  ⟨by decide, by decide, by decide, fun _ _ => Or.inl rfl, example_super_B, trivial⟩

theorem example_bubbles7 : Bubbles exampleHandlers 7 [11] 10 :=
  ⟨by decide, by decide, fun _ _ => Or.inl ⟨rfl, rfl⟩, example_super_B, trivial⟩

theorem walk_spec {σ : Type} (H : Handlers σ) (rest : List Nat) (src n : Nat) (c : Hsm σ)
    (path : List Nat) (ip : Nat) (ha : Ancestry H rest src) (ht : c.me.temp = rest.headD src)
    (hlen : path.length = 6) (hip : ip + rest.length < 6) :
    ∃ path1, QHsm_init_walk H (n + rest.length) c src path ip =
        .ok (⟨{ c.me with temp := src }, c.ext,
          c.calls ++ rest.map (fun u => (u, QEP_EMPTY_SIG_))⟩, path1, ip + rest.length) ∧
      path1.length = 6 ∧ path1.take (ip + 1 + rest.length) = path.take (ip + 1) ++ rest := by
  induction rest generalizing c path ip with
  | nil =>
    simp only [List.headD_nil] at ht
    refine ⟨path, ?_, hlen, by simp⟩
    have hc : c = ⟨⟨c.me.vptr, c.me.state, src⟩, c.ext, c.calls⟩ := by
      cases c with
      | mk me ext calls =>
        cases me with
        | mk v s t =>
          simp only at ht
          subst ht
          rfl
    cases n <;> simp [QHsm_init_walk, ht] <;> exact hc
  | cons u rest ih =>
    obtain ⟨hu0, hut, hus, hsup, hrest⟩ := ha
    simp only [List.headD_cons] at ht
    simp only [List.length_cons] at hip
    have hlen1 : n + (u :: rest).length = (n + rest.length) + 1 := by simp; omega
    have hset : pathSet path (ip + 1) u = .ok (path.set (ip + 1) u) := by
      unfold pathSet
      rw [if_pos (by omega)]
    have hdepth : ip + 1 < QHSM_MAX_NEST_DEPTH_ := by unfold QHSM_MAX_NEST_DEPTH_; omega
    rw [hlen1, QHsm_init_walk]
    simp only [ht, hus, ne_eq, not_false_eq_true, if_true, hdepth, not_true_eq_false,
      if_false, hset, trig_super H u _ _ hu0 hut hsup]
    obtain ⟨path1, h1, h2, h3⟩ := ih
      ⟨{ c.me with temp := rest.headD src }, c.ext, c.calls ++ [(u, QEP_EMPTY_SIG_)]⟩
      (path.set (ip + 1) u) (ip + 1) hrest rfl (by simp [hlen]) (by omega)
    refine ⟨path1, ?_, h2, ?_⟩
    · rw [h1]
      simp only [List.map_cons, List.append_assoc, List.singleton_append, List.length_cons]
      congr 3
      omega
    · have e1 : ip + 1 + (u :: rest).length = ip + 1 + 1 + rest.length := by simp; omega
      rw [e1, h3, List.take_succ, List.set_take,
        List.set_eq_of_length_le (by rw [List.length_take]; omega),
        List.getElem?_set_self (by omega)]
      simp

theorem ancestry_ne {σ : Type} (H : Handlers σ) (up : List Nat) (src : Nat)
    (ha : Ancestry H up src) : ∀ u, u ∈ up → u ≠ 0 ∧ u ≠ QHsm_top := by
  induction up with
  | nil => intro u hu; cases hu
  | cons a rest ih =>
    intro u hu
    rcases List.mem_cons.mp hu with h | h
    · rw [h]; exact ⟨ha.1, ha.2.1⟩
    · exact ih ha.2.2.2.2 u h

theorem enterPath_spec {σ : Type} (H : Handlers σ) (path : List Nat) (n : Nat) (c : Hsm σ)
    (hn : n < path.length) (hne : ∀ u, u ∈ path.take (n + 1) → u ≠ 0 ∧ u ≠ QHsm_top) :
    ∃ c1, enterPath H path n c = .ok c1 ∧
      c1.calls = c.calls ++ (path.take (n + 1)).reverse.map (fun u => (u, Q_ENTRY_SIG)) := by
  induction n generalizing c with
  | zero =>
    have h1 : path.take 1 = [path.getD 0 0] := by
      cases path with
      | nil => simp at hn
      | cons a t => simp
    have ha := hne (path.getD 0 0) (by rw [h1]; simp)
    unfold enterPath pathGet
    rw [if_pos hn]
    simp only [trig_eq H _ c _ ha.1 ha.2]
    exact ⟨_, rfl, by rw [h1]; rfl⟩
  | succ n ih =>
    have h1 : path.take (n + 1 + 1) = path.take (n + 1) ++ [path.getD (n + 1) 0] := by
      rw [List.take_succ]
      congr 1
      simp [List.getD, List.getElem?_eq_getElem hn]
    have ha := hne (path.getD (n + 1) 0) (by rw [h1]; simp)
    unfold enterPath pathGet
    rw [if_pos hn]
    simp only [trig_eq H _ c _ ha.1 ha.2]
    obtain ⟨c1, e1, e2⟩ := ih
      ⟨(H (path.getD (n + 1) 0) c.me c.ext Q_ENTRY_SIG).2.1,
        (H (path.getD (n + 1) 0) c.me c.ext Q_ENTRY_SIG).2.2,
        c.calls ++ [(path.getD (n + 1) 0, Q_ENTRY_SIG)]⟩ (by omega)
      (fun u hu => hne u (by rw [h1]; exact List.mem_append_left _ hu))
    refine ⟨c1, e1, ?_⟩
    rw [e2, h1]
    simp

theorem actions_map_empty (l : List Nat) :
    actions (l.map (fun u => (u, QEP_EMPTY_SIG_))) = [] := by
  unfold actions
  rw [List.filter_eq_nil_iff]
  intro p hp
  obtain ⟨u, _, rfl⟩ := List.mem_map.mp hp
  simp [Q_ENTRY_SIG, Q_EXIT_SIG, QEP_EMPTY_SIG_]

theorem actions_map_entry (l : List Nat) :
    actions (l.map (fun u => (u, Q_ENTRY_SIG))) = l.map (fun u => (u, Q_ENTRY_SIG)) := by
  unfold actions
  rw [List.filter_eq_self]
  intro p hp
  obtain ⟨u, _, rfl⟩ := List.mem_map.mp hp
  simp

theorem init_iter {σ : Type} (H : Handlers σ) (up : List Nat) (src f : Nat) (c : Hsm σ)
    (hne : up ≠ []) (hlen : up.length ≤ QHSM_MAX_NEST_DEPTH_) (ha : Ancestry H up src)
    (ht : c.me.temp = up.headD 0) (hf : 5 ≤ f) :
    ∃ (c1 : Hsm σ) (L : List (Nat × Nat)), c1.calls = c.calls ++ L ∧
      actions L = up.reverse.map (fun u => (u, Q_ENTRY_SIG)) ∧
      QHsm_init_loop H (f + 1) c src =
        (if (H (up.headD 0) c1.me c1.ext Q_INIT_SIG).1 = Q_RET_TRAN then
          QHsm_init_loop H f ⟨(H (up.headD 0) c1.me c1.ext Q_INIT_SIG).2.1,
            (H (up.headD 0) c1.me c1.ext Q_INIT_SIG).2.2,
            c1.calls ++ [(up.headD 0, Q_INIT_SIG)]⟩ (up.headD 0)
        else .ok (⟨(H (up.headD 0) c1.me c1.ext Q_INIT_SIG).2.1,
            (H (up.headD 0) c1.me c1.ext Q_INIT_SIG).2.2,
            c1.calls ++ [(up.headD 0, Q_INIT_SIG)]⟩, up.headD 0)) := by
  cases up with
  | nil => exact absurd rfl hne
  | cons tgt rest =>
    obtain ⟨h0, htop, hsrc, hsup, hrest⟩ := ha
    simp only [List.headD_cons] at ht ⊢
    simp only [List.length_cons, QHSM_MAX_NEST_DEPTH_] at hlen
    have hset : pathSet (List.replicate QHSM_MAX_NEST_DEPTH_ 0) 0 tgt =
        .ok [tgt, 0, 0, 0, 0, 0] := rfl
    obtain ⟨path1, w1, w2, w3⟩ := walk_spec H rest src (f - rest.length)
      ⟨{ c.me with temp := rest.headD src }, c.ext, c.calls ++ [(tgt, QEP_EMPTY_SIG_)]⟩
      [tgt, 0, 0, 0, 0, 0] 0 hrest rfl rfl (by omega)
    rw [Nat.sub_add_cancel (by omega)] at w1
    have hp1 : 0 < path1.length := by omega
    have hget : pathGet path1 0 = .ok tgt := by
      unfold pathGet
      rw [if_pos hp1]
      have : path1.take 1 = [tgt] := by
        have := congrArg (List.take 1) w3
        simpa [List.take_take] using this
      cases path1 with
      | nil => simp at hp1
      | cons a t =>
        simp at this
        simp [this]
    simp only [Nat.zero_add] at w3
    obtain ⟨c1, e1, e2⟩ := enterPath_spec H path1 rest.length
      ⟨{ c.me with temp := tgt }, c.ext,
        (c.calls ++ [(tgt, QEP_EMPTY_SIG_)]) ++ rest.map (fun u => (u, QEP_EMPTY_SIG_))⟩
      (by omega)
      (by
        rw [Nat.add_comm, w3]
        exact ancestry_ne H (tgt :: rest) src ⟨h0, htop, hsrc, hsup, hrest⟩)
    refine ⟨c1, [(tgt, QEP_EMPTY_SIG_)] ++ rest.map (fun u => (u, QEP_EMPTY_SIG_)) ++
      (tgt :: rest).reverse.map (fun u => (u, Q_ENTRY_SIG)), ?_, ?_, ?_⟩
    · rw [e2, Nat.add_comm, w3]
      simp
    · rw [actions_append, actions_append, actions_map_empty, actions_map_entry]
      rfl
    · rw [QHsm_init_loop]
      simp only [ht, hset, trig_super H tgt _ c h0 htop hsup, w1, hget, Nat.zero_add, e1,
        call_eq H tgt c1 _ h0 htop]

theorem init_loop_spec {σ : Type} (H : Handlers σ) (more : List (List Nat)) :
    ∀ (up : List Nat) (src n : Nat) (c : Hsm σ), InitSegs H up more src →
      c.me.temp = up.headD 0 →
      ∃ (c1 : Hsm σ) (L : List (Nat × Nat)),
        QHsm_init_loop H (n + more.length + 6) c src = .ok (c1, lastTarget up more) ∧
        c1.calls = c.calls ++ L ∧ actions L = entriesOf (up :: more) := by
  induction more with
  | nil =>
    intro up src n c hs ht
    obtain ⟨hne, hlen, ha, hno⟩ := hs
    obtain ⟨c1, L, e1, e2, e3⟩ := init_iter H up src (n + 5) c hne hlen ha ht
      (Nat.le_add_left 5 _)
    rw [if_neg (hno c1.me c1.ext)] at e3
    refine ⟨_, L ++ [(up.headD 0, Q_INIT_SIG)], e3, ?_, ?_⟩
    · simp [e1]
    · rw [actions_append, e2]
      simp [entriesOf, actions, Q_INIT_SIG, Q_ENTRY_SIG, Q_EXIT_SIG]
  | cons up1 more ih =>
    intro up src n c hs ht
    obtain ⟨hne, hlen, ha, htr, hs1⟩ := hs
    obtain ⟨c1, L, e1, e2, e3⟩ := init_iter H up src (n + more.length + 6) c hne hlen ha ht
      (by omega)
    rw [if_pos (htr c1.me c1.ext).1] at e3
    obtain ⟨c2, L2, f1, f2, f3⟩ := ih up1 (up.headD 0) n
      ⟨(H (up.headD 0) c1.me c1.ext Q_INIT_SIG).2.1,
        (H (up.headD 0) c1.me c1.ext Q_INIT_SIG).2.2,
        c1.calls ++ [(up.headD 0, Q_INIT_SIG)]⟩ hs1 (htr c1.me c1.ext).2
    have hfuel : n + (up1 :: more).length + 6 = n + more.length + 6 + 1 := by
      simp only [List.length_cons]
      omega
    refine ⟨c2, L ++ [(up.headD 0, Q_INIT_SIG)] ++ L2, ?_, ?_, ?_⟩
    · rw [hfuel, e3, f1]
      cases up1 <;> rfl
    · rw [f2, e1]
      simp
    · rw [actions_append, actions_append, e2, f3]
      simp [entriesOf, actions, Q_INIT_SIG, Q_ENTRY_SIG, Q_EXIT_SIG]

/-- C5: a machine constructed by `QHsm_ctor` with the initial pseudostate
`ini`, whose top-most initial transition targets the first state of `up`
and whose nested initial transitions lead through the segments of `more`
(each segment lists, innermost first, the target of one initial transition
and its superstates below the source). Then one call of `QHsm_init_` returns;
after the call of `ini` the entry and exit actions it runs are exactly the
entry actions of the states of the segments, every segment outermost state
first, and `state.fun` and `temp.fun` are the target of the last initial
transition. -/
theorem C5_init_nested {σ : Type} (H : Handlers σ) (me0 : QHsm) (x : σ) (ini e0 fuel : Nat)
    (up : List Nat) (more : List (List Nat)) (hfuel : more.length + 6 ≤ fuel)
    (hini0 : ini ≠ 0) (hinit : ini ≠ QHsm_top)
    (hini : (H ini (QHsm_ctor me0 ini) x e0).1 = Q_RET_TRAN ∧
      (H ini (QHsm_ctor me0 ini) x e0).2.1.temp = up.headD 0)
    (hs : InitSegs H up more QHsm_top) :
    ∃ (c1 : Hsm σ) (L : List (Nat × Nat)),
      QHsm_init_ fuel H ⟨QHsm_ctor me0 ini, x, []⟩ e0 = .ok c1 ∧
      c1.me.state = lastTarget up more ∧ c1.me.temp = lastTarget up more ∧
      c1.calls = (ini, e0) :: L ∧ actions L = entriesOf (up :: more) := by
  obtain ⟨n, rfl⟩ : ∃ n, fuel = n + more.length + 6 := ⟨fuel - more.length - 6, by omega⟩
  obtain ⟨c1, L, e1, e2, e3⟩ := init_loop_spec H more up QHsm_top n
    ⟨(H ini (QHsm_ctor me0 ini) x e0).2.1, (H ini (QHsm_ctor me0 ini) x e0).2.2,
      [(ini, e0)]⟩ hs hini.2
  refine ⟨⟨⟨c1.me.vptr, lastTarget up more, lastTarget up more⟩, c1.ext, c1.calls⟩, L,
    ?_, rfl, rfl, e2, e3⟩
  unfold QHsm_init_
  have hpre : (QHsm_ctor me0 ini).vptr ≠ 0 ∧ (QHsm_ctor me0 ini).temp ≠ 0 ∧
      (QHsm_ctor me0 ini).state = QHsm_top := ⟨(by decide : QHsm_vtable ≠ 0), hini0, rfl⟩
  simp only [hpre, ne_eq, not_true_eq_false, not_false_eq_true, and_self, if_false]
  have hcall := call_eq H ini ⟨QHsm_ctor me0 ini, x, []⟩ e0 hini0 hinit
  simp only [List.nil_append] at hcall
  have htemp : (QHsm_ctor me0 ini).temp = ini := rfl
  simp only [htemp, hcall, hini.1, not_true_eq_false, if_false]
  have hstate : (QHsm_ctor me0 ini).state = QHsm_top := rfl
  rw [e1]

theorem example_noInit_B : NoInit exampleHandlers 11 := by
  intro me x
  show Q_RET_SUPER ≠ Q_RET_TRAN
  decide

theorem example_initSegs : InitSegs exampleHandlers [10] [[11]] QHsm_top :=
  ⟨by decide, by decide, ⟨by decide, by decide, by decide, example_super_A, trivial⟩,
    fun _ _ => ⟨rfl, rfl⟩,
    by decide, by decide, ⟨by decide, by decide, by decide, example_super_B, trivial⟩,
    example_noInit_B⟩

theorem C5_init_nested_witness :
    [[(11 : Nat)]].length + 6 ≤ 7 ∧ (20 : Nat) ≠ 0 ∧ 20 ≠ QHsm_top ∧
      ((exampleHandlers 20 (QHsm_ctor (QHsm.mk 0 0 0) 20) () 0).1 = Q_RET_TRAN ∧
        (exampleHandlers 20 (QHsm_ctor (QHsm.mk 0 0 0) 20) () 0).2.1.temp = [(10 : Nat)].headD 0) ∧
      InitSegs exampleHandlers [10] [[11]] QHsm_top ∧
      ∃ (c1 : Hsm Unit) (L : List (Nat × Nat)),
        QHsm_init_ 7 exampleHandlers ⟨QHsm_ctor (QHsm.mk 0 0 0) 20, (), []⟩ 0 = .ok c1 ∧
        c1.me.state = lastTarget [10] [[11]] ∧ c1.me.temp = lastTarget [10] [[11]] ∧
        c1.calls = (20, 0) :: L ∧ actions L = entriesOf ([10] :: [[11]]) :=
  ⟨by decide, by decide, by decide, ⟨rfl, rfl⟩, example_initSegs,
    C5_init_nested exampleHandlers (QHsm.mk 0 0 0) () 20 0 7 [10] [[11]] (by decide)
      (by decide) (by decide) ⟨rfl, rfl⟩ example_initSegs⟩

theorem dispatch_walk_spec {σ : Type} (H : Handlers σ) (rest : List Nat) (src n : Nat)
    (c : Hsm σ) (path : List Nat) (ip : Nat) (ha : Ancestry H rest src)
    (ht : c.me.temp = rest.headD src) (hlen : path.length = 6) (hip : ip + rest.length < 6) :
    ∃ path1, QHsm_dispatch_walk H (n + rest.length) c src path ip =
        .ok (⟨{ c.me with temp := src }, c.ext,
          c.calls ++ rest.map (fun u => (u, QEP_EMPTY_SIG_))⟩, path1, ip + rest.length) ∧
      path1.length = 6 ∧ path1.take (ip + 1 + rest.length) = path.take (ip + 1) ++ rest := by
  induction rest generalizing c path ip with
  | nil =>
    simp only [List.headD_nil] at ht
    refine ⟨path, ?_, hlen, by simp⟩
    have hc : c = ⟨⟨c.me.vptr, c.me.state, src⟩, c.ext, c.calls⟩ := by
      cases c with
      | mk me ext calls =>
        cases me with
        | mk v s t =>
          simp only at ht
          subst ht
          rfl
    cases n <;> simp [QHsm_dispatch_walk, ht] <;> exact hc
  | cons u rest ih =>
    obtain ⟨hu0, hut, hus, hsup, hrest⟩ := ha
    simp only [List.headD_cons] at ht
    simp only [List.length_cons] at hip
    have hlen1 : n + (u :: rest).length = (n + rest.length) + 1 := by simp; omega
    have hset : pathSet path (ip + 1) u = .ok (path.set (ip + 1) u) := by
      unfold pathSet
      rw [if_pos (by omega)]
    rw [hlen1, QHsm_dispatch_walk]
    simp only [ht, hus, ne_eq, not_false_eq_true, if_true, hset,
      trig_super H u _ _ hu0 hut hsup]
    obtain ⟨path1, h1, h2, h3⟩ := ih
      ⟨{ c.me with temp := rest.headD src }, c.ext, c.calls ++ [(u, QEP_EMPTY_SIG_)]⟩
      (path.set (ip + 1) u) (ip + 1) hrest rfl (by simp [hlen]) (by omega)
    refine ⟨path1, ?_, h2, ?_⟩
    · rw [h1]
      simp only [List.map_cons, List.append_assoc, List.singleton_append, List.length_cons]
      congr 3
      omega
    · have e1 : ip + 1 + (u :: rest).length = ip + 1 + 1 + rest.length := by simp; omega
      rw [e1, h3, List.take_succ, List.set_take,
        List.set_eq_of_length_le (by rw [List.length_take]; omega),
        List.getElem?_set_self (by omega)]
      simp

theorem initSegs_drill {σ : Type} (H : Handlers σ) (up : List Nat) (more : List (List Nat))
    (src : Nat) (hs : InitSegs H up more src) :
    up ≠ [] ∧ up.length ≤ QHSM_MAX_NEST_DEPTH_ ∧ Ancestry H up src ∧
      DrillSegs H (up.headD 0) more := by
  cases more with
  | nil => exact hs
  | cons up1 more => exact ⟨hs.1, hs.2.1, hs.2.2.1, hs.2.2.2.1, hs.2.2.2.2⟩

theorem lastTarget_cons (up up1 : List Nat) (more : List (List Nat)) :
    lastTarget up (up1 :: more) = lastTarget up1 more := by
  simp [lastTarget]

theorem lastTarget_head (t : Nat) (rest : List Nat) (more : List (List Nat)) :
    lastTarget (t :: rest) more = lastTarget [t] more := by
  cases more with
  | nil => rfl
  | cons up1 more => rw [lastTarget_cons, lastTarget_cons]

theorem drill_spec {σ : Type} (H : Handlers σ) (more : List (List Nat)) :
    ∀ (t n : Nat) (c : Hsm σ) (path : List Nat), path.length = 6 → t ≠ 0 → t ≠ QHsm_top →
      DrillSegs H t more →
      ∃ (c1 : Hsm σ) (L : List (Nat × Nat)),
        QHsm_dispatch_drill H (n + more.length + 6) c path t = .ok (c1, lastTarget [t] more) ∧
        c1.calls = c.calls ++ L ∧ actions L = entriesOf more := by
  induction more with
  | nil =>
    intro t n c path hlen h0 htop hs
    refine ⟨⟨(H t c.me c.ext Q_INIT_SIG).2.1, (H t c.me c.ext Q_INIT_SIG).2.2,
      c.calls ++ [(t, Q_INIT_SIG)]⟩, [(t, Q_INIT_SIG)], ?_, rfl, ?_⟩
    · show QHsm_dispatch_drill H (n + 5 + 1) c path t = _
      simp only [QHsm_dispatch_drill, call_eq H t c Q_INIT_SIG h0 htop, hs c.me c.ext, if_false]
      rfl
    · simp [entriesOf, actions, Q_INIT_SIG, Q_ENTRY_SIG, Q_EXIT_SIG]
  | cons up1 more ih =>
    intro t n c path hlen h0 htop hs
    obtain ⟨htr, hseg⟩ := hs
    obtain ⟨hne, hl1, ha, hd⟩ := initSegs_drill H up1 more t hseg
    cases up1 with
    | nil => exact absurd rfl hne
    | cons tgt rest =>
      simp only [List.headD_cons] at htr hd
      simp only [List.length_cons, QHSM_MAX_NEST_DEPTH_] at hl1
      obtain ⟨g0, gtop, gsrc, gsup, grest⟩ := ha
      have hset : pathSet path 0 tgt = .ok (path.set 0 tgt) := by
        unfold pathSet
        rw [if_pos (by omega)]
      obtain ⟨path1, w1, w2, w3⟩ := dispatch_walk_spec H rest t
        (n + more.length + 6 - rest.length)
        ⟨{ (H t c.me c.ext Q_INIT_SIG).2.1 with temp := rest.headD t },
          (H t c.me c.ext Q_INIT_SIG).2.2,
          c.calls ++ [(t, Q_INIT_SIG)] ++ [(tgt, QEP_EMPTY_SIG_)]⟩
        (path.set 0 tgt) 0 grest rfl (by simp [hlen]) (by omega)
      rw [Nat.sub_add_cancel (by omega)] at w1
      simp only [Nat.zero_add] at w3
      have htk : (path.set 0 tgt).take 1 = [tgt] := by
        cases path with
        | nil => simp at hlen
        | cons a p => simp
      rw [htk] at w3
      have hp1 : 0 < path1.length := by omega
      have hget : pathGet path1 0 = .ok tgt := by
        unfold pathGet
        rw [if_pos hp1]
        have : path1.take 1 = [tgt] := by
          have := congrArg (List.take 1) w3
          simpa [List.take_take] using this
        cases path1 with
        | nil => simp at hp1
        | cons a p =>
          simp at this
          simp [this]
      obtain ⟨c1, e1, e2⟩ := enterPath_spec H path1 rest.length
        ⟨{ (H t c.me c.ext Q_INIT_SIG).2.1 with temp := tgt },
          (H t c.me c.ext Q_INIT_SIG).2.2,
          c.calls ++ [(t, Q_INIT_SIG)] ++ [(tgt, QEP_EMPTY_SIG_)] ++
            rest.map (fun u => (u, QEP_EMPTY_SIG_))⟩
        (by omega)
        (by
          rw [Nat.add_comm, w3]
          exact ancestry_ne H (tgt :: rest) t ⟨g0, gtop, gsrc, gsup, grest⟩)
      obtain ⟨c2, L2, f1, f2, f3⟩ := ih tgt n c1 path1 w2 g0 gtop hd
      have hfuel : n + (more.length + 1) + 6 = n + more.length + 6 + 1 := by omega
      have hdepth : rest.length < QHSM_MAX_NEST_DEPTH_ := by
        unfold QHSM_MAX_NEST_DEPTH_
        omega
      refine ⟨c2, [(t, Q_INIT_SIG)] ++ [(tgt, QEP_EMPTY_SIG_)] ++
        rest.map (fun u => (u, QEP_EMPTY_SIG_)) ++
        (tgt :: rest).reverse.map (fun u => (u, Q_ENTRY_SIG)) ++ L2, ?_, ?_, ?_⟩
      · rw [lastTarget_cons, lastTarget_head, ← f1]
        simp only [List.length_cons]
        rw [hfuel, QHsm_dispatch_drill]
        simp only [call_eq H t c Q_INIT_SIG h0 htop, (htr c.me c.ext).1, if_true,
          (htr c.me c.ext).2, hset, trig_super H tgt _ _ g0 gtop gsup, w1, hget, Nat.zero_add,
          hdepth, not_true_eq_false, if_false, e1]
      · rw [f2, e2, Nat.add_comm, w3]
        simp
      · rw [actions_append, actions_append, actions_append, actions_map_empty,
          actions_map_entry, f3]
        simp [entriesOf, actions, Q_INIT_SIG, Q_ENTRY_SIG, Q_EXIT_SIG, QEP_EMPTY_SIG_]

/-- C4: the active state and its superstates below `s`, listed innermost
first in `chain` (empty when `s` itself is active), leave the event to their
superstate, and the handler of `s` answers it with a transition to `s`;
`more` lists the initial transitions taken from `s` afterwards (empty when
`s` has none). Then `QHsm_dispatch_` returns, and the entry and exit actions
it runs are exactly: the exit actions of the states of `chain` in order, the
exit action of `s`, the entry action of `s`, and then the entry actions of
the states reached by the initial transitions, which are substates of `s`.
No action of a superstate of `s` is among them, and `state.fun` and
`temp.fun` are the last state entered. -/
theorem C4_self_transition {σ : Type} (H : Handlers σ) (c : Hsm σ) (fuel e s : Nat)
    (chain : List Nat) (more : List (List Nat)) (hfuel : chain.length + 1 ≤ fuel)
    (hfuel2 : more.length + 6 ≤ fuel) (he : Q_USER_SIG ≤ e)
    (hb : Bubbles H e chain s) (hx : ExitChain H chain s) (hs0 : s ≠ 0) (hst : s ≠ QHsm_top)
    (htran : ∀ me x, (H s me x e).1 = Q_RET_TRAN ∧ (H s me x e).2.1.temp = s)
    (hd : DrillSegs H s more)
    (hstate : c.me.state = chain.headD s) (htemp : c.me.temp = chain.headD s) :
    ∃ (c1 : Hsm σ) (L : List (Nat × Nat)),
      QHsm_dispatch_ fuel H c e = .ok c1 ∧
      c1.me.state = lastTarget [s] more ∧ c1.me.temp = lastTarget [s] more ∧
      c1.calls = c.calls ++ L ∧
      actions L = chain.map (fun t => (t, Q_EXIT_SIG)) ++
        [(s, Q_EXIT_SIG), (s, Q_ENTRY_SIG)] ++ entriesOf more := by
  obtain ⟨n, hn⟩ : ∃ n, fuel = (n + 1) + chain.length :=
    ⟨fuel - chain.length - 1, by omega⟩
  obtain ⟨c', L1, e1, e2, e3, e4⟩ := bubble_chain H e chain s (n + 1) c hb htemp
  have hh0 : chain.headD s ≠ 0 := by
    cases chain with
    | nil => exact hs0
    | cons t rest => exact hb.1
  have hne1 : ¬ Q_RET_TRAN = Q_RET_UNHANDLED := by decide
  have hne2 : ¬ Q_RET_TRAN = Q_RET_SUPER := by decide
  have hge : Q_RET_TRAN ≥ Q_RET_TRAN := le_refl _
  have hbub : QHsm_dispatch_bubble H (n + 1) c' e = .ok (s, Q_RET_TRAN,
      ⟨(H s c'.me c'.ext e).2.1, (H s c'.me c'.ext e).2.2, c'.calls ++ [(s, e)]⟩) := by
    simp only [QHsm_dispatch_bubble, e2, call_eq H s c' e hs0 hst, (htran c'.me c'.ext).1,
      hne1, hne2, if_false]
  obtain ⟨c2, L2, x1, x2, x3⟩ := exit_chain H chain s (n + 1)
    ⟨(H s c'.me c'.ext e).2.1, (H s c'.me c'.ext e).2.2, c'.calls ++ [(s, e)]⟩ hx
  have hp0 : pathGet [s, chain.headD s, s, 0, 0, 0] 0 = .ok s := rfl
  have hp2 : pathGet [s, chain.headD s, s, 0, 0, 0] 2 = .ok s := rfl
  have htr : QHsm_tran_ fuel H c2 [s, chain.headD s, s, 0, 0, 0] =
      .ok (0, [s, chain.headD s, s, 0, 0, 0],
        ⟨(H s c2.me c2.ext Q_EXIT_SIG).2.1, (H s c2.me c2.ext Q_EXIT_SIG).2.2,
          c2.calls ++ [(s, Q_EXIT_SIG)]⟩) := by
    simp only [QHsm_tran_, hp0, hp2, if_true, trig_eq H s c2 Q_EXIT_SIG hs0 hst]
  have hent : ∀ c3 : Hsm σ, QHsm_dispatch_enter H [s, chain.headD s, s, 0, 0, 0] 0 c3 =
      .ok ⟨(H s c3.me c3.ext Q_ENTRY_SIG).2.1, (H s c3.me c3.ext Q_ENTRY_SIG).2.2,
        c3.calls ++ [(s, Q_ENTRY_SIG)]⟩ := by
    intro c3
    unfold QHsm_dispatch_enter
    rw [if_neg (by decide)]
    show enterPath H _ 0 c3 = _
    simp only [enterPath, hp0, trig_eq H s _ Q_ENTRY_SIG hs0 hst]
  have hL1 : actions (L1 ++ [(s, e)]) = [] := by
    apply actions_nil_of _ e he
    intro p hp
    rcases List.mem_append.mp hp with hp | hp
    · exact (e4 p hp).1
    · rw [List.mem_singleton] at hp
      subst hp
      exact Or.inl rfl
  have hact : actions [(s, Q_EXIT_SIG), (s, Q_ENTRY_SIG)] =
      [(s, Q_EXIT_SIG), (s, Q_ENTRY_SIG)] := by
    simp [actions, Q_EXIT_SIG, Q_ENTRY_SIG]
  have hdisp : QHsm_dispatch_ fuel H c e =
      (match QHsm_dispatch_drill H fuel
          ⟨{ (H s (H s c2.me c2.ext Q_EXIT_SIG).2.1 (H s c2.me c2.ext Q_EXIT_SIG).2.2
                Q_ENTRY_SIG).2.1 with temp := s },
            (H s (H s c2.me c2.ext Q_EXIT_SIG).2.1 (H s c2.me c2.ext Q_EXIT_SIG).2.2
                Q_ENTRY_SIG).2.2,
            c2.calls ++ [(s, Q_EXIT_SIG)] ++ [(s, Q_ENTRY_SIG)]⟩
          [s, chain.headD s, s, 0, 0, 0] s with
        | .error f => .error f
        | .ok (c1, t) => .ok { c1 with me := { c1.me with state := t, temp := t } }) := by
    have hx1 : QHsm_dispatch_exit H fuel
        ⟨(H s c'.me c'.ext e).2.1, (H s c'.me c'.ext e).2.2, c'.calls ++ [(s, e)]⟩
        (chain.headD s) s = .ok c2 := by rw [hn]; exact x1
    have hb1 : QHsm_dispatch_bubble H fuel c e = .ok (s, Q_RET_TRAN,
        ⟨(H s c'.me c'.ext e).2.1, (H s c'.me c'.ext e).2.2, c'.calls ++ [(s, e)]⟩) := by
      rw [hn, e1, hbub]
    simp only [QHsm_dispatch_, hh0, ne_eq, not_false_eq_true, hstate, htemp, and_self,
      not_true_eq_false, if_false, hb1, hge, if_true, (htran c'.me c'.ext).2, hx1, htr,
      hent, hp0]
  obtain ⟨c3, L3, d1, d2, d3⟩ := drill_spec H more s (fuel - more.length - 6)
    ⟨{ (H s (H s c2.me c2.ext Q_EXIT_SIG).2.1 (H s c2.me c2.ext Q_EXIT_SIG).2.2
          Q_ENTRY_SIG).2.1 with temp := s },
      (H s (H s c2.me c2.ext Q_EXIT_SIG).2.1 (H s c2.me c2.ext Q_EXIT_SIG).2.2
          Q_ENTRY_SIG).2.2,
      c2.calls ++ [(s, Q_EXIT_SIG)] ++ [(s, Q_ENTRY_SIG)]⟩
    [s, chain.headD s, s, 0, 0, 0] rfl hs0 hst hd
  have hf3 : fuel - more.length - 6 + more.length + 6 = fuel := by omega
  rw [hf3] at d1
  rw [d1] at hdisp
  refine ⟨_, L1 ++ [(s, e)] ++ L2 ++ [(s, Q_EXIT_SIG), (s, Q_ENTRY_SIG)] ++ L3, hdisp,
    rfl, rfl, ?_, ?_⟩
  · show c3.calls = _
    rw [d2]
    simp [x2, e3]
  · rw [actions_append, actions_append, actions_append, hL1, x3, hact, d3]
    rfl

theorem example_drill : DrillSegs exampleHandlers 10 [[11]] :=
  ⟨fun _ _ => ⟨rfl, rfl⟩, by decide, by decide,
    ⟨by decide, by decide, by decide, example_super_B, trivial⟩, example_noInit_B⟩

theorem C4_self_transition_witness :
    [(11 : Nat)].length + 1 ≤ 7 ∧ [[(11 : Nat)]].length + 6 ≤ 7 ∧ Q_USER_SIG ≤ 7 ∧
      Bubbles exampleHandlers 7 [11] 10 ∧
      ExitChain exampleHandlers [11] 10 ∧ (10 : Nat) ≠ 0 ∧ 10 ≠ QHsm_top ∧
      (∀ me x, (exampleHandlers 10 me x 7).1 = Q_RET_TRAN ∧
        (exampleHandlers 10 me x 7).2.1.temp = 10) ∧
      DrillSegs exampleHandlers 10 [[11]] ∧
      (Hsm.mk (QHsm.mk 1 11 11) () []).me.state = [(11 : Nat)].headD 10 ∧
      (Hsm.mk (QHsm.mk 1 11 11) () []).me.temp = [(11 : Nat)].headD 10 ∧
      ∃ (c1 : Hsm Unit) (L : List (Nat × Nat)),
        QHsm_dispatch_ 7 exampleHandlers (Hsm.mk (QHsm.mk 1 11 11) () []) 7 = .ok c1 ∧
        c1.me.state = lastTarget [10] [[11]] ∧ c1.me.temp = lastTarget [10] [[11]] ∧
        c1.calls = (Hsm.mk (QHsm.mk 1 11 11) () []).calls ++ L ∧
        actions L = [(11 : Nat)].map (fun t => (t, Q_EXIT_SIG)) ++
          [(10, Q_EXIT_SIG), (10, Q_ENTRY_SIG)] ++ entriesOf [[11]] :=
  ⟨by decide, by decide, by decide, example_bubbles7, example_exitChain, by decide, by decide,
    fun _ _ => ⟨rfl, rfl⟩, example_drill, rfl, rfl,
    C4_self_transition exampleHandlers (Hsm.mk (QHsm.mk 1 11 11) () []) 7 7 10 [11] [[11]]
      (by decide) (by decide) (by decide) example_bubbles7 example_exitChain (by decide)
      (by decide) (fun _ _ => ⟨rfl, rfl⟩) example_drill rfl rfl⟩

/-! ### Time events: the tick loop -/

theorem chain_congr (f g : Nat → QTimeEvt) (L : List Nat) (p : Nat)
    (h : ∀ a, a ∈ L → (g a).next = (f a).next) (hc : Chain f p L) : Chain g p L := by
  induction L generalizing p with
  | nil => exact hc
  | cons t L ih =>
    obtain ⟨h1, h2, h3⟩ := hc
    refine ⟨h1, h2, ?_⟩
    rw [h t (List.mem_cons_self _ _)]
    exact ih _ (fun a ha => h a (List.mem_cons_of_mem _ ha)) h3

theorem chain_zero_not_mem (f : Nat → QTimeEvt) (L : List Nat) (p : Nat) (hc : Chain f p L) :
    0 ∉ L := by
  induction L generalizing p with
  | nil => simp
  | cons t L ih =>
    obtain ⟨-, h2, h3⟩ := hc
    intro hm
    rcases List.mem_cons.mp hm with h | h
    · exact h2 h.symm
    · exact ih _ h3 h

theorem fetch_none (s : QFState) (hd prev : Nat) (hp : Pending s.tevt hd prev []) :
    tickFetch s hd prev = .ok none ∧ (s.tevt hd).act = 0 := by
  obtain ⟨R, A, h1, h2, h3⟩ := hp
  obtain ⟨rfl, rfl⟩ := List.append_eq_nil.mp h1.symm
  have h2' : (s.tevt prev).next = 0 := h2
  have h3' : (s.tevt hd).act = 0 := h3
  refine ⟨?_, h3'⟩
  unfold tickFetch
  simp [h2', h3']

theorem fetch_spec (s : QFState) (hd prev t : Nat) (X : List Nat)
    (hp : Pending s.tevt hd prev (t :: X)) (hprev : prev ≠ 0)
    (hnd : (prev :: t :: X).Nodup) (hhd : hd ∉ t :: X) :
    ∃ s1, tickFetch s hd prev = .ok (some (t, s1)) ∧ t ≠ 0 ∧ (s1.tevt prev).next = t ∧
      Pending s1.tevt hd t X ∧
      (∀ a, a ≠ prev → a ≠ hd → s1.tevt a = s.tevt a) ∧
      (s1.tevt prev).ctr = (s.tevt prev).ctr ∧
      (s1.tevt prev).interval = (s.tevt prev).interval ∧
      (prev ≠ hd → (s1.tevt prev).act = (s.tevt prev).act ∧
        (s1.tevt hd).next = (s.tevt hd).next) ∧
      s1.emem = s.emem ∧ s1.aobj = s.aobj ∧ s1.QF_timeEvtHead_ = s.QF_timeEvtHead_ := by
  obtain ⟨R, A, h1, h2, h3⟩ := hp
  have hpt : prev ≠ t := by
    intro h
    rw [h] at hnd
    simp at hnd
  have hpX : prev ∉ X := by
    intro h
    have := (List.nodup_cons.mp hnd).1
    exact this (List.mem_cons_of_mem _ h)
  have htX : t ∉ X := (List.nodup_cons.mp (List.nodup_cons.mp hnd).2).1
  have hht : hd ≠ t := fun h => hhd (by rw [h]; exact List.mem_cons_self _ _)
  have hhX : hd ∉ X := fun h => hhd (List.mem_cons_of_mem _ h)
  cases R with
  | cons r R =>
    simp only [List.cons_append, List.cons.injEq] at h1
    obtain ⟨rfl, rfl⟩ := h1
    obtain ⟨c1, c2, c3⟩ := h2
    refine ⟨s, ?_, c2, c1, ⟨R, A, rfl, c3, h3⟩, fun _ _ _ => rfl, rfl, rfl,
      fun _ => ⟨rfl, rfl⟩, rfl, rfl, rfl⟩
    unfold tickFetch
    simp only [c1, c2, if_false]
  | nil =>
    simp only [List.nil_append] at h1
    subst h1
    have c0 : (s.tevt prev).next = 0 := h2
    obtain ⟨c1, c2, c3⟩ := h3
    have hfetch : tickFetch s hd prev = .ok (some
        ((((s.setTE prev { s.tevt prev with next := (s.tevt hd).act }).setTE hd
            { (s.setTE prev { s.tevt prev with next := (s.tevt hd).act }).tevt hd with
              act := 0 }).tevt prev).next,
          (s.setTE prev { s.tevt prev with next := (s.tevt hd).act }).setTE hd
            { (s.setTE prev { s.tevt prev with next := (s.tevt hd).act }).tevt hd with
              act := 0 })) := by
      unfold tickFetch
      simp only [c0, if_true, c1, c2, ne_eq, not_false_eq_true, hprev, not_true_eq_false,
        if_false]
    have hnext : (((s.setTE prev { s.tevt prev with next := (s.tevt hd).act }).setTE hd
        { (s.setTE prev { s.tevt prev with next := (s.tevt hd).act }).tevt hd with
          act := 0 }).tevt prev).next = t := by
      by_cases hph : prev = hd
      · subst hph
        simp [QFState.setTE, c1]
      · simp [QFState.setTE, Function.update_noteq hph, c1]
    rw [hnext] at hfetch
    refine ⟨_, hfetch, c2, hnext, ⟨X, [], by simp, ?_, ?_⟩, ?_, ?_, ?_, ?_, rfl, rfl, rfl⟩
    · have e1 : ((s.setTE prev { s.tevt prev with next := (s.tevt hd).act }).setTE hd
          { (s.setTE prev { s.tevt prev with next := (s.tevt hd).act }).tevt hd with
            act := 0 }).tevt t = s.tevt t := by
        simp [QFState.setTE, Function.update_noteq hht.symm, Function.update_noteq hpt.symm]
      rw [e1]
      apply chain_congr s.tevt _ X _ _ c3
      intro a ha
      have ha1 : a ≠ hd := fun h => hhX (h ▸ ha)
      have ha2 : a ≠ prev := fun h => hpX (h ▸ ha)
      simp [QFState.setTE, Function.update_noteq ha1, Function.update_noteq ha2]
    · show (_ : QTimeEvt).act = 0
      simp [QFState.setTE]
    · intro a ha1 ha2
      simp [QFState.setTE, Function.update_noteq ha1, Function.update_noteq ha2]
    · by_cases hph : prev = hd
      · subst hph
        simp [QFState.setTE]
      · simp [QFState.setTE, Function.update_noteq hph]
    · by_cases hph : prev = hd
      · subst hph
        simp [QFState.setTE]
      · simp [QFState.setTE, Function.update_noteq hph]
    · intro hph
      simp [QFState.setTE, Function.update_noteq hph, Function.update_noteq (Ne.symm hph)]
theorem post_room (s : QFState) (owners : List Nat) (B act e : Nat)
    (hroom : Room s owners (B + 1)) (hact : act ∈ owners) (he : e ≠ 0)
    (hpool : (s.emem e).poolId_ = 0) :
    ∃ b s1, QActive_post_ s act e QF_NO_MARGIN = .ok (b, s1) ∧ s1.tevt = s.tevt ∧
      s1.emem = s.emem ∧ s1.QF_timeEvtHead_ = s.QF_timeEvtHead_ ∧ Room s1 owners B := by
  obtain ⟨hwf, hfree⟩ := hroom act hact
  obtain ⟨s1, h1, h2, h3, -, h5, -, h7, h8, -⟩ :=
    QActive_post_spec s act e he hwf (by omega)
  refine ⟨true, s1, h1, h2.2.2.2.2.2.2.1, ?_, h2.2.2.2.2.2.2.2, ?_⟩
  · rw [h3, if_neg (by simp [hpool])]
  · intro a ha
    by_cases haa : a = act
    · subst haa
      exact ⟨h5, by omega⟩
    · rw [h8 a haa]
      have := hroom a ha
      exact ⟨this.1, by omega⟩
theorem pending_congr (f g : Nat → QTimeEvt) (hd p q : Nat) (X : List Nat)
    (hX : ∀ a, a ∈ X → (g a).next = (f a).next) (hq : (g q).next = (f p).next)
    (hh : (g hd).act = (f hd).act) (hp : Pending f hd p X) : Pending g hd q X := by
  obtain ⟨R, A, h1, h2, h3⟩ := hp
  refine ⟨R, A, h1, ?_, ?_⟩
  · rw [hq]
    exact chain_congr f g R _ (fun a ha => hX a (by rw [h1]; exact List.mem_append_left _ ha)) h2
  · rw [hh]
    exact chain_congr f g A _ (fun a ha => hX a (by rw [h1]; exact List.mem_append_right _ ha)) h3

theorem step_spec (s : QFState) (owners : List Nat) (hd prev t : Nat) (X : List Nat)
    (hp : Pending s.tevt hd t X) (hnd : (prev :: t :: X).Nodup) (hhd : hd ∉ t :: X)
    (ht0 : t ≠ 0) (hpool : (s.emem t).poolId_ = 0) (hact : (s.tevt t).act ∈ owners)
    (hown : 0 ∉ owners) (hctr : (s.tevt t).ctr < 65536)
    (B : Nat) (hroom : Room s owners (B + 1)) :
    ∃ s2, tickStep s prev t = .ok
        (if (s.tevt t).ctr = 1 then some ((s.tevt t).act, t) else none, s2,
          if keeps (s.tevt t) then t else prev) ∧
      Pending s2.tevt hd (if keeps (s.tevt t) then t else prev) X ∧
      (s2.tevt t).ctr = newCtr (s.tevt t) ∧ (s2.tevt t).interval = (s.tevt t).interval ∧
      (s2.tevt t).act = (s.tevt t).act ∧
      (∀ a, a ≠ t → a ≠ prev → s2.tevt a = s.tevt a) ∧
      (s2.tevt prev).ctr = (s.tevt prev).ctr ∧
      (s2.tevt prev).interval = (s.tevt prev).interval ∧
      (s2.tevt prev).act = (s.tevt prev).act ∧
      (keeps (s.tevt t) = true → s2.tevt prev = s.tevt prev) ∧
      (∀ a, a ≠ t → s2.emem a = s.emem a) ∧
      s2.emem t = (if keeps (s.tevt t) then s.emem t
        else { s.emem t with refCtr_ := (s.emem t).refCtr_ &&& 127 }) ∧
      s2.QF_timeEvtHead_ = s.QF_timeEvtHead_ ∧ Room s2 owners B := by
  have hpt : prev ≠ t := by
    intro h
    rw [h] at hnd
    simp at hnd
  have hpX : prev ∉ X := fun h => (List.nodup_cons.mp hnd).1 (List.mem_cons_of_mem _ h)
  have htX : t ∉ X := (List.nodup_cons.mp (List.nodup_cons.mp hnd).2).1
  have hht : hd ≠ t := fun h => hhd (by rw [h]; exact List.mem_cons_self _ _)
  have hact0 : (s.tevt t).act ≠ 0 := fun h => hown (h ▸ hact)
  have hroom0 : Room s owners B := fun a ha => ⟨(hroom a ha).1, by
    have := (hroom a ha).2
    omega⟩
  by_cases h0 : (s.tevt t).ctr = 0
  · -- scheduled for removal
    have hk : keeps (s.tevt t) = false := by simp [keeps, h0]
    have hn : newCtr (s.tevt t) = 0 := by simp [newCtr, h0]
    have h01 : ¬ (s.tevt t).ctr = 1 := by omega
    refine ⟨teUnlink (s.setTE prev { s.tevt prev with next := (s.tevt t).next }) t, ?_, ?_,
      ?_, ?_, ?_, ?_, ?_, ?_, ?_, ?_, ?_, ?_, rfl, hroom0⟩
    · unfold tickStep
      simp only [h0, if_true, hk, if_false, Bool.false_eq_true]
      rfl
    · rw [hk]
      simp only [Bool.false_eq_true, if_false]
      apply pending_congr s.tevt _ hd t prev X _ _ _ hp
      · intro a ha
        have : a ≠ prev := fun h => hpX (h ▸ ha)
        simp [teUnlink, QFState.setRefCtr, QFState.setTE, Function.update_noteq this]
      · simp [teUnlink, QFState.setRefCtr, QFState.setTE]
      · by_cases hph : hd = prev
        · subst hph
          simp [teUnlink, QFState.setRefCtr, QFState.setTE]
        · simp [teUnlink, QFState.setRefCtr, QFState.setTE, Function.update_noteq hph]
    · rw [hn]
      simp [teUnlink, QFState.setRefCtr, QFState.setTE, Function.update_noteq hpt.symm, h0]
    · simp [teUnlink, QFState.setRefCtr, QFState.setTE, Function.update_noteq hpt.symm]
    · simp [teUnlink, QFState.setRefCtr, QFState.setTE, Function.update_noteq hpt.symm]
    · intro a _ ha2
      simp [teUnlink, QFState.setRefCtr, QFState.setTE, Function.update_noteq ha2]
    · simp [teUnlink, QFState.setRefCtr, QFState.setTE]
    · simp [teUnlink, QFState.setRefCtr, QFState.setTE]
    · simp [teUnlink, QFState.setRefCtr, QFState.setTE]
    · intro h
      rw [hk] at h
      cases h
    · intro a ha
      simp [teUnlink, QFState.setRefCtr, QFState.setTE, EvtMem.write, ha]
    · rw [hk]
      simp [teUnlink, QFState.setRefCtr, QFState.setTE, EvtMem.write]
  · by_cases h1 : (s.tevt t).ctr = 1
    · have hd16 : dec16 (s.tevt t).ctr = 0 := by rw [h1]; rfl
      by_cases hi : (s.tevt t).interval = 0
      · -- one-shot time event expires
        have hk : keeps (s.tevt t) = false := by simp [keeps, h1, hi]
        have hn : newCtr (s.tevt t) = 0 := by simp [newCtr, h1, hi]
        obtain ⟨b, s2, q1, q2, q3, q4, q5⟩ := post_room
          (teUnlink ((s.setTE t { s.tevt t with ctr := 0 }).setTE prev
            { (s.setTE t { s.tevt t with ctr := 0 }).tevt prev with
              next := ((s.setTE t { s.tevt t with ctr := 0 }).tevt t).next }) t)
          owners B (s.tevt t).act t hroom hact ht0
          (by simp [teUnlink, QFState.setRefCtr, QFState.setTE, EvtMem.write, hpool])
        refine ⟨s2, ?_, ?_, ?_, ?_, ?_, ?_, ?_, ?_, ?_, ?_, ?_, ?_, q4, q5⟩
        · unfold tickStep
          simp only [h0, if_false, hd16, QFState.setTE, Function.update_same, if_true, hi,
            ne_eq, not_true_eq_false, hact0, hk, Bool.false_eq_true] at q1 ⊢
          rw [q1, if_pos h1]
        · rw [hk, q2]
          simp only [Bool.false_eq_true, if_false]
          apply pending_congr s.tevt _ hd t prev X _ _ _ hp
          · intro a ha
            have e1 : a ≠ prev := fun h => hpX (h ▸ ha)
            have e2 : a ≠ t := fun h => htX (h ▸ ha)
            simp [teUnlink, QFState.setRefCtr, QFState.setTE, Function.update_noteq e1,
              Function.update_noteq e2]
          · simp [teUnlink, QFState.setRefCtr, QFState.setTE]
          · by_cases hph : hd = prev
            · subst hph
              simp [teUnlink, QFState.setRefCtr, QFState.setTE, Function.update_noteq hpt]
            · simp [teUnlink, QFState.setRefCtr, QFState.setTE, Function.update_noteq hph,
                Function.update_noteq hht]
        · rw [hn, q2]
          simp [teUnlink, QFState.setRefCtr, QFState.setTE, Function.update_noteq hpt.symm]
        · rw [q2]
          simp [teUnlink, QFState.setRefCtr, QFState.setTE, Function.update_noteq hpt.symm]
        · rw [q2]
          simp [teUnlink, QFState.setRefCtr, QFState.setTE, Function.update_noteq hpt.symm]
        · intro a ha1 ha2
          rw [q2]
          simp [teUnlink, QFState.setRefCtr, QFState.setTE, Function.update_noteq ha2,
            Function.update_noteq ha1]
        · rw [q2]
          simp [teUnlink, QFState.setRefCtr, QFState.setTE, Function.update_noteq hpt]
        · rw [q2]
          simp [teUnlink, QFState.setRefCtr, QFState.setTE, Function.update_noteq hpt]
        · rw [q2]
          simp [teUnlink, QFState.setRefCtr, QFState.setTE, Function.update_noteq hpt]
        · intro h
          rw [hk] at h
          cases h
        · intro a ha
          rw [q3]
          simp [teUnlink, QFState.setRefCtr, QFState.setTE, EvtMem.write, ha]
        · rw [hk, q3]
          simp [teUnlink, QFState.setRefCtr, QFState.setTE, EvtMem.write]
      · -- periodic time event expires
        have hk : keeps (s.tevt t) = true := by simp [keeps, h1, hi]
        have hn : newCtr (s.tevt t) = (s.tevt t).interval := by simp [newCtr, h1]
        obtain ⟨b, s2, q1, q2, q3, q4, q5⟩ := post_room
          ((s.setTE t { s.tevt t with ctr := 0 }).setTE t
            { (s.setTE t { s.tevt t with ctr := 0 }).tevt t with
              ctr := ((s.setTE t { s.tevt t with ctr := 0 }).tevt t).interval })
          owners B (s.tevt t).act t hroom hact ht0
          (by simp [QFState.setTE, hpool])
        refine ⟨s2, ?_, ?_, ?_, ?_, ?_, ?_, ?_, ?_, ?_, ?_, ?_, ?_, q4, q5⟩
        · unfold tickStep
          simp only [h0, if_false, hd16, QFState.setTE, Function.update_same, if_true, hi,
            ne_eq, not_false_eq_true, hact0, hk] at q1 ⊢
          rw [q1, if_pos h1]
        · rw [hk, q2]
          simp only [if_true]
          apply pending_congr s.tevt _ hd t t X _ _ _ hp
          · intro a ha
            have e2 : a ≠ t := fun h => htX (h ▸ ha)
            simp [QFState.setTE, Function.update_noteq e2]
          · simp [QFState.setTE]
          · simp [QFState.setTE, Function.update_noteq hht]
        · rw [hn, q2]
          simp [QFState.setTE]
        · rw [q2]
          simp [QFState.setTE]
        · rw [q2]
          simp [QFState.setTE]
        · intro a ha1 _
          rw [q2]
          simp [QFState.setTE, Function.update_noteq ha1]
        · rw [q2]
          simp [QFState.setTE, Function.update_noteq hpt]
        · rw [q2]
          simp [QFState.setTE, Function.update_noteq hpt]
        · rw [q2]
          simp [QFState.setTE, Function.update_noteq hpt]
        · intro _
          rw [q2]
          simp [QFState.setTE, Function.update_noteq hpt]
        · intro a _
          rw [q3]
          simp [QFState.setTE]
        · rw [hk, q3]
          simp [QFState.setTE]
    · -- the countdown goes on
      have hd16 : dec16 (s.tevt t).ctr = (s.tevt t).ctr - 1 := by
        unfold dec16
        omega
      have hd0 : ¬ (s.tevt t).ctr - 1 = 0 := by omega
      have hk : keeps (s.tevt t) = true := by simp [keeps, h0, h1]
      have hn : newCtr (s.tevt t) = (s.tevt t).ctr - 1 := by simp [newCtr, h0, h1]
      refine ⟨s.setTE t { s.tevt t with ctr := (s.tevt t).ctr - 1 }, ?_, ?_, ?_, ?_, ?_, ?_,
        ?_, ?_, ?_, ?_, ?_, ?_, rfl, hroom0⟩
      · unfold tickStep
        simp only [h0, if_false, hd16, QFState.setTE, Function.update_same, hd0, h1, hk,
          if_true]
      · rw [hk]
        simp only [if_true]
        apply pending_congr s.tevt _ hd t t X _ _ _ hp
        · intro a ha
          have e2 : a ≠ t := fun h => htX (h ▸ ha)
          simp [QFState.setTE, Function.update_noteq e2]
        · simp [QFState.setTE]
        · simp [QFState.setTE, Function.update_noteq hht]
      · rw [hn]
        simp [QFState.setTE]
      · simp [QFState.setTE]
      · simp [QFState.setTE]
      · intro a ha1 _
        simp [QFState.setTE, Function.update_noteq ha1]
      · simp [QFState.setTE, Function.update_noteq hpt]
      · simp [QFState.setTE, Function.update_noteq hpt]
      · simp [QFState.setTE, Function.update_noteq hpt]
      · intro _
        simp [QFState.setTE, Function.update_noteq hpt]
      · intro a _
        simp [QFState.setTE]
      · rw [hk]
        simp [QFState.setTE]
theorem postsOf_congr (f g : Nat → QTimeEvt) (X : List Nat) (h : ∀ a, a ∈ X → g a = f a) :
    postsOf g X = postsOf f X := by
  induction X with
  | nil => rfl
  | cons t X ih =>
    have ht := h t (List.mem_cons_self _ _)
    have ih1 := ih (fun a ha => h a (List.mem_cons_of_mem _ ha))
    unfold postsOf at ih1 ⊢
    simp only [List.filter_cons, ht]
    by_cases hc : (f t).ctr = 1
    · simp only [hc, decide_True, if_true, List.map_cons, ih1, ht]
    · simp only [hc, decide_False, Bool.false_eq_true, if_false, ih1]

theorem keeps_congr (f g : Nat → QTimeEvt) (X : List Nat) (h : ∀ a, a ∈ X → g a = f a) :
    X.filter (fun t => keeps (g t)) = X.filter (fun t => keeps (f t)) := by
  apply List.filter_congr
  intro a ha
  rw [h a ha]

theorem postsOf_cons (f : Nat → QTimeEvt) (t : Nat) (X : List Nat) :
    postsOf f (t :: X) =
      (if (f t).ctr = 1 then some ((f t).act, t) else none).toList ++ postsOf f X := by
  unfold postsOf
  by_cases hc : (f t).ctr = 1
  · simp [List.filter_cons, hc]
  · simp [List.filter_cons, hc]

theorem tick_loop_spec (owners : List Nat) (hd : Nat) (hown : 0 ∉ owners) :
    ∀ (X : List Nat) (fuel : Nat) (s : QFState) (prev : Nat),
      X.length < fuel → prev ≠ 0 → Pending s.tevt hd prev X → (prev :: X).Nodup → hd ∉ X →
      TimeEvts s owners X → Room s owners X.length →
      ∃ s1, QF_tickX_loop fuel s hd prev = .ok (postsOf s.tevt X, s1) ∧
        Chain s1.tevt (s1.tevt prev).next (X.filter (fun t => keeps (s.tevt t))) ∧
        (s1.tevt hd).act = 0 ∧
        (∀ t, t ∈ X → (s1.tevt t).ctr = newCtr (s.tevt t) ∧
          (s1.tevt t).interval = (s.tevt t).interval ∧ (s1.tevt t).act = (s.tevt t).act) ∧
        (∀ a, a ≠ hd → a ≠ prev → a ∉ X → s1.tevt a = s.tevt a) ∧
        (prev ≠ hd → (s1.tevt hd).next = (s.tevt hd).next ∧
          (s1.tevt prev).ctr = (s.tevt prev).ctr ∧
          (s1.tevt prev).interval = (s.tevt prev).interval ∧
          (s1.tevt prev).act = (s.tevt prev).act) ∧
        (∀ a, a ∉ X → s1.emem a = s.emem a) ∧
        (∀ t, t ∈ X → s1.emem t = (if keeps (s.tevt t) then s.emem t
          else { s.emem t with refCtr_ := (s.emem t).refCtr_ &&& 127 })) ∧
        s1.QF_timeEvtHead_ = s.QF_timeEvtHead_ ∧ Room s1 owners 0 := by
  intro X
  induction X with
  | nil =>
    intro fuel s prev hf _ hp _ _ _ hroom
    obtain ⟨f, rfl⟩ : ∃ f, fuel = f + 1 := ⟨fuel - 1, by simp at hf; omega⟩
    obtain ⟨e1, e2⟩ := fetch_none s hd prev hp
    have e3 : (s.tevt prev).next = 0 := by
      obtain ⟨R, A, h1, h2, -⟩ := hp
      obtain ⟨rfl, rfl⟩ := List.append_eq_nil.mp h1.symm
      exact h2
    refine ⟨s, ?_, ?_, e2, ?_, fun _ _ _ _ => rfl, fun _ => ⟨rfl, rfl, rfl, rfl⟩,
      fun _ _ => rfl, ?_, rfl, hroom⟩
    · rw [QF_tickX_loop, e1]
      rfl
    · exact e3
    · intro t ht
      cases ht
    · intro t ht
      cases ht
  | cons t X ih =>
    intro fuel s prev hf hprev hp hnd hhd hte hroom
    obtain ⟨f, rfl⟩ : ∃ f, fuel = f + 1 := ⟨fuel - 1, by simp at hf; omega⟩
    have hpt : prev ≠ t := by
      intro h
      rw [h] at hnd
      simp at hnd
    have hpX : prev ∉ X := fun h => (List.nodup_cons.mp hnd).1 (List.mem_cons_of_mem _ h)
    have htX : t ∉ X := (List.nodup_cons.mp (List.nodup_cons.mp hnd).2).1
    have hXnd : X.Nodup := (List.nodup_cons.mp (List.nodup_cons.mp hnd).2).2
    have hht : hd ≠ t := fun h => hhd (by rw [h]; exact List.mem_cons_self _ _)
    have hhX : hd ∉ X := fun h => hhd (List.mem_cons_of_mem _ h)
    obtain ⟨sa, a1, a2, a3, a4, a5, a6, a7, a8, a9, a10, a11⟩ :=
      fetch_spec s hd prev t X hp hprev hnd hhd
    have hsat : sa.tevt t = s.tevt t := a5 t hpt.symm hht.symm
    obtain ⟨p1, p2, p3, p4⟩ := hte t (List.mem_cons_self _ _)
    obtain ⟨sb, b1, b2, b3, b4, b5, b6, b7, b8, b9, b10, b11, b12, b13, b14⟩ :=
      step_spec sa owners hd prev t X a4 hnd hhd a2 (by rw [a9]; exact p1)
        (by rw [hsat]; exact p2) hown (by rw [hsat]; exact p3) X.length
        (by
          intro a ha
          rw [a10]
          exact hroom a ha)
    rw [hsat] at b1 b2 b3 b4 b5 b10 b12
    have hX : ∀ a, a ∈ X → sb.tevt a = s.tevt a := by
      intro a ha
      have e1 : a ≠ t := fun h => htX (h ▸ ha)
      have e2 : a ≠ prev := fun h => hpX (h ▸ ha)
      have e3 : a ≠ hd := fun h => hhX (h ▸ ha)
      rw [b6 a e1 e2, a5 a e2 e3]
    have hXe : ∀ a, a ≠ t → sb.emem a = s.emem a := by
      intro a ha
      rw [b11 a ha, a9]
    have hprev2 : (if keeps (s.tevt t) = true then t else prev) ≠ 0 := by
      by_cases hk : keeps (s.tevt t) = true
      · rw [if_pos hk]; exact a2
      · rw [if_neg hk]; exact hprev
    have hnd2 : ((if keeps (s.tevt t) = true then t else prev) :: X).Nodup := by
      by_cases hk : keeps (s.tevt t) = true
      · rw [if_pos hk]; exact List.nodup_cons.mpr ⟨htX, hXnd⟩
      · rw [if_neg hk]; exact List.nodup_cons.mpr ⟨hpX, hXnd⟩
    obtain ⟨s1, c1, c2, c3, c4, c5, c6, c7, c8, c9, c10⟩ :=
      ih f sb (if keeps (s.tevt t) = true then t else prev)
        (by simp at hf; omega) hprev2 b2 hnd2 hhX
        (by
          intro a ha
          have e1 : a ≠ t := fun h => htX (h ▸ ha)
          rw [hX a ha, hXe a e1]
          exact hte a (List.mem_cons_of_mem _ ha))
        b14
    rw [postsOf_congr s.tevt sb.tevt X hX] at c1
    rw [keeps_congr s.tevt sb.tevt X hX] at c2
    refine ⟨s1, ?_, ?_, c3, ?_, ?_, ?_, ?_, ?_, ?_, c10⟩
    · rw [QF_tickX_loop, a1]
      simp only [b1, c1]
      rw [postsOf_cons]
    · -- the list that remains
      by_cases hk : keeps (s.tevt t) = true
      · simp only [hk, if_true] at c2 c5 c6
        rw [List.filter_cons, if_pos hk]
        refine ⟨?_, a2, c2⟩
        by_cases hph : prev = hd
        · rw [hph, (c6 hht.symm).1, ← hph, b10 hk, a3]
        · rw [c5 prev hph hpt hpX, b10 hk, a3]
      · have hk1 : keeps (s.tevt t) = false := by simpa using hk
        simp only [hk1, Bool.false_eq_true, if_false] at c2
        rw [List.filter_cons, if_neg hk]
        exact c2
    · -- the members of the time events visited
      intro a ha
      rcases List.mem_cons.mp ha with h | h
      · subst h
        by_cases hk : keeps (s.tevt a) = true
        · simp only [hk, if_true] at c6
          obtain ⟨-, d1, d2, d3⟩ := c6 hht.symm
          rw [d1, d2, d3]
          exact ⟨b3, b4, b5⟩
        · have hk1 : keeps (s.tevt a) = false := by simpa using hk
          simp only [hk1, Bool.false_eq_true, if_false] at c5
          rw [c5 a hht.symm hpt.symm htX]
          exact ⟨b3, b4, b5⟩
      · obtain ⟨d1, d2, d3⟩ := c4 a h
        rw [d1, d2, d3, hX a h]
        exact ⟨rfl, rfl, rfl⟩
    · -- other time events
      intro a ha1 ha2 ha3
      have e1 : a ≠ t := fun h => ha3 (h ▸ List.mem_cons_self _ _)
      have e2 : a ∉ X := fun h => ha3 (List.mem_cons_of_mem _ h)
      have e3 : a ≠ (if keeps (s.tevt t) = true then t else prev) := by
        by_cases hk : keeps (s.tevt t) = true
        · rw [if_pos hk]; exact e1
        · rw [if_neg hk]; exact ha2
      rw [c5 a ha1 e3 e2, b6 a e1 ha2, a5 a ha2 ha1]
    · -- the head and the predecessor
      intro hph
      obtain ⟨g1, g2⟩ := a8 hph
      have hhd2 : (sb.tevt hd).next = (s.tevt hd).next := by
        rw [b6 hd hht (Ne.symm hph), g2]
      by_cases hk : keeps (s.tevt t) = true
      · simp only [hk, if_true] at c5 c6
        rw [(c6 hht.symm).1, c5 prev hph hpt hpX, b7, b8, b9, a6, a7, g1]
        exact ⟨hhd2, rfl, rfl, rfl⟩
      · have hk1 : keeps (s.tevt t) = false := by simpa using hk
        simp only [hk1, Bool.false_eq_true, if_false] at c6
        obtain ⟨d0, d1, d2, d3⟩ := c6 hph
        rw [d0, d1, d2, d3, b7, b8, b9, a6, a7, g1]
        exact ⟨hhd2, rfl, rfl, rfl⟩
    · intro a ha
      have e1 : a ≠ t := fun h => ha (h ▸ List.mem_cons_self _ _)
      have e2 : a ∉ X := fun h => ha (List.mem_cons_of_mem _ h)
      rw [c7 a e2, hXe a e1]
    · intro a ha
      rcases List.mem_cons.mp ha with h | h
      · subst h
        rw [c7 a htX, b12, a9]
      · have e1 : a ≠ t := fun h' => htX (h' ▸ h)
        rw [c8 a h, hX a h, hXe a e1]
    · rw [c9, b13, a11]

theorem newCtr_lt (v : QTimeEvt) (h1 : v.ctr < 65536) (h2 : v.interval < 65536) :
    newCtr v < 65536 := by
  unfold newCtr
  split
  · omega
  · split <;> omega

theorem tick_spec (st : QFState) (rate hd fuel : Nat) (owners X : List Nat)
    (hinv : TickInv st rate hd owners X) (hroom : Room st owners X.length)
    (hfuel : X.length < fuel) :
    ∃ s1, QF_tickX_ fuel st rate = .ok (postsOf st.tevt X, s1) ∧
      TickInv s1 rate hd owners (X.filter (fun t => keeps (st.tevt t))) ∧
      Room s1 owners 0 ∧
      (∀ t, t ∈ X → (s1.tevt t).ctr = newCtr (st.tevt t) ∧
        (s1.tevt t).interval = (st.tevt t).interval ∧ (s1.tevt t).act = (st.tevt t).act) ∧
      (∀ a, a ≠ hd → a ∉ X → s1.tevt a = st.tevt a) ∧
      (∀ a, a ∉ X → s1.emem a = st.emem a) ∧
      (∀ t, t ∈ X → s1.emem t = (if keeps (st.tevt t) then st.emem t
        else { st.emem t with refCtr_ := (st.emem t).refCtr_ &&& 127 })) := by
  obtain ⟨h1, h2, h3, h4, h5, h6, h7⟩ := hinv
  have hX : ∀ a, a ∈ X →
      (st.setTE hd { st.tevt hd with ctr := u16 ((st.tevt hd).ctr + 1) }).tevt a =
        st.tevt a := by
    intro a ha
    have : a ≠ hd := fun h => h3 (h ▸ ha)
    simp [QFState.setTE, Function.update_noteq this]
  obtain ⟨s1, c1, c2, c3, c4, c5, -, c7, c8, c9, c10⟩ := tick_loop_spec owners hd h5 X fuel
    (st.setTE hd { st.tevt hd with ctr := u16 ((st.tevt hd).ctr + 1) }) hd hfuel h2
    (pending_congr st.tevt _ hd hd hd X (fun a ha => by rw [hX a ha])
      (by simp [QFState.setTE]) (by simp [QFState.setTE]) h6)
    (List.nodup_cons.mpr ⟨h3, h4⟩) h3
    (by
      intro t ht
      rw [hX t ht]
      exact h7 t ht)
    hroom
  rw [postsOf_congr st.tevt _ X hX] at c1
  rw [keeps_congr st.tevt _ X hX] at c2
  refine ⟨s1, ?_, ⟨?_, h2, ?_, h4.filter _, h5, ⟨_, [], by simp, c2, c3⟩, ?_⟩, c10, ?_, ?_,
    c7, ?_⟩
  · unfold QF_tickX_
    rw [h1]
    exact c1
  · rw [c9]
    exact h1
  · intro h
    exact h3 (List.mem_of_mem_filter h)
  · intro t ht
    have htX := List.mem_of_mem_filter ht
    have hk : keeps (st.tevt t) = true := (List.mem_filter.mp ht).2
    obtain ⟨d1, d2, d3⟩ := c4 t htX
    obtain ⟨p1, p2, p3, p4⟩ := h7 t htX
    rw [c8 t htX, hX t htX, d1, d2, d3, hX t htX, if_pos hk]
    exact ⟨p1, p2, newCtr_lt _ p3 p4, p4⟩
  · intro t ht
    obtain ⟨d1, d2, d3⟩ := c4 t ht
    rw [d1, d2, d3, hX t ht]
    exact ⟨rfl, rfl, rfl⟩
  · intro a ha1 ha2
    rw [c5 a ha1 ha1 ha2]
    simp [QFState.setTE, Function.update_noteq ha1]
  · intro t ht
    rw [c8 t ht, hX t ht]
    rfl

theorem posts_te (f : Nat → QTimeEvt) (te : Nat) (X : List Nat) (hnd : X.Nodup) :
    (postsOf f X).filter (fun p => decide (p.2 = te)) =
      if te ∈ X ∧ (f te).ctr = 1 then [((f te).act, te)] else [] := by
  induction X with
  | nil => simp [postsOf]
  | cons t X ih =>
    obtain ⟨h1, h2⟩ := List.nodup_cons.mp hnd
    rw [postsOf_cons, List.filter_append, ih h2]
    by_cases hte : t = te
    · subst hte
      have hX : ¬ (t ∈ X ∧ (f t).ctr = 1) := fun h => h1 h.1
      rw [if_neg hX]
      by_cases hc : (f t).ctr = 1
      · simp [hc]
      · simp [hc]
    · have hmem : (te ∈ t :: X ∧ (f te).ctr = 1) ↔ (te ∈ X ∧ (f te).ctr = 1) := by
        constructor
        · rintro ⟨h, h'⟩
          rcases List.mem_cons.mp h with h | h
          · exact absurd h.symm hte
          · exact ⟨h, h'⟩
        · rintro ⟨h, h'⟩
          exact ⟨List.mem_cons_of_mem _ h, h'⟩
      have hfirst : (if (f t).ctr = 1 then some ((f t).act, t) else none).toList.filter
          (fun p => decide (p.2 = te)) = [] := by
        by_cases hc : (f t).ctr = 1
        · simp [hc, hte]
        · simp [hc]
      rw [hfirst, List.nil_append]
      by_cases hc : te ∈ X ∧ (f te).ctr = 1
      · rw [if_pos hc, if_pos (hmem.mpr hc)]
      · rw [if_neg hc, if_neg (fun h => hc (hmem.mp h))]

theorem tickInv_congr (s s1 : QFState) (rate hd : Nat) (owners X : List Nat)
    (h1 : s1.tevt = s.tevt) (h2 : s1.emem = s.emem)
    (h3 : s1.QF_timeEvtHead_ = s.QF_timeEvtHead_) (h : TickInv s rate hd owners X) :
    TickInv s1 rate hd owners X := by
  unfold TickInv TimeEvts at h ⊢
  rw [h1, h2, h3]
  exact h

theorem and_127_128 (x : Nat) : (x &&& 127) &&& 128 = 0 := by
  have h : (127 &&& 128 : Nat) = 0 := by decide
  rw [Nat.land_assoc, h, Nat.and_zero]

theorem ticks_spec (env : Nat → QFState → QFState) (owners : List Nat)
    (rate hd te B fuel : Nat) (henv : EnvOk env owners B) (hfuel : B < fuel) (hteh : te ≠ hd)
    (st : QFState) (X : List Nat) (hinv : TickInv st rate hd owners X) (hB : X.length ≤ B)
    (hroom : Room st owners 0) (k : Nat) :
    ∃ log st2 X2, tickN fuel env rate k st = .ok (log, st2) ∧ log.length = k ∧
      TickInv st2 rate hd owners X2 ∧ X2.length ≤ B ∧ Room st2 owners 0 ∧
      (∀ a, a ∈ X2 → a ∈ X) ∧
      (decide (te ∈ X2), (st2.tevt te).ctr) =
        teIter (st.tevt te).interval k (decide (te ∈ X), (st.tevt te).ctr) ∧
      (st2.tevt te).interval = (st.tevt te).interval ∧
      (st2.tevt te).act = (st.tevt te).act ∧
      (∀ j, j < k → (log.getD j []).filter (fun p => decide (p.2 = te)) =
        if (teIter (st.tevt te).interval j (decide (te ∈ X), (st.tevt te).ctr)).1 = true ∧
            (teIter (st.tevt te).interval j (decide (te ∈ X), (st.tevt te).ctr)).2 = 1
          then [((st.tevt te).act, te)] else []) ∧
      (te ∈ X2 → st2.emem te = st.emem te) ∧
      (te ∉ X → st2.emem te = st.emem te) ∧
      (te ∈ X → te ∉ X2 → (st2.emem te).refCtr_ &&& TE_IS_LINKED = 0) ∧
      (log.flatten.filter (fun p => decide (p.2 = te))).length =
        teFired (st.tevt te).interval k (decide (te ∈ X), (st.tevt te).ctr) := by
  induction k with
  | zero =>
    exact ⟨[], st, X, rfl, rfl, hinv, hB, hroom, fun _ h => h, rfl, rfl, rfl,
      fun j hj => absurd hj (Nat.not_lt_zero _), fun _ => rfl, fun _ => rfl,
      fun h1 h2 => absurd h1 h2, rfl⟩
  | succ k ih =>
    obtain ⟨log, st2, X2, i1, i2, i3, i4, i5, i6, i7, i8, i9, i10, i11, i12, i13, i14⟩ := ih
    obtain ⟨e1, e2, e3, e4⟩ := henv k st2 i5
    have hinv2 : TickInv (env k st2) rate hd owners X2 :=
      tickInv_congr st2 _ rate hd owners X2 e1 e2 e3 i3
    have hroom2 : Room (env k st2) owners X2.length := fun a ha =>
      ⟨(e4 a ha).1, le_trans i4 (e4 a ha).2⟩
    obtain ⟨s3, t1, t2, t3, t4, t5, t6, t7⟩ :=
      tick_spec (env k st2) rate hd fuel owners X2 hinv2 hroom2 (by omega)
    rw [e1] at t1 t2 t4 t5 t7
    rw [e2] at t6 t7
    have hview : (decide (te ∈ X2), (st2.tevt te).ctr) =
        teIter (st.tevt te).interval k (decide (te ∈ X), (st.tevt te).ctr) := i7
    refine ⟨log ++ [postsOf st2.tevt X2], s3,
      X2.filter (fun t => keeps (st2.tevt t)), ?_, ?_, t2, ?_, t3, ?_, ?_, ?_, ?_, ?_, ?_,
      ?_, ?_, ?_⟩
    · rw [tickN, i1]
      simp only [t1]
    · simp [i2]
    · exact le_trans (List.length_filter_le _ _) i4
    · intro a ha
      exact i6 a (List.mem_of_mem_filter ha)
    · -- the view of the time event
      rw [teIter, ← hview]
      by_cases hm : te ∈ X2
      · obtain ⟨d1, d2, d3⟩ := t4 te hm
        have hk : keeps (st2.tevt te) =
            keeps ⟨0, 0, (st2.tevt te).ctr, (st.tevt te).interval⟩ := by
          simp [keeps, i8]
        have hn : newCtr (st2.tevt te) =
            newCtr ⟨0, 0, (st2.tevt te).ctr, (st.tevt te).interval⟩ := by
          simp [newCtr, i8]
        simp only [teStep, hm, decide_True, if_true, d1, ← hk, ← hn, List.mem_filter,
          true_and]
        cases keeps (st2.tevt te) <;> simp
      · have hm2 : te ∉ X2.filter (fun t => keeps (st2.tevt t)) :=
          fun h => hm (List.mem_of_mem_filter h)
        simp only [teStep, hm, hm2, decide_False, Bool.false_eq_true, if_false,
          t5 te hteh hm]
    · by_cases hm : te ∈ X2
      · rw [(t4 te hm).2.1, i8]
      · rw [t5 te hteh hm, i8]
    · by_cases hm : te ∈ X2
      · rw [(t4 te hm).2.2, i9]
      · rw [t5 te hteh hm, i9]
    · -- the posts of every tick
      intro j hj
      by_cases hjk : j < k
      · rw [List.getD_append _ _ _ _ (by omega)]
        exact i10 j hjk
      · have hjk2 : j = k := by omega
        subst hjk2
        rw [List.getD_append_right _ _ _ _ (by omega)]
        simp only [i2, Nat.sub_self, List.getD_cons_zero]
        rw [posts_te st2.tevt te X2 i3.2.2.2.1, ← hview, i9]
        simp
    · intro hm
      have hm1 := List.mem_of_mem_filter hm
      have hk : keeps (st2.tevt te) = true := (List.mem_filter.mp hm).2
      rw [t7 te hm1, if_pos hk, i11 hm1]
    · intro hm
      have hm2 : te ∉ X2 := fun h => hm (i6 te h)
      rw [t6 te hm2, i12 hm]
    · intro hm hm3
      by_cases hm2 : te ∈ X2
      · have hk : ¬ keeps (st2.tevt te) = true := fun h =>
          hm3 (List.mem_filter.mpr ⟨hm2, h⟩)
        rw [t7 te hm2, if_neg hk]
        exact and_127_128 _
      · rw [t6 te hm2]
        exact i13 hm hm2
    · rw [List.flatten_append, List.filter_append, List.length_append, i14, teFired, ← hview]
      simp only [List.flatten_cons, List.flatten_nil, List.append_nil]
      rw [posts_te st2.tevt te X2 i3.2.2.2.1]
      by_cases hc : te ∈ X2 ∧ (st2.tevt te).ctr = 1
      · simp [hc]
      · rw [if_neg hc]
        simp only [decide_eq_true_eq]
        rw [if_neg hc]
        rfl

theorem arm_linked (st : QFState) (me n i : Nat)
    (hpre : (st.tevt me).act ≠ 0 ∧ (st.tevt me).ctr = 0 ∧ n ≠ 0 ∧
      (st.emem me).refCtr_ &&& TE_TICK_RATE < QF_MAX_TICK_RATE ∧
      (st.emem me).sig ≥ Q_USER_SIG)
    (hl : ¬ (st.emem me).refCtr_ &&& TE_IS_LINKED = 0) :
    QTimeEvt_armX st me n i = .ok (st.setTE me { st.tevt me with ctr := n, interval := i }) := by
  unfold QTimeEvt_armX
  simp only [hpre, ne_eq, not_false_eq_true, and_self, not_true_eq_false, if_false,
    QFState.setTE, hl, ge_iff_le]

theorem arm_unlinked (st : QFState) (me n i hd : Nat) (hmh : me ≠ hd)
    (hpre : (st.tevt me).act ≠ 0 ∧ (st.tevt me).ctr = 0 ∧ n ≠ 0 ∧
      (st.emem me).refCtr_ &&& TE_TICK_RATE < QF_MAX_TICK_RATE ∧
      (st.emem me).sig ≥ Q_USER_SIG)
    (hl : (st.emem me).refCtr_ &&& TE_IS_LINKED = 0)
    (hhd : st.QF_timeEvtHead_[(st.emem me).refCtr_ &&& TE_TICK_RATE]? = some hd) :
    ∃ st1, QTimeEvt_armX st me n i = .ok st1 ∧
      st1.tevt me = ⟨(st.tevt hd).act, (st.tevt me).act, n, i⟩ ∧
      st1.tevt hd = { st.tevt hd with act := me } ∧
      (∀ a, a ≠ me → a ≠ hd → st1.tevt a = st.tevt a) ∧
      (∀ a, (st1.emem a).poolId_ = (st.emem a).poolId_) ∧
      (∀ a, a ≠ me → st1.emem a = st.emem a) ∧
      (st1.emem me).refCtr_ = u8 ((st.emem me).refCtr_ ||| TE_IS_LINKED) ∧
      st1.aobj = st.aobj ∧ st1.QF_timeEvtHead_ = st.QF_timeEvtHead_ := by
  unfold QTimeEvt_armX
  simp only [hpre, ne_eq, not_false_eq_true, and_self, not_true_eq_false, if_false,
    QFState.setTE, hl, if_true, QFState.setRefCtr, hhd, ge_iff_le]
  refine ⟨_, rfl, ?_, ?_, ?_, ?_, ?_, ?_, rfl, rfl⟩
  · simp [Function.update_noteq hmh, Function.update_noteq (Ne.symm hmh)]
  · simp [Function.update_noteq (Ne.symm hmh)]
  · intro a h1 h2
    simp [Function.update_noteq h1, Function.update_noteq h2]
  · intro a
    by_cases h : a = me
    · subst h
      simp [EvtMem.write]
    · simp [EvtMem.write, h]
  · intro a h
    simp [EvtMem.write, h]
  · simp [EvtMem.write]

theorem arm_spec (st : QFState) (rate hd te n i : Nat) (owners X : List Nat)
    (hinv : TickInv st rate hd owners X) (hte0 : te ≠ 0) (hteh : te ≠ hd)
    (hlink : (st.emem te).refCtr_ &&& TE_IS_LINKED ≠ 0 ↔ te ∈ X)
    (hrate : (st.emem te).refCtr_ &&& TE_TICK_RATE = rate) (hr : rate < QF_MAX_TICK_RATE)
    (hpool : (st.emem te).poolId_ = 0) (hsig : Q_USER_SIG ≤ (st.emem te).sig)
    (hact : (st.tevt te).act ∈ owners) (hctr : (st.tevt te).ctr = 0)
    (hn1 : n ≠ 0) (hn2 : n < 65536) (hi : i < 65536) :
    ∃ st1 X1, QTimeEvt_armX st te n i = .ok st1 ∧ TickInv st1 rate hd owners X1 ∧ te ∈ X1 ∧
      X1.length ≤ X.length + 1 ∧ (st1.tevt te).ctr = n ∧ (st1.tevt te).interval = i ∧
      (st1.tevt te).act = (st.tevt te).act ∧ st1.aobj = st.aobj := by
  obtain ⟨h1, h2, h3, h4, h5, ⟨R, A, hX, cR, cA⟩, h7⟩ := hinv
  have hact0 : (st.tevt te).act ≠ 0 := fun h => h5 (h ▸ hact)
  have hpre : (st.tevt te).act ≠ 0 ∧ (st.tevt te).ctr = 0 ∧ n ≠ 0 ∧
      (st.emem te).refCtr_ &&& TE_TICK_RATE < QF_MAX_TICK_RATE ∧
      (st.emem te).sig ≥ Q_USER_SIG := ⟨hact0, hctr, hn1, by rw [hrate]; exact hr, hsig⟩
  by_cases hl : (st.emem te).refCtr_ &&& TE_IS_LINKED = 0
  · -- not linked: the time event becomes the first of the newly armed ones
    have hteX : te ∉ X := fun h => (hlink.mpr h) hl
    obtain ⟨st1, a1, a2, a3, a4, a5, a6, -, a8, a9⟩ :=
      arm_unlinked st te n i hd hteh hpre hl (by rw [hrate]; exact h1)
    have hother : ∀ a, a ∈ X → st1.tevt a = st.tevt a := fun a ha =>
      a4 a (fun h => hteX (h ▸ ha)) (fun h => h3 (h ▸ ha))
    have hR : ∀ a, a ∈ R → a ∈ X := fun a ha => by rw [hX]; exact List.mem_append_left _ ha
    have hA : ∀ a, a ∈ A → a ∈ X := fun a ha => by rw [hX]; exact List.mem_append_right _ ha
    refine ⟨st1, R ++ te :: A, a1, ⟨?_, h2, ?_, ?_, h5, ⟨R, te :: A, rfl, ?_, ?_, hte0, ?_⟩, ?_⟩,
      by simp, ?_, ?_, ?_, ?_, a8⟩
    · rw [a9]
      exact h1
    · intro h
      rcases List.mem_append.mp h with h | h
      · exact h3 (hR _ h)
      · rcases List.mem_cons.mp h with h | h
        · exact hteh h.symm
        · exact h3 (hA _ h)
    · have hperm : List.Perm (R ++ te :: A) (te :: X) := by
        rw [hX]
        exact List.perm_middle
      exact hperm.nodup_iff.mpr (List.nodup_cons.mpr ⟨hteX, h4⟩)
    · rw [a3]
      exact chain_congr st.tevt _ R _ (fun a ha => by rw [hother a (hR a ha)]) cR
    · rw [a3]
    · rw [a2]
      exact chain_congr st.tevt _ A _ (fun a ha => by rw [hother a (hA a ha)]) cA
    · intro t ht
      rcases List.mem_append.mp ht with h | h
      · rw [hother t (hR t h), a6 t (fun e => hteX (e ▸ hR t h))]
        exact h7 t (hR t h)
      · rcases List.mem_cons.mp h with h | h
        · subst h
          rw [a5, a2]
          exact ⟨hpool, hact, hn2, hi⟩
        · rw [hother t (hA t h), a6 t (fun e => hteX (e ▸ hA t h))]
          exact h7 t (hA t h)
    · rw [hX]
      simp
      omega
    · rw [a2]
    · rw [a2]
    · rw [a2]
  · -- still linked: only the countdown and the interval are set
    have hteX : te ∈ X := hlink.mp hl
    have a1 := arm_linked st te n i hpre hl
    have hother : ∀ a, a ≠ te →
        (st.setTE te { st.tevt te with ctr := n, interval := i }).tevt a = st.tevt a := by
      intro a ha
      simp [QFState.setTE, Function.update_noteq ha]
    have hnext : ∀ a, ((st.setTE te { st.tevt te with ctr := n, interval := i }).tevt a).next =
        (st.tevt a).next := by
      intro a
      by_cases ha : a = te
      · subst ha
        simp [QFState.setTE]
      · rw [hother a ha]
    refine ⟨_, X, a1, ⟨h1, h2, h3, h4, h5, ?_, ?_⟩, hteX, by omega, ?_, ?_, ?_, rfl⟩
    · exact pending_congr st.tevt _ hd hd hd X (fun a _ => hnext a) (hnext hd)
        (by rw [hother hd (Ne.symm hteh)]) ⟨R, A, hX, cR, cA⟩
    · intro t ht
      by_cases hte : t = te
      · subst hte
        have := h7 t ht
        simp only [QFState.setTE, Function.update_same]
        exact ⟨this.1, this.2.1, hn2, hi⟩
      · rw [hother t hte]
        exact h7 t ht
    · simp [QFState.setTE]
    · simp [QFState.setTE]
    · simp [QFState.setTE]

theorem succ_mod_cases (k n : Nat) (hn : 0 < n) :
    (k + 1) % n = if k % n + 1 = n then 0 else k % n + 1 := by
  have hlt := Nat.mod_lt k hn
  have hdiv := Nat.div_add_mod k n
  by_cases h : k % n + 1 = n
  · rw [if_pos h]
    have : k + 1 = n * (k / n + 1) := by
      rw [Nat.mul_add, Nat.mul_one]
      omega
    rw [this, Nat.mul_mod_right]
  · rw [if_neg h]
    have : k + 1 = n * (k / n) + (k % n + 1) := by omega
    rw [this, Nat.mul_add_mod, Nat.mod_eq_of_lt (by omega)]

theorem teIter_periodic (n : Nat) (hn : 1 ≤ n) (k : Nat) :
    teIter n k (true, n) = (true, n - k % n) := by
  induction k with
  | zero => simp [teIter]
  | succ k ih =>
    have hlt := Nat.mod_lt k (by omega : 0 < n)
    rw [teIter, ih, succ_mod_cases k n (by omega)]
    by_cases h : k % n + 1 = n
    · have h1 : n - k % n = 1 := by omega
      have h0 : n ≠ 0 := by omega
      simp [teStep, keeps, newCtr, h, h1, h0]
    · have h1 : ¬ n - k % n = 1 := by omega
      have h0 : ¬ n - k % n = 0 := by omega
      simp only [teStep, keeps, newCtr, h, h1, h0, if_true, if_false]
      simp
      omega

theorem teFired_periodic (n : Nat) (hn : 1 ≤ n) (k : Nat) :
    teFired n k (true, n) = k / n := by
  induction k with
  | zero => simp [teFired]
  | succ k ih =>
    have hlt := Nat.mod_lt k (by omega : 0 < n)
    rw [teFired, ih, teIter_periodic n hn, Nat.succ_div]
    congr 1
    have hdvd : n ∣ k + 1 ↔ k % n + 1 = n := by
      rw [Nat.dvd_iff_mod_eq_zero, succ_mod_cases k n (by omega)]
      by_cases h : k % n + 1 = n
      · simp [h]
      · simp [h]
    by_cases h : k % n + 1 = n
    · have h1 : n - k % n = 1 := by omega
      simp [h1, hdvd.mpr h]
    · have h1 : ¬ n - k % n = 1 := by omega
      have h2 : ¬ n ∣ k + 1 := fun hd => h (hdvd.mp hd)
      simp [h1, h2]

theorem fired_periodic (n : Nat) (hn : 1 ≤ n) (j : Nat) :
    ((teIter n j (true, n)).1 = true ∧ (teIter n j (true, n)).2 = 1) ↔ (j + 1) % n = 0 := by
  have hlt := Nat.mod_lt j (by omega : 0 < n)
  rw [teIter_periodic n hn, succ_mod_cases j n (by omega)]
  by_cases h : j % n + 1 = n
  · have h1 : n - j % n = 1 := by omega
    simp [h, h1]
  · have h1 : ¬ n - j % n = 1 := by omega
    simp [h, h1]

/-- C13: a disarmed time event `te` of an active object whose queue has room
at every clock tick is armed by `QTimeEvt_armX(te, n, n)` with `n >= 1`. Then
`k` subsequent calls of `QF_tickX_` for its tick rate return; call number
`j + 1` posts `te` to its owner (once) exactly when `n` divides `j + 1`, so
that `k` calls post it `k / n` times in all; after `k` calls the countdown is
`n - k % n`, which is `n` after every call that posts, and the interval is
still `n`. -/
theorem C13_periodic (st : QFState) (env : Nat → QFState → QFState) (owners X : List Nat)
    (rate hd te n B fuel : Nat) (hinv : TickInv st rate hd owners X) (hte0 : te ≠ 0)
    (hteh : te ≠ hd) (hlink : (st.emem te).refCtr_ &&& TE_IS_LINKED ≠ 0 ↔ te ∈ X)
    (hrate : (st.emem te).refCtr_ &&& TE_TICK_RATE = rate) (hr : rate < QF_MAX_TICK_RATE)
    (hpool : (st.emem te).poolId_ = 0) (hsig : Q_USER_SIG ≤ (st.emem te).sig)
    (hact : (st.tevt te).act ∈ owners) (hctr : (st.tevt te).ctr = 0)
    (hn1 : 1 ≤ n) (hn2 : n < 65536) (hB : X.length + 1 ≤ B) (hfuel : B < fuel)
    (henv : EnvOk env owners B) (hroom : Room st owners 0) :
    ∃ st1, QTimeEvt_armX st te n n = .ok st1 ∧
      ∀ k, ∃ log st2, tickN fuel env rate k st1 = .ok (log, st2) ∧ log.length = k ∧
        (∀ j, j < k → (log.getD j []).filter (fun p => decide (p.2 = te)) =
          if (j + 1) % n = 0 then [((st.tevt te).act, te)] else []) ∧
        (log.flatten.filter (fun p => decide (p.2 = te))).length = k / n ∧
        (st2.tevt te).ctr = n - k % n ∧ (st2.tevt te).interval = n := by
  obtain ⟨st1, X1, a1, a2, a3, a4, a5, a6, a7, a8⟩ := arm_spec st rate hd te n n owners X
    hinv hte0 hteh hlink hrate hr hpool hsig hact hctr (by omega) hn2 hn2
  refine ⟨st1, a1, ?_⟩
  intro k
  have hroom1 : Room st1 owners 0 := by
    intro a ha
    rw [a8]
    exact hroom a ha
  obtain ⟨log, st2, X2, t1, t2, -, -, -, -, t7, t8, t9, t10, -, -, -, t14⟩ :=
    ticks_spec env owners rate hd te B fuel henv hfuel hteh st1 X1 a2 (by omega) hroom1 k
  have hmem : decide (te ∈ X1) = true := by simp [a3]
  rw [a5, a6, hmem] at t7 t10 t14
  rw [a7] at t10
  rw [teIter_periodic n hn1] at t7
  rw [teFired_periodic n hn1] at t14
  refine ⟨log, st2, t1, t2, ?_, t14, ?_, by rw [t8, a6]⟩
  · intro j hj
    rw [t10 j hj]
    by_cases h : (j + 1) % n = 0
    · rw [if_pos ((fired_periodic n hn1 j).mpr h), if_pos h]
    · rw [if_neg (fun h' => h ((fired_periodic n hn1 j).mp h')), if_neg h]
  · have := congrArg Prod.snd t7
    exact this

theorem example3_room : Room exampleState3 [500] 1 := by
  intro a ha
  rw [List.mem_singleton] at ha
  subst ha
  exact ⟨by decide, by decide⟩

theorem exampleEnv_ok : EnvOk exampleEnv [500] 1 := by
  intro j st _
  exact ⟨rfl, rfl, rfl, example3_room⟩

theorem example5_inv : TickInv exampleState5 0 16 [500] [] :=
  ⟨rfl, by decide, by simp, List.nodup_nil, by decide, ⟨[], [], rfl, rfl, rfl⟩,
    fun t ht => by cases ht⟩

theorem example5_room : Room exampleState5 [500] 0 := fun a ha =>
  ⟨(example3_room a ha).1, Nat.zero_le _⟩

theorem C13_periodic_witness :
    TickInv exampleState5 0 16 [500] [] ∧ (800 : Nat) ≠ 0 ∧ (800 : Nat) ≠ 16 ∧
      ((exampleState5.emem 800).refCtr_ &&& TE_IS_LINKED ≠ 0 ↔ 800 ∈ ([] : List Nat)) ∧
      (exampleState5.emem 800).refCtr_ &&& TE_TICK_RATE = 0 ∧ 0 < QF_MAX_TICK_RATE ∧
      (exampleState5.emem 800).poolId_ = 0 ∧ Q_USER_SIG ≤ (exampleState5.emem 800).sig ∧
      (exampleState5.tevt 800).act ∈ [500] ∧ (exampleState5.tevt 800).ctr = 0 ∧
      1 ≤ 5 ∧ 5 < 65536 ∧ ([] : List Nat).length + 1 ≤ 1 ∧ 1 < 2 ∧
      EnvOk exampleEnv [500] 1 ∧ Room exampleState5 [500] 0 ∧
      ∃ st1, QTimeEvt_armX exampleState5 800 5 5 = .ok st1 ∧
        ∀ k, ∃ log st2, tickN 2 exampleEnv 0 k st1 = .ok (log, st2) ∧ log.length = k ∧
          (∀ j, j < k → (log.getD j []).filter (fun p => decide (p.2 = 800)) =
            if (j + 1) % 5 = 0 then [((exampleState5.tevt 800).act, 800)] else []) ∧
          (log.flatten.filter (fun p => decide (p.2 = 800))).length = k / 5 ∧
          (st2.tevt 800).ctr = 5 - k % 5 ∧ (st2.tevt 800).interval = 5 :=
  ⟨example5_inv, by decide, by decide, by decide, by decide, by decide, by decide, by decide,
    by decide, by decide, by decide, by decide, by decide, by decide, exampleEnv_ok,
    example5_room,
    C13_periodic exampleState5 exampleEnv [500] [] 0 16 800 5 1 2 example5_inv (by decide)
      (by decide) (by decide) (by decide) (by decide) (by decide) (by decide) (by decide)
      (by decide) (by decide) (by decide) (by decide) (by decide) exampleEnv_ok
      example5_room⟩

theorem teIter_oneshot (n : Nat) (hn : 1 ≤ n) (k : Nat) :
    teIter 0 k (true, n) = if k < n then (true, n - k) else (false, 0) := by
  induction k with
  | zero =>
    rw [if_pos (by omega)]
    rfl
  | succ k ih =>
    rw [teIter, ih]
    by_cases h : k < n
    · rw [if_pos h]
      by_cases h2 : k + 1 < n
      · rw [if_pos h2]
        have h1 : ¬ n - k = 1 := by omega
        have h0 : ¬ n - k = 0 := by omega
        simp only [teStep, keeps, newCtr, h1, h0, if_true, if_false]
        simp
        omega
      · rw [if_neg h2]
        have h1 : n - k = 1 := by omega
        simp [teStep, keeps, newCtr, h1]
    · rw [if_neg h, if_neg (by omega)]
      rfl

theorem fired_oneshot (n : Nat) (hn : 1 ≤ n) (j : Nat) :
    ((teIter 0 j (true, n)).1 = true ∧ (teIter 0 j (true, n)).2 = 1) ↔ j + 1 = n := by
  rw [teIter_oneshot n hn]
  by_cases h : j < n
  · rw [if_pos h]
    simp
    omega
  · rw [if_neg h]
    simp
    omega

theorem teFired_oneshot (n : Nat) (hn : 1 ≤ n) (k : Nat) :
    teFired 0 k (true, n) = if n ≤ k then 1 else 0 := by
  induction k with
  | zero =>
    rw [if_neg (by omega)]
    rfl
  | succ k ih =>
    rw [teFired, ih]
    by_cases h : k + 1 = n
    · rw [if_pos ((fired_oneshot n hn k).mpr h), if_neg (by omega), if_pos (by omega)]
    · rw [if_neg (fun h' => h ((fired_oneshot n hn k).mp h'))]
      by_cases h2 : n ≤ k
      · rw [if_pos h2, if_pos (by omega)]
      · rw [if_neg h2, if_neg (by omega)]

/-- C19: a disarmed time event `te` of an active object whose queue has room
is armed by `QTimeEvt_armX(te, n, 0)` with `n >= 1`. Then `k` subsequent calls
of `QF_tickX_` for its tick rate return; `te` is posted to its owner by call
number `n` and by no other call, once in all when `k >= n`; before call `n`
the countdown is `n` minus the number of calls made; from call `n` on the
countdown is 0, the linked flag is clear and `QTimeEvt_disarm` returns false. -/
theorem C19_one_shot (st : QFState) (env : Nat → QFState → QFState) (owners X : List Nat)
    (rate hd te n B fuel : Nat) (hinv : TickInv st rate hd owners X) (hte0 : te ≠ 0)
    (hteh : te ≠ hd) (hlink : (st.emem te).refCtr_ &&& TE_IS_LINKED ≠ 0 ↔ te ∈ X)
    (hrate : (st.emem te).refCtr_ &&& TE_TICK_RATE = rate) (hr : rate < QF_MAX_TICK_RATE)
    (hpool : (st.emem te).poolId_ = 0) (hsig : Q_USER_SIG ≤ (st.emem te).sig)
    (hact : (st.tevt te).act ∈ owners) (hctr : (st.tevt te).ctr = 0)
    (hn1 : 1 ≤ n) (hn2 : n < 65536) (hB : X.length + 1 ≤ B) (hfuel : B < fuel)
    (henv : EnvOk env owners B) (hroom : Room st owners 0) :
    ∃ st1, QTimeEvt_armX st te n 0 = .ok st1 ∧
      ∀ k, ∃ log st2, tickN fuel env rate k st1 = .ok (log, st2) ∧ log.length = k ∧
        (∀ j, j < k → (log.getD j []).filter (fun p => decide (p.2 = te)) =
          if j + 1 = n then [((st.tevt te).act, te)] else []) ∧
        (log.flatten.filter (fun p => decide (p.2 = te))).length = (if n ≤ k then 1 else 0) ∧
        (k < n → (st2.tevt te).ctr = n - k) ∧
        (n ≤ k → (st2.tevt te).ctr = 0 ∧ (st2.emem te).refCtr_ &&& TE_IS_LINKED = 0 ∧
          (QTimeEvt_disarm st2 te).1 = false) := by
  obtain ⟨st1, X1, a1, a2, a3, a4, a5, a6, a7, a8⟩ := arm_spec st rate hd te n 0 owners X
    hinv hte0 hteh hlink hrate hr hpool hsig hact hctr (by omega) hn2 (by omega)
  refine ⟨st1, a1, ?_⟩
  intro k
  have hroom1 : Room st1 owners 0 := by
    intro a ha
    rw [a8]
    exact hroom a ha
  obtain ⟨log, st2, X2, t1, t2, -, -, -, -, t7, -, -, t10, -, -, t13, t14⟩ :=
    ticks_spec env owners rate hd te B fuel henv hfuel hteh st1 X1 a2 (by omega) hroom1 k
  have hmem : decide (te ∈ X1) = true := by simp [a3]
  rw [a5, a6, hmem] at t7 t10 t14
  rw [a7] at t10
  rw [teIter_oneshot n hn1] at t7
  rw [teFired_oneshot n hn1] at t14
  refine ⟨log, st2, t1, t2, ?_, t14, ?_, ?_⟩
  · intro j hj
    rw [t10 j hj]
    by_cases h : j + 1 = n
    · rw [if_pos ((fired_oneshot n hn1 j).mpr h), if_pos h]
    · rw [if_neg (fun h' => h ((fired_oneshot n hn1 j).mp h')), if_neg h]
  · intro hk
    rw [if_pos hk] at t7
    exact congrArg Prod.snd t7
  · intro hk
    rw [if_neg (by omega)] at t7
    have hc : (st2.tevt te).ctr = 0 := congrArg Prod.snd t7
    have hx : te ∉ X2 := by
      have := congrArg Prod.fst t7
      simpa using this
    refine ⟨hc, t13 a3 hx, ?_⟩
    unfold QTimeEvt_disarm
    simp [hc]

theorem C19_one_shot_witness :
    TickInv exampleState5 0 16 [500] [] ∧ (800 : Nat) ≠ 0 ∧ (800 : Nat) ≠ 16 ∧
      ((exampleState5.emem 800).refCtr_ &&& TE_IS_LINKED ≠ 0 ↔ 800 ∈ ([] : List Nat)) ∧
      (exampleState5.emem 800).refCtr_ &&& TE_TICK_RATE = 0 ∧ 0 < QF_MAX_TICK_RATE ∧
      (exampleState5.emem 800).poolId_ = 0 ∧ Q_USER_SIG ≤ (exampleState5.emem 800).sig ∧
      (exampleState5.tevt 800).act ∈ [500] ∧ (exampleState5.tevt 800).ctr = 0 ∧
      1 ≤ 3 ∧ 3 < 65536 ∧ ([] : List Nat).length + 1 ≤ 1 ∧ 1 < 2 ∧
      EnvOk exampleEnv [500] 1 ∧ Room exampleState5 [500] 0 ∧
      ∃ st1, QTimeEvt_armX exampleState5 800 3 0 = .ok st1 ∧
        ∀ k, ∃ log st2, tickN 2 exampleEnv 0 k st1 = .ok (log, st2) ∧ log.length = k ∧
          (∀ j, j < k → (log.getD j []).filter (fun p => decide (p.2 = 800)) =
            if j + 1 = 3 then [((exampleState5.tevt 800).act, 800)] else []) ∧
          (log.flatten.filter (fun p => decide (p.2 = 800))).length =
            (if 3 ≤ k then 1 else 0) ∧
          (k < 3 → (st2.tevt 800).ctr = 3 - k) ∧
          (3 ≤ k → (st2.tevt 800).ctr = 0 ∧ (st2.emem 800).refCtr_ &&& TE_IS_LINKED = 0 ∧
            (QTimeEvt_disarm st2 800).1 = false) :=
  ⟨example5_inv, by decide, by decide, by decide, by decide, by decide, by decide, by decide,
    by decide, by decide, by decide, by decide, by decide, by decide, exampleEnv_ok,
    example5_room,
    C19_one_shot exampleState5 exampleEnv [500] [] 0 16 800 3 1 2 example5_inv (by decide)
      (by decide) (by decide) (by decide) (by decide) (by decide) (by decide) (by decide)
      (by decide) (by decide) (by decide) (by decide) (by decide) exampleEnv_ok
      example5_room⟩

theorem teIter_disarmed (i k : Nat) : teIter i (k + 1) (true, 0) = (false, 0) := by
  induction k with
  | zero => simp [teIter, teStep, keeps, newCtr]
  | succ k ih =>
    rw [teIter, ih]
    rfl

theorem teFired_disarmed (i k : Nat) : teFired i k (true, 0) = 0 := by
  induction k with
  | zero => rfl
  | succ k ih =>
    rw [teFired, ih]
    cases k with
    | zero => simp [teIter]
    | succ k =>
      rw [teIter_disarmed]
      simp

theorem disarm_spec (st : QFState) (rate hd te : Nat) (owners X : List Nat)
    (hinv : TickInv st rate hd owners X) :
    TickInv (QTimeEvt_disarm st te).2 rate hd owners X ∧
      ((QTimeEvt_disarm st te).2.tevt te).ctr = 0 ∧
      ((QTimeEvt_disarm st te).2.tevt te).interval = (st.tevt te).interval ∧
      ((QTimeEvt_disarm st te).2.tevt te).act = (st.tevt te).act ∧
      (QTimeEvt_disarm st te).2.aobj = st.aobj := by
  obtain ⟨h1, h2, h3, h4, h5, h6, h7⟩ := hinv
  have hnext : ∀ a, (((QTimeEvt_disarm st te).2.tevt a).next = (st.tevt a).next ∧
      ((QTimeEvt_disarm st te).2.tevt a).act = (st.tevt a).act ∧
      ((QTimeEvt_disarm st te).2.tevt a).interval = (st.tevt a).interval ∧
      ((QTimeEvt_disarm st te).2.tevt a).ctr ≤ (st.tevt a).ctr ∧
      ((QTimeEvt_disarm st te).2.emem a).poolId_ = (st.emem a).poolId_) := by
    intro a
    unfold QTimeEvt_disarm
    by_cases hc : (st.tevt te).ctr = 0
    · by_cases ha : a = te
      · subst ha
        simp [hc, QFState.setRefCtr, EvtMem.write]
      · simp [hc, QFState.setRefCtr, EvtMem.write, ha]
    · by_cases ha : a = te
      · subst ha
        simp [hc, QFState.setRefCtr, QFState.setTE, EvtMem.write]
      · simp [hc, QFState.setRefCtr, QFState.setTE, EvtMem.write, ha,
          Function.update_noteq ha]
  have hctr : ((QTimeEvt_disarm st te).2.tevt te).ctr = 0 := by
    unfold QTimeEvt_disarm
    by_cases hc : (st.tevt te).ctr = 0
    · simp [hc, QFState.setRefCtr]
    · simp [hc, QFState.setRefCtr, QFState.setTE]
  have hheads : (QTimeEvt_disarm st te).2.QF_timeEvtHead_ = st.QF_timeEvtHead_ := by
    unfold QTimeEvt_disarm
    by_cases hc : (st.tevt te).ctr = 0
    · simp [hc, QFState.setRefCtr]
    · simp [hc, QFState.setRefCtr, QFState.setTE]
  have haobj : (QTimeEvt_disarm st te).2.aobj = st.aobj := by
    unfold QTimeEvt_disarm
    by_cases hc : (st.tevt te).ctr = 0
    · simp [hc, QFState.setRefCtr]
    · simp [hc, QFState.setRefCtr, QFState.setTE]
  refine ⟨⟨by rw [hheads]; exact h1, h2, h3, h4, h5, ?_, ?_⟩, hctr, (hnext te).2.2.1,
    (hnext te).2.1, haobj⟩
  · exact pending_congr st.tevt _ hd hd hd X (fun a _ => (hnext a).1) (hnext hd).1
      (hnext hd).2.1 h6
  · intro t ht
    obtain ⟨p1, p2, p3, p4⟩ := h7 t ht
    obtain ⟨-, q2, q3, q4, q5⟩ := hnext t
    rw [q5, q2, q3]
    exact ⟨p1, p2, by omega, p4⟩

/-- C20: an armed time event `te` (its countdown is not 0 and it is in the
list of its tick rate), periodic or one-shot, is disarmed by
`QTimeEvt_disarm`, which returns true, and is not armed again. Then the
subsequent calls of `QF_tickX_` for its tick rate return and none of them
posts `te`; after the first of them, and after every later one, `te` is no
longer in the list of the tick rate, its linked flag is clear and its
countdown is 0. -/
theorem C20_disarmed (st : QFState) (env : Nat → QFState → QFState) (owners X : List Nat)
    (rate hd te B fuel : Nat) (hinv : TickInv st rate hd owners X) (hteX : te ∈ X)
    (harmed : (st.tevt te).ctr ≠ 0) (hB : X.length ≤ B) (hfuel : B < fuel)
    (henv : EnvOk env owners B) (hroom : Room st owners 0) :
    (QTimeEvt_disarm st te).1 = true ∧
      ∀ k, ∃ log st2 X2, tickN fuel env rate (k + 1) (QTimeEvt_disarm st te).2 =
          .ok (log, st2) ∧ log.length = k + 1 ∧
        (∀ posts, posts ∈ log → ∀ p, p ∈ posts → p.2 ≠ te) ∧
        TickInv st2 rate hd owners X2 ∧ te ∉ X2 ∧
        (st2.emem te).refCtr_ &&& TE_IS_LINKED = 0 ∧ (st2.tevt te).ctr = 0 := by
  have hteh : te ≠ hd := fun h => hinv.2.2.1 (h ▸ hteX)
  obtain ⟨d1, d2, d3, d4, d5⟩ := disarm_spec st rate hd te owners X hinv
  refine ⟨by unfold QTimeEvt_disarm; simp [harmed], ?_⟩
  intro k
  have hroom1 : Room (QTimeEvt_disarm st te).2 owners 0 := by
    intro a ha
    rw [d5]
    exact hroom a ha
  obtain ⟨log, st2, X2, t1, t2, t3, -, -, -, t7, -, -, -, -, -, t13, t14⟩ :=
    ticks_spec env owners rate hd te B fuel henv hfuel hteh (QTimeEvt_disarm st te).2 X d1 hB
      hroom1 (k + 1)
  have hmem : decide (te ∈ X) = true := by simp [hteX]
  rw [d2, hmem, teIter_disarmed] at t7
  rw [d2, hmem, teFired_disarmed] at t14
  have hx : te ∉ X2 := by
    have := congrArg Prod.fst t7
    simpa using this
  refine ⟨log, st2, X2, t1, t2, ?_, t3, hx, t13 hteX hx, congrArg Prod.snd t7⟩
  intro posts hposts p hp hpe
  have hnil := List.length_eq_zero.mp t14
  rw [List.filter_eq_nil_iff] at hnil
  exact hnil p (List.mem_flatten.mpr ⟨posts, hposts, hp⟩) (by simp [hpe])

theorem example6_inv : TickInv exampleState6 0 16 [500] [800] :=
  ⟨rfl, by decide, by decide, by decide, by decide,
    ⟨[], [800], rfl, rfl, rfl, by decide, rfl⟩,
    fun t ht => by
      rw [List.mem_singleton] at ht
      subst ht
      exact ⟨rfl, by decide, by decide, by decide⟩⟩

theorem example6_room : Room exampleState6 [500] 0 := fun a ha =>
  ⟨(example3_room a ha).1, Nat.zero_le _⟩

theorem C20_disarmed_witness :
    TickInv exampleState6 0 16 [500] [800] ∧ 800 ∈ [800] ∧
      (exampleState6.tevt 800).ctr ≠ 0 ∧ [800].length ≤ 1 ∧ 1 < 2 ∧
      EnvOk exampleEnv [500] 1 ∧ Room exampleState6 [500] 0 ∧
      (QTimeEvt_disarm exampleState6 800).1 = true ∧
      ∀ k, ∃ log st2 X2, tickN 2 exampleEnv 0 (k + 1) (QTimeEvt_disarm exampleState6 800).2 =
          .ok (log, st2) ∧ log.length = k + 1 ∧
        (∀ posts, posts ∈ log → ∀ p, p ∈ posts → p.2 ≠ 800) ∧
        TickInv st2 0 16 [500] X2 ∧ 800 ∉ X2 ∧
        (st2.emem 800).refCtr_ &&& TE_IS_LINKED = 0 ∧ (st2.tevt 800).ctr = 0 :=
  ⟨example6_inv, by decide, by decide, by decide, by decide, exampleEnv_ok, example6_room,
    C20_disarmed exampleState6 exampleEnv [500] [800] 0 16 800 1 2 example6_inv (by decide)
      (by decide) (by decide) (by decide) exampleEnv_ok example6_room⟩

/-! ### Queue capacity -/

/-- C27 (counterexample): `QEQueue_init` with a ring of 255 slots stores
`(QEQueueCtr)(255 + 1) = 0` in `nFree` and `nMin`, not 256, and the first post
to the queue so initialised, with margin 0, is refused. -/
theorem C27_counterexample :
    (QEQueue_init ⟨0, [], 0, 0, 0, 0, 0⟩ (List.replicate 255 0) 255).frontEvt = 0 ∧
      (QEQueue_init ⟨0, [], 0, 0, 0, 0, 0⟩ (List.replicate 255 0) 255).nFree = 0 ∧
      (QEQueue_init ⟨0, [], 0, 0, 0, 0, 0⟩ (List.replicate 255 0) 255).nMin = 0 ∧
      (QEQueue_init ⟨0, [], 0, 0, 0, 0, 0⟩ (List.replicate 255 0) 255).nFree ≠ 255 + 1 ∧
      ∃ q mem, QEQueue_post (QEQueue_init ⟨0, [], 0, 0, 0, 0, 0⟩ (List.replicate 255 0) 255)
        (fun _ => ⟨5, 0, 0⟩) 700 0 = .ok (false, q, mem) := by
  refine ⟨rfl, rfl, rfl, by decide, _, _, rfl⟩

/-- C27 (amended): for a ring of `qLen <= 254` slots the queue is empty after
`QEQueue_init`, `nFree` and `nMin` are `qLen + 1`, any `qLen + 1` non-null
events can be posted (margin 0), after which no slot is free and a further
post is refused. -/
theorem C27_init_capacity (me : QEQueue) (qSto : List Nat) (qLen : Nat) (mem : EvtMem)
    (es : List Nat) (e : Nat) (hlen : qSto.length = qLen) (hq : qLen ≤ 254)
    (hes : ∀ x ∈ es, x ≠ 0) (hn : es.length = qLen + 1) (he : e ≠ 0) :
    (QEQueue_init me qSto qLen).frontEvt = 0 ∧ (QEQueue_init me qSto qLen).nFree = qLen + 1 ∧
      (QEQueue_init me qSto qLen).nMin = qLen + 1 ∧
      (QEQueue_init me qSto qLen).toList = [] ∧
      ∃ q1 mem1, postAll 0 (QEQueue_init me qSto qLen) mem es =
          .ok (List.replicate (qLen + 1) true, q1, mem1) ∧
        q1.toList = es ∧ q1.nFree = 0 ∧
        QEQueue_post q1 mem1 e 0 = .ok (false, q1, mem1) := by
  obtain ⟨hwf, hnil⟩ := init_WF me qSto qLen hlen (by omega)
  have hfree : (QEQueue_init me qSto qLen).nFree = qLen + 1 := by
    unfold QEQueue_init u8
    simp only
    omega
  have hmin : (QEQueue_init me qSto qLen).nMin = qLen + 1 := by
    unfold QEQueue_init u8
    simp only
    omega
  have hfront : (QEQueue_init me qSto qLen).frontEvt = 0 := by
    unfold QEQueue_init
    by_cases h0 : qLen = 0 <;> simp [h0]
  obtain ⟨q1, mem1, p1, p2, p3, p4, p5⟩ :=
    postAll_spec es (QEQueue_init me qSto qLen) mem hwf hes (by rw [hfree]; omega)
  rw [hn] at p1
  have hq1 : q1.nFree = 0 := by omega
  refine ⟨hfront, hfree, hmin, hnil, q1, mem1, p1, by rw [p3, hnil]; rfl, hq1, ?_⟩
  unfold QEQueue_post
  rw [if_neg he]
  simp [hq1, QF_NO_MARGIN, u8]

theorem C27_init_capacity_witness :
    [(0 : Nat), 0].length = 2 ∧ 2 ≤ 254 ∧ (∀ x ∈ [(700 : Nat), 701, 702], x ≠ 0) ∧
      [(700 : Nat), 701, 702].length = 2 + 1 ∧ (703 : Nat) ≠ 0 ∧
      (QEQueue_init ⟨0, [], 0, 0, 0, 0, 0⟩ [0, 0] 2).frontEvt = 0 ∧
      (QEQueue_init ⟨0, [], 0, 0, 0, 0, 0⟩ [0, 0] 2).nFree = 2 + 1 ∧
      (QEQueue_init ⟨0, [], 0, 0, 0, 0, 0⟩ [0, 0] 2).nMin = 2 + 1 ∧
      (QEQueue_init ⟨0, [], 0, 0, 0, 0, 0⟩ [0, 0] 2).toList = [] ∧
      ∃ q1 mem1, postAll 0 (QEQueue_init ⟨0, [], 0, 0, 0, 0, 0⟩ [0, 0] 2) (fun _ => ⟨5, 0, 0⟩)
          [700, 701, 702] = .ok (List.replicate (2 + 1) true, q1, mem1) ∧
        q1.toList = [700, 701, 702] ∧ q1.nFree = 0 ∧
        QEQueue_post q1 mem1 703 0 = .ok (false, q1, mem1) :=
  ⟨rfl, by decide, by decide, rfl, by decide,
    C27_init_capacity ⟨0, [], 0, 0, 0, 0, 0⟩ [0, 0] 2 (fun _ => ⟨5, 0, 0⟩) [700, 701, 702] 703
      rfl (by decide) (by decide) rfl (by decide)⟩

/-! ### Rounding of the block size -/

theorem round_exact (target : Nat) (ht : target ≤ 65532) :
    ∀ (fuel bs nb : Nat), bs = 4 * nb → 1 ≤ nb → bs ≤ 65532 → 65532 ≤ 4 * fuel + bs →
      (bs = 4 ∨ bs < target + 4) →
      ∃ r n, QMPool_init_round fuel bs nb target = .ok (r, n) ∧ r = 4 * n ∧ target ≤ r ∧
        r ≤ 65532 ∧ (r = 4 ∨ r < target + 4) ∧ 4 ≤ r := by
  intro fuel
  induction fuel with
  | zero =>
    intro bs nb h4 h1 hb hf hinv
    refine ⟨bs, nb, ?_, h4, by omega, hb, hinv, by omega⟩
    unfold QMPool_init_round
    rw [if_neg (by omega)]
  | succ fuel ih =>
    intro bs nb h4 h1 hb hf hinv
    by_cases hlt : bs < target
    · have e1 : u16 (bs + u16 sizeof_QFreeBlock) = 4 * (nb + 1) := by
        unfold u16 sizeof_QFreeBlock
        omega
      have e2 : u32 (nb + 1) = nb + 1 := by
        unfold u32
        omega
      obtain ⟨r, n, q1, q2, q3, q4, q5, q6⟩ := ih (4 * (nb + 1)) (nb + 1) rfl (by omega)
        (by omega) (by omega) (Or.inr (by omega))
      refine ⟨r, n, ?_, q2, q3, q4, q5, q6⟩
      rw [QMPool_init_round, if_pos hlt, e1, e2]
      exact q1
    · refine ⟨bs, nb, ?_, h4, by omega, hb, hinv, by omega⟩
      rw [QMPool_init_round, if_neg hlt]

/-- C26 (counterexample): the block size 65540 passes precondition 100 of
`QMPool_init` (`blockSize` is a 32-bit `uint_fast16_t`), but the rounding loop
compares with `(QMPoolSize)65540 = 4`: the stored block size is 4, which is
smaller than the requested size. For the requested size 65533 the 16-bit
block size wraps from 65532 to 0 and the rounding loop never ends, whatever
the fuel. -/
theorem C26_counterexample :
    (∃ p m, QMPool_init 10 ⟨0, 0, 0, 0, 0, 0, 0⟩ (fun _ => 0) 1000 8 65540 = .ok (p, m) ∧
      p.blockSize = 4 ∧ ¬ 65540 ≤ p.blockSize ∧ p.nTot = 2) ∧
    (1000 ≠ 0 ∧ 262144 ≥ sizeof_QFreeBlock ∧ u32 (65533 + sizeof_QFreeBlock) > 65533) ∧
    ∀ fuel, QMPool_init fuel ⟨0, 0, 0, 0, 0, 0, 0⟩ (fun _ => 0) 1000 262144 65533 =
      .error .timeout := by
  refine ⟨⟨_, _, rfl, rfl, by decide, rfl⟩, by decide, ?_⟩
  intro fuel
  have hr : QMPool_init_round fuel (u16 sizeof_QFreeBlock) 1 (u16 65533) = .error .timeout :=
    round_diverge fuel _ 1 _ (by decide) (by decide) (by decide)
  unfold QMPool_init
  rw [if_neg (by decide)]
  simp only [hr]

/-- C26 (amended): for a requested block size of at most 65532 bytes, `b`
the smallest multiple of `sizeof(QFreeBlock)` that is at least the requested
size and at least one pointer, a buffer of at least `b` bytes that holds
fewer than 65536 blocks of `b` bytes: `QMPool_init` returns, the stored
`blockSize` is `b`, `nTot` is `poolSize / b`, and `nFree = nMin = nTot`. -/
theorem C26_init_rounding (fuel : Nat) (me : QMPool) (mem : BlockMem)
    (poolSto poolSize blockSize b : Nat) (hsto : poolSto ≠ 0) (hbs : blockSize ≤ 65532)
    (hb4 : b % sizeof_QFreeBlock = 0) (hbge : blockSize ≤ b) (hb1 : sizeof_QFreeBlock ≤ b)
    (hmin : ∀ b', b' % sizeof_QFreeBlock = 0 → blockSize ≤ b' → sizeof_QFreeBlock ≤ b' →
      b ≤ b')
    (hps : b ≤ poolSize) (hcap : poolSize / b < 65536)
    (hfuel : 16382 ≤ fuel ∧ poolSize / b ≤ fuel) :
    ∃ p m, QMPool_init fuel me mem poolSto poolSize blockSize = .ok (p, m) ∧
      p.blockSize = b ∧ p.nTot = poolSize / b ∧ p.nFree = p.nTot ∧ p.nMin = p.nTot := by
  unfold sizeof_QFreeBlock at hb4 hb1 hmin
  have hu : u16 blockSize = blockSize := by
    unfold u16
    omega
  obtain ⟨r, n, q1, q2, q3, q4, q5, q6⟩ := round_exact (u16 blockSize) (by rw [hu]; exact hbs)
    fuel (u16 sizeof_QFreeBlock) 1 (by decide) (by decide) (by decide)
    (by
      have : u16 sizeof_QFreeBlock = 4 := by decide
      rw [this]
      omega)
    (Or.inl (by decide))
  rw [hu] at q3 q5
  have hrb : r = b := by
    have h1 : b ≤ r := hmin r (by omega) q3 (by omega)
    have h2 : r ≤ b := by
      rcases q5 with h | h
      · omega
      · omega
    omega
  subst hrb
  have hpos : 0 < r := by omega
  have hdiv : (poolSize - r) / r ≤ fuel := by
    have : (poolSize - r) / r ≤ poolSize / r := Nat.div_le_div_right (Nat.sub_le _ _)
    omega
  obtain ⟨⟨fb, nTot, m1⟩, hl⟩ := link_total fuel (poolSize - r) r n poolSto 1 mem hpos hdiv
  have hpre : poolSto ≠ 0 ∧ poolSize ≥ sizeof_QFreeBlock ∧
      u32 (blockSize + sizeof_QFreeBlock) > blockSize := by
    refine ⟨hsto, ?_, ?_⟩
    · unfold sizeof_QFreeBlock
      omega
    · unfold u32 sizeof_QFreeBlock
      omega
  have hinit := init_ok_of fuel me mem poolSto poolSize blockSize r n fb nTot m1 hpre q1 hps hl
  have hspec := init_spec fuel me mem poolSto poolSize blockSize _ _ hinit
  refine ⟨_, _, hinit, rfl, ?_, rfl, rfl⟩
  have h8 := hspec.2.2.2.2.2.2.2.1
  simp only at h8
  rw [h8, Nat.mod_eq_of_lt hcap]

theorem C26_init_rounding_witness :
    (1000 : Nat) ≠ 0 ∧ 5 ≤ 65532 ∧ 8 % sizeof_QFreeBlock = 0 ∧ 5 ≤ 8 ∧ sizeof_QFreeBlock ≤ 8 ∧
      (∀ b', b' % sizeof_QFreeBlock = 0 → 5 ≤ b' → sizeof_QFreeBlock ≤ b' → 8 ≤ b') ∧
      8 ≤ 20 ∧ 20 / 8 < 65536 ∧ (16382 ≤ 16382 ∧ 20 / 8 ≤ 16382) ∧
      ∃ p m, QMPool_init 16382 ⟨0, 0, 0, 0, 0, 0, 0⟩ (fun _ => 0) 1000 20 5 = .ok (p, m) ∧
        p.blockSize = 8 ∧ p.nTot = 20 / 8 ∧ p.nFree = p.nTot ∧ p.nMin = p.nTot :=
  ⟨by decide, by decide, by decide, by decide, by decide,
    fun b' h1 h2 _ => by unfold sizeof_QFreeBlock at h1; omega,
    by decide, by decide, by decide,
    C26_init_rounding 16382 ⟨0, 0, 0, 0, 0, 0, 0⟩ (fun _ => 0) 1000 20 5 8 (by decide)
      (by decide) (by decide) (by decide) (by decide)
      (fun b' h1 h2 _ => by unfold sizeof_QFreeBlock at h1; omega)
      (by decide) (by decide) (by decide)⟩

/-! ### Registration order of the event pools -/

/-- C29 (counterexample): both calls are accepted, since the event size
65544 is greater than the block size 12 of the first pool, but `QMPool_init`
rounds `(QMPoolSize)65544 = 8`: the registered block sizes are 12 and 8, not
increasing. -/
theorem C29_counterexample :
    ∃ st, runPoolInit 100 QFState.start [(1000, 24, 12), (2000, 64, 65544)] = .ok st ∧
      st.QF_maxPool_ = 2 ∧
      (st.QF_pool_[0]?).map (fun p => p.blockSize) = some 12 ∧
      (st.QF_pool_[1]?).map (fun p => p.blockSize) = some 8 ∧
      ¬ PoolsAscending st := by
  refine ⟨_, rfl, rfl, rfl, rfl, ?_⟩
  intro h
  have := h 0 1 _ _ (by decide) (by decide) rfl rfl
  revert this
  decide

/-- C29 (amended): `QF_poolInit` fails assertion 200 when `QF_MAX_EPOOL`
pools are registered, and assertion 201 when the event size is not greater
than the block size of the pool registered last; when it returns, neither
was the case and exactly one more pool is registered. After a sequence of
accepted calls with event sizes below 65536, started with no pool
registered, the block sizes of the registered pools increase strictly with
the pool index. -/
theorem C29_poolInit_order (fuel : Nat) (st0 st s : QFState) (regs : List (Nat × Nat × Nat))
    (poolSto poolSize evtSize : Nat) (h0 : st0.QF_maxPool_ = 0)
    (hsz : ∀ r ∈ regs, r.2.2 < 65536) (hreg : runPoolInit fuel st0 regs = .ok st) :
    PoolsAscending st ∧ st.QF_maxPool_ ≤ QF_MAX_EPOOL ∧
      (¬ s.QF_maxPool_ < QF_MAX_EPOOL →
        QF_poolInit fuel s poolSto poolSize evtSize = .error (.assertion .qf_dyn 200)) ∧
      (∀ q, s.QF_maxPool_ < QF_MAX_EPOOL → s.QF_maxPool_ ≠ 0 →
        s.QF_pool_[s.QF_maxPool_ - 1]? = some q → ¬ q.blockSize < evtSize →
        QF_poolInit fuel s poolSto poolSize evtSize = .error (.assertion .qf_dyn 201)) ∧
      (∀ s1, QF_poolInit fuel s poolSto poolSize evtSize = .ok s1 →
        s.QF_maxPool_ < QF_MAX_EPOOL ∧
        (s.QF_maxPool_ ≠ 0 →
          ∃ q, s.QF_pool_[s.QF_maxPool_ - 1]? = some q ∧ q.blockSize < evtSize) ∧
        s1.QF_maxPool_ = s.QF_maxPool_ + 1) := by
  have hasc0 : PoolsAscending st0 := by
    intro i j p q _ hj
    rw [h0] at hj
    omega
  refine ⟨runPoolInit_ascending fuel regs st0 st hasc0 hsz hreg,
    runPoolInit_max fuel regs st0 st (by rw [h0]; exact Nat.zero_le _) hreg, ?_, ?_, ?_⟩
  · intro h
    unfold QF_poolInit
    rw [if_pos h]
  · intro q h1 h2 h3 h4
    unfold QF_poolInit
    rw [if_neg (not_not.mpr h1), if_neg h2, h3]
    simp [h4]
  · intro s1 h
    obtain ⟨a1, a2, p, p1, bmem1, -, -, a5⟩ := poolInit_spec fuel s s1 poolSto poolSize evtSize h
    refine ⟨a1, a2, ?_⟩
    rw [a5]

theorem C29_poolInit_order_witness :
    QFState.start.QF_maxPool_ = 0 ∧
      (∀ r ∈ [((1000 : Nat), (20 : Nat), (7 : Nat))], r.2.2 < 65536) ∧
      runPoolInit 100 QFState.start [(1000, 20, 7)] = .ok exampleState ∧
      PoolsAscending exampleState ∧ exampleState.QF_maxPool_ ≤ QF_MAX_EPOOL ∧
      (¬ exampleState.QF_maxPool_ < QF_MAX_EPOOL →
        QF_poolInit 100 exampleState 2000 64 8 = .error (.assertion .qf_dyn 200)) ∧
      (∀ q, exampleState.QF_maxPool_ < QF_MAX_EPOOL → exampleState.QF_maxPool_ ≠ 0 →
        exampleState.QF_pool_[exampleState.QF_maxPool_ - 1]? = some q → ¬ q.blockSize < 8 →
        QF_poolInit 100 exampleState 2000 64 8 = .error (.assertion .qf_dyn 201)) ∧
      (∀ s1, QF_poolInit 100 exampleState 2000 64 8 = .ok s1 →
        exampleState.QF_maxPool_ < QF_MAX_EPOOL ∧
        (exampleState.QF_maxPool_ ≠ 0 →
          ∃ q, exampleState.QF_pool_[exampleState.QF_maxPool_ - 1]? = some q ∧
            q.blockSize < 8) ∧
        s1.QF_maxPool_ = exampleState.QF_maxPool_ + 1) :=
  ⟨rfl, by decide, rfl,
    C29_poolInit_order 100 QFState.start exampleState exampleState [(1000, 20, 7)] 2000 64 8
      rfl (by decide) rfl⟩

/-! ### Re-arming and the was-disarmed query -/

/-- C21: for a time event with an owner, a valid signal and tick rate, in
which a running countdown implies that the event is linked, and `n` not 0:
`QTimeEvt_rearm` returns true exactly when the countdown was not 0; afterwards
the countdown is `n` and the interval and the owner are unchanged; when the
linked flag was clear the event has become the first of the newly armed time
events of its tick rate (its `next` is the previous first one) and the flag
is set; when the flag was set, the link, the head of the list and the flags
are unchanged; the tick-rate bits are unchanged in both cases, as are all
other time events apart from the head. -/
theorem C21_rearm (st : QFState) (me n hd : Nat)
    (hact : (st.tevt me).act ≠ 0)
    (hrate : (st.emem me).refCtr_ &&& TE_TICK_RATE < QF_MAX_TICK_RATE) (hn : n ≠ 0)
    (hsig : Q_USER_SIG ≤ (st.emem me).sig) (href : (st.emem me).refCtr_ < 256)
    (hhd : st.QF_timeEvtHead_[(st.emem me).refCtr_ &&& TE_TICK_RATE]? = some hd)
    (hmh : me ≠ hd)
    (harmed : (st.tevt me).ctr ≠ 0 → (st.emem me).refCtr_ &&& TE_IS_LINKED ≠ 0) :
    ∃ b st1, QTimeEvt_rearm st me n = .ok (b, st1) ∧
      (b = true ↔ (st.tevt me).ctr ≠ 0) ∧
      (st1.tevt me).ctr = n ∧ (st1.tevt me).interval = (st.tevt me).interval ∧
      (st1.tevt me).act = (st.tevt me).act ∧
      ((st.emem me).refCtr_ &&& TE_IS_LINKED = 0 →
        (st1.tevt me).next = (st.tevt hd).act ∧ (st1.tevt hd).act = me ∧
        (st1.emem me).refCtr_ &&& TE_IS_LINKED ≠ 0) ∧
      ((st.emem me).refCtr_ &&& TE_IS_LINKED ≠ 0 →
        (st1.tevt me).next = (st.tevt me).next ∧ st1.tevt hd = st.tevt hd ∧
        st1.emem me = st.emem me) ∧
      (st1.emem me).refCtr_ &&& TE_TICK_RATE = (st.emem me).refCtr_ &&& TE_TICK_RATE ∧
      (st1.tevt hd).next = (st.tevt hd).next ∧
      (∀ a, a ≠ me → a ≠ hd → st1.tevt a = st.tevt a) ∧
      (∀ a, a ≠ me → st1.emem a = st.emem a) := by
  have hpre : (st.tevt me).act ≠ 0 ∧
      (st.emem me).refCtr_ &&& TE_TICK_RATE < QF_MAX_TICK_RATE ∧ n ≠ 0 ∧
      (st.emem me).sig ≥ Q_USER_SIG := ⟨hact, hrate, hn, hsig⟩
  obtain ⟨-, -, -, -, -, -, -, b8, b9, b10, -⟩ := flag_bits _ href
  unfold TE_IS_LINKED TE_TICK_RATE at *
  by_cases hc : (st.tevt me).ctr = 0
  · by_cases hl : (st.emem me).refCtr_ &&& 128 = 0
    · unfold QTimeEvt_rearm TE_IS_LINKED TE_TICK_RATE
      simp only [hpre, ne_eq, not_false_eq_true, and_self, not_true_eq_false, if_false, hc,
        if_true, hl, QFState.setRefCtr, QFState.setTE, hhd]
      refine ⟨_, _, rfl, by simp, ?_, ?_, ?_, ?_, ?_, ?_, ?_, ?_, ?_⟩
      · simp [Function.update_noteq hmh, Function.update_noteq (Ne.symm hmh)]
      · simp [Function.update_noteq hmh, Function.update_noteq (Ne.symm hmh)]
      · simp [Function.update_noteq hmh, Function.update_noteq (Ne.symm hmh)]
      · intro _
        refine ⟨?_, ?_, ?_⟩
        · simp [Function.update_noteq hmh, Function.update_noteq (Ne.symm hmh)]
        · simp [Function.update_noteq hmh, Function.update_noteq (Ne.symm hmh)]
        · simp only [EvtMem.write, if_true, b8]
          exact b9
      · intro h
        exact absurd h (by simp)
      · simp only [EvtMem.write, if_true, b8]
        exact b10
      · simp [Function.update_noteq hmh, Function.update_noteq (Ne.symm hmh)]
      · intro a h1 h2
        simp [Function.update_noteq h1, Function.update_noteq h2]
      · intro a h1
        simp [EvtMem.write, h1]
    · refine ⟨false, st.setTE me { st.tevt me with ctr := n }, ?_, by simp [hc], ?_, ?_, ?_,
        ?_, ?_, rfl, ?_, ?_, fun _ _ => rfl⟩
      · unfold QTimeEvt_rearm TE_IS_LINKED TE_TICK_RATE
        simp only [hpre, ne_eq, not_false_eq_true, and_self, not_true_eq_false, if_false, hc,
          if_true, hl]
      · simp [QFState.setTE]
      · simp [QFState.setTE]
      · simp [QFState.setTE]
      · intro h
        exact absurd h hl
      · intro _
        exact ⟨by simp [QFState.setTE], by simp [QFState.setTE, Function.update_noteq
          (Ne.symm hmh)], rfl⟩
      · simp [QFState.setTE, Function.update_noteq (Ne.symm hmh)]
      · intro a h1 _
        simp [QFState.setTE, Function.update_noteq h1]
  · have hl := harmed hc
    refine ⟨true, st.setTE me { st.tevt me with ctr := n }, ?_, by simp [hc], ?_, ?_, ?_,
      ?_, ?_, rfl, ?_, ?_, fun _ _ => rfl⟩
    · unfold QTimeEvt_rearm TE_IS_LINKED TE_TICK_RATE
      simp only [hpre, ne_eq, not_false_eq_true, and_self, not_true_eq_false, if_false, hc]
    · simp [QFState.setTE]
    · simp [QFState.setTE]
    · simp [QFState.setTE]
    · intro h
      exact absurd h hl
    · intro _
      exact ⟨by simp [QFState.setTE], by simp [QFState.setTE, Function.update_noteq
        (Ne.symm hmh)], rfl⟩
    · simp [QFState.setTE, Function.update_noteq (Ne.symm hmh)]
    · intro a h1 _
      simp [QFState.setTE, Function.update_noteq h1]

theorem C21_rearm_witness :
    (exampleState5.tevt 800).act ≠ 0 ∧
      (exampleState5.emem 800).refCtr_ &&& TE_TICK_RATE < QF_MAX_TICK_RATE ∧ (7 : Nat) ≠ 0 ∧
      Q_USER_SIG ≤ (exampleState5.emem 800).sig ∧ (exampleState5.emem 800).refCtr_ < 256 ∧
      exampleState5.QF_timeEvtHead_[(exampleState5.emem 800).refCtr_ &&& TE_TICK_RATE]? =
        some 16 ∧ (800 : Nat) ≠ 16 ∧
      ((exampleState5.tevt 800).ctr ≠ 0 →
        (exampleState5.emem 800).refCtr_ &&& TE_IS_LINKED ≠ 0) ∧
      ∃ b st1, QTimeEvt_rearm exampleState5 800 7 = .ok (b, st1) ∧
        (b = true ↔ (exampleState5.tevt 800).ctr ≠ 0) ∧
        (st1.tevt 800).ctr = 7 ∧ (st1.tevt 800).interval = (exampleState5.tevt 800).interval ∧
        (st1.tevt 800).act = (exampleState5.tevt 800).act ∧
        ((exampleState5.emem 800).refCtr_ &&& TE_IS_LINKED = 0 →
          (st1.tevt 800).next = (exampleState5.tevt 16).act ∧ (st1.tevt 16).act = 800 ∧
          (st1.emem 800).refCtr_ &&& TE_IS_LINKED ≠ 0) :=
  ⟨by decide, by decide, by decide, by decide, by decide, by decide, by decide, by decide,
    (C21_rearm exampleState5 800 7 16 (by decide) (by decide) (by decide) (by decide)
      (by decide) (by decide) (by decide) (by decide)).imp fun _ h => h.imp fun _ h =>
        ⟨h.1, h.2.1, h.2.2.1, h.2.2.2.1, h.2.2.2.2.1, h.2.2.2.2.2.1⟩⟩

/-- C22: `QTimeEvt_wasDisarmed` returns true exactly when the was-disarmed
flag was set at the call; afterwards the flag is set, so that a second call
returns true whatever the first one returned; the countdown, the interval
and the other members of the time event, the tick-rate bits and the linked
flag are unchanged, as are all other events. -/
theorem C22_wasDisarmed (st : QFState) (me : Nat) (href : (st.emem me).refCtr_ < 256) :
    ((QTimeEvt_wasDisarmed st me).1 = true ↔ (st.emem me).refCtr_ &&& TE_WAS_DISARMED ≠ 0) ∧
      ((QTimeEvt_wasDisarmed st me).2.emem me).refCtr_ &&& TE_WAS_DISARMED ≠ 0 ∧
      (QTimeEvt_wasDisarmed (QTimeEvt_wasDisarmed st me).2 me).1 = true ∧
      (QTimeEvt_wasDisarmed st me).2.tevt = st.tevt ∧
      ((QTimeEvt_wasDisarmed st me).2.emem me).refCtr_ &&& TE_TICK_RATE =
        (st.emem me).refCtr_ &&& TE_TICK_RATE ∧
      ((QTimeEvt_wasDisarmed st me).2.emem me).refCtr_ &&& TE_IS_LINKED =
        (st.emem me).refCtr_ &&& TE_IS_LINKED ∧
      ((QTimeEvt_wasDisarmed st me).2.emem me).sig = (st.emem me).sig ∧
      ((QTimeEvt_wasDisarmed st me).2.emem me).poolId_ = (st.emem me).poolId_ ∧
      (∀ a, a ≠ me → (QTimeEvt_wasDisarmed st me).2.emem a = st.emem a) := by
  obtain ⟨b1, b2, b3, b4, -⟩ := flag_bits _ href
  unfold TE_WAS_DISARMED TE_TICK_RATE TE_IS_LINKED
  have hmem : ((QTimeEvt_wasDisarmed st me).2.emem me).refCtr_ =
      (st.emem me).refCtr_ ||| 64 := by
    simp [QTimeEvt_wasDisarmed, QFState.setRefCtr, EvtMem.write, TE_WAS_DISARMED, b1]
  refine ⟨?_, by rw [hmem]; exact b2, ?_, rfl, by rw [hmem]; exact b3, by rw [hmem]; exact b4,
    ?_, ?_, ?_⟩
  · simp [QTimeEvt_wasDisarmed, TE_WAS_DISARMED]
  · have : (QTimeEvt_wasDisarmed (QTimeEvt_wasDisarmed st me).2 me).1 =
        ((((QTimeEvt_wasDisarmed st me).2.emem me).refCtr_ &&& 64) != 0) := rfl
    rw [this, hmem]
    simp [b2]
  · simp [QTimeEvt_wasDisarmed, QFState.setRefCtr, EvtMem.write]
  · simp [QTimeEvt_wasDisarmed, QFState.setRefCtr, EvtMem.write]
  · intro a ha
    simp [QTimeEvt_wasDisarmed, QFState.setRefCtr, EvtMem.write, ha]

theorem C22_wasDisarmed_witness :
    (exampleState6.emem 800).refCtr_ < 256 ∧
      ((QTimeEvt_wasDisarmed exampleState6 800).1 = true ↔
        (exampleState6.emem 800).refCtr_ &&& TE_WAS_DISARMED ≠ 0) ∧
      (QTimeEvt_wasDisarmed exampleState6 800).1 = false ∧
      (QTimeEvt_wasDisarmed (QTimeEvt_wasDisarmed exampleState6 800).2 800).1 = true :=
  ⟨by decide, (C22_wasDisarmed exampleState6 800 (by decide)).1, by decide,
    (C22_wasDisarmed exampleState6 800 (by decide)).2.2.1⟩

/-! ### Subscriptions -/

theorem insert_hasElement (bits p k : Nat) (h1 : 1 ≤ p) (h16 : p ≤ 16) (hk1 : 1 ≤ k)
    (hk16 : k ≤ 16) (hlt : bits < 65536) :
    QPSet_hasElement (QPSet_insert bits p) k = (QPSet_hasElement bits k || decide (k = p)) := by
  rw [hasElement_eq _ k hk1 hk16, hasElement_eq _ k hk1 hk16,
    insert_testBit bits p (k - 1) h1 h16 hlt]
  congr 1
  by_cases h : k = p
  · simp [h]
  · have : ¬ k - 1 = p - 1 := by omega
    simp [h, this]

theorem remove_hasElement (bits p k : Nat) (h1 : 1 ≤ p) (h16 : p ≤ 16) (hk1 : 1 ≤ k)
    (hk16 : k ≤ 16) :
    QPSet_hasElement (QPSet_remove bits p) k = (QPSet_hasElement bits k && decide (k ≠ p)) := by
  rw [hasElement_eq _ k hk1 hk16, hasElement_eq _ k hk1 hk16,
    remove_testBit bits p (k - 1) h1 h16]
  congr 1
  have hlt : k - 1 < 16 := by omega
  by_cases h : k = p
  · simp [h]
  · have : k - 1 ≠ p - 1 := by omega
    simp [h, this, hlt]

theorem unsubscribeAll_loop_spec (p : Nat) (h1 : 1 ≤ p) (h16 : p ≤ 16) :
    ∀ (n sig : Nat) (st : QFState), sig + n ≤ st.QF_subscrList_.length →
      ∃ l1, QActive_unsubscribeAll_loop p n sig st = .ok { st with QF_subscrList_ := l1 } ∧
        l1.length = st.QF_subscrList_.length ∧
        (∀ s, ¬ (sig ≤ s ∧ s < sig + n) → l1.getD s 0 = st.QF_subscrList_.getD s 0) ∧
        (∀ s k, sig ≤ s → s < sig + n → 1 ≤ k → k ≤ 16 →
          QPSet_hasElement (l1.getD s 0) k =
            (QPSet_hasElement (st.QF_subscrList_.getD s 0) k && decide (k ≠ p))) := by
  intro n
  induction n with
  | zero =>
    intro sig st _
    exact ⟨st.QF_subscrList_, rfl, rfl, fun _ _ => rfl, fun s k h1 h2 => by omega⟩
  | succ n ih =>
    intro sig st hlen
    have hlt : sig < st.QF_subscrList_.length := by omega
    have hget : st.QF_subscrList_[sig]? = some (st.QF_subscrList_.getD sig 0) := by
      rw [List.getD_eq_getElem?_getD, List.getElem?_eq_getElem hlt]
      rfl
    rw [QActive_unsubscribeAll_loop, hget]
    simp only
    by_cases hel : QPSet_hasElement (st.QF_subscrList_.getD sig 0) p = true
    · rw [if_pos hel]
      have hLlen : (st.QF_subscrList_.set sig
          (QPSet_remove (st.QF_subscrList_.getD sig 0) p)).length =
            st.QF_subscrList_.length := List.length_set _ _ _
      have hLne : ∀ s, s ≠ sig → (st.QF_subscrList_.set sig
          (QPSet_remove (st.QF_subscrList_.getD sig 0) p)).getD s 0 =
            st.QF_subscrList_.getD s 0 := by
        intro s hs
        simp only [List.getD_eq_getElem?_getD, List.getElem?_set_ne (Ne.symm hs)]
      have hLeq : (st.QF_subscrList_.set sig
          (QPSet_remove (st.QF_subscrList_.getD sig 0) p)).getD sig 0 =
            QPSet_remove (st.QF_subscrList_.getD sig 0) p := by
        rw [List.getD_eq_getElem?_getD, List.getElem?_set_self hlt]
        rfl
      generalize st.QF_subscrList_.set sig
        (QPSet_remove (st.QF_subscrList_.getD sig 0) p) = L at hLlen hLne hLeq ⊢
      obtain ⟨l1, e1, e2, e3, e4⟩ := ih (sig + 1) { st with QF_subscrList_ := L }
        (by simp only [hLlen]; omega)
      simp only [hLlen] at e2
      refine ⟨l1, e1, e2, ?_, ?_⟩
      · intro s hs
        rw [e3 s (by omega)]
        exact hLne s (by omega)
      · intro s k hs1 hs2 hk1 hk16
        by_cases hs : s = sig
        · subst hs
          rw [e3 s (by omega)]
          simp only
          rw [hLeq]
          exact remove_hasElement _ p k h1 h16 hk1 hk16
        · rw [e4 s k (by omega) (by omega) hk1 hk16]
          simp only
          rw [hLne s hs]
    · rw [if_neg hel]
      obtain ⟨l1, e1, e2, e3, e4⟩ := ih (sig + 1) st (by omega)
      refine ⟨l1, e1, e2, fun s hs => e3 s (by omega), ?_⟩
      intro s k hs1 hs2 hk1 hk16
      by_cases hs : s = sig
      · subst hs
        rw [e3 s (by omega)]
        by_cases hkp : k = p
        · subst hkp
          simp at hel
          simp [hel]
        · simp [hkp]
      · exact e4 s k (by omega) (by omega) hk1 hk16

theorem subscrUpdate_spec (st : QFState) (sig : Nat) (f : Nat → Nat)
    (hlt : sig < st.QF_subscrList_.length) :
    ∃ l1, subscrUpdate st sig f = .ok { st with QF_subscrList_ := l1 } ∧
      l1.getD sig 0 = f (st.QF_subscrList_.getD sig 0) ∧
      ∀ s, s ≠ sig → l1.getD s 0 = st.QF_subscrList_.getD s 0 := by
  have hget : st.QF_subscrList_[sig]? = some (st.QF_subscrList_.getD sig 0) := by
    rw [List.getD_eq_getElem?_getD, List.getElem?_eq_getElem hlt]
    rfl
  unfold subscrUpdate
  rw [hget]
  refine ⟨_, rfl, ?_, ?_⟩
  · simp only [List.getD_eq_getElem?_getD, List.getElem?_set_self hlt]
    rfl
  · intro s hs
    simp only [List.getD_eq_getElem?_getD, List.getElem?_set_ne (Ne.symm hs)]

/-- C28: `me` is an active object registered in `QF_active_` under its
priority `p`, `sig` a signal from `Q_USER_SIG` up to below `QF_maxPubSignal_`,
and the subscriber sets are 16-bit sets in an array of at least
`QF_maxPubSignal_` elements. Then `QActive_subscribe` makes `p` an element of
the set of `sig`, `QActive_unsubscribe` removes it from that set, and
`QActive_unsubscribeAll` removes it from the sets of all signals from
`Q_USER_SIG` up to below `QF_maxPubSignal_`; membership of every other
priority in every set, and of `p` in the sets of the other signals, is
unchanged, and so is the rest of the state. -/
theorem C28_subscriptions (st : QFState) (me sig : Nat)
    (hp1 : 1 ≤ (st.aobj me).prio) (hp16 : (st.aobj me).prio ≤ QF_MAX_ACTIVE)
    (hreg : st.QF_active_[(st.aobj me).prio]? = some me)
    (hsig1 : Q_USER_SIG ≤ sig) (hsig2 : sig < st.QF_maxPubSignal_)
    (hlen : st.QF_maxPubSignal_ ≤ st.QF_subscrList_.length)
    (hbits : ∀ b, b ∈ st.QF_subscrList_ → b < 65536) :
    (∃ l1, QActive_subscribe st me (sig : Int) = .ok { st with QF_subscrList_ := l1 } ∧
      ∀ s k, 1 ≤ k → k ≤ QF_MAX_ACTIVE → QPSet_hasElement (l1.getD s 0) k =
        if s = sig ∧ k = (st.aobj me).prio then true
        else QPSet_hasElement (st.QF_subscrList_.getD s 0) k) ∧
    (∃ l1, QActive_unsubscribe st me (sig : Int) = .ok { st with QF_subscrList_ := l1 } ∧
      ∀ s k, 1 ≤ k → k ≤ QF_MAX_ACTIVE → QPSet_hasElement (l1.getD s 0) k =
        if s = sig ∧ k = (st.aobj me).prio then false
        else QPSet_hasElement (st.QF_subscrList_.getD s 0) k) ∧
    (∃ l1, QActive_unsubscribeAll st me = .ok { st with QF_subscrList_ := l1 } ∧
      ∀ s k, 1 ≤ k → k ≤ QF_MAX_ACTIVE → QPSet_hasElement (l1.getD s 0) k =
        if (Q_USER_SIG ≤ s ∧ s < st.QF_maxPubSignal_) ∧ k = (st.aobj me).prio then false
        else QPSet_hasElement (st.QF_subscrList_.getD s 0) k) := by
  unfold QF_MAX_ACTIVE at *
  have hlt : sig < st.QF_subscrList_.length := by omega
  have hpre : (Q_USER_SIG : Int) ≤ (sig : Int) ∧ (sig : Int) < (st.QF_maxPubSignal_ : Int) ∧
      0 < (st.aobj me).prio ∧ (st.aobj me).prio ≤ 16 :=
    ⟨by exact_mod_cast hsig1, by exact_mod_cast hsig2, by omega, hp16⟩
  have hb : st.QF_subscrList_.getD sig 0 < 65536 := by
    rw [List.getD_eq_getElem?_getD, List.getElem?_eq_getElem hlt]
    exact hbits _ (List.getElem_mem _)
  refine ⟨?_, ?_, ?_⟩
  · obtain ⟨l1, e1, e2, e3⟩ := subscrUpdate_spec st sig
      (fun bits => QPSet_insert bits (st.aobj me).prio) hlt
    refine ⟨l1, ?_, ?_⟩
    · unfold QActive_subscribe QF_MAX_ACTIVE
      simp only [hpre, and_self, not_true_eq_false, if_false, hreg, ne_eq, Int.toNat_ofNat, e1]
    · intro s k hk1 hk16
      by_cases hs : s = sig
      · subst hs
        rw [e2, insert_hasElement _ _ k hp1 hp16 hk1 hk16 hb]
        by_cases hk : k = (st.aobj me).prio
        · simp [hk]
        · simp [hk]
      · rw [e3 s hs]
        simp [hs]
  · obtain ⟨l1, e1, e2, e3⟩ := subscrUpdate_spec st sig
      (fun bits => QPSet_remove bits (st.aobj me).prio) hlt
    refine ⟨l1, ?_, ?_⟩
    · unfold QActive_unsubscribe QF_MAX_ACTIVE
      simp only [hpre, and_self, not_true_eq_false, if_false, hreg, ne_eq, Int.toNat_ofNat, e1]
    · intro s k hk1 hk16
      by_cases hs : s = sig
      · subst hs
        rw [e2, remove_hasElement _ _ k hp1 hp16 hk1 hk16]
        by_cases hk : k = (st.aobj me).prio
        · simp [hk]
        · simp [hk]
      · rw [e3 s hs]
        simp [hs]
  · have hu : Q_USER_SIG + (st.QF_maxPubSignal_ - Q_USER_SIG) = st.QF_maxPubSignal_ := by omega
    obtain ⟨l1, e1, -, e3, e4⟩ := unsubscribeAll_loop_spec (st.aobj me).prio hp1 hp16
      (st.QF_maxPubSignal_ - Q_USER_SIG) Q_USER_SIG st (by omega)
    rw [hu] at e3 e4
    refine ⟨l1, ?_, ?_⟩
    · unfold QActive_unsubscribeAll QF_MAX_ACTIVE
      have hpre2 : 0 < (st.aobj me).prio ∧ (st.aobj me).prio ≤ 16 := ⟨by omega, hp16⟩
      simp only [hpre2, and_self, not_true_eq_false, if_false, hreg, ne_eq, e1]
    · intro s k hk1 hk16
      by_cases hs : Q_USER_SIG ≤ s ∧ s < st.QF_maxPubSignal_
      · rw [e4 s k hs.1 hs.2 hk1 hk16]
        by_cases hk : k = (st.aobj me).prio
        · simp [hk, hs]
        · simp [hk]
      · rw [e3 s hs]
        simp [hs]

theorem C28_subscriptions_witness :
    1 ≤ (exampleState3.aobj 500).prio ∧ (exampleState3.aobj 500).prio ≤ QF_MAX_ACTIVE ∧
      exampleState3.QF_active_[(exampleState3.aobj 500).prio]? = some 500 ∧
      Q_USER_SIG ≤ 4 ∧ 4 < exampleState3.QF_maxPubSignal_ ∧
      exampleState3.QF_maxPubSignal_ ≤ exampleState3.QF_subscrList_.length ∧
      (∀ b, b ∈ exampleState3.QF_subscrList_ → b < 65536) ∧
      ∃ l1, QActive_subscribe exampleState3 500 ((4 : Nat) : Int) =
          .ok { exampleState3 with QF_subscrList_ := l1 } ∧
        ∀ s k, 1 ≤ k → k ≤ QF_MAX_ACTIVE → QPSet_hasElement (l1.getD s 0) k =
          if s = 4 ∧ k = (exampleState3.aobj 500).prio then true
          else QPSet_hasElement (exampleState3.QF_subscrList_.getD s 0) k :=
  ⟨by decide, by decide, by decide, by decide, by decide, by decide, by decide,
    (C28_subscriptions exampleState3 500 4 (by decide) (by decide) (by decide) (by decide)
      (by decide) (by decide) (by decide)).1⟩

/-! ### State queries of the hierarchical state machine -/

theorem call_top {σ : Type} (H : Handlers σ) (c : Hsm σ) (e : Nat) :
    QEP_call H QHsm_top c e =
      .ok (Q_RET_IGNORED, { c with calls := c.calls ++ [(QHsm_top, e)] }) := by
  unfold QEP_call
  rw [if_neg (by decide), if_pos rfl]

theorem isIn_loop_spec {σ : Type} (H : Handlers σ) (x : Nat) (chain : List Nat) (n : Nat)
    (c : Hsm σ) (ha : Ancestry H chain QHsm_top) (ht : c.me.temp = chain.headD QHsm_top) :
    ∃ c1, QHsm_isIn_loop H (n + chain.length + 1) c x =
        .ok (decide (x ∈ chain ∨ x = QHsm_top), c1) ∧
      c1.me.state = c.me.state ∧
      ∃ L, c1.calls = c.calls ++ L ∧ ∀ p, p ∈ L → p.2 = QEP_EMPTY_SIG_ := by
  induction chain generalizing c with
  | nil =>
    simp only [List.headD_nil] at ht
    rw [List.length_nil, Nat.add_zero, QHsm_isIn_loop]
    by_cases hx : QHsm_top = x
    · refine ⟨c, ?_, rfl, [], by simp, fun p hp => by cases hp⟩
      rw [ht, if_pos hx]
      simp [hx.symm]
    · refine ⟨{ c with calls := c.calls ++ [(QHsm_top, QEP_EMPTY_SIG_)] }, ?_, rfl,
        [(QHsm_top, QEP_EMPTY_SIG_)], rfl, fun p hp => by simp at hp; rw [hp]⟩
      rw [ht, if_neg hx, call_top]
      have : ¬ x = QHsm_top := fun h => hx h.symm
      simp [this]
  | cons u rest ih =>
    obtain ⟨hu0, hut, -, hsup, hrest⟩ := ha
    simp only [List.headD_cons] at ht
    have hlen : n + (u :: rest).length + 1 = (n + rest.length + 1) + 1 := by
      simp only [List.length_cons]
      omega
    rw [hlen, QHsm_isIn_loop, ht]
    by_cases hx : u = x
    · refine ⟨c, ?_, rfl, [], by simp, fun p hp => by cases hp⟩
      rw [if_pos hx]
      simp [hx.symm]
    · obtain ⟨c1, e1, e2, L, e3, e4⟩ := ih
        ⟨{ c.me with temp := rest.headD QHsm_top }, c.ext, c.calls ++ [(u, QEP_EMPTY_SIG_)]⟩
        hrest rfl
      refine ⟨c1, ?_, e2, (u, QEP_EMPTY_SIG_) :: L, by simp [e3], ?_⟩
      · rw [if_neg hx, call_super H u _ c hu0 hut hsup]
        simp only [ne_eq, (by decide : ¬ Q_RET_SUPER = Q_RET_IGNORED), not_false_eq_true,
          if_true, e1]
        have : ¬ x = u := fun h => hx h.symm
        simp [this]
      · intro p hp
        rcases List.mem_cons.mp hp with h | h
        · rw [h]
        · exact e4 p h

/-- C23: in a stable configuration whose active state and its superstates
below the top state are the states of `chain` (innermost first), `QHsm_isIn`
returns true exactly when `x` is one of these states or the top state; it
calls state handlers only with the empty signal, and on return `state.fun`
is unchanged and `temp.fun` equals it. -/
theorem C23_isIn {σ : Type} (H : Handlers σ) (c : Hsm σ) (x fuel : Nat) (chain : List Nat)
    (ha : Ancestry H chain QHsm_top) (hstate : c.me.state = chain.headD QHsm_top)
    (hstable : c.me.temp = c.me.state) (hfuel : chain.length + 1 ≤ fuel) :
    ∃ c1, QHsm_isIn fuel H c x = .ok (decide (x ∈ chain ∨ x = QHsm_top), c1) ∧
      c1.me.state = c.me.state ∧ c1.me.temp = c.me.state ∧
      ∃ L, c1.calls = c.calls ++ L ∧ ∀ p, p ∈ L → p.2 = QEP_EMPTY_SIG_ := by
  obtain ⟨n, rfl⟩ : ∃ n, fuel = n + chain.length + 1 := ⟨fuel - chain.length - 1, by omega⟩
  obtain ⟨c1, e1, e2, L, e3, e4⟩ := isIn_loop_spec H x chain n c ha (by rw [hstable, hstate])
  refine ⟨⟨⟨c1.me.vptr, c1.me.state, c1.me.state⟩, c1.ext, c1.calls⟩, ?_, e2, e2, L, e3, e4⟩
  unfold QHsm_isIn
  rw [if_neg (not_not.mpr hstable), e1]

theorem C23_isIn_witness :
    Ancestry exampleHandlers [11, 10] QHsm_top ∧
      (Hsm.mk (QHsm.mk 1 11 11) () []).me.state = [(11 : Nat), 10].headD QHsm_top ∧
      (Hsm.mk (QHsm.mk 1 11 11) () []).me.temp = (Hsm.mk (QHsm.mk 1 11 11) () []).me.state ∧
      [(11 : Nat), 10].length + 1 ≤ 3 ∧
      ∃ c1, QHsm_isIn 3 exampleHandlers (Hsm.mk (QHsm.mk 1 11 11) () []) 10 =
          .ok (decide (10 ∈ [(11 : Nat), 10] ∨ 10 = QHsm_top), c1) ∧
        c1.me.state = 11 ∧ c1.me.temp = 11 ∧
        ∃ L, c1.calls = (Hsm.mk (QHsm.mk 1 11 11) () []).calls ++ L ∧
          ∀ p, p ∈ L → p.2 = QEP_EMPTY_SIG_ :=
  ⟨⟨by decide, by decide, by decide, example_super_B, by decide, by decide, by decide,
      example_super_A, trivial⟩, rfl, rfl, by decide,
    C23_isIn exampleHandlers (Hsm.mk (QHsm.mk 1 11 11) () []) 10 3 [11, 10]
      ⟨by decide, by decide, by decide, example_super_B, by decide, by decide, by decide,
        example_super_A, trivial⟩ rfl rfl (by decide)⟩

theorem childState_skip {σ : Type} (H : Handlers σ) (parent : Nat) (pre rest : List Nat)
    (n cur : Nat) (c : Hsm σ) (ha : Ancestry H (pre ++ rest) QHsm_top)
    (ht : c.me.temp = (pre ++ rest).headD QHsm_top) (hp : parent ∉ pre) :
    ∃ c1, QHsm_childState_loop H (n + pre.length) c parent cur =
        QHsm_childState_loop H n c1 parent (pre.getLastD cur) ∧
      c1.me.temp = rest.headD QHsm_top ∧ c1.me.state = c.me.state := by
  induction pre generalizing c cur with
  | nil => exact ⟨c, rfl, ht, rfl⟩
  | cons u pre ih =>
    obtain ⟨hu0, hut, -, hsup, hrest⟩ := ha
    simp only [List.cons_append, List.headD_cons] at ht
    have hpu : ¬ u = parent := fun h => hp (by rw [h]; exact List.mem_cons_self _ _)
    obtain ⟨c1, e1, e2, e3⟩ := ih u
      ⟨{ c.me with temp := (pre ++ rest).headD QHsm_top }, c.ext,
        c.calls ++ [(u, QEP_EMPTY_SIG_)]⟩ hrest rfl
      (fun h => hp (List.mem_cons_of_mem _ h))
    refine ⟨c1, ?_, e2, e3⟩
    have hlen : n + (u :: pre).length = (n + pre.length) + 1 := by
      simp only [List.length_cons]
      omega
    rw [hlen, QHsm_childState_loop, ht, if_neg hpu, call_super H u _ c hu0 hut hsup]
    simp only [ne_eq, (by decide : ¬ Q_RET_SUPER = Q_RET_IGNORED), not_false_eq_true, if_true]
    refine Eq.trans e1 ?_
    cases pre with
    | nil => rfl
    | cons v pre => rfl

/-- C24: the active state and its superstates below the top state are the
states of `chain` (innermost first). When `parent` is the superstate of the
state `ch` of `chain` (the next state of `chain`, or the top state after the
last one) and is not found before, `QHsm_childState_` returns `ch`; when
`parent` is the active state itself it returns `parent`; when `parent` is
neither a state of `chain` nor the top state, assertion 810 fails. When the
function returns, `state.fun` is unchanged and `temp.fun` equals it. -/
theorem C24_childState {σ : Type} (H : Handlers σ) (c : Hsm σ) (parent fuel : Nat)
    (chain : List Nat) (ha : Ancestry H chain QHsm_top)
    (hstate : c.me.state = chain.headD QHsm_top) (hfuel : chain.length + 1 ≤ fuel) :
    (∀ pre ch rest, chain = pre ++ ch :: rest → parent = rest.headD QHsm_top →
      parent ∉ pre → parent ≠ ch →
      ∃ c1, QHsm_childState_ fuel H c parent = .ok (ch, c1) ∧
        c1.me.state = c.me.state ∧ c1.me.temp = c.me.state) ∧
    (parent = c.me.state →
      ∃ c1, QHsm_childState_ fuel H c parent = .ok (parent, c1) ∧
        c1.me.state = c.me.state ∧ c1.me.temp = c.me.state) ∧
    (parent ∉ chain → parent ≠ QHsm_top →
      QHsm_childState_ fuel H c parent = .error (.assertion .qep_hsm 810)) := by
  refine ⟨?_, ?_, ?_⟩
  · intro pre ch rest hch hpar hpre hne
    have hlen : chain.length = pre.length + 1 + rest.length := by
      rw [hch]
      simp
      omega
    obtain ⟨n, rfl⟩ : ∃ n, fuel = (n + 1) + (pre ++ [ch]).length :=
      ⟨fuel - pre.length - 2, by simp; omega⟩
    have hch2 : chain = (pre ++ [ch]) ++ rest := by rw [hch]; simp
    obtain ⟨c1, e1, e2, e3⟩ := childState_skip H parent (pre ++ [ch]) rest (n + 1) c.me.state
      ⟨{ c.me with temp := c.me.state }, c.ext, c.calls⟩ (by rw [← hch2]; exact ha)
      (by rw [← hch2]; exact hstate)
      (by
        intro h
        rcases List.mem_append.mp h with h | h
        · exact hpre h
        · exact hne (List.mem_singleton.mp h))
    refine ⟨⟨⟨c1.me.vptr, c1.me.state, c1.me.state⟩, c1.ext, c1.calls⟩, ?_, e3, e3⟩
    unfold QHsm_childState_
    rw [e1, QHsm_childState_loop, if_pos (by rw [e2, hpar])]
    simp
  · intro hpar
    obtain ⟨n, rfl⟩ : ∃ n, fuel = n + 1 := ⟨fuel - 1, by omega⟩
    refine ⟨⟨⟨c.me.vptr, c.me.state, c.me.state⟩, c.ext, c.calls⟩, ?_, rfl, rfl⟩
    unfold QHsm_childState_
    rw [QHsm_childState_loop, if_pos hpar.symm]
    simp [hpar]
  · intro hnot hnt
    obtain ⟨n, rfl⟩ : ∃ n, fuel = (n + 1) + chain.length := ⟨fuel - chain.length - 1, by omega⟩
    obtain ⟨c1, e1, e2, e3⟩ := childState_skip H parent chain [] (n + 1) c.me.state
      ⟨{ c.me with temp := c.me.state }, c.ext, c.calls⟩ (by rw [List.append_nil]; exact ha)
      (by rw [List.append_nil]; exact hstate) hnot
    simp only [List.headD_nil] at e2
    unfold QHsm_childState_
    rw [e1, QHsm_childState_loop, if_neg (by rw [e2]; exact fun h => hnt h.symm), e2, call_top]
    simp

theorem C24_childState_witness :
    Ancestry exampleHandlers [11, 10] QHsm_top ∧
      (Hsm.mk (QHsm.mk 1 11 11) () []).me.state = [(11 : Nat), 10].headD QHsm_top ∧
      [(11 : Nat), 10].length + 1 ≤ 3 ∧
      (∃ c1, QHsm_childState_ 3 exampleHandlers (Hsm.mk (QHsm.mk 1 11 11) () []) 10 =
          .ok (11, c1) ∧ c1.me.state = 11 ∧ c1.me.temp = 11) ∧
      QHsm_childState_ 3 exampleHandlers (Hsm.mk (QHsm.mk 1 11 11) () []) 12 =
        .error (.assertion .qep_hsm 810) :=
  ⟨⟨by decide, by decide, by decide, example_super_B, by decide, by decide, by decide,
      example_super_A, trivial⟩, rfl, by decide,
    (C24_childState exampleHandlers (Hsm.mk (QHsm.mk 1 11 11) () []) 10 3 [11, 10]
      ⟨by decide, by decide, by decide, example_super_B, by decide, by decide, by decide,
        example_super_A, trivial⟩ rfl (by decide)).1 [] 11 [10] rfl rfl (by simp) (by decide),
    (C24_childState exampleHandlers (Hsm.mk (QHsm.mk 1 11 11) () []) 12 3 [11, 10]
      ⟨by decide, by decide, by decide, example_super_B, by decide, by decide, by decide,
        example_super_A, trivial⟩ rfl (by decide)).2.2 (by decide) (by decide)⟩

/-! ### Deferred events -/

theorem super_unique {σ : Type} (H : Handlers σ) (me : QHsm) (x : σ) (u p q : Nat)
    (hp : IsSuper H u p) (hq : IsSuper H u q) : p = q := by
  have h := (hp me x).symm.trans (hq me x)
  exact congrArg (fun r => r.2.1.temp) h

theorem ancestry_tail {σ : Type} (H : Handlers σ) (A B : List Nat) (src : Nat)
    (ha : Ancestry H (A ++ B) src) : Ancestry H B src := by
  induction A with
  | nil => exact ha
  | cons a A ih => exact ih ha.2.2.2.2

theorem ancestry_unique {σ : Type} (H : Handlers σ) (me : QHsm) (x : σ) (src : Nat)
    (B : List Nat) : ∀ (B1 : List Nat) (u : Nat), Ancestry H (u :: B) src →
      Ancestry H (u :: B1) src → B = B1 := by
  induction B with
  | nil =>
    intro B1 u h1 h2
    cases B1 with
    | nil => rfl
    | cons v B1 =>
      have e := super_unique H me x u _ _ h1.2.2.2.1 h2.2.2.2.1
      simp only [List.headD_nil, List.headD_cons] at e
      exact absurd e.symm h2.2.2.2.2.2.2.1
  | cons w B ih =>
    intro B1 u h1 h2
    cases B1 with
    | nil =>
      have e := super_unique H me x u _ _ h1.2.2.2.1 h2.2.2.2.1
      simp only [List.headD_nil, List.headD_cons] at e
      exact absurd e h1.2.2.2.2.2.2.1
    | cons v B1 =>
      have e := super_unique H me x u _ _ h1.2.2.2.1 h2.2.2.2.1
      simp only [List.headD_cons] at e
      subst e
      rw [ih B1 w h1.2.2.2.2 h2.2.2.2.2]

theorem ancestry_nodup {σ : Type} (H : Handlers σ) (me : QHsm) (x : σ) (src : Nat)
    (A : List Nat) (ha : Ancestry H A src) : A.Nodup := by
  induction A with
  | nil => exact List.nodup_nil
  | cons u rest ih =>
    refine List.nodup_cons.mpr ⟨?_, ih ha.2.2.2.2⟩
    intro hm
    obtain ⟨A1, A2, e⟩ := List.append_of_mem hm
    have h2 : Ancestry H (u :: A2) src := ancestry_tail H A1 (u :: A2) src (e ▸ ha.2.2.2.2)
    have e2 := ancestry_unique H me x src rest A2 u ha h2
    have e3 := congrArg List.length e
    rw [List.length_append, List.length_cons, ← e2] at e3
    omega

theorem ancestry_append {σ : Type} (H : Handlers σ) (A B : List Nat) (L src : Nat)
    (ha : Ancestry H A L) (hb : Ancestry H B src) (hL : L = B.headD src)
    (hne : ∀ u, u ∈ A → u ≠ src) : Ancestry H (A ++ B) src := by
  induction A with
  | nil => exact hb
  | cons a A ih =>
    obtain ⟨h1, h2, _, h4, h5⟩ := ha
    refine ⟨h1, h2, hne a (List.mem_cons_self _ _), ?_,
      ih h5 (fun u hu => hne u (List.mem_cons_of_mem _ hu))⟩
    cases A with
    | nil =>
      simp only [List.headD_nil] at h4
      rw [hL] at h4
      exact h4
    | cons b A => exact h4

theorem exitChain_ancestry {σ : Type} (H : Handlers σ) (A : List Nat) (L : Nat)
    (hx : ExitChain H A L) : Ancestry H A L := by
  induction A with
  | nil => trivial
  | cons a A ih => exact ⟨hx.1, hx.2.1, hx.2.2.1, hx.2.2.2.2.1, ih hx.2.2.2.2.2⟩

theorem hsm_temp_eq {σ : Type} (c : Hsm σ) (v : Nat) (ht : c.me.temp = v) :
    c = ⟨{ c.me with temp := v }, c.ext, c.calls⟩ := by
  cases c with
  | mk me ext calls =>
    cases me with
    | mk a b t =>
      simp only at ht
      subst ht
      rfl

theorem take_set_succ (path : List Nat) (ip v : Nat) (h : ip + 1 < path.length) :
    (path.set (ip + 1) v).take (ip + 1 + 1) = path.take (ip + 1) ++ [v] := by
  rw [List.take_succ, List.set_take,
    List.set_eq_of_length_le (by rw [List.length_take]; omega),
    List.getElem?_set_self (by omega)]
  simp

theorem take_set_same (path : List Nat) (ip v : Nat) :
    (path.set (ip + 1) v).take (ip + 1) = path.take (ip + 1) := by
  rw [List.set_take, List.set_eq_of_length_le (by rw [List.length_take]; omega)]

theorem tran_climb_found {σ : Type} (H : Handlers σ) (rest : List Nat) (s n : Nat) (c : Hsm σ)
    (path : List Nat) (ip : Nat) (ha : Ancestry H rest s) (ht : c.me.temp = rest.headD s)
    (hlen : path.length = 6) (hip : ip + rest.length + 1 < 6) :
    ∃ path1, QHsm_tran_e H (n + rest.length + 1) Q_RET_SUPER c path ip s =
        .ok (⟨{ c.me with temp := s }, c.ext,
          c.calls ++ rest.map (fun u => (u, QEP_EMPTY_SIG_))⟩, path1, ip + rest.length, 1) ∧
      path1.length = 6 ∧ path1.take (ip + 1 + rest.length) = path.take (ip + 1) ++ rest := by
  induction rest generalizing c path ip with
  | nil =>
    simp only [List.headD_nil] at ht
    simp only [List.length_nil, Nat.add_zero] at hip
    have hset : pathSet path (ip + 1) s = .ok (path.set (ip + 1) s) := by
      unfold pathSet
      rw [if_pos (by omega)]
    have hdepth : ip + 1 < QHSM_MAX_NEST_DEPTH_ := by unfold QHSM_MAX_NEST_DEPTH_; omega
    refine ⟨path.set (ip + 1) s, ?_, by simp [hlen], ?_⟩
    · show QHsm_tran_e H (n + 1) Q_RET_SUPER c path ip s = _
      simp only [QHsm_tran_e, if_true, ht, hset, hdepth, not_true_eq_false, if_false,
        List.map_nil, List.append_nil, List.length_nil, Nat.add_zero]
      exact congrArg (fun z => Except.ok (z, path.set (ip + 1) s, ip, 1)) (hsm_temp_eq c s ht)
    · simp only [List.length_nil, Nat.add_zero, List.append_nil]
      exact take_set_same path ip s
  | cons u rest ih =>
    obtain ⟨hu0, hut, hus, hsup, hrest⟩ := ha
    simp only [List.headD_cons] at ht
    simp only [List.length_cons] at hip
    have hlen1 : n + (u :: rest).length + 1 = (n + rest.length + 1) + 1 := by
      simp only [List.length_cons]; omega
    have hset : pathSet path (ip + 1) u = .ok (path.set (ip + 1) u) := by
      unfold pathSet
      rw [if_pos (by omega)]
    rw [hlen1, QHsm_tran_e]
    simp only [if_true, ht, hus, if_false, hset, call_super H u _ _ hu0 hut hsup]
    obtain ⟨path1, h1, h2, h3⟩ := ih
      ⟨{ c.me with temp := rest.headD s }, c.ext, c.calls ++ [(u, QEP_EMPTY_SIG_)]⟩
      (path.set (ip + 1) u) (ip + 1) hrest rfl (by simp [hlen]) (by omega)
    refine ⟨path1, ?_, h2, ?_⟩
    · rw [h1]
      simp only [List.map_cons, List.append_assoc, List.singleton_append, List.length_cons]
      congr 3
      congr 1
      omega
    · have e1 : ip + 1 + (u :: rest).length = ip + 1 + 1 + rest.length := by
        simp only [List.length_cons]; omega
      rw [e1, h3, take_set_succ path ip u (by omega)]
      simp

theorem tran_climb_none {σ : Type} (H : Handlers σ) (rest : List Nat) (s n : Nat) (c : Hsm σ)
    (path : List Nat) (ip : Nat) (ha : Ancestry H rest QHsm_top) (hs : s ∉ rest)
    (hst : s ≠ QHsm_top) (ht : c.me.temp = rest.headD QHsm_top)
    (hlen : path.length = 6) (hip : ip + rest.length + 1 < 6) :
    ∃ path1, QHsm_tran_e H (n + rest.length + 1) Q_RET_SUPER c path ip s =
        .ok (⟨{ c.me with temp := QHsm_top }, c.ext,
          c.calls ++ (rest ++ [QHsm_top]).map (fun u => (u, QEP_EMPTY_SIG_))⟩, path1,
          ip + rest.length + 1, 0) ∧
      path1.length = 6 ∧
      path1.take (ip + 1 + rest.length + 1) = path.take (ip + 1) ++ (rest ++ [QHsm_top]) := by
  induction rest generalizing c path ip with
  | nil =>
    simp only [List.headD_nil] at ht
    simp only [List.length_nil, Nat.add_zero] at hip
    have hset : pathSet path (ip + 1) QHsm_top = .ok (path.set (ip + 1) QHsm_top) := by
      unfold pathSet
      rw [if_pos (by omega)]
    have hne : ¬ Q_RET_IGNORED = Q_RET_SUPER := by decide
    refine ⟨path.set (ip + 1) QHsm_top, ?_, by simp [hlen], ?_⟩
    · show QHsm_tran_e H (n + 1) Q_RET_SUPER c path ip s = _
      simp only [QHsm_tran_e, if_true, ht, hset, hst.symm, if_false, call_top]
      have hc := hsm_temp_eq c QHsm_top ht
      cases n <;> simp only [QHsm_tran_e, hne, if_false, List.length_nil, Nat.add_zero,
        List.nil_append, List.map_cons, List.map_nil] <;>
        exact congrArg (fun z : Hsm σ => Except.ok
          (({ z with calls := z.calls ++ [(QHsm_top, QEP_EMPTY_SIG_)] } : Hsm σ),
            path.set (ip + 1) QHsm_top, ip + 1, 0)) hc
    · simp only [List.length_nil, Nat.add_zero, List.nil_append]
      exact take_set_succ path ip QHsm_top (by omega)
  | cons u rest ih =>
    obtain ⟨hu0, hut, -, hsup, hrest⟩ := ha
    simp only [List.headD_cons] at ht
    simp only [List.length_cons] at hip
    have hus : u ≠ s := fun h => hs (h ▸ List.mem_cons_self _ _)
    have hlen1 : n + (u :: rest).length + 1 = (n + rest.length + 1) + 1 := by
      simp only [List.length_cons]; omega
    have hset : pathSet path (ip + 1) u = .ok (path.set (ip + 1) u) := by
      unfold pathSet
      rw [if_pos (by omega)]
    rw [hlen1, QHsm_tran_e]
    simp only [if_true, ht, hus, if_false, hset, call_super H u _ _ hu0 hut hsup]
    obtain ⟨path1, h1, h2, h3⟩ := ih
      ⟨{ c.me with temp := rest.headD QHsm_top }, c.ext, c.calls ++ [(u, QEP_EMPTY_SIG_)]⟩
      (path.set (ip + 1) u) (ip + 1) hrest (fun h => hs (List.mem_cons_of_mem _ h)) rfl
      (by simp [hlen]) (by omega)
    refine ⟨path1, ?_, h2, ?_⟩
    · rw [h1]
      simp only [List.map_cons, List.append_assoc, List.singleton_append, List.length_cons,
        List.cons_append]
      congr 3
      congr 1
      omega
    · have e1 : ip + 1 + (u :: rest).length + 1 = ip + 1 + 1 + rest.length + 1 := by
        simp; omega
      rw [e1, h3, take_set_succ path ip u (by omega)]
      simp

theorem pathGet_eq (path : List Nat) (i : Nat) (h : i < path.length) :
    pathGet path i = .ok (path.getD i 0) := by
  unfold pathGet
  rw [if_pos h]

theorem take_succ_getD (path : List Nat) (i : Nat) (h : i < path.length) :
    path.take (i + 1) = path.take i ++ [path.getD i 0] := by
  rw [List.take_succ]
  congr 1
  simp [List.getD, List.getElem?_eq_getElem h]

theorem search_none (path : List Nat) (t iq : Nat) (hiq : iq < path.length)
    (h : t ∉ path.take (iq + 1)) : QHsm_tran_search path t iq = .ok none := by
  induction iq with
  | zero =>
    rw [take_succ_getD path 0 hiq] at h
    have hne : ¬ t = path.getD 0 0 := fun e => h (by rw [← e]; simp)
    unfold QHsm_tran_search
    rw [pathGet_eq path 0 hiq]
    simp only [hne, if_false]
  | succ iq ih =>
    rw [take_succ_getD path (iq + 1) hiq] at h
    have hne : ¬ t = path.getD (iq + 1) 0 := fun e => h (by rw [← e]; simp)
    unfold QHsm_tran_search
    rw [pathGet_eq path (iq + 1) hiq]
    simp only [hne, if_false]
    exact ih (by omega) (fun hm => h (List.mem_append_left _ hm))

theorem search_found (path : List Nat) (t iq : Nat) (hiq : iq < path.length) (A : List Nat) :
    ∀ B : List Nat, path.take (iq + 1) = A ++ t :: B → t ∉ B →
      QHsm_tran_search path t iq = .ok (some ((A.length : Int) - 1)) := by
  induction iq with
  | zero =>
    intro B h hB
    rw [take_succ_getD path 0 hiq] at h
    simp only [List.take_zero, List.nil_append] at h
    cases A with
    | nil =>
      simp only [List.nil_append, List.cons.injEq] at h
      unfold QHsm_tran_search
      rw [pathGet_eq path 0 hiq]
      simp only [h.1, if_true, List.length_nil]
      rfl
    | cons a A =>
      simp only [List.cons_append, List.cons.injEq] at h
      exact absurd h.2 (by simp)
  | succ iq ih =>
    intro B h hB
    rw [take_succ_getD path (iq + 1) hiq] at h
    rcases List.eq_nil_or_concat B with hb | ⟨B1, b, hb⟩
    · subst hb
      have h2 := List.append_inj' h rfl
      have hl := congrArg List.length h2.1
      rw [List.length_take] at hl
      simp only [List.cons.injEq, and_true] at h2
      unfold QHsm_tran_search
      rw [pathGet_eq path (iq + 1) hiq]
      simp only [h2.2, if_true]
      have hA : A.length = iq + 1 := by omega
      rw [hA]
      simp
    · subst hb
      rw [List.concat_eq_append] at h hB
      have h1 : A ++ t :: (B1 ++ [b]) = (A ++ t :: B1) ++ [b] := by simp
      rw [h1] at h
      have h2 := List.append_inj' h rfl
      simp only [List.cons.injEq, and_true] at h2
      have hne : ¬ t = path.getD (iq + 1) 0 := by
        rw [h2.2]
        intro e
        exact hB (by rw [e]; simp)
      unfold QHsm_tran_search
      rw [pathGet_eq path (iq + 1) hiq]
      simp only [hne, if_false]
      exact ih (by omega) B1 h2.1 (fun hm => hB (List.mem_append_left _ hm))

theorem tran_g_spec {σ : Type} (H : Handlers σ) (sr : List Nat) (L n : Nat) (path : List Nat)
    (ip : Nat) (k : Int) (hfound : QHsm_tran_search path L ip = .ok (some k)) :
    ∀ (u : Nat) (c : Hsm σ), ExitChain H (u :: sr) L →
      (∀ v, v ∈ sr → QHsm_tran_search path v ip = .ok none) →
      ∃ (c1 : Hsm σ) (Lx : List (Nat × Nat)),
        QHsm_tran_g H (n + sr.length + 1) c path u ip = .ok (k, c1) ∧
        c1.calls = c.calls ++ Lx ∧ actions Lx = (u :: sr).map (fun t => (t, Q_EXIT_SIG)) := by
  have hact1 : ∀ t : Nat, actions [(t, Q_EXIT_SIG)] = [(t, Q_EXIT_SIG)] := by
    intro t
    simp [actions, Q_EXIT_SIG, Q_ENTRY_SIG]
  have hact2 : ∀ t : Nat, actions [(t, QEP_EMPTY_SIG_)] = [] := by
    intro t
    simp [actions, Q_EXIT_SIG, Q_ENTRY_SIG, QEP_EMPTY_SIG_]
  induction sr with
  | nil =>
    intro u c hx hnone
    obtain ⟨hu0, hut, -, hex, hsup, -⟩ := hx
    simp only [List.headD_nil] at hex hsup
    simp only [List.length_nil, Nat.add_zero]
    unfold QHsm_tran_g
    simp only [call_eq H u c Q_EXIT_SIG hu0 hut]
    by_cases hr : (H u c.me c.ext Q_EXIT_SIG).1 = Q_RET_HANDLED
    · simp only [hr, if_true, trig_super H u _ _ hu0 hut hsup, hfound]
      refine ⟨_, [(u, Q_EXIT_SIG)] ++ [(u, QEP_EMPTY_SIG_)], rfl, by simp, ?_⟩
      rw [actions_append, hact1, hact2]
      rfl
    · have htemp : (H u c.me c.ext Q_EXIT_SIG).2.1.temp = L := by
        rcases hex c.me c.ext with h1 | h1
        · exact absurd h1 hr
        · exact h1
      simp only [hr, if_false, htemp, hfound]
      exact ⟨_, [(u, Q_EXIT_SIG)], rfl, rfl, hact1 u⟩
  | cons v sr ih =>
    intro u c hx hnone
    obtain ⟨hu0, hut, -, hex, hsup, hrest⟩ := hx
    simp only [List.headD_cons] at hex hsup
    have hv := hnone v (List.mem_cons_self _ _)
    have hlen : n + (v :: sr).length + 1 = (n + sr.length + 1) + 1 := by
      simp only [List.length_cons]
      omega
    rw [hlen]
    unfold QHsm_tran_g
    simp only [call_eq H u c Q_EXIT_SIG hu0 hut]
    by_cases hr : (H u c.me c.ext Q_EXIT_SIG).1 = Q_RET_HANDLED
    · simp only [hr, if_true, trig_super H u _ _ hu0 hut hsup, hv]
      obtain ⟨c1, Lx, e1, e2, e3⟩ := ih v
        ⟨{ (H u c.me c.ext Q_EXIT_SIG).2.1 with temp := v },
          (H u c.me c.ext Q_EXIT_SIG).2.2,
          c.calls ++ [(u, Q_EXIT_SIG)] ++ [(u, QEP_EMPTY_SIG_)]⟩ hrest
        (fun w hw => hnone w (List.mem_cons_of_mem _ hw))
      refine ⟨c1, [(u, Q_EXIT_SIG)] ++ ([(u, QEP_EMPTY_SIG_)] ++ Lx), e1, by simp [e2], ?_⟩
      rw [actions_append, actions_append, hact1, hact2, e3]
      rfl
    · have htemp : (H u c.me c.ext Q_EXIT_SIG).2.1.temp = v := by
        rcases hex c.me c.ext with h1 | h1
        · exact absurd h1 hr
        · exact h1
      simp only [hr, if_false, htemp, hv]
      obtain ⟨c1, Lx, e1, e2, e3⟩ := ih v
        ⟨(H u c.me c.ext Q_EXIT_SIG).2.1, (H u c.me c.ext Q_EXIT_SIG).2.2,
          c.calls ++ [(u, Q_EXIT_SIG)]⟩ hrest
        (fun w hw => hnone w (List.mem_cons_of_mem _ hw))
      refine ⟨c1, [(u, Q_EXIT_SIG)] ++ Lx, ?_, by simp [e2], ?_⟩
      · rw [← e1]
      · rw [actions_append, hact1, e3]
        rfl

theorem trig_super_ex {σ : Type} (H : Handlers σ) (s p : Nat) (c : Hsm σ)
    (h0 : s ≠ 0) (ht : s ≠ QHsm_top) (hs : IsSuper H s p) :
    ∃ c1, QEP_trig H s c QEP_EMPTY_SIG_ = .ok c1 ∧ c1.me.temp = p ∧
      c1.calls = c.calls ++ [(s, QEP_EMPTY_SIG_)] :=
  ⟨_, trig_super H s p c h0 ht hs, rfl, rfl⟩

theorem trig_ex {σ : Type} (H : Handlers σ) (s e : Nat) (c : Hsm σ)
    (h0 : s ≠ 0) (ht : s ≠ QHsm_top) :
    ∃ c1, QEP_trig H s c e = .ok c1 ∧ c1.calls = c.calls ++ [(s, e)] :=
  ⟨_, trig_eq H s c e h0 ht, rfl⟩

theorem headD_ne (l : List Nat) (d x : Nat) (h : x ∉ l) (hd : x ≠ d) : x ≠ l.headD d := by
  cases l with
  | nil => exact hd
  | cons a l => exact fun e => h (e ▸ List.mem_cons_self _ _)

theorem getD_zero_of_take (path : List Nat) (k a : Nat) (rest : List Nat)
    (h : path.take (k + 1) = a :: rest) : pathGet path 0 = .ok a := by
  cases path with
  | nil => simp at h
  | cons b p =>
    simp only [List.take_succ_cons, List.cons.injEq] at h
    rw [h.1]
    unfold pathGet
    simp

theorem tran_climb_full {σ : Type} (H : Handlers σ) (g s s0 n : Nat) (ftail : List Nat)
    (c : Hsm σ) (ha : Ancestry H (g :: ftail) QHsm_top) (hs : s ∉ ftail) (hst : s ≠ QHsm_top)
    (hlen : ftail.length + 1 < 6) :
    ∃ (r : Nat) (c0 c1 : Hsm σ) (path1 : List Nat),
      QEP_call H (ftail.headD QHsm_top) c QEP_EMPTY_SIG_ = .ok (r, c0) ∧
      QHsm_tran_e H (n + ftail.length) r c0 [g, ftail.headD QHsm_top, s0, 0, 0, 0] 1 s =
        .ok (c1, path1, ftail.length + 1, 0) ∧
      path1.length = 6 ∧ path1.take (ftail.length + 2) = g :: ftail ++ [QHsm_top] ∧
      c1.calls = c.calls ++ (ftail ++ [QHsm_top]).map (fun u => (u, QEP_EMPTY_SIG_)) := by
  cases ftail with
  | nil =>
    have hne : ¬ Q_RET_IGNORED = Q_RET_SUPER := by decide
    refine ⟨Q_RET_IGNORED, { c with calls := c.calls ++ [(QHsm_top, QEP_EMPTY_SIG_)] },
      { c with calls := c.calls ++ [(QHsm_top, QEP_EMPTY_SIG_)] }, [g, QHsm_top, s0, 0, 0, 0],
      call_top H c _, ?_, rfl, rfl, rfl⟩
    cases n <;> simp only [QHsm_tran_e, hne, if_false, List.length_nil, Nat.add_zero,
      List.headD_nil]
  | cons y rest =>
    obtain ⟨-, -, -, -, hy0, hyt, -, hsup, hrest⟩ := ha
    simp only [List.length_cons] at hlen
    obtain ⟨path1, h1, h2, h3⟩ := tran_climb_none H rest s n
      ⟨{ c.me with temp := rest.headD QHsm_top }, c.ext, c.calls ++ [(y, QEP_EMPTY_SIG_)]⟩
      [g, y, s0, 0, 0, 0] 1 hrest (fun h => hs (List.mem_cons_of_mem _ h)) hst rfl rfl
      (by omega)
    refine ⟨Q_RET_SUPER, _, ⟨{ c.me with temp := QHsm_top }, c.ext,
      c.calls ++ [(y, QEP_EMPTY_SIG_)] ++
        (rest ++ [QHsm_top]).map (fun u => (u, QEP_EMPTY_SIG_))⟩, path1,
      call_super H y _ c hy0 hyt hsup, ?_, h2, ?_, ?_⟩
    · refine Eq.trans h1 ?_
      simp only [List.length_cons]
      congr 3
      congr 1
      omega
    · have e : (y :: rest).length + 2 = 1 + 1 + rest.length + 1 := by
        simp only [List.length_cons]; omega
      rw [e, h3]
      rfl
    · simp

theorem tran_far {σ : Type} (H : Handlers σ) (fuel g s t0 t2 : Nat) (ftail : List Nat)
    (c : Hsm σ) (hfuel : ftail.length ≤ fuel) (hs0 : s ≠ 0) (hst : s ≠ QHsm_top)
    (hsg : s ≠ g) (ha : Ancestry H (g :: ftail) QHsm_top) (hsf : s ∉ ftail)
    (hsup : IsSuper H s t2) (h21 : t2 ≠ ftail.headD QHsm_top) (h2g : t2 ≠ g)
    (hlen : ftail.length + 1 < 6) :
    ∃ (cx : Hsm σ) (path1 : List Nat) (Lc : List (Nat × Nat)),
      cx.calls = c.calls ++ Lc ∧ actions Lc = [(s, Q_EXIT_SIG)] ∧
      path1.length = 6 ∧ path1.take (ftail.length + 2) = g :: ftail ++ [QHsm_top] ∧
      (∀ k, QHsm_tran_search path1 t2 (ftail.length + 1) = .ok (some k) →
        QHsm_tran_ fuel H c [g, t0, s, 0, 0, 0] = .ok (k, path1, cx)) ∧
      (∀ k c1, QHsm_tran_search path1 t2 (ftail.length + 1) = .ok none →
        QHsm_tran_g H fuel cx path1 t2 (ftail.length + 1) = .ok (k, c1) →
        QHsm_tran_ fuel H c [g, t0, s, 0, 0, 0] = .ok (k, path1, c1)) := by
  obtain ⟨n, rfl⟩ : ∃ n, fuel = n + ftail.length := ⟨fuel - ftail.length, by omega⟩
  have hg0 := ha.1
  have hgt := ha.2.1
  have hsupg := ha.2.2.2.1
  obtain ⟨ca, a1, a2, a3⟩ := trig_super_ex H g _ c hg0 hgt hsupg
  obtain ⟨cb, b1, b2, b3⟩ := trig_super_ex H s t2 ca hs0 hst hsup
  obtain ⟨r, c0, c1, path1, d1, d2, d3, d4, d5⟩ :=
    tran_climb_full H g s s n ftail cb ha hsf hst hlen
  obtain ⟨cx, x1, x2⟩ := trig_ex H s Q_EXIT_SIG c1 hs0 hst
  have hs1 : ¬ s = ftail.headD QHsm_top := headD_ne ftail QHsm_top s hsf hst
  have hset : pathSet [g, t0, s, 0, 0, 0] 1 (ftail.headD QHsm_top) =
      .ok [g, ftail.headD QHsm_top, s, 0, 0, 0] := rfl
  have hdepth : ftail.length + 1 < QHSM_MAX_NEST_DEPTH_ := hlen
  have hp0 : pathGet [g, t0, s, 0, 0, 0] 0 = .ok g := rfl
  have hp2 : pathGet [g, t0, s, 0, 0, 0] 2 = .ok s := rfl
  refine ⟨cx, path1, [(g, QEP_EMPTY_SIG_), (s, QEP_EMPTY_SIG_)] ++
    (ftail ++ [QHsm_top]).map (fun u => (u, QEP_EMPTY_SIG_)) ++ [(s, Q_EXIT_SIG)],
    ?_, ?_, d3, d4, ?_, ?_⟩
  · rw [x2, d5, b3, a3]
    simp
  · have e : [(g, QEP_EMPTY_SIG_), (s, QEP_EMPTY_SIG_)] ++
        (ftail ++ [QHsm_top]).map (fun u => (u, QEP_EMPTY_SIG_)) =
        (g :: s :: (ftail ++ [QHsm_top])).map (fun u => (u, QEP_EMPTY_SIG_)) := rfl
    rw [e, actions_append, actions_map_empty]
    simp [actions, Q_EXIT_SIG, Q_ENTRY_SIG]
  · intro k hk
    simp only [QHsm_tran_, hp0, hp2, hsg, if_false, a1, a2, hs1, b1, b2, h21, h2g, hset, d1,
      d2, if_true, hdepth, not_true_eq_false, x1, hk]
  · intro k c2 hk hg2
    simp only [QHsm_tran_, hp0, hp2, hsg, if_false, a1, a2, hs1, b1, b2, h21, h2g, hset, d1,
      d2, if_true, hdepth, not_true_eq_false, x1, hk, hg2]

theorem com_split {σ : Type} (H : Handlers σ) (com : List Nat)
    (hcom : Ancestry H com QHsm_top) (hnd : com.Nodup) :
    ∃ B, com ++ [QHsm_top] = com.headD QHsm_top :: B ∧ com.headD QHsm_top ∉ B := by
  cases com with
  | nil => exact ⟨[], rfl, by simp⟩
  | cons l ct =>
    refine ⟨ct ++ [QHsm_top], rfl, ?_⟩
    simp only [List.headD_cons, List.mem_append, List.mem_singleton, not_or]
    exact ⟨(List.nodup_cons.mp hnd).1, hcom.2.1⟩

theorem search_lca {σ : Type} (H : Handlers σ) (g : Nat) (gx com ftail path1 : List Nat)
    (hcom : Ancestry H com QHsm_top) (hnd : com.Nodup) (hfull : gx ++ com = g :: ftail)
    (hlen : path1.length = 6) (hf : ftail.length + 1 < 6)
    (htake : path1.take (ftail.length + 2) = g :: ftail ++ [QHsm_top]) :
    QHsm_tran_search path1 (com.headD QHsm_top) (ftail.length + 1) =
      .ok (some ((gx.length : Int) - 1)) := by
  obtain ⟨B, hB1, hB2⟩ := com_split H com hcom hnd
  refine search_found path1 _ _ (by omega) gx B ?_ hB2
  rw [htake, ← hfull, List.append_assoc, hB1]

theorem search_outside (g v : Nat) (ftail path1 : List Nat) (hlen : path1.length = 6)
    (hf : ftail.length + 1 < 6)
    (htake : path1.take (ftail.length + 2) = g :: ftail ++ [QHsm_top])
    (hv : v ∉ g :: ftail) (hvt : v ≠ QHsm_top) :
    QHsm_tran_search path1 v (ftail.length + 1) = .ok none := by
  refine search_none path1 v _ (by omega) ?_
  rw [htake]
  intro hm
  rcases List.mem_append.mp hm with h | h
  · exact hv h
  · exact hvt (List.mem_singleton.mp h)

theorem tran_spec {σ : Type} (H : Handlers σ) (fuel s g L t0 : Nat) (sx gx com : List Nat)
    (c : Hsm σ) (hfuel : sx.length + 6 ≤ fuel)
    (hs0 : s ≠ 0) (hst : s ≠ QHsm_top) (hg0 : g ≠ 0) (hgt : g ≠ QHsm_top) (hsg : s ≠ g)
    (hxs : ExitChain H sx L) (hs : s = sx.headD L)
    (hag : Ancestry H gx L) (hg : g = gx.headD L)
    (hcom : Ancestry H com QHsm_top) (hL : L = com.headD QHsm_top)
    (hdisj : ∀ u, u ∈ sx → u ∉ gx)
    (hdepth : gx.length + com.length < QHSM_MAX_NEST_DEPTH_) :
    ∃ (c1 : Hsm σ) (path1 : List Nat) (Lt : List (Nat × Nat)),
      QHsm_tran_ fuel H c [g, t0, s, 0, 0, 0] = .ok ((gx.length : Int) - 1, path1, c1) ∧
      path1.length = 6 ∧ path1.take gx.length = gx ∧ pathGet path1 0 = .ok g ∧
      c1.calls = c.calls ++ Lt ∧ actions Lt = sx.map (fun t => (t, Q_EXIT_SIG)) := by
  have hasx := exitChain_ancestry H sx L hxs
  have hfs : Ancestry H (sx ++ com) QHsm_top :=
    ancestry_append H sx com L QHsm_top hasx hcom hL
      (fun u hu => (ancestry_ne H sx L hasx u hu).2)
  have hfg : Ancestry H (gx ++ com) QHsm_top :=
    ancestry_append H gx com L QHsm_top hag hcom hL
      (fun u hu => (ancestry_ne H gx L hag u hu).2)
  have hns := ancestry_nodup H c.me c.ext QHsm_top _ hfs
  have hng := ancestry_nodup H c.me c.ext QHsm_top _ hfg
  have hncom : com.Nodup := hng.of_append_right
  have hp0 : pathGet [g, t0, s, 0, 0, 0] 0 = .ok g := rfl
  have hp2 : pathGet [g, t0, s, 0, 0, 0] 2 = .ok s := rfl
  have hact1 : ∀ t : Nat, actions [(t, Q_EXIT_SIG)] = [(t, Q_EXIT_SIG)] := by
    intro t
    simp [actions, Q_EXIT_SIG, Q_ENTRY_SIG]
  have hact2 : ∀ t : Nat, actions [(t, QEP_EMPTY_SIG_)] = [] := by
    intro t
    simp [actions, Q_EXIT_SIG, Q_ENTRY_SIG, QEP_EMPTY_SIG_]
  obtain ⟨ftail, hfull⟩ : ∃ ftail, gx ++ com = g :: ftail := by
    cases gx with
    | nil =>
      cases com with
      | nil => exact absurd (hg.trans hL) hgt
      | cons l ct =>
        refine ⟨ct, ?_⟩
        simp only [List.headD_nil] at hg
        simp only [List.headD_cons] at hL
        rw [hg, hL]
        rfl
    | cons g1 gr =>
      simp only [List.headD_cons] at hg
      exact ⟨gr ++ com, by rw [hg]; rfl⟩
  have hfa : Ancestry H (g :: ftail) QHsm_top := hfull ▸ hfg
  have hfl : ftail.length + 1 < 6 := by
    have e := congrArg List.length hfull
    simp only [List.length_append, List.length_cons] at e
    unfold QHSM_MAX_NEST_DEPTH_ at hdepth
    omega
  have hfn : (g :: ftail).Nodup := hfull ▸ hng
  have hout : ∀ u, u ∈ sx → u ∉ g :: ftail ∧ u ≠ QHsm_top := by
    intro u hu
    refine ⟨?_, (ancestry_ne H sx L hasx u hu).2⟩
    rw [← hfull]
    intro hm
    rcases List.mem_append.mp hm with h | h
    · exact hdisj u hu h
    · exact (List.nodup_append.mp hns).2.2 hu h
  cases sx with
  | nil =>
    simp only [List.headD_nil] at hs
    subst hs
    cases com with
    | nil => exact absurd hL hst
    | cons l ct =>
      simp only [List.headD_cons] at hL
      subst hL
      cases gx with
      | nil => exact absurd hg.symm hsg
      | cons g1 gr =>
        simp only [List.headD_cons] at hg
        subst hg
        obtain ⟨ca, a1, a2, a3⟩ := trig_super_ex H g _ c hg0 hgt hag.2.2.2.1
        cases gr with
        | nil =>
          simp only [List.headD_nil] at a1 a2
          refine ⟨ca, [g, t0, s, 0, 0, 0], [(g, QEP_EMPTY_SIG_)], ?_, rfl, rfl, rfl, a3,
            hact2 g⟩
          simp only [QHsm_tran_, hp0, hp2, hsg, if_false, a1, a2, if_true]
          rfl
        | cons g2 gr2 =>
          simp only [List.headD_cons] at a1 a2
          obtain ⟨-, -, -, -, h20, h2t, h2s, hsup2, hrest2⟩ := hag
          obtain ⟨cb, b1, b2, b3⟩ := trig_super_ex H s _ ca hs0 hst hcom.2.2.2.1
          have hs1 : ¬ s = g2 := Ne.symm h2s
          have hg2f : g2 ∉ ct ∧ g ∉ ct := by
            have h1 := (List.nodup_append.mp hng).2.2
            constructor
            · intro hm
              exact h1 (List.mem_cons_of_mem _ (List.mem_cons_self _ _))
                (List.mem_cons_of_mem _ hm)
            · intro hm
              exact h1 (List.mem_cons_self _ _) (List.mem_cons_of_mem _ hm)
          have hp1 : ¬ ct.headD QHsm_top = g2 :=
            Ne.symm (headD_ne ct QHsm_top g2 hg2f.1 h2t)
          have hpg : ¬ ct.headD QHsm_top = g :=
            Ne.symm (headD_ne ct QHsm_top g hg2f.2 hgt)
          have hset : pathSet [g, t0, s, 0, 0, 0] 1 g2 = .ok [g, g2, s, 0, 0, 0] := rfl
          simp only [List.length_cons, QHSM_MAX_NEST_DEPTH_] at hdepth
          obtain ⟨n, rfl⟩ : ∃ n, fuel = n + gr2.length + 1 :=
            ⟨fuel - gr2.length - 1, by omega⟩
          obtain ⟨path1, h1, h2, h3⟩ := tran_climb_found H gr2 s n
            ⟨{ cb.me with temp := gr2.headD s }, cb.ext, cb.calls ++ [(g2, QEP_EMPTY_SIG_)]⟩
            [g, g2, s, 0, 0, 0] 1 hrest2 rfl rfl (by omega)
          have h10 : ¬ (1 : Nat) = 0 := by decide
          have hk : (((1 + gr2.length : Nat)) : Int) = ((g :: g2 :: gr2).length : Int) - 1 := by
            simp only [List.length_cons]
            push_cast
            ring
          have h3b : path1.take (g :: g2 :: gr2).length = g :: g2 :: gr2 := by
            have e : (g :: g2 :: gr2).length = 1 + 1 + gr2.length := by
              simp only [List.length_cons]; omega
            rw [e, h3]
            rfl
          refine ⟨⟨{ cb.me with temp := s }, cb.ext,
              cb.calls ++ [(g2, QEP_EMPTY_SIG_)] ++ gr2.map (fun u => (u, QEP_EMPTY_SIG_))⟩,
            path1, [(g, QEP_EMPTY_SIG_)] ++ [(s, QEP_EMPTY_SIG_)] ++
            [(g2, QEP_EMPTY_SIG_)] ++ gr2.map (fun u => (u, QEP_EMPTY_SIG_)), ?_, h2, h3b,
            getD_zero_of_take path1 _ g _ h3b, ?_, ?_⟩
          · rw [← hk]
            simp only [QHsm_tran_, hp0, hp2, hsg, if_false, a1, a2, hs1, b1, b2, hp1, hpg,
              hset, call_super H g2 _ cb h20 h2t hsup2, h1, h10]
          · show cb.calls ++ _ ++ _ = _
            rw [b3, a3]
            simp
          · rw [actions_append, actions_append, actions_append, hact2, hact2, hact2,
              actions_map_empty]
            rfl
  | cons s1 sr =>
    simp only [List.headD_cons] at hs
    subst hs
    obtain ⟨-, -, hsL, hex, hsup, hrest⟩ := hxs
    have hos := hout s (List.mem_cons_self _ _)
    have hsf : s ∉ ftail := fun hm => hos.1 (List.mem_cons_of_mem _ hm)
    obtain ⟨n, hn⟩ : ∃ n, fuel = n + sr.length + 1 := ⟨fuel - sr.length - 1, by
      simp only [List.length_cons] at hfuel
      omega⟩
    have hfound := fun path1 h6 htk =>
      search_lca H g gx com ftail path1 hcom hncom hfull h6 hfl htk
    rw [← hL] at hfound
    have hfar : sr.headD L ≠ ftail.headD QHsm_top → sr.headD L ≠ g →
        ∃ (c1 : Hsm σ) (path1 : List Nat) (Lt : List (Nat × Nat)),
          QHsm_tran_ fuel H c [g, t0, s, 0, 0, 0] = .ok ((gx.length : Int) - 1, path1, c1) ∧
          path1.length = 6 ∧ path1.take gx.length = gx ∧ pathGet path1 0 = .ok g ∧
          c1.calls = c.calls ++ Lt ∧
          actions Lt = (s :: sr).map (fun t => (t, Q_EXIT_SIG)) := by
      intro h21 h2g
      obtain ⟨cx, path1, Lc, f1, f2, f3, f4, f5, f6⟩ := tran_far H fuel g s t0 (sr.headD L)
        ftail c (by simp only [List.length_cons] at hfuel; omega) hs0 hst hsg hfa hsf hsup
        h21 h2g hfl
      have hL1 := hfound path1 f3 f4
      have htk : path1.take gx.length = gx := by
        have e2 := congrArg List.length hfull
        simp only [List.length_append, List.length_cons] at e2
        have hle : gx.length ≤ ftail.length + 2 := by omega
        have e : (path1.take (ftail.length + 2)).take gx.length = gx := by
          rw [f4, ← hfull, List.append_assoc]
          simp
        rw [List.take_take, Nat.min_eq_left hle] at e
        exact e
      have hpg : pathGet path1 0 = .ok g :=
        getD_zero_of_take path1 (ftail.length + 1) g (ftail ++ [QHsm_top]) f4
      cases sr with
      | nil =>
        simp only [List.headD_nil] at hL1 f5
        exact ⟨cx, path1, Lc, f5 _ hL1, f3, htk, hpg, f1, f2⟩
      | cons s2 sr2 =>
        simp only [List.headD_cons] at f5 f6 hsup
        have ho2 := hout s2 (List.mem_cons_of_mem _ (List.mem_cons_self _ _))
        have hnone := search_outside g s2 ftail path1 f3 hfl f4 ho2.1 ho2.2
        simp only [List.length_cons] at hn
        obtain ⟨c1, Lx, e1, e2, e3⟩ := tran_g_spec H sr2 L (n + 1) path1 (ftail.length + 1) _
          hL1 s2 cx hrest (fun v hv => by
            have hov := hout v (List.mem_cons_of_mem _ (List.mem_cons_of_mem _ hv))
            exact search_outside g v ftail path1 f3 hfl f4 hov.1 hov.2)
        have hfu : n + 1 + sr2.length + 1 = fuel := by omega
        rw [hfu] at e1
        refine ⟨c1, path1, Lc ++ Lx, f6 _ c1 hnone e1, f3, htk, hpg, ?_, ?_⟩
        · rw [e2, f1, List.append_assoc]
        · rw [actions_append, f2, e3]
          rfl
    cases sr with
    | nil =>
      simp only [List.headD_nil] at hsup hfar
      cases gx with
      | nil =>
        simp only [List.headD_nil] at hg
        subst hg
        obtain ⟨ca, a1, a2, a3⟩ := trig_super_ex H g _ c hg0 hgt hfa.2.2.2.1
        obtain ⟨cb, b1, b2, b3⟩ := trig_super_ex H s g ca hs0 hst hsup
        obtain ⟨cx, x1, x2⟩ := trig_ex H s Q_EXIT_SIG cb hs0 hst
        have hs1 : ¬ s = ftail.headD QHsm_top := headD_ne ftail QHsm_top s hsf hst
        have hg1 : ¬ g = ftail.headD QHsm_top :=
          headD_ne ftail QHsm_top g (List.nodup_cons.mp hfn).1 hgt
        refine ⟨cx, [g, t0, s, 0, 0, 0], [(g, QEP_EMPTY_SIG_)] ++ [(s, QEP_EMPTY_SIG_)] ++
          [(s, Q_EXIT_SIG)], ?_, rfl, rfl, rfl, ?_, ?_⟩
        · simp only [QHsm_tran_, hp0, hp2, hsg, if_false, a1, a2, hs1, b1, b2, hg1, if_true,
            x1]
          rfl
        · rw [x2, b3, a3]
          simp only [List.append_assoc]
        · rw [actions_append, actions_append, hact2, hact2, hact1]
          rfl
      | cons g1 gr =>
        simp only [List.headD_cons] at hg
        subst hg
        cases gr with
        | nil =>
          obtain ⟨ca, a1, a2, a3⟩ := trig_super_ex H g L c hg0 hgt hag.2.2.2.1
          obtain ⟨cb, b1, b2, b3⟩ := trig_super_ex H s L ca hs0 hst hsup
          obtain ⟨cx, x1, x2⟩ := trig_ex H s Q_EXIT_SIG cb hs0 hst
          refine ⟨cx, [g, t0, s, 0, 0, 0], [(g, QEP_EMPTY_SIG_)] ++ [(s, QEP_EMPTY_SIG_)] ++
            [(s, Q_EXIT_SIG)], ?_, rfl, rfl, rfl, ?_, ?_⟩
          · simp only [QHsm_tran_, hp0, hp2, hsg, if_false, a1, a2, hsL, b1, b2, if_true, x1]
            rfl
          · rw [x2, b3, a3]
            simp only [List.append_assoc]
          simp only [List.append_assoc]
          · rw [actions_append, actions_append, hact2, hact2, hact1]
            rfl
        | cons g2 gr2 =>
          have hft : ftail.headD QHsm_top = g2 := by
            simp only [List.cons_append, List.cons.injEq, true_and] at hfull
            rw [← hfull]
            rfl
          rw [hft] at hfar
          exact hfar (Ne.symm hag.2.2.2.2.2.2.1) (Ne.symm hag.2.2.1)
    | cons s2 sr2 =>
      simp only [List.headD_cons] at hfar
      have ho2 := hout s2 (List.mem_cons_of_mem _ (List.mem_cons_self _ _))
      refine hfar (headD_ne ftail QHsm_top s2 (fun hm => ho2.1 (List.mem_cons_of_mem _ hm))
        ho2.2) (fun e => ho2.1 (e ▸ List.mem_cons_self _ _))

theorem enter_spec {σ : Type} (H : Handlers σ) (gx path1 : List Nat) (L : Nat) (c : Hsm σ)
    (hag : Ancestry H gx L) (hlen : path1.length = 6) (hgl : gx.length < 6)
    (htk : path1.take gx.length = gx) :
    ∃ c1, QHsm_dispatch_enter H path1 ((gx.length : Int) - 1) c = .ok c1 ∧
      c1.calls = c.calls ++ gx.reverse.map (fun u => (u, Q_ENTRY_SIG)) := by
  cases gx with
  | nil =>
    refine ⟨c, ?_, by simp⟩
    unfold QHsm_dispatch_enter
    simp
  | cons a r =>
    simp only [List.length_cons] at hgl htk
    have hk : (((a :: r).length : Nat) : Int) - 1 = ((r.length : Nat) : Int) := by
      simp only [List.length_cons]
      push_cast
      ring
    obtain ⟨c1, e1, e2⟩ := enterPath_spec H path1 r.length c (by omega)
      (by rw [htk]; exact ancestry_ne H (a :: r) L hag)
    rw [htk] at e2
    refine ⟨c1, ?_, e2⟩
    rw [hk]
    unfold QHsm_dispatch_enter
    rw [if_neg (by omega), Int.toNat_ofNat]
    exact e1

theorem initSegs_below {σ : Type} (H : Handlers σ) (me : QHsm) (x : σ)
    (more : List (List Nat)) : ∀ (up : List Nat) (src : Nat) (base : List Nat),
      InitSegs H up more src → Ancestry H (src :: base) QHsm_top →
      ∀ u, u ∈ (up :: more).flatten → u ∉ src :: base ∧ u ≠ QHsm_top := by
  induction more with
  | nil =>
    intro up src base hs hbase u hu
    obtain ⟨-, -, ha, -⟩ := hs
    simp only [List.flatten_cons, List.flatten_nil, List.append_nil] at hu
    have hfull := ancestry_append H up (src :: base) src QHsm_top ha hbase rfl
      (fun v hv => (ancestry_ne H up src ha v hv).2)
    have hnd := ancestry_nodup H me x QHsm_top _ hfull
    exact ⟨fun hm => (List.nodup_append.mp hnd).2.2 hu hm, (ancestry_ne H up src ha u hu).2⟩
  | cons up1 more ih =>
    intro up src base hs hbase u hu
    obtain ⟨hne, -, ha, -, hrest⟩ := hs
    have hfull := ancestry_append H up (src :: base) src QHsm_top ha hbase rfl
      (fun v hv => (ancestry_ne H up src ha v hv).2)
    have hnd := ancestry_nodup H me x QHsm_top _ hfull
    rw [List.flatten_cons] at hu
    rcases List.mem_append.mp hu with hu1 | hu2
    · exact ⟨fun hm => (List.nodup_append.mp hnd).2.2 hu1 hm,
        (ancestry_ne H up src ha u hu1).2⟩
    · cases up with
      | nil => exact absurd rfl hne
      | cons a r =>
        simp only [List.headD_cons] at hrest
        have h := ih up1 a (r ++ src :: base) hrest hfull u hu2
        exact ⟨fun hm => h.1 (List.mem_cons_of_mem _ (List.mem_append_right _ hm)), h.2⟩

theorem drillSegs_below {σ : Type} (H : Handlers σ) (me : QHsm) (x : σ)
    (more : List (List Nat)) (g : Nat) (base : List Nat) (hd : DrillSegs H g more)
    (hbase : Ancestry H (g :: base) QHsm_top) :
    ∀ u, u ∈ more.flatten → u ∉ g :: base ∧ u ≠ QHsm_top := by
  cases more with
  | nil =>
    intro u hu
    simp at hu
  | cons up1 more => exact initSegs_below H me x more up1 g base hd.2 hbase

theorem mem_entriesOf (more : List (List Nat)) (u sig : Nat)
    (h : (u, sig) ∈ entriesOf more) : u ∈ more.flatten := by
  unfold entriesOf at h
  obtain ⟨v, hv, e⟩ := List.mem_map.mp h
  simp only [Prod.mk.injEq] at e
  rw [← e.1]
  obtain ⟨l, hl, hvl⟩ := List.mem_flatten.mp hv
  obtain ⟨seg, hseg, rfl⟩ := List.mem_map.mp hl
  exact List.mem_flatten.mpr ⟨seg, hseg, List.mem_reverse.mp hvl⟩

theorem lca_outside {σ : Type} (H : Handlers σ) (me : QHsm) (x : σ) (s g L : Nat)
    (pre sx gx com : List Nat) (more : List (List Nat))
    (hxp : ExitChain H pre s) (hgt : g ≠ QHsm_top)
    (hxs : ExitChain H sx L) (hs : s = sx.headD L)
    (hag : Ancestry H gx L) (hg : g = gx.headD L)
    (hcom : Ancestry H com QHsm_top) (hL : L = com.headD QHsm_top)
    (hd : DrillSegs H g more) :
    L ∉ pre ++ sx ∧ L ∉ gx ∧ L ∉ more.flatten := by
  have hasx := exitChain_ancestry H sx L hxs
  have hapre := exitChain_ancestry H pre s hxp
  have hfs : Ancestry H (sx ++ com) QHsm_top :=
    ancestry_append H sx com L QHsm_top hasx hcom hL
      (fun u hu => (ancestry_ne H sx L hasx u hu).2)
  have hfg : Ancestry H (gx ++ com) QHsm_top :=
    ancestry_append H gx com L QHsm_top hag hcom hL
      (fun u hu => (ancestry_ne H gx L hag u hu).2)
  have hs1 : s = (sx ++ com).headD QHsm_top := by
    cases sx with
    | nil => exact hs.trans hL
    | cons a r => exact hs
  have hft : Ancestry H (pre ++ (sx ++ com)) QHsm_top :=
    ancestry_append H pre (sx ++ com) s QHsm_top hapre hfs hs1
      (fun u hu => (ancestry_ne H pre s hapre u hu).2)
  have hnt := ancestry_nodup H me x QHsm_top _ hft
  have hLx : ∀ l : List Nat, Ancestry H l L → L ∉ l := by
    intro l hl
    induction l with
    | nil => simp
    | cons a r ih =>
      intro hm
      rcases List.mem_cons.mp hm with h | h
      · exact hl.2.2.1 h.symm
      · exact ih hl.2.2.2.2 h
  have hLcom : com = [] ∧ L = QHsm_top ∨ L ∈ com := by
    cases com with
    | nil => exact Or.inl ⟨rfl, hL⟩
    | cons a r => exact Or.inr (hL ▸ List.mem_cons_self _ _)
  refine ⟨?_, hLx gx hag, ?_⟩
  · intro hm
    rcases List.mem_append.mp hm with h | h
    · rcases hLcom with ⟨-, h1⟩ | h1
      · exact (ancestry_ne H pre s hapre L h).2 h1
      · exact (List.nodup_append.mp hnt).2.2 h (List.mem_append_right _ h1)
    · exact hLx sx hasx h
  · intro hm
    obtain ⟨ftail, hfull⟩ : ∃ ftail, gx ++ com = g :: ftail := by
      cases gx with
      | nil =>
        cases com with
        | nil => exact absurd (hg.trans hL) hgt
        | cons l ct =>
          refine ⟨ct, ?_⟩
          simp only [List.headD_nil] at hg
          simp only [List.headD_cons] at hL
          rw [hg, hL]
          rfl
      | cons g1 gr =>
        simp only [List.headD_cons] at hg
        exact ⟨gr ++ com, by rw [hg]; rfl⟩
    have h := drillSegs_below H me x more g ftail hd (hfull ▸ hfg) L hm
    rcases hLcom with ⟨-, h1⟩ | h1
    · exact h.2 h1
    · exact h.1 (hfull ▸ List.mem_append_right _ h1)

/-- C30: the general transition. The state tree is described by four lists
of states, each innermost first: `pre` holds the active state and its
superstates below the source `s` (empty when `s` is active), which leave the
event to their superstate; `sx` holds `s` and its superstates below `L`
(empty when `s = L`); `gx` holds the target `g` and its superstates below
`L` (empty when `g = L`); `com` holds `L` and its superstates below the top
state (empty when `L` is the top state). No state of `sx` occurs in `gx`, so
`L` is the innermost state that is `s` or above it and also `g` or above it;
`g` lies at most `QHSM_MAX_NEST_DEPTH_ - 1` levels below the top state. The
handler of `s` answers the (user) event with a transition to `g`, `g ≠ s`, and
`more` lists the initial transitions taken from `g`. Then `QHsm_dispatch_`
returns, and the entry and exit actions it runs are exactly: the exit actions
of the states of `pre` and `sx` in this order, then the entry actions of the
states of `gx` in reverse order, then the entry actions of the initial
transitions; no action of `L` is among them, and `state.fun` and `temp.fun`
are the last state entered by the initial transitions (`g` itself when it
has none). -/
theorem C30_lca_transition {σ : Type} (H : Handlers σ) (c : Hsm σ) (fuel e s g L : Nat)
    (pre sx gx com : List Nat) (more : List (List Nat))
    (hfuel : pre.length + sx.length + more.length + 6 ≤ fuel) (he : Q_USER_SIG ≤ e)
    (hb : Bubbles H e pre s) (hxp : ExitChain H pre s)
    (hs0 : s ≠ 0) (hst : s ≠ QHsm_top) (hg0 : g ≠ 0) (hgt : g ≠ QHsm_top) (hsg : s ≠ g)
    (htran : ∀ me x, (H s me x e).1 = Q_RET_TRAN ∧ (H s me x e).2.1.temp = g)
    (hxs : ExitChain H sx L) (hs : s = sx.headD L)
    (hag : Ancestry H gx L) (hg : g = gx.headD L)
    (hcom : Ancestry H com QHsm_top) (hL : L = com.headD QHsm_top)
    (hdisj : ∀ u, u ∈ sx → u ∉ gx)
    (hdepth : gx.length + com.length < QHSM_MAX_NEST_DEPTH_)
    (hd : DrillSegs H g more)
    (hstate : c.me.state = pre.headD s) (htemp : c.me.temp = pre.headD s) :
    ∃ (c1 : Hsm σ) (Lc : List (Nat × Nat)),
      QHsm_dispatch_ fuel H c e = .ok c1 ∧
      c1.me.state = lastTarget [g] more ∧ c1.me.temp = lastTarget [g] more ∧
      c1.calls = c.calls ++ Lc ∧
      actions Lc = (pre ++ sx).map (fun t => (t, Q_EXIT_SIG)) ++
        gx.reverse.map (fun t => (t, Q_ENTRY_SIG)) ++ entriesOf more ∧
      ∀ sig, (L, sig) ∉ actions Lc := by
  obtain ⟨n, hn⟩ : ∃ n, fuel = (n + 1) + pre.length :=
    ⟨fuel - pre.length - 1, by omega⟩
  obtain ⟨c', L1, e1, e2, e3, e4⟩ := bubble_chain H e pre s (n + 1) c hb htemp
  have hh0 : pre.headD s ≠ 0 := by
    cases pre with
    | nil => exact hs0
    | cons t rest => exact hb.1
  have hne1 : ¬ Q_RET_TRAN = Q_RET_UNHANDLED := by decide
  have hne2 : ¬ Q_RET_TRAN = Q_RET_SUPER := by decide
  have hge : Q_RET_TRAN ≥ Q_RET_TRAN := le_refl _
  have hbub : QHsm_dispatch_bubble H (n + 1) c' e = .ok (s, Q_RET_TRAN,
      ⟨(H s c'.me c'.ext e).2.1, (H s c'.me c'.ext e).2.2, c'.calls ++ [(s, e)]⟩) := by
    simp only [QHsm_dispatch_bubble, e2, call_eq H s c' e hs0 hst, (htran c'.me c'.ext).1,
      hne1, hne2, if_false]
  obtain ⟨cb, hb1, hb2, hb3⟩ : ∃ cb, QHsm_dispatch_bubble H fuel c e =
      .ok (s, Q_RET_TRAN, cb) ∧ cb.me.temp = g ∧ cb.calls = c.calls ++ (L1 ++ [(s, e)]) :=
    ⟨_, by rw [hn, e1, hbub], (htran c'.me c'.ext).2, by simp [e3]⟩
  obtain ⟨c2, L2, x1, x2, x3⟩ := exit_chain H pre s (n + 1) cb hxp
  rw [← hn] at x1
  obtain ⟨c3, path1, L3, t1, t2, t3, t4, t5, t6⟩ := tran_spec H fuel s g L (pre.headD s)
    sx gx com c2 (by omega) hs0 hst hg0 hgt hsg hxs hs hag hg hcom hL hdisj hdepth
  obtain ⟨c4, n1, n2⟩ := enter_spec H gx path1 L c3 hag t2
    (by unfold QHSM_MAX_NEST_DEPTH_ at hdepth; omega) t3
  obtain ⟨c5, L5, d1, d2, d3⟩ := drill_spec H more g (fuel - more.length - 6)
    { c4 with me := { c4.me with temp := g } } path1 t2 hg0 hgt hd
  have hf3 : fuel - more.length - 6 + more.length + 6 = fuel := by omega
  rw [hf3] at d1
  have hL1 : actions (L1 ++ [(s, e)]) = [] := by
    apply actions_nil_of _ e he
    intro p hp
    rcases List.mem_append.mp hp with hp | hp
    · exact (e4 p hp).1
    · rw [List.mem_singleton] at hp
      subst hp
      exact Or.inl rfl
  have hA : actions ((L1 ++ [(s, e)]) ++ L2 ++ L3 ++
      gx.reverse.map (fun u => (u, Q_ENTRY_SIG)) ++ L5) =
      (pre ++ sx).map (fun t => (t, Q_EXIT_SIG)) ++
        gx.reverse.map (fun t => (t, Q_ENTRY_SIG)) ++ entriesOf more := by
    rw [actions_append, actions_append, actions_append, actions_append, hL1, x3, t6,
      actions_map_entry, d3]
    simp
  have hout := lca_outside H c.me c.ext s g L pre sx gx com more hxp hgt hxs hs hag hg hcom
    hL hd
  refine ⟨⟨⟨c5.me.vptr, lastTarget [g] more, lastTarget [g] more⟩, c5.ext, c5.calls⟩,
    (L1 ++ [(s, e)]) ++ L2 ++ L3 ++ gx.reverse.map (fun u => (u, Q_ENTRY_SIG)) ++ L5,
    ?_, rfl, rfl, ?_, hA, ?_⟩
  · simp only [QHsm_dispatch_, hh0, ne_eq, not_false_eq_true, hstate, htemp, and_self,
      not_true_eq_false, if_false, hb1, hge, if_true, hb2, x1, t1, n1, t4, d1]
  · show c5.calls = _
    rw [d2]
    show c4.calls ++ L5 = _
    rw [n2, t5, x2, hb3]
    simp only [List.append_assoc]
  · intro sig hm
    rw [hA] at hm
    rcases List.mem_append.mp hm with h | h
    · rcases List.mem_append.mp h with h | h
      · obtain ⟨u, hu, e⟩ := List.mem_map.mp h
        simp only [Prod.mk.injEq] at e
        exact hout.1 (e.1 ▸ hu)
      · obtain ⟨u, hu, e⟩ := List.mem_map.mp h
        simp only [Prod.mk.injEq] at e
        exact hout.2.1 (List.mem_reverse.mp (e.1 ▸ hu))
    · exact hout.2.2 (mem_entriesOf more L sig h)

theorem example2_super_D : IsSuper exampleHandlers2 13 11 := by
  intro me x
  rfl

theorem example2_super_B : IsSuper exampleHandlers2 11 10 := by
  intro me x
  rfl

theorem example2_super_A : IsSuper exampleHandlers2 10 QHsm_top := by
  intro me x
  rfl

theorem example2_super_E : IsSuper exampleHandlers2 14 QHsm_top := by
  intro me x
  rfl

theorem example2_super_F : IsSuper exampleHandlers2 15 14 := by
  intro me x
  rfl

theorem example2_super_G : IsSuper exampleHandlers2 16 15 := by
  intro me x
  rfl

theorem example2_noInit_G : NoInit exampleHandlers2 16 := by
  intro me x
  show Q_RET_SUPER ≠ Q_RET_TRAN
  decide

theorem example2_bubbles : Bubbles exampleHandlers2 9 [13] 11 :=
  ⟨by decide, by decide, fun _ _ => Or.inl ⟨rfl, rfl⟩, example2_super_D, trivial⟩

theorem example2_exit_pre : ExitChain exampleHandlers2 [13] 11 :=
  ⟨by decide, by decide, by decide, fun _ _ => Or.inl rfl, example2_super_D, trivial⟩

theorem example2_exit_sx : ExitChain exampleHandlers2 [11, 10] QHsm_top :=
  ⟨by decide, by decide, by decide, fun _ _ => Or.inl rfl, example2_super_B,
    by decide, by decide, by decide, fun _ _ => Or.inr rfl, example2_super_A, trivial⟩

theorem example2_ancestry_gx : Ancestry exampleHandlers2 [15, 14] QHsm_top :=
  ⟨by decide, by decide, by decide, example2_super_F,
    by decide, by decide, by decide, example2_super_E, trivial⟩

theorem example2_drill : DrillSegs exampleHandlers2 15 [[16]] :=
  ⟨fun _ _ => ⟨rfl, rfl⟩, by decide, by decide,
    ⟨by decide, by decide, by decide, example2_super_G, trivial⟩, example2_noInit_G⟩

theorem C30_lca_transition_witness :
    [(13 : Nat)].length + [(11 : Nat), 10].length + [[(16 : Nat)]].length + 6 ≤ 10 ∧
      Q_USER_SIG ≤ 9 ∧ Bubbles exampleHandlers2 9 [13] 11 ∧
      ExitChain exampleHandlers2 [13] 11 ∧ (11 : Nat) ≠ 0 ∧ 11 ≠ QHsm_top ∧ (15 : Nat) ≠ 0 ∧
      15 ≠ QHsm_top ∧ (11 : Nat) ≠ 15 ∧
      (∀ me x, (exampleHandlers2 11 me x 9).1 = Q_RET_TRAN ∧
        (exampleHandlers2 11 me x 9).2.1.temp = 15) ∧
      ExitChain exampleHandlers2 [11, 10] QHsm_top ∧ 11 = [(11 : Nat), 10].headD QHsm_top ∧
      Ancestry exampleHandlers2 [15, 14] QHsm_top ∧ 15 = [(15 : Nat), 14].headD QHsm_top ∧
      Ancestry exampleHandlers2 [] QHsm_top ∧ QHsm_top = ([] : List Nat).headD QHsm_top ∧
      (∀ u, u ∈ [(11 : Nat), 10] → u ∉ [(15 : Nat), 14]) ∧
      [(15 : Nat), 14].length + ([] : List Nat).length < QHSM_MAX_NEST_DEPTH_ ∧
      DrillSegs exampleHandlers2 15 [[16]] ∧
      (Hsm.mk (QHsm.mk 1 13 13) () []).me.state = [(13 : Nat)].headD 11 ∧
      (Hsm.mk (QHsm.mk 1 13 13) () []).me.temp = [(13 : Nat)].headD 11 ∧
      ∃ (c1 : Hsm Unit) (Lc : List (Nat × Nat)),
        QHsm_dispatch_ 10 exampleHandlers2 (Hsm.mk (QHsm.mk 1 13 13) () []) 9 = .ok c1 ∧
        c1.me.state = lastTarget [15] [[16]] ∧ c1.me.temp = lastTarget [15] [[16]] ∧
        c1.calls = (Hsm.mk (QHsm.mk 1 13 13) () []).calls ++ Lc ∧
        actions Lc = ([(13 : Nat)] ++ [11, 10]).map (fun t => (t, Q_EXIT_SIG)) ++
          [(15 : Nat), 14].reverse.map (fun t => (t, Q_ENTRY_SIG)) ++ entriesOf [[16]] ∧
        ∀ sig, (QHsm_top, sig) ∉ actions Lc :=
  ⟨by decide, by decide, example2_bubbles, example2_exit_pre, by decide, by decide,
    by decide, by decide, by decide, fun _ _ => ⟨rfl, rfl⟩, example2_exit_sx, rfl,
    example2_ancestry_gx, rfl, trivial, rfl, by decide, by decide, example2_drill, rfl, rfl,
    C30_lca_transition exampleHandlers2 (Hsm.mk (QHsm.mk 1 13 13) () []) 10 9 11 15 QHsm_top
      [13] [11, 10] [15, 14] [] [[16]] (by decide) (by decide) example2_bubbles
      example2_exit_pre (by decide) (by decide) (by decide) (by decide) (by decide)
      (fun _ _ => ⟨rfl, rfl⟩) example2_exit_sx rfl example2_ancestry_gx rfl trivial rfl
      (by decide) (by decide) example2_drill rfl rfl⟩

/-! ### Termination of the loops of `QMPool_init` -/

/-- C40 (failing input): the requested block size 65533 with a buffer of
262144 bytes satisfies precondition 100 of `QMPool_init`, whose third
conjunct is meant to keep `blockSize` away from the top of the range but is
evaluated in the 32-bit `uint_fast16_t`. The rounding loop then does not
terminate: the 16-bit `me->blockSize` steps through the multiples of 4 up to
65532 and wraps to 0, so it never reaches 65533; the embedded loop runs out
of fuel for every amount of fuel, and so does `QMPool_init`. -/
theorem C40_counterexample :
    ((1000 : Nat) ≠ 0 ∧ 262144 ≥ sizeof_QFreeBlock ∧
      u32 (65533 + sizeof_QFreeBlock) > 65533) ∧
    (∀ fuel, QMPool_init_round fuel (u16 sizeof_QFreeBlock) 1 (u16 65533) =
      .error .timeout) ∧
    ∀ fuel, QMPool_init fuel ⟨0, 0, 0, 0, 0, 0, 0⟩ (fun _ => 0) 1000 262144 65533 =
      .error .timeout := by
  have hr : ∀ fuel, QMPool_init_round fuel (u16 sizeof_QFreeBlock) 1 (u16 65533) =
      .error .timeout :=
    fun fuel => round_diverge fuel _ 1 _ (by decide) (by decide) (by decide)
  refine ⟨by decide, hr, ?_⟩
  intro fuel
  unfold QMPool_init
  rw [if_neg (by decide)]
  simp only [hr fuel]

/-- The extent of the defect of the rounding loop: when precondition 100
holds and the requested block size, converted to `QMPoolSize`, is at most
65532, both loops of `QMPool_init` terminate: with fuel for 16382 iterations
of the rounding loop and `poolSize / 4` iterations of the linking loop the
call either returns or fails assertion 110 (the buffer is smaller than one
rounded block); it never runs out of fuel. Only the sizes 65533, 65534 and
65535 make the rounding loop run for ever. -/
theorem init_terminates_below (fuel : Nat) (me : QMPool) (mem : BlockMem)
    (poolSto poolSize blockSize : Nat)
    (hpre : poolSto ≠ 0 ∧ poolSize ≥ sizeof_QFreeBlock ∧
      u32 (blockSize + sizeof_QFreeBlock) > blockSize)
    (hbs : u16 blockSize ≤ 65532) (hfuel : 16382 ≤ fuel ∧ poolSize / 4 ≤ fuel) :
    (∃ r n, QMPool_init_round fuel (u16 sizeof_QFreeBlock) 1 (u16 blockSize) = .ok (r, n) ∧
      r = 4 * n ∧ u16 blockSize ≤ r) ∧
    ((∃ p m, QMPool_init fuel me mem poolSto poolSize blockSize = .ok (p, m)) ∨
      QMPool_init fuel me mem poolSto poolSize blockSize = .error (.assertion .qf_mem 110)) ∧
    QMPool_init fuel me mem poolSto poolSize blockSize ≠ .error .timeout := by
  obtain ⟨r, n, q1, q2, q3, q4, q5, q6⟩ := round_exact (u16 blockSize) hbs
    fuel (u16 sizeof_QFreeBlock) 1 (by decide) (by decide) (by decide)
    (by
      have : u16 sizeof_QFreeBlock = 4 := by decide
      rw [this]
      omega)
    (Or.inl (by decide))
  have hcases : (∃ p m, QMPool_init fuel me mem poolSto poolSize blockSize = .ok (p, m)) ∨
      QMPool_init fuel me mem poolSto poolSize blockSize =
        .error (.assertion .qf_mem 110) := by
    by_cases hge : poolSize ≥ r
    · have hpos : 0 < r := by omega
      have hdiv : (poolSize - r) / r ≤ fuel := by
        have h1 : (poolSize - r) / r ≤ poolSize / r := Nat.div_le_div_right (Nat.sub_le _ _)
        have h2 : poolSize / r ≤ poolSize / 4 := Nat.div_le_div_left q6 (by decide)
        omega
      obtain ⟨⟨fb, nTot, m1⟩, hl⟩ :=
        link_total fuel (poolSize - r) r n poolSto 1 mem hpos hdiv
      exact Or.inl ⟨_, _,
        init_ok_of fuel me mem poolSto poolSize blockSize r n fb nTot m1 hpre q1 hge hl⟩
    · right
      unfold QMPool_init
      rw [if_neg (not_not.mpr hpre), q1]
      dsimp only
      rw [if_pos hge]
  refine ⟨⟨r, n, q1, q2, q3⟩, hcases, ?_⟩
  rcases hcases with ⟨p, m, h⟩ | h
  · rw [h]
    intro hc
    cases hc
  · rw [h]
    intro hc
    cases hc

theorem init_terminates_below_example :
    ((1000 : Nat) ≠ 0 ∧ 20 ≥ sizeof_QFreeBlock ∧ u32 (5 + sizeof_QFreeBlock) > 5) ∧
      u16 5 ≤ 65532 ∧ (16382 ≤ 16382 ∧ 20 / 4 ≤ 16382) ∧
      (∃ r n, QMPool_init_round 16382 (u16 sizeof_QFreeBlock) 1 (u16 5) = .ok (r, n) ∧
        r = 4 * n ∧ u16 5 ≤ r) ∧
      ((∃ p m, QMPool_init 16382 ⟨0, 0, 0, 0, 0, 0, 0⟩ (fun _ => 0) 1000 20 5 = .ok (p, m)) ∨
        QMPool_init 16382 ⟨0, 0, 0, 0, 0, 0, 0⟩ (fun _ => 0) 1000 20 5 =
          .error (.assertion .qf_mem 110)) ∧
      QMPool_init 16382 ⟨0, 0, 0, 0, 0, 0, 0⟩ (fun _ => 0) 1000 20 5 ≠ .error .timeout :=
  ⟨by decide, by decide, by decide,
    init_terminates_below 16382 ⟨0, 0, 0, 0, 0, 0, 0⟩ (fun _ => 0) 1000 20 5 (by decide)
      (by decide) (by decide)⟩

/-! ### Releasing the block just acquired -/

theorem get_shape (me : QMPool) (mem : BlockMem) (margin b : Nat) (p1 : QMPool)
    (h : QMPool_get me mem margin = .ok (b, p1)) (hm : me.nFree > u16 margin) :
    b = me.free_head ∧ b ≠ 0 ∧ p1.free_head = mem me.free_head ∧ p1.start = me.start ∧
      p1.end_ = me.end_ ∧ p1.blockSize = me.blockSize ∧ p1.nTot = me.nTot ∧
      p1.nFree = dec16 me.nFree ∧ p1.nMin ≤ me.nMin := by
  unfold QMPool_get at h
  rw [if_pos hm] at h
  dsimp only at h
  by_cases h0 : me.free_head = 0
  · rw [if_pos h0] at h
    cases h
  · rw [if_neg h0] at h
    by_cases hz : dec16 me.nFree = 0
    · rw [if_pos hz] at h
      split at h
      · cases h
      · simp only [Except.ok.injEq, Prod.mk.injEq] at h
        obtain ⟨rfl, rfl⟩ := h
        exact ⟨rfl, h0, rfl, rfl, rfl, rfl, rfl, rfl, Nat.zero_le _⟩
    · rw [if_neg hz] at h
      split at h
      · cases h
      · simp only [Except.ok.injEq, Prod.mk.injEq] at h
        obtain ⟨rfl, rfl⟩ := h
        refine ⟨rfl, h0, rfl, ?_, ?_, ?_, ?_, ?_, ?_⟩
        · split <;> rfl
        · split <;> rfl
        · split <;> rfl
        · split <;> rfl
        · split <;> rfl
        · by_cases hmin : me.nMin > dec16 me.nFree
          · simp only [hmin, if_true]
            exact Nat.le_of_lt hmin
          · simp only [hmin, if_false]
            exact Nat.le_refl _

/-- C39: in a consistent pool with at least one free block, `QMPool_get` with
margin 0 returns the head `b` of the free list; whatever the user stores in
the block, `QMPool_put(b)` afterwards restores the pool object except for
`nMin`, which can only have decreased, and restores the link memory, so that
`free_head`, the free list in its order and `nFree` are as before the get;
the next `QMPool_get` with margin 0 returns `b` again. -/
theorem C39_get_put (s : PoolState) (v : Nat) (h : PoolInv s) (hfree : 1 ≤ s.pool.nFree) :
    ∃ b p1 p2 p3, QMPool_get s.pool s.mem 0 = .ok (b, p1) ∧ b ≠ 0 ∧
      b = s.pool.free_head ∧
      QMPool_put p1 (s.mem.write b v) b = .ok (p2, s.mem) ∧
      p2 = { s.pool with nMin := p1.nMin } ∧ p1.nMin ≤ s.pool.nMin ∧
      p2.free_head = s.pool.free_head ∧ p2.nFree = s.pool.nFree ∧
      freeChain s.mem p2.free_head p2.nFree = freeChain s.mem s.pool.free_head s.pool.nFree ∧
      QMPool_get p2 s.mem 0 = .ok (b, p3) := by
  have hm : s.pool.nFree > u16 0 := by
    have : u16 0 = 0 := by decide
    rw [this]
    omega
  have hn : s.pool.nFree < 65536 := by
    have := h.counts
    have := h.2.2.2.1
    omega
  obtain ⟨s1, hs1, hinv1, -⟩ := get_inv s 0 h
  cases hg : QMPool_get s.pool s.mem 0 with
  | error f =>
    simp only [poolStep, hg] at hs1
    cases hs1
  | ok r =>
    obtain ⟨b, p1⟩ := r
    obtain ⟨e1, e2, e3, e4, e5, e6, e7, e8, e9⟩ := get_shape s.pool s.mem 0 b p1 hg hm
    simp only [poolStep, hg, e2, if_false, Except.ok.injEq] at hs1
    subst hs1
    obtain ⟨s2, hs2, hinv2, -⟩ := use_inv ⟨p1, s.mem, b :: s.held⟩ b v hinv1
      (List.mem_cons_self _ _)
    simp only [poolStep, Except.ok.injEq] at hs2
    subst hs2
    have hput := put_ok p1 (s.mem.write b v) (b :: s.held) b hinv2 (List.mem_cons_self _ _)
    have hmem : (s.mem.write b v).write b p1.free_head = s.mem := by
      funext a
      unfold BlockMem.write
      by_cases ha : a = b
      · rw [if_pos ha, e3, ha, e1]
      · rw [if_neg ha, if_neg ha]
    have hdec : dec16 s.pool.nFree + 1 = s.pool.nFree := by
      unfold dec16
      omega
    have hp2 : ({ p1 with free_head := b, nFree := p1.nFree + 1 } : QMPool) =
        { s.pool with nMin := p1.nMin } := by
      cases hp : p1 with
      | mk fh st en bs nt nf nm =>
        rw [hp] at e4 e5 e6 e7 e8
        simp only at e4 e5 e6 e7 e8
        simp only [QMPool.mk.injEq]
        exact ⟨e1, e4, e5, e6, e7, by rw [e8, hdec], trivial⟩
    rw [hmem, hp2] at hput
    have hinv3 : PoolInv ⟨{ s.pool with nMin := p1.nMin }, s.mem, s.held⟩ := h
    obtain ⟨s3, hs3, -⟩ := get_inv ⟨{ s.pool with nMin := p1.nMin }, s.mem, s.held⟩ 0 hinv3
    cases hg3 : QMPool_get { s.pool with nMin := p1.nMin } s.mem 0 with
    | error f =>
      simp only [poolStep, hg3] at hs3
      cases hs3
    | ok r3 =>
      obtain ⟨b3, p3⟩ := r3
      have hb3 := (get_shape _ s.mem 0 b3 p3 hg3 hm).1
      simp only at hb3
      refine ⟨b, p1, _, p3, rfl, e2, e1, hput, rfl, e9, rfl, rfl, rfl, ?_⟩
      rw [hg3, hb3, e1]

theorem C39_get_put_witness :
    PoolInv ⟨⟨100, 100, 108, 4, 3, 3, 3⟩,
        (fun a => if a = 100 then 104 else if a = 104 then 108 else 0), []⟩ ∧
      1 ≤ (PoolState.mk ⟨100, 100, 108, 4, 3, 3, 3⟩
        (fun a => if a = 100 then 104 else if a = 104 then 108 else 0) []).pool.nFree ∧
      ∃ b p1 p2 p3, QMPool_get ⟨100, 100, 108, 4, 3, 3, 3⟩
          (fun a => if a = 100 then 104 else if a = 104 then 108 else 0) 0 = .ok (b, p1) ∧
        b ≠ 0 ∧ b = 100 ∧
        QMPool_put p1 (BlockMem.write
          (fun a => if a = 100 then 104 else if a = 104 then 108 else 0) b 77) b =
          .ok (p2, (fun a => if a = 100 then 104 else if a = 104 then 108 else 0)) ∧
        p2 = { (⟨100, 100, 108, 4, 3, 3, 3⟩ : QMPool) with nMin := p1.nMin } ∧
        p1.nMin ≤ 3 ∧ p2.free_head = 100 ∧ p2.nFree = 3 ∧
        freeChain (fun a => if a = 100 then 104 else if a = 104 then 108 else 0)
          p2.free_head p2.nFree =
          freeChain (fun a => if a = 100 then 104 else if a = 104 then 108 else 0) 100 3 ∧
        QMPool_get p2 (fun a => if a = 100 then 104 else if a = 104 then 108 else 0) 0 =
          .ok (b, p3) :=
  have hinv : PoolInv ⟨⟨100, 100, 108, 4, 3, 3, 3⟩,
      (fun a => if a = 100 then 104 else if a = 104 then 108 else 0), []⟩ := by
    refine ⟨by decide, by decide, by decide, by decide, by decide, by decide, ?_⟩
    decide
  ⟨hinv, by decide, C39_get_put ⟨⟨100, 100, 108, 4, 3, 3, 3⟩,
      (fun a => if a = 100 then 104 else if a = 104 then 108 else 0), []⟩ 77 hinv
      (by decide)⟩

/-! ### The portable binary logarithm -/

theorem log2_unique (y v : Nat) (h1 : 2 ^ v ≤ y) (h2 : y < 2 ^ (v + 1)) : Nat.log2 y = v := by
  have h0 : y ≠ 0 := by
    have := Nat.two_pow_pos v
    omega
  have ha : v ≤ Nat.log2 y := (Nat.le_log2 h0).mpr h1
  have hb : Nat.log2 y < v + 1 := (Nat.log2_lt h0).mpr h2
  omega

theorem LOG2_shift (x k : Nat) (h : x >>> k ≠ 0) : QF_LOG2 x = k + QF_LOG2 (x >>> k) := by
  have hx : x ≠ 0 := by
    intro h0
    rw [h0] at h
    simp at h
  unfold QF_LOG2
  rw [if_neg hx, if_neg h]
  rw [Nat.shiftRight_eq_div_pow] at h ⊢
  have hlo := Nat.log2_self_le h
  have hhi : x / 2 ^ k < 2 ^ ((x / 2 ^ k).log2 + 1) := Nat.lt_log2_self
  have hpos : 0 < 2 ^ k := Nat.two_pow_pos k
  have e := log2_unique x ((x / 2 ^ k).log2 + k)
    (by
      rw [Nat.pow_add]
      exact (Nat.le_div_iff_mul_le hpos).mp hlo)
    (by
      have : (x / 2 ^ k).log2 + k + 1 = ((x / 2 ^ k).log2 + 1) + k := by omega
      rw [this, Nat.pow_add]
      exact (Nat.div_lt_iff_lt_mul hpos).mp hhi)
  rw [e]
  omega

theorem LOG2_lut (y : Nat) (hy : y < 16) : log2LUT[y]? = some (QF_LOG2 y) := by
  have h : ∀ v, 1 ≤ v → 2 ^ (v - 1) ≤ y → y < 2 ^ v → QF_LOG2 y = v := by
    intro v hv h1 h2
    have h0 : y ≠ 0 := by
      have := Nat.two_pow_pos (v - 1)
      omega
    unfold QF_LOG2
    rw [if_neg h0, log2_unique y (v - 1) h1 (by rw [Nat.sub_add_cancel hv]; exact h2)]
    omega
  interval_cases y
  · rfl
  · rw [h 1 (by decide) (by decide) (by decide)]; rfl
  · rw [h 2 (by decide) (by decide) (by decide)]; rfl
  · rw [h 2 (by decide) (by decide) (by decide)]; rfl
  · rw [h 3 (by decide) (by decide) (by decide)]; rfl
  · rw [h 3 (by decide) (by decide) (by decide)]; rfl
  · rw [h 3 (by decide) (by decide) (by decide)]; rfl
  · rw [h 3 (by decide) (by decide) (by decide)]; rfl
  · rw [h 4 (by decide) (by decide) (by decide)]; rfl
  · rw [h 4 (by decide) (by decide) (by decide)]; rfl
  · rw [h 4 (by decide) (by decide) (by decide)]; rfl
  · rw [h 4 (by decide) (by decide) (by decide)]; rfl
  · rw [h 4 (by decide) (by decide) (by decide)]; rfl
  · rw [h 4 (by decide) (by decide) (by decide)]; rfl
  · rw [h 4 (by decide) (by decide) (by decide)]; rfl
  · rw [h 4 (by decide) (by decide) (by decide)]; rfl

theorem LOG2_portable_eq (x : Nat) (hx : x < 65536) :
    QF_LOG2_portable x = .ok (QF_LOG2 x) := by
  have hu : u16 x = x := Nat.mod_eq_of_lt hx
  have hsmall : ∀ y n, y < 256 →
      (match log2LUT[if y >>> 4 ≠ 0 then y >>> 4 else y]? with
        | some v => (Except.ok ((if y >>> 4 ≠ 0 then n + 4 else n) + v) : Except Fault Nat)
        | none => .error .undefined) = .ok (n + QF_LOG2 y) := by
    intro y n hy
    by_cases h4 : y >>> 4 ≠ 0
    · have hlt : y >>> 4 < 16 := by
        rw [Nat.shiftRight_eq_div_pow]
        exact (Nat.div_lt_iff_lt_mul (by decide)).mpr (by omega)
      rw [if_pos h4, if_pos h4, LOG2_lut _ hlt, LOG2_shift y 4 h4]
      simp only [Nat.add_assoc]
    · have hlt : y < 16 := by
        rw [Nat.shiftRight_eq_div_pow] at h4
        have : y / 2 ^ 4 = 0 := by simpa using h4
        have := (Nat.div_eq_zero_iff (by decide : 0 < 2 ^ 4)).mp this
        omega
      rw [if_neg h4, if_neg h4, LOG2_lut _ hlt]
  unfold QF_LOG2_portable
  simp only [hu]
  by_cases h8 : x >>> 8 ≠ 0
  · have hlt : x >>> 8 < 256 := by
      rw [Nat.shiftRight_eq_div_pow]
      exact (Nat.div_lt_iff_lt_mul (by decide)).mpr (by omega)
    simp only [h8, if_true, ne_eq, not_false_eq_true]
    have := hsmall (x >>> 8) (0 + 8) hlt
    simp only [ne_eq] at this
    rw [this, LOG2_shift x 8 h8]
  · have hlt : x < 256 := by
      rw [Nat.shiftRight_eq_div_pow] at h8
      have : x / 2 ^ 8 = 0 := by simpa using h8
      have := (Nat.div_eq_zero_iff (by decide : 0 < 2 ^ 8)).mp this
      omega
    simp only [h8, if_false]
    have := hsmall x 0 hlt
    simp only [ne_eq] at this
    rw [this, Nat.zero_add]

/-- C36: for every 16-bit mask `x`, the portable `QF_LOG2` returns the value
of `QPSet_findMax`, which is 0 for `x = 0` and otherwise `floor(log2 x) + 1`,
the 1-based position of the most significant set bit (that bit is set and no
bit above it is). Hence for a non-empty set `QPSet_findMax` is an element of
the set and no element in `1..16` is larger, and for every `n` in `1..16`
`QPSet_hasElement` holds after `QPSet_insert(n)` and does not hold after
`QPSet_remove(n)`. -/
theorem C36_log2_findMax (x : Nat) (hx : x < 65536) :
    QF_LOG2_portable x = .ok (QPSet_findMax x) ∧
    (x = 0 → QPSet_findMax x = 0) ∧
    (x ≠ 0 → QPSet_findMax x = Nat.log2 x + 1 ∧
      1 ≤ QPSet_findMax x ∧ QPSet_findMax x ≤ 16 ∧
      x.testBit (QPSet_findMax x - 1) = true ∧
      (∀ k, QPSet_findMax x ≤ k → x.testBit k = false) ∧
      QPSet_hasElement x (QPSet_findMax x) = true ∧
      ∀ n, 1 ≤ n → n ≤ 16 → QPSet_hasElement x n = true → n ≤ QPSet_findMax x) ∧
    ∀ n, 1 ≤ n → n ≤ 16 → QPSet_hasElement (QPSet_insert x n) n = true ∧
      QPSet_hasElement (QPSet_remove x n) n = false := by
  refine ⟨LOG2_portable_eq x hx, ?_, ?_, ?_⟩
  · intro h0
    rw [h0]
    rfl
  · intro h0
    obtain ⟨h1, h16, hbit, hhigh⟩ := findMax_spec x h0 hx
    refine ⟨?_, h1, h16, hbit, hhigh, ?_, ?_⟩
    · unfold QPSet_findMax QF_LOG2
      rw [if_neg h0]
    · rw [hasElement_eq x _ h1 h16]
      exact hbit
    · intro n n1 n16 hn
      rw [hasElement_eq x n n1 n16] at hn
      by_contra hcon
      rw [hhigh (n - 1) (by omega)] at hn
      cases hn
  · intro n n1 n16
    constructor
    · rw [insert_hasElement x n n n1 n16 n1 n16 hx]
      simp
    · rw [remove_hasElement x n n n1 n16 n1 n16]
      simp

theorem C36_log2_findMax_witness :
    (40 : Nat) < 65536 ∧ QF_LOG2_portable 40 = .ok (QPSet_findMax 40) ∧
      QF_LOG2_portable 40 = .ok 6 ∧
      QPSet_hasElement (QPSet_insert 40 3) 3 = true ∧
      QPSet_hasElement (QPSet_remove 40 4) 4 = false :=
  ⟨by decide, (C36_log2_findMax 40 (by decide)).1, rfl,
    ((C36_log2_findMax 40 (by decide)).2.2.2 3 (by decide) (by decide)).1,
    ((C36_log2_findMax 40 (by decide)).2.2.2 4 (by decide) (by decide)).2⟩

/-! ### The active object queue and the raw queue -/

theorem post_refines (st : QFState) (me e margin : Nat) (q1 : QEQueue) (mem1 : EvtMem)
    (h : QEQueue_post (st.aobj me).eQueue st.emem e margin = .ok (true, q1, mem1)) :
    QActive_post_ st me e margin = .ok (true,
      (({ st with emem := mem1 } : QFState).setQueue me q1).signal me
        (decide ((st.aobj me).eQueue.frontEvt = 0))) := by
  unfold QEQueue_post at h
  unfold QActive_post_
  by_cases he : e = 0
  · rw [if_pos he] at h
    cases h
  · rw [if_neg he] at h ⊢
    dsimp only at h ⊢
    by_cases hc : (margin = QF_NO_MARGIN ∧ (st.aobj me).eQueue.nFree > 0) ∨
        (st.aobj me).eQueue.nFree > u8 margin
    · rw [if_pos hc] at h
      have hstat : (if margin = QF_NO_MARGIN then
          (if (st.aobj me).eQueue.nFree > 0 then Except.ok true
            else Except.error (Fault.assertion .qf_actq 110))
          else if (st.aobj me).eQueue.nFree > u8 margin then Except.ok true
            else Except.ok false) = (Except.ok true : Except Fault Bool) := by
        by_cases hm : margin = QF_NO_MARGIN
        · rw [if_pos hm]
          have : (st.aobj me).eQueue.nFree > 0 := by
            rcases hc with h1 | h1
            · exact h1.2
            · omega
          rw [if_pos this]
        · rw [if_neg hm]
          rcases hc with h1 | h1
          · exact absurd h1.1 hm
          · rw [if_pos h1]
      rw [hstat]
      simp only [if_true]
      by_cases hf : (st.aobj me).eQueue.frontEvt = 0
      · by_cases hp : (st.emem e).poolId_ ≠ 0 <;>
        by_cases hn : (st.aobj me).eQueue.nMin > dec8 (st.aobj me).eQueue.nFree <;>
        simp only [hp, hn, hf, if_true, if_false, not_true_eq_false, not_false_eq_true,
          ne_eq, Except.ok.injEq, Prod.mk.injEq, true_and] at h ⊢ <;>
        obtain ⟨rfl, rfl⟩ := h <;>
        simp [QFState.setQueue, QFState.signal]
      · by_cases hp : (st.emem e).poolId_ ≠ 0 <;>
        by_cases hn : (st.aobj me).eQueue.nMin > dec8 (st.aobj me).eQueue.nFree <;>
        simp only [hp, hn, hf, if_true, if_false, not_true_eq_false, not_false_eq_true,
          ne_eq] at h ⊢ <;>
        (cases hw : ringWrite (st.aobj me).eQueue.ring (st.aobj me).eQueue.head e with
          | error f =>
            rw [hw] at h
            cases h
          | ok ring =>
            rw [hw] at h
            by_cases h0 : (st.aobj me).eQueue.head = 0 <;>
            simp only [h0, if_true, if_false, Except.ok.injEq, Prod.mk.injEq, true_and] at h ⊢ <;>
            obtain ⟨rfl, rfl⟩ := h <;>
            simp [QFState.setQueue, QFState.signal, hf])
    · rw [if_neg hc] at h
      split at h
      · cases h
      · cases h

theorem post_refined (st : QFState) (me e margin : Nat) (st1 : QFState)
    (h : QActive_post_ st me e margin = .ok (true, st1)) :
    ∃ q1 mem1, QEQueue_post (st.aobj me).eQueue st.emem e margin = .ok (true, q1, mem1) := by
  unfold QActive_post_ at h
  unfold QEQueue_post
  by_cases he : e = 0
  · rw [if_pos he] at h
    cases h
  · rw [if_neg he] at h ⊢
    dsimp only at h ⊢
    by_cases hm : margin = QF_NO_MARGIN
    · by_cases h1 : (st.aobj me).eQueue.nFree > 0
      · have hc : (margin = QF_NO_MARGIN ∧ (st.aobj me).eQueue.nFree > 0) ∨
            (st.aobj me).eQueue.nFree > u8 margin := Or.inl ⟨hm, h1⟩
        rw [if_pos hc]
        simp only [hm, h1, if_true] at h
        by_cases hf : (st.aobj me).eQueue.frontEvt = 0
        · by_cases hn : (st.aobj me).eQueue.nMin > dec8 (st.aobj me).eQueue.nFree <;>
          simp only [hn, hf, if_true, if_false] <;>
          exact ⟨_, _, rfl⟩
        · by_cases hn : (st.aobj me).eQueue.nMin > dec8 (st.aobj me).eQueue.nFree <;>
          simp only [hn, hf, if_true, if_false] at h ⊢ <;>
          (cases hw : ringWrite (st.aobj me).eQueue.ring (st.aobj me).eQueue.head e with
            | error f =>
              rw [hw] at h
              cases h
            | ok ring => exact ⟨_, _, rfl⟩)
      · simp only [hm, h1, if_true, if_false] at h
        cases h
    · by_cases h1 : (st.aobj me).eQueue.nFree > u8 margin
      · have hc : (margin = QF_NO_MARGIN ∧ (st.aobj me).eQueue.nFree > 0) ∨
            (st.aobj me).eQueue.nFree > u8 margin := Or.inr h1
        rw [if_pos hc]
        simp only [hm, h1, if_true, if_false] at h
        by_cases hf : (st.aobj me).eQueue.frontEvt = 0
        · by_cases hn : (st.aobj me).eQueue.nMin > dec8 (st.aobj me).eQueue.nFree <;>
          simp only [hn, hf, if_true, if_false] <;>
          exact ⟨_, _, rfl⟩
        · by_cases hn : (st.aobj me).eQueue.nMin > dec8 (st.aobj me).eQueue.nFree <;>
          simp only [hn, hf, if_true, if_false] at h ⊢ <;>
          (cases hw : ringWrite (st.aobj me).eQueue.ring (st.aobj me).eQueue.head e with
            | error f =>
              rw [hw] at h
              cases h
            | ok ring => exact ⟨_, _, rfl⟩)
      · simp only [hm, h1, if_false, Bool.false_eq_true] at h
        split at h
        · cases h
        · simp only [Except.ok.injEq, Prod.mk.injEq, Bool.false_eq_true, false_and] at h

theorem postLIFO_refines (st : QFState) (me e : Nat) (q1 : QEQueue) (mem1 : EvtMem)
    (h : QEQueue_postLIFO (st.aobj me).eQueue st.emem e = .ok (q1, mem1)) :
    QActive_postLIFO_ st me e = .ok
      ((({ st with emem := mem1 } : QFState).setQueue me q1).signal me
        (decide ((st.aobj me).eQueue.frontEvt = 0))) := by
  unfold QEQueue_postLIFO at h
  unfold QActive_postLIFO_
  dsimp only at h ⊢
  by_cases hn0 : (st.aobj me).eQueue.nFree = 0
  · rw [if_pos hn0] at h
    cases h
  · rw [if_neg hn0] at h
    rw [if_neg (not_not.mpr hn0)]
    by_cases he : e = 0
    · rw [if_pos he] at h
      cases h
    · rw [if_neg he] at h ⊢
      by_cases hf : (st.aobj me).eQueue.frontEvt = 0
      · by_cases hp : (st.emem e).poolId_ ≠ 0 <;>
        by_cases hn : (st.aobj me).eQueue.nMin > dec8 (st.aobj me).eQueue.nFree <;>
        simp only [hp, hn, hf, if_true, if_false, not_true_eq_false, not_false_eq_true,
          ne_eq, Except.ok.injEq, Prod.mk.injEq] at h ⊢ <;>
        obtain ⟨rfl, rfl⟩ := h <;>
        simp [QFState.setQueue, QFState.signal]
      · by_cases hp : (st.emem e).poolId_ ≠ 0 <;>
        by_cases hn : (st.aobj me).eQueue.nMin > dec8 (st.aobj me).eQueue.nFree <;>
        by_cases ht : u8 ((st.aobj me).eQueue.tail + 1) = (st.aobj me).eQueue.end_ <;>
        simp only [hp, hn, hf, ht, if_true, if_false, not_true_eq_false, not_false_eq_true,
          ne_eq] at h ⊢ <;>
        (split at h
         · cases h
         · rename_i ring hw
           try rw [hw]
           simp only [Except.ok.injEq, Prod.mk.injEq] at h ⊢
           obtain ⟨rfl, rfl⟩ := h
           simp [QFState.setQueue, QFState.signal, hf])

theorem postLIFO_refined (st : QFState) (me e : Nat) (st1 : QFState)
    (h : QActive_postLIFO_ st me e = .ok st1) :
    ∃ q1 mem1, QEQueue_postLIFO (st.aobj me).eQueue st.emem e = .ok (q1, mem1) := by
  unfold QActive_postLIFO_ at h
  unfold QEQueue_postLIFO
  dsimp only at h ⊢
  by_cases hn0 : (st.aobj me).eQueue.nFree = 0
  · rw [if_pos (not_not.mpr hn0)] at h
    cases h
  · rw [if_neg (not_not.mpr hn0)] at h
    rw [if_neg hn0]
    by_cases he : e = 0
    · rw [if_pos he] at h
      cases h
    · rw [if_neg he] at h ⊢
      by_cases hf : (st.aobj me).eQueue.frontEvt = 0
      · by_cases hn : (st.aobj me).eQueue.nMin > dec8 (st.aobj me).eQueue.nFree <;>
        simp only [hn, hf, if_true, if_false, ne_eq, not_true_eq_false] <;>
        exact ⟨_, _, rfl⟩
      · by_cases hn : (st.aobj me).eQueue.nMin > dec8 (st.aobj me).eQueue.nFree <;>
        by_cases ht : u8 ((st.aobj me).eQueue.tail + 1) = (st.aobj me).eQueue.end_ <;>
        simp only [hn, hf, ht, if_true, if_false, ne_eq, not_false_eq_true] at h ⊢ <;>
        (split at h
         · cases h
         · rename_i ring hw
           try rw [hw]
           exact ⟨_, _, rfl⟩)

theorem get_refines (st : QFState) (me e : Nat) (q1 : QEQueue)
    (hf : (st.aobj me).eQueue.frontEvt ≠ 0)
    (h : QEQueue_get (st.aobj me).eQueue = .ok (e, q1)) :
    QActive_get_ st me = .ok (e, st.setQueue me q1) := by
  unfold QEQueue_get at h
  unfold QActive_get_
  dsimp only at h ⊢
  rw [if_pos hf] at h
  rw [if_neg (not_not.mpr hf)]
  by_cases hn : u8 ((st.aobj me).eQueue.nFree + 1) ≤ (st.aobj me).eQueue.end_
  · rw [if_pos hn] at h ⊢
    split at h
    · cases h
    · rename_i f hr
      try rw [hr]
      by_cases ht : (st.aobj me).eQueue.tail = 0 <;>
      simp only [ht, if_true, if_false, Except.ok.injEq, Prod.mk.injEq] at h ⊢ <;>
      obtain ⟨rfl, rfl⟩ := h <;>
      simp [QFState.setQueue]
  · rw [if_neg hn] at h ⊢
    by_cases h1 : u8 ((st.aobj me).eQueue.nFree + 1) = (st.aobj me).eQueue.end_ + 1
    · rw [if_pos h1] at h
      rw [if_neg (not_not.mpr h1)]
      simp only [Except.ok.injEq, Prod.mk.injEq] at h ⊢
      obtain ⟨rfl, rfl⟩ := h
      simp [QFState.setQueue]
    · rw [if_neg h1] at h
      cases h

theorem get_refined (st : QFState) (me e : Nat) (st1 : QFState)
    (h : QActive_get_ st me = .ok (e, st1)) :
    (st.aobj me).eQueue.frontEvt ≠ 0 ∧
      ∃ q1, QEQueue_get (st.aobj me).eQueue = .ok (e, q1) := by
  unfold QActive_get_ at h
  unfold QEQueue_get
  dsimp only at h ⊢
  by_cases hf : (st.aobj me).eQueue.frontEvt ≠ 0
  · refine ⟨hf, ?_⟩
    rw [if_neg (not_not.mpr hf)] at h
    rw [if_pos hf]
    by_cases hn : u8 ((st.aobj me).eQueue.nFree + 1) ≤ (st.aobj me).eQueue.end_
    · rw [if_pos hn] at h ⊢
      split at h
      · cases h
      · rename_i f hr
        try rw [hr]
        simp only [Except.ok.injEq, Prod.mk.injEq] at h
        rw [← h.1]
        exact ⟨_, rfl⟩
    · rw [if_neg hn] at h ⊢
      by_cases h1 : u8 ((st.aobj me).eQueue.nFree + 1) = (st.aobj me).eQueue.end_ + 1
      · rw [if_pos h1]
        rw [if_neg (not_not.mpr h1)] at h
        simp only [Except.ok.injEq, Prod.mk.injEq] at h
        rw [← h.1]
        exact ⟨_, rfl⟩
      · rw [if_pos h1] at h
        cases h
  · rw [if_pos hf] at h
    cases h

/-- C37: the queue operations of an active object refine those of the raw
event queue. `QActive_post_` returns true with a new state exactly when
`QEQueue_post`, applied to the active object's queue, the event memory and
the same event and margin, returns true; the new state is the old one with
the queue and the event memory that `QEQueue_post` returns, and with the
priority of the active object inserted into `QV_readySet_` if the queue was
empty. The same holds for `QActive_postLIFO_` and `QEQueue_postLIFO`.
`QActive_get_` returns an event exactly when the queue is not empty and
`QEQueue_get` returns that event; the new state differs from the old one
only in the queue, which is the one `QEQueue_get` returns. -/
theorem C37_queue_refinement (st : QFState) (me e margin : Nat) :
    (∀ st1, QActive_post_ st me e margin = .ok (true, st1) ↔
      ∃ q1 mem1, QEQueue_post (st.aobj me).eQueue st.emem e margin = .ok (true, q1, mem1) ∧
        st1 = (({ st with emem := mem1 } : QFState).setQueue me q1).signal me
          (decide ((st.aobj me).eQueue.frontEvt = 0))) ∧
    (∀ st1, QActive_postLIFO_ st me e = .ok st1 ↔
      ∃ q1 mem1, QEQueue_postLIFO (st.aobj me).eQueue st.emem e = .ok (q1, mem1) ∧
        st1 = (({ st with emem := mem1 } : QFState).setQueue me q1).signal me
          (decide ((st.aobj me).eQueue.frontEvt = 0))) ∧
    (∀ ev st1, QActive_get_ st me = .ok (ev, st1) ↔
      (st.aobj me).eQueue.frontEvt ≠ 0 ∧
        ∃ q1, QEQueue_get (st.aobj me).eQueue = .ok (ev, q1) ∧ st1 = st.setQueue me q1) := by
  refine ⟨?_, ?_, ?_⟩
  · intro st1
    constructor
    · intro h
      obtain ⟨q1, mem1, hr⟩ := post_refined st me e margin st1 h
      have h2 := post_refines st me e margin q1 mem1 hr
      rw [h] at h2
      simp only [Except.ok.injEq, Prod.mk.injEq, true_and] at h2
      exact ⟨q1, mem1, hr, h2⟩
    · rintro ⟨q1, mem1, hr, rfl⟩
      exact post_refines st me e margin q1 mem1 hr
  · intro st1
    constructor
    · intro h
      obtain ⟨q1, mem1, hr⟩ := postLIFO_refined st me e st1 h
      have h2 := postLIFO_refines st me e q1 mem1 hr
      rw [h] at h2
      simp only [Except.ok.injEq] at h2
      exact ⟨q1, mem1, hr, h2⟩
    · rintro ⟨q1, mem1, hr, rfl⟩
      exact postLIFO_refines st me e q1 mem1 hr
  · intro ev st1
    constructor
    · intro h
      obtain ⟨hf, q1, hr⟩ := get_refined st me ev st1 h
      have h2 := get_refines st me ev q1 hf hr
      rw [h] at h2
      simp only [Except.ok.injEq, Prod.mk.injEq, true_and] at h2
      exact ⟨hf, q1, hr, h2⟩
    · rintro ⟨hf, q1, hr, rfl⟩
      exact get_refines st me ev q1 hf hr

theorem C37_queue_refinement_witness :
    ∃ st1 st2 st3, QActive_post_ exampleState2 500 700 0 = .ok (true, st1) ∧
      (st1.aobj 500).eQueue.frontEvt = 700 ∧
      st1.QV_readySet_ = QPSet_insert exampleState2.QV_readySet_ 3 ∧
      QActive_postLIFO_ st1 500 701 = .ok st2 ∧ (st2.aobj 500).eQueue.frontEvt = 701 ∧
      st2.QV_readySet_ = st1.QV_readySet_ ∧
      QActive_get_ st2 500 = .ok (701, st3) ∧ (st3.aobj 500).eQueue.frontEvt = 700 :=
  ⟨_, _, _,
    ((C37_queue_refinement exampleState2 500 700 0).1 _).mpr ⟨_, _, rfl, rfl⟩,
    rfl, rfl,
    ((C37_queue_refinement _ 500 701 0).2.1 _).mpr ⟨_, _, rfl, rfl⟩,
    rfl, rfl,
    ((C37_queue_refinement _ 500 701 0).2.2 701 _).mpr ⟨by decide, _, rfl, rfl⟩,
    rfl⟩

/-! ### A refused post -/

/-- C31: whenever `QHsm_init_` returns, `state.fun` equals `temp.fun`; and
whenever `QHsm_dispatch_` returns, it was started in a stable configuration
(precondition 400) and `state.fun` equals `temp.fun` again, whatever the
handlers did with the event (handled it, left it to the top state, which
ignores it, or took a transition). -/
theorem C31_stable {σ : Type} (H : Handlers σ) (fuel : Nat) (c c1 : Hsm σ) (e : Nat) :
    (QHsm_init_ fuel H c e = .ok c1 → c1.me.state = c1.me.temp) ∧
    (QHsm_dispatch_ fuel H c e = .ok c1 →
      c.me.state = c.me.temp ∧ c1.me.state = c1.me.temp) := by
  constructor
  · intro h
    unfold QHsm_init_ at h
    dsimp only at h
    split at h
    · cases h
    · split at h
      · cases h
      · split at h
        · cases h
        · split at h
          · cases h
          · simp only [Except.ok.injEq] at h
            rw [← h]
  · intro h
    unfold QHsm_dispatch_ at h
    dsimp only at h
    split at h
    · cases h
    · rename_i hpre
      have hst : c.me.state = c.me.temp := (not_not.mp hpre).2
      refine ⟨hst, ?_⟩
      split at h
      · cases h
      · split at h
        · split at h
          · cases h
          · split at h
            · cases h
            · split at h
              · cases h
              · split at h
                · cases h
                · split at h
                  · cases h
                  · simp only [Except.ok.injEq] at h
                    rw [← h]
        · simp only [Except.ok.injEq] at h
          rw [← h]

theorem C31_stable_witness :
    (∃ c1, QHsm_init_ 7 exampleHandlers ⟨QHsm_ctor (QHsm.mk 0 0 0) 20, (), []⟩ 0 = .ok c1 ∧
      c1.me.state = c1.me.temp ∧ c1.me.state = 11) ∧
    (∃ c1, QHsm_dispatch_ 7 exampleHandlers (Hsm.mk (QHsm.mk 1 11 11) () []) 8 = .ok c1 ∧
      c1.me.state = c1.me.temp ∧ c1.me.state = 11) ∧
    (∃ c1, QHsm_dispatch_ 7 exampleHandlers (Hsm.mk (QHsm.mk 1 11 11) () []) 99 = .ok c1 ∧
      c1.me.state = c1.me.temp ∧ c1.me.state = 11 ∧
      c1.calls.getLast? = some (QHsm_top, 99)) ∧
    (∃ c1, QHsm_dispatch_ 7 exampleHandlers (Hsm.mk (QHsm.mk 1 11 11) () []) 5 = .ok c1 ∧
      c1.me.state = c1.me.temp ∧ c1.me.state = 12) :=
  ⟨⟨_, rfl, (C31_stable exampleHandlers 7 ⟨QHsm_ctor (QHsm.mk 0 0 0) 20, (), []⟩ _ 0).1 rfl,
      rfl⟩,
    ⟨_, rfl, ((C31_stable exampleHandlers 7 (Hsm.mk (QHsm.mk 1 11 11) () []) _ 8).2 rfl).2,
      rfl⟩,
    ⟨_, rfl, ((C31_stable exampleHandlers 7 (Hsm.mk (QHsm.mk 1 11 11) () []) _ 99).2 rfl).2,
      rfl, rfl⟩,
    ⟨_, rfl, ((C31_stable exampleHandlers 7 (Hsm.mk (QHsm.mk 1 11 11) () []) _ 5).2 rfl).2,
      rfl⟩⟩

/-! ### Nesting depth and the entry path -/

theorem dispatch_self {σ : Type} (H : Handlers σ) (c : Hsm σ) (fuel e s : Nat)
    (chain : List Nat) (more : List (List Nat)) (hfuel : chain.length + 1 ≤ fuel)
    (hfuel2 : more.length + 6 ≤ fuel) (he : Q_USER_SIG ≤ e)
    (hb : Bubbles H e chain s) (hx : ExitChain H chain s) (hs0 : s ≠ 0) (hst : s ≠ QHsm_top)
    (htran : ∀ me x, (H s me x e).1 = Q_RET_TRAN ∧ (H s me x e).2.1.temp = s)
    (hd : DrillSegs H s more)
    (hstate : c.me.state = chain.headD s) (htemp : c.me.temp = chain.headD s) :
    ∃ (c1 : Hsm σ) (L : List (Nat × Nat)),
      QHsm_dispatch_ fuel H c e = .ok c1 ∧
      c1.me.state = lastTarget [s] more ∧ c1.me.temp = lastTarget [s] more ∧
      c1.calls = c.calls ++ L ∧
      actions L = chain.map (fun t => (t, Q_EXIT_SIG)) ++
        [(s, Q_EXIT_SIG), (s, Q_ENTRY_SIG)] ++ entriesOf more := by
  obtain ⟨n, hn⟩ : ∃ n, fuel = (n + 1) + chain.length :=
    ⟨fuel - chain.length - 1, by omega⟩
  obtain ⟨c', L1, e1, e2, e3, e4⟩ := bubble_chain H e chain s (n + 1) c hb htemp
  have hh0 : chain.headD s ≠ 0 := by
    cases chain with
    | nil => exact hs0
    | cons t rest => exact hb.1
  have hne1 : ¬ Q_RET_TRAN = Q_RET_UNHANDLED := by decide
  have hne2 : ¬ Q_RET_TRAN = Q_RET_SUPER := by decide
  have hge : Q_RET_TRAN ≥ Q_RET_TRAN := le_refl _
  have hbub : QHsm_dispatch_bubble H (n + 1) c' e = .ok (s, Q_RET_TRAN,
      ⟨(H s c'.me c'.ext e).2.1, (H s c'.me c'.ext e).2.2, c'.calls ++ [(s, e)]⟩) := by
    simp only [QHsm_dispatch_bubble, e2, call_eq H s c' e hs0 hst, (htran c'.me c'.ext).1,
      hne1, hne2, if_false]
  obtain ⟨c2, L2, x1, x2, x3⟩ := exit_chain H chain s (n + 1)
    ⟨(H s c'.me c'.ext e).2.1, (H s c'.me c'.ext e).2.2, c'.calls ++ [(s, e)]⟩ hx
  have hp0 : pathGet [s, chain.headD s, s, 0, 0, 0] 0 = .ok s := rfl
  have hp2 : pathGet [s, chain.headD s, s, 0, 0, 0] 2 = .ok s := rfl
  have htr : QHsm_tran_ fuel H c2 [s, chain.headD s, s, 0, 0, 0] =
      .ok (0, [s, chain.headD s, s, 0, 0, 0],
        ⟨(H s c2.me c2.ext Q_EXIT_SIG).2.1, (H s c2.me c2.ext Q_EXIT_SIG).2.2,
          c2.calls ++ [(s, Q_EXIT_SIG)]⟩) := by
    simp only [QHsm_tran_, hp0, hp2, if_true, trig_eq H s c2 Q_EXIT_SIG hs0 hst]
  have hent : ∀ c3 : Hsm σ, QHsm_dispatch_enter H [s, chain.headD s, s, 0, 0, 0] 0 c3 =
      .ok ⟨(H s c3.me c3.ext Q_ENTRY_SIG).2.1, (H s c3.me c3.ext Q_ENTRY_SIG).2.2,
        c3.calls ++ [(s, Q_ENTRY_SIG)]⟩ := by
    intro c3
    unfold QHsm_dispatch_enter
    rw [if_neg (by decide)]
    show enterPath H _ 0 c3 = _
    simp only [enterPath, hp0, trig_eq H s _ Q_ENTRY_SIG hs0 hst]
  have hL1 : actions (L1 ++ [(s, e)]) = [] := by
    apply actions_nil_of _ e he
    intro p hp
    rcases List.mem_append.mp hp with hp | hp
    · exact (e4 p hp).1
    · rw [List.mem_singleton] at hp
      subst hp
      exact Or.inl rfl
  have hact : actions [(s, Q_EXIT_SIG), (s, Q_ENTRY_SIG)] =
      [(s, Q_EXIT_SIG), (s, Q_ENTRY_SIG)] := by
    simp [actions, Q_EXIT_SIG, Q_ENTRY_SIG]
  have hdisp : QHsm_dispatch_ fuel H c e =
      (match QHsm_dispatch_drill H fuel
          ⟨{ (H s (H s c2.me c2.ext Q_EXIT_SIG).2.1 (H s c2.me c2.ext Q_EXIT_SIG).2.2
                Q_ENTRY_SIG).2.1 with temp := s },
            (H s (H s c2.me c2.ext Q_EXIT_SIG).2.1 (H s c2.me c2.ext Q_EXIT_SIG).2.2
                Q_ENTRY_SIG).2.2,
            c2.calls ++ [(s, Q_EXIT_SIG)] ++ [(s, Q_ENTRY_SIG)]⟩
          [s, chain.headD s, s, 0, 0, 0] s with
        | .error f => .error f
        | .ok (c1, t) => .ok { c1 with me := { c1.me with state := t, temp := t } }) := by
    have hx1 : QHsm_dispatch_exit H fuel
        ⟨(H s c'.me c'.ext e).2.1, (H s c'.me c'.ext e).2.2, c'.calls ++ [(s, e)]⟩
        (chain.headD s) s = .ok c2 := by rw [hn]; exact x1
    have hb1 : QHsm_dispatch_bubble H fuel c e = .ok (s, Q_RET_TRAN,
        ⟨(H s c'.me c'.ext e).2.1, (H s c'.me c'.ext e).2.2, c'.calls ++ [(s, e)]⟩) := by
      rw [hn, e1, hbub]
    simp only [QHsm_dispatch_, hh0, ne_eq, not_false_eq_true, hstate, htemp, and_self,
      not_true_eq_false, if_false, hb1, hge, if_true, (htran c'.me c'.ext).2, hx1, htr,
      hent, hp0]
  obtain ⟨c3, L3, d1, d2, d3⟩ := drill_spec H more s (fuel - more.length - 6)
    ⟨{ (H s (H s c2.me c2.ext Q_EXIT_SIG).2.1 (H s c2.me c2.ext Q_EXIT_SIG).2.2
          Q_ENTRY_SIG).2.1 with temp := s },
      (H s (H s c2.me c2.ext Q_EXIT_SIG).2.1 (H s c2.me c2.ext Q_EXIT_SIG).2.2
          Q_ENTRY_SIG).2.2,
      c2.calls ++ [(s, Q_EXIT_SIG)] ++ [(s, Q_ENTRY_SIG)]⟩
    [s, chain.headD s, s, 0, 0, 0] rfl hs0 hst hd
  have hf3 : fuel - more.length - 6 + more.length + 6 = fuel := by omega
  rw [hf3] at d1
  rw [d1] at hdisp
  refine ⟨_, L1 ++ [(s, e)] ++ L2 ++ [(s, Q_EXIT_SIG), (s, Q_ENTRY_SIG)] ++ L3, hdisp,
    rfl, rfl, ?_, ?_⟩
  · show c3.calls = _
    rw [d2]
    simp [x2, e3]
  · rw [actions_append, actions_append, actions_append, hL1, x3, hact, d3]
    rfl

theorem dispatch_lca {σ : Type} (H : Handlers σ) (c : Hsm σ) (fuel e s g L : Nat)
    (pre sx gx com : List Nat) (more : List (List Nat))
    (hfuel : pre.length + sx.length + more.length + 6 ≤ fuel) (he : Q_USER_SIG ≤ e)
    (hb : Bubbles H e pre s) (hxp : ExitChain H pre s)
    (hs0 : s ≠ 0) (hst : s ≠ QHsm_top) (hg0 : g ≠ 0) (hgt : g ≠ QHsm_top) (hsg : s ≠ g)
    (htran : ∀ me x, (H s me x e).1 = Q_RET_TRAN ∧ (H s me x e).2.1.temp = g)
    (hxs : ExitChain H sx L) (hs : s = sx.headD L)
    (hag : Ancestry H gx L) (hg : g = gx.headD L)
    (hcom : Ancestry H com QHsm_top) (hL : L = com.headD QHsm_top)
    (hdisj : ∀ u, u ∈ sx → u ∉ gx)
    (hdepth : gx.length + com.length < QHSM_MAX_NEST_DEPTH_)
    (hd : DrillSegs H g more)
    (hstate : c.me.state = pre.headD s) (htemp : c.me.temp = pre.headD s) :
    ∃ (c1 : Hsm σ) (Lc : List (Nat × Nat)),
      QHsm_dispatch_ fuel H c e = .ok c1 ∧
      c1.me.state = lastTarget [g] more ∧ c1.me.temp = lastTarget [g] more ∧
      c1.calls = c.calls ++ Lc ∧
      actions Lc = (pre ++ sx).map (fun t => (t, Q_EXIT_SIG)) ++
        gx.reverse.map (fun t => (t, Q_ENTRY_SIG)) ++ entriesOf more ∧
      ∀ sig, (L, sig) ∉ actions Lc := by
  obtain ⟨n, hn⟩ : ∃ n, fuel = (n + 1) + pre.length :=
    ⟨fuel - pre.length - 1, by omega⟩
  obtain ⟨c', L1, e1, e2, e3, e4⟩ := bubble_chain H e pre s (n + 1) c hb htemp
  have hh0 : pre.headD s ≠ 0 := by
    cases pre with
    | nil => exact hs0
    | cons t rest => exact hb.1
  have hne1 : ¬ Q_RET_TRAN = Q_RET_UNHANDLED := by decide
  have hne2 : ¬ Q_RET_TRAN = Q_RET_SUPER := by decide
  have hge : Q_RET_TRAN ≥ Q_RET_TRAN := le_refl _
  have hbub : QHsm_dispatch_bubble H (n + 1) c' e = .ok (s, Q_RET_TRAN,
      ⟨(H s c'.me c'.ext e).2.1, (H s c'.me c'.ext e).2.2, c'.calls ++ [(s, e)]⟩) := by
    simp only [QHsm_dispatch_bubble, e2, call_eq H s c' e hs0 hst, (htran c'.me c'.ext).1,
      hne1, hne2, if_false]
  obtain ⟨cb, hb1, hb2, hb3⟩ : ∃ cb, QHsm_dispatch_bubble H fuel c e =
      .ok (s, Q_RET_TRAN, cb) ∧ cb.me.temp = g ∧ cb.calls = c.calls ++ (L1 ++ [(s, e)]) :=
    ⟨_, by rw [hn, e1, hbub], (htran c'.me c'.ext).2, by simp [e3]⟩
  obtain ⟨c2, L2, x1, x2, x3⟩ := exit_chain H pre s (n + 1) cb hxp
  rw [← hn] at x1
  obtain ⟨c3, path1, L3, t1, t2, t3, t4, t5, t6⟩ := tran_spec H fuel s g L (pre.headD s)
    sx gx com c2 (by omega) hs0 hst hg0 hgt hsg hxs hs hag hg hcom hL hdisj hdepth
  obtain ⟨c4, n1, n2⟩ := enter_spec H gx path1 L c3 hag t2
    (by unfold QHSM_MAX_NEST_DEPTH_ at hdepth; omega) t3
  obtain ⟨c5, L5, d1, d2, d3⟩ := drill_spec H more g (fuel - more.length - 6)
    { c4 with me := { c4.me with temp := g } } path1 t2 hg0 hgt hd
  have hf3 : fuel - more.length - 6 + more.length + 6 = fuel := by omega
  rw [hf3] at d1
  have hL1 : actions (L1 ++ [(s, e)]) = [] := by
    apply actions_nil_of _ e he
    intro p hp
    rcases List.mem_append.mp hp with hp | hp
    · exact (e4 p hp).1
    · rw [List.mem_singleton] at hp
      subst hp
      exact Or.inl rfl
  have hA : actions ((L1 ++ [(s, e)]) ++ L2 ++ L3 ++
      gx.reverse.map (fun u => (u, Q_ENTRY_SIG)) ++ L5) =
      (pre ++ sx).map (fun t => (t, Q_EXIT_SIG)) ++
        gx.reverse.map (fun t => (t, Q_ENTRY_SIG)) ++ entriesOf more := by
    rw [actions_append, actions_append, actions_append, actions_append, hL1, x3, t6,
      actions_map_entry, d3]
    simp
  have hout := lca_outside H c.me c.ext s g L pre sx gx com more hxp hgt hxs hs hag hg hcom
    hL hd
  refine ⟨⟨⟨c5.me.vptr, lastTarget [g] more, lastTarget [g] more⟩, c5.ext, c5.calls⟩,
    (L1 ++ [(s, e)]) ++ L2 ++ L3 ++ gx.reverse.map (fun u => (u, Q_ENTRY_SIG)) ++ L5,
    ?_, rfl, rfl, ?_, hA, ?_⟩
  · simp only [QHsm_dispatch_, hh0, ne_eq, not_false_eq_true, hstate, htemp, and_self,
      not_true_eq_false, if_false, hb1, hge, if_true, hb2, x1, t1, n1, t4, d1]
  · show c5.calls = _
    rw [d2]
    show c4.calls ++ L5 = _
    rw [n2, t5, x2, hb3]
    simp only [List.append_assoc]
  · intro sig hm
    rw [hA] at hm
    rcases List.mem_append.mp hm with h | h
    · rcases List.mem_append.mp h with h | h
      · obtain ⟨u, hu, e⟩ := List.mem_map.mp h
        simp only [Prod.mk.injEq] at e
        exact hout.1 (e.1 ▸ hu)
      · obtain ⟨u, hu, e⟩ := List.mem_map.mp h
        simp only [Prod.mk.injEq] at e
        exact hout.2.1 (List.mem_reverse.mp (e.1 ▸ hu))
    · exact hout.2.2 (mem_entriesOf more L sig h)

theorem call_err {σ : Type} (H : Handlers σ) (s : Nat) (c : Hsm σ) (e : Nat) (f : Fault)
    (h : QEP_call H s c e = .error f) : f = .undefined := by
  unfold QEP_call at h
  split at h
  · simp only [Except.error.injEq] at h
    exact h.symm
  · split at h <;> cases h

theorem trig_err {σ : Type} (H : Handlers σ) (s : Nat) (c : Hsm σ) (e : Nat) (f : Fault)
    (h : QEP_trig H s c e = .error f) : f = .undefined := by
  unfold QEP_trig at h
  split at h
  · rename_i f1 hc
    simp only [Except.error.injEq] at h
    rw [← h]
    exact call_err H s c e f1 hc
  · cases h

theorem pathSet_err (path : List Nat) (i v : Nat) (f : Fault)
    (h : pathSet path i v = .error f) : f = .undefined := by
  unfold pathSet at h
  split at h
  · cases h
  · simp only [Except.error.injEq] at h
    exact h.symm

theorem pathGet_err (path : List Nat) (i : Nat) (f : Fault)
    (h : pathGet path i = .error f) : f = .undefined := by
  unfold pathGet at h
  split at h
  · cases h
  · simp only [Except.error.injEq] at h
    exact h.symm

theorem enterPath_err {σ : Type} (H : Handlers σ) (path : List Nat) (n : Nat) (c : Hsm σ)
    (f : Fault) (h : enterPath H path n c = .error f) : f = .undefined := by
  induction n generalizing c with
  | zero =>
    unfold enterPath at h
    split at h
    · rename_i f1 hg
      simp only [Except.error.injEq] at h
      rw [← h]
      exact pathGet_err path 0 f1 hg
    · exact trig_err H _ c _ f h
  | succ n ih =>
    unfold enterPath at h
    split at h
    · rename_i f1 hg
      simp only [Except.error.injEq] at h
      rw [← h]
      exact pathGet_err path _ f1 hg
    · split at h
      · rename_i f1 ht
        simp only [Except.error.injEq] at h
        rw [← h]
        exact trig_err H _ c _ f1 ht
      · exact ih _ h

theorem init_walk_err {σ : Type} (H : Handlers σ) (fuel : Nat) (c : Hsm σ) (t : Nat)
    (path : List Nat) (ip : Nat) (f : Fault)
    (h : QHsm_init_walk H fuel c t path ip = .error f) : f ≠ .assertion .qep_hsm 210 := by
  induction fuel generalizing c path ip with
  | zero =>
    unfold QHsm_init_walk at h
    split at h
    · simp only [Except.error.injEq] at h
      rw [← h]
      intro hc
      cases hc
    · cases h
  | succ fuel ih =>
    unfold QHsm_init_walk at h
    split at h
    · split at h
      · simp only [Except.error.injEq] at h
        rw [← h]
        intro hc
        cases hc
      · split at h
        · rename_i f1 hs
          simp only [Except.error.injEq] at h
          rw [← h, pathSet_err _ _ _ f1 hs]
          intro hc
          cases hc
        · split at h
          · rename_i f1 ht
            simp only [Except.error.injEq] at h
            rw [← h, trig_err H _ _ _ f1 ht]
            intro hc
            cases hc
          · exact ih _ _ _ h
    · cases h

theorem init_loop_err {σ : Type} (H : Handlers σ) (fuel : Nat) (c : Hsm σ) (t : Nat)
    (f : Fault) (h : QHsm_init_loop H fuel c t = .error f) :
    f ≠ .assertion .qep_hsm 210 := by
  have hu : (Fault.undefined : Fault) ≠ .assertion .qep_hsm 210 := by
    intro hc
    cases hc
  induction fuel generalizing c t with
  | zero =>
    unfold QHsm_init_loop at h
    simp only [Except.error.injEq] at h
    rw [← h]
    intro hc
    cases hc
  | succ fuel ih =>
    unfold QHsm_init_loop at h
    split at h
    · rename_i f1 hs
      simp only [Except.error.injEq] at h
      rw [← h, pathSet_err _ _ _ f1 hs]
      exact hu
    · split at h
      · rename_i f1 ht
        simp only [Except.error.injEq] at h
        rw [← h, trig_err H _ _ _ f1 ht]
        exact hu
      · split at h
        · rename_i f1 hw
          simp only [Except.error.injEq] at h
          rw [← h]
          exact init_walk_err H _ _ _ _ _ f1 hw
        · split at h
          · rename_i f1 hg
            simp only [Except.error.injEq] at h
            rw [← h, pathGet_err _ _ f1 hg]
            exact hu
          · split at h
            · rename_i f1 he
              simp only [Except.error.injEq] at h
              rw [← h, enterPath_err H _ _ _ f1 he]
              exact hu
            · split at h
              · rename_i f1 hc
                simp only [Except.error.injEq] at h
                rw [← h, call_err H _ _ _ f1 hc]
                exact hu
              · split at h
                · exact ih _ _ h
                · cases h

theorem init_210_iff {σ : Type} (H : Handlers σ) (fuel : Nat) (c : Hsm σ) (e : Nat)
    (hpre : c.me.vptr ≠ 0 ∧ c.me.temp ≠ 0 ∧ c.me.state = QHsm_top) :
    QHsm_init_ fuel H c e = .error (.assertion .qep_hsm 210) ↔
      ∃ r c1, QEP_call H c.me.temp c e = .ok (r, c1) ∧ r ≠ Q_RET_TRAN := by
  unfold QHsm_init_
  dsimp only
  rw [if_neg (not_not.mpr hpre)]
  cases hcall : QEP_call H c.me.temp c e with
  | error f =>
    have hf := call_err H _ c e f hcall
    subst hf
    constructor
    · intro h
      cases h
    · rintro ⟨r, c1, h, -⟩
      cases h
  | ok rc =>
    obtain ⟨r, c1⟩ := rc
    simp only
    by_cases hr : r = Q_RET_TRAN
    · rw [if_neg (not_not.mpr hr)]
      constructor
      · intro h
        split at h
        · rename_i f hl
          simp only [Except.error.injEq] at h
          exact absurd h (init_loop_err H _ _ _ f hl)
        · cases h
      · rintro ⟨r1, c2, h1, h2⟩
        simp only [Except.ok.injEq, Prod.mk.injEq] at h1
        exact absurd (h1.1 ▸ hr) h2
    · rw [if_pos hr]
      simp only [true_iff]
      exact ⟨r, c1, rfl, hr⟩

/-- C35: in the embedding every access to the entry-path array outside
`0..5` and every failed assertion makes the call fail, so a call that
returns has used only indices `0..5` and passed assertions 220, 410, 510 and
520. For a state hierarchy given by ancestor lists as in C5, C4 and C30, in
which the target of every transition lies at most `QHSM_MAX_NEST_DEPTH_ - 1`
levels below the top state and every initial transition enters at most
`QHSM_MAX_NEST_DEPTH_` states: `QHsm_init_` returns; `QHsm_dispatch_` returns
for a transition to a state other than the source, whichever of the steps
(b) to (g) of `QHsm_tran_` applies; and `QHsm_dispatch_` returns for a
transition to the source itself. Moreover, when precondition 200 holds,
`QHsm_init_` fails assertion 210 if and only if the first call of the
initial handler returns a value other than `Q_RET_TRAN`. -/
theorem C35_depth_safe {σ : Type} (H : Handlers σ) :
    (∀ (me0 : QHsm) (x : σ) (ini e0 fuel : Nat) (up : List Nat) (more : List (List Nat)),
      more.length + 6 ≤ fuel → ini ≠ 0 → ini ≠ QHsm_top →
      ((H ini (QHsm_ctor me0 ini) x e0).1 = Q_RET_TRAN ∧
        (H ini (QHsm_ctor me0 ini) x e0).2.1.temp = up.headD 0) →
      InitSegs H up more QHsm_top →
      ∃ c1, QHsm_init_ fuel H ⟨QHsm_ctor me0 ini, x, []⟩ e0 = .ok c1) ∧
    (∀ (c : Hsm σ) (fuel e s g L : Nat) (pre sx gx com : List Nat) (more : List (List Nat)),
      pre.length + sx.length + more.length + 6 ≤ fuel → Q_USER_SIG ≤ e →
      Bubbles H e pre s → ExitChain H pre s → s ≠ 0 → s ≠ QHsm_top → g ≠ 0 →
      g ≠ QHsm_top → s ≠ g →
      (∀ me x, (H s me x e).1 = Q_RET_TRAN ∧ (H s me x e).2.1.temp = g) →
      ExitChain H sx L → s = sx.headD L → Ancestry H gx L → g = gx.headD L →
      Ancestry H com QHsm_top → L = com.headD QHsm_top → (∀ u, u ∈ sx → u ∉ gx) →
      gx.length + com.length < QHSM_MAX_NEST_DEPTH_ → DrillSegs H g more →
      c.me.state = pre.headD s → c.me.temp = pre.headD s →
      ∃ c1, QHsm_dispatch_ fuel H c e = .ok c1) ∧
    (∀ (c : Hsm σ) (fuel e s : Nat) (chain : List Nat) (more : List (List Nat)),
      chain.length + 1 ≤ fuel → more.length + 6 ≤ fuel → Q_USER_SIG ≤ e →
      Bubbles H e chain s → ExitChain H chain s → s ≠ 0 → s ≠ QHsm_top →
      (∀ me x, (H s me x e).1 = Q_RET_TRAN ∧ (H s me x e).2.1.temp = s) →
      DrillSegs H s more → c.me.state = chain.headD s → c.me.temp = chain.headD s →
      ∃ c1, QHsm_dispatch_ fuel H c e = .ok c1) ∧
    (∀ (fuel : Nat) (c : Hsm σ) (e : Nat),
      c.me.vptr ≠ 0 ∧ c.me.temp ≠ 0 ∧ c.me.state = QHsm_top →
      (QHsm_init_ fuel H c e = .error (.assertion .qep_hsm 210) ↔
        ∃ r c1, QEP_call H c.me.temp c e = .ok (r, c1) ∧ r ≠ Q_RET_TRAN)) := by
  refine ⟨?_, ?_, ?_, ?_⟩
  · intro me0 x ini e0 fuel up more hfuel hini0 hinit hini hs
    obtain ⟨n, rfl⟩ : ∃ n, fuel = n + more.length + 6 :=
      ⟨fuel - more.length - 6, by omega⟩
    obtain ⟨c1, L, e1, -, -⟩ := init_loop_spec H more up QHsm_top n
      ⟨(H ini (QHsm_ctor me0 ini) x e0).2.1, (H ini (QHsm_ctor me0 ini) x e0).2.2,
        [(ini, e0)]⟩ hs hini.2
    refine ⟨⟨⟨c1.me.vptr, lastTarget up more, lastTarget up more⟩, c1.ext, c1.calls⟩, ?_⟩
    unfold QHsm_init_
    have hpre : (QHsm_ctor me0 ini).vptr ≠ 0 ∧ (QHsm_ctor me0 ini).temp ≠ 0 ∧
        (QHsm_ctor me0 ini).state = QHsm_top := ⟨(by decide : QHsm_vtable ≠ 0), hini0, rfl⟩
    simp only [hpre, ne_eq, not_true_eq_false, not_false_eq_true, and_self, if_false]
    have hcall := call_eq H ini ⟨QHsm_ctor me0 ini, x, []⟩ e0 hini0 hinit
    simp only [List.nil_append] at hcall
    have htemp : (QHsm_ctor me0 ini).temp = ini := rfl
    simp only [htemp, hcall, hini.1, not_true_eq_false, if_false]
    rw [e1]
  · intro c fuel e s g L pre sx gx com more hfuel he hb hxp hs0 hst hg0 hgt hsg htran hxs hs
      hag hg hcom hL hdisj hdepth hd hstate htemp
    obtain ⟨c1, -, h1, -⟩ := dispatch_lca H c fuel e s g L pre sx gx com more hfuel he hb hxp
      hs0 hst hg0 hgt hsg htran hxs hs hag hg hcom hL hdisj hdepth hd hstate htemp
    exact ⟨c1, h1⟩
  · intro c fuel e s chain more hfuel hfuel2 he hb hx hs0 hst htran hd hstate htemp
    obtain ⟨c1, -, h1, -⟩ := dispatch_self H c fuel e s chain more hfuel hfuel2 he hb hx hs0
      hst htran hd hstate htemp
    exact ⟨c1, h1⟩
  · intro fuel c e hpre
    exact init_210_iff H fuel c e hpre

theorem C35_depth_safe_witness :
    (∃ c1, QHsm_init_ 7 exampleHandlers ⟨QHsm_ctor (QHsm.mk 0 0 0) 20, (), []⟩ 0 = .ok c1) ∧
    (∃ c1, QHsm_dispatch_ 10 exampleHandlers2 (Hsm.mk (QHsm.mk 1 13 13) () []) 9 = .ok c1) ∧
    (∃ c1, QHsm_dispatch_ 7 exampleHandlers (Hsm.mk (QHsm.mk 1 11 11) () []) 7 = .ok c1) ∧
    QHsm_init_ 7 exampleHandlers ⟨QHsm_ctor (QHsm.mk 0 0 0) 10, (), []⟩ 0 =
      .error (.assertion .qep_hsm 210) ∧
    QHsm_init_ 7 exampleHandlers ⟨QHsm_ctor (QHsm.mk 0 0 0) 20, (), []⟩ 0 ≠
      .error (.assertion .qep_hsm 210) :=
  ⟨(C35_depth_safe exampleHandlers).1 (QHsm.mk 0 0 0) () 20 0 7 [10] [[11]] (by decide)
      (by decide) (by decide) ⟨rfl, rfl⟩ example_initSegs,
    (C35_depth_safe exampleHandlers2).2.1 (Hsm.mk (QHsm.mk 1 13 13) () []) 10 9 11 15
      QHsm_top [13] [11, 10] [15, 14] [] [[16]] (by decide) (by decide) example2_bubbles
      example2_exit_pre (by decide) (by decide) (by decide) (by decide) (by decide)
      (fun _ _ => ⟨rfl, rfl⟩) example2_exit_sx rfl example2_ancestry_gx rfl trivial rfl
      (by decide) (by decide) example2_drill rfl rfl,
    (C35_depth_safe exampleHandlers).2.2.1 (Hsm.mk (QHsm.mk 1 11 11) () []) 7 7 10 [11]
      [[11]] (by decide) (by decide) (by decide) example_bubbles7 example_exitChain
      (by decide) (by decide) (fun _ _ => ⟨rfl, rfl⟩) example_drill rfl rfl,
    ((C35_depth_safe exampleHandlers).2.2.2 7 ⟨QHsm_ctor (QHsm.mk 0 0 0) 10, (), []⟩ 0
      ⟨by decide, by decide, rfl⟩).mpr ⟨_, _, rfl, by decide⟩,
    fun h => by
      obtain ⟨r, c1, h1, h2⟩ := ((C35_depth_safe exampleHandlers).2.2.2 7
        ⟨QHsm_ctor (QHsm.mk 0 0 0) 20, (), []⟩ 0 ⟨by decide, by decide, rfl⟩).mp h
      have h3 : QEP_call exampleHandlers 20 ⟨QHsm_ctor (QHsm.mk 0 0 0) 20, (), []⟩ 0 =
          .ok (Q_RET_TRAN, ⟨⟨1, 1, 10⟩, (), [(20, 0)]⟩) := rfl
      have h4 := h3.symm.trans h1
      simp only [Except.ok.injEq, Prod.mk.injEq] at h4
      exact h2 h4.1.symm⟩

/-! ### The invariant of the event queue -/

theorem post_refuse (q : QEQueue) (mem : EvtMem) (e margin : Nat) (he : e ≠ 0)
    (hm : ¬ ((margin = QF_NO_MARGIN ∧ q.nFree > 0) ∨ q.nFree > u8 margin)) :
    QEQueue_post q mem e margin =
      (if margin = QF_NO_MARGIN then .error (.assertion .qf_qeq 210)
        else .ok (false, q, mem)) := by
  unfold QEQueue_post
  rw [if_neg he]
  dsimp only
  rw [if_neg hm]

theorem queueStep_cases (s : QEQueue × EvtMem × Nat) (op : QueueOp) (h : s.1.WF)
    (hn : s.2.2 + s.1.nFree = s.1.end_ + 1) :
    (∃ s1, queueStep s op = .ok s1 ∧ s1.1.WF ∧ s1.2.2 + s1.1.nFree = s1.1.end_ + 1 ∧
      s1.1.end_ = s.1.end_) ∨
    (queueOpAllowed s.1 op = false ∧
      (queueStep s op = .error (.assertion .qf_qeq 200) ∨
       queueStep s op = .error (.assertion .qf_qeq 210) ∨
       queueStep s op = .error (.assertion .qf_qeq 300) ∨
       (queueStep s op = .error .undefined ∧ op = .postLIFO 0))) := by
  obtain ⟨q, mem, n⟩ := s
  simp only at h hn
  cases op with
  | post e margin =>
    by_cases he : e = 0
    · right
      refine ⟨by simp [queueOpAllowed, he], Or.inl ?_⟩
      simp [queueStep, QEQueue_post, he]
    · by_cases hm : (margin = QF_NO_MARGIN ∧ q.nFree > 0) ∨ q.nFree > u8 margin
      · left
        obtain ⟨q1, mem1, hp, hwf, -, hnf, hend⟩ := post_spec q mem e margin h he hm
        refine ⟨(q1, mem1, n + 1), ?_, hwf, ?_, hend⟩
        · simp only [queueStep, hp, if_true]
        · simp only
          omega
      · by_cases hnm : margin = QF_NO_MARGIN
        · right
          have h0 : ¬ q.nFree > 0 := fun hc => hm (Or.inl ⟨hnm, hc⟩)
          refine ⟨by simp [queueOpAllowed, hnm, h0], Or.inr (Or.inl ?_)⟩
          simp only [queueStep, post_refuse q mem e margin he hm]
          rw [if_pos hnm]
        · left
          refine ⟨(q, mem, n), ?_, h, hn, rfl⟩
          simp only [queueStep, post_refuse q mem e margin he hm]
          rw [if_neg hnm]
          simp
  | postLIFO e =>
    by_cases h0 : q.nFree = 0
    · right
      refine ⟨by simp [queueOpAllowed, h0], Or.inr (Or.inr (Or.inl ?_))⟩
      simp [queueStep, QEQueue_postLIFO, h0]
    · by_cases he : e = 0
      · right
        refine ⟨by simp [queueOpAllowed, he], Or.inr (Or.inr (Or.inr ⟨?_, by rw [he]⟩))⟩
        simp [queueStep, QEQueue_postLIFO, h0, he]
      · left
        obtain ⟨q1, mem1, hp, hwf, -, hnf, hend, -⟩ := postLIFO_spec q mem e h he h0
        refine ⟨(q1, mem1, n + 1), ?_, hwf, ?_, hend⟩
        · simp only [queueStep, hp]
        · simp only
          omega
  | get =>
    left
    obtain ⟨q1, hg, hwf, -, hend, -, -, hnf, hsame, -⟩ := get_spec q h
    by_cases hf : q.frontEvt = 0
    · have hq := hsame hf
      refine ⟨(q1, mem, n), ?_, hwf, ?_, hend⟩
      · simp only [queueStep, hg, hf, ne_eq, not_true_eq_false, if_false]
      · simp only
        rw [hq]
        exact hn
    · have hq := hnf hf
      have h5 := h.2.2.2.2.1
      have hne : q.nFree ≠ q.end_ + 1 := fun hc => hf (h5.2 hc)
      have h3 := h.2.2.1
      refine ⟨(q1, mem, n - 1), ?_, hwf, ?_, hend⟩
      · simp only [queueStep, hg, hf, ne_eq, not_false_eq_true, if_true]
      · simp only
        omega

theorem runQueue_spec (ops : List QueueOp) (s : QEQueue × EvtMem × Nat) (h : s.1.WF)
    (hn : s.2.2 + s.1.nFree = s.1.end_ + 1) :
    (∀ s1, runQueue s ops = .ok s1 →
      s1.1.WF ∧ s1.2.2 + s1.1.nFree = s1.1.end_ + 1 ∧ s1.1.end_ = s.1.end_) ∧
    runQueue s ops ≠ .error (.assertion .qf_qeq 410) ∧
    (runQueue s ops = .error .undefined → QueueOp.postLIFO 0 ∈ ops) ∧
    (runQueueAllowed s ops = true → ∃ s1, runQueue s ops = .ok s1) := by
  induction ops generalizing s with
  | nil =>
    refine ⟨?_, ?_, ?_, ?_⟩
    · intro s1 h1
      simp only [runQueue, Except.ok.injEq] at h1
      subst h1
      exact ⟨h, hn, rfl⟩
    · intro hc
      cases hc
    · intro hc
      cases hc
    · intro _
      exact ⟨s, rfl⟩
  | cons op ops ih =>
    rcases queueStep_cases s op h hn with ⟨s1, hs, hwf, hn1, hend⟩ | ⟨hal, herr⟩
    · obtain ⟨i1, i2, i3, i4⟩ := ih s1 hwf hn1
      have hrun : runQueue s (op :: ops) = runQueue s1 ops := by
        simp only [runQueue, hs]
      rw [hrun]
      refine ⟨?_, i2, ?_, ?_⟩
      · intro s2 h2
        obtain ⟨j1, j2, j3⟩ := i1 s2 h2
        exact ⟨j1, j2, j3.trans hend⟩
      · intro hc
        exact List.mem_cons_of_mem _ (i3 hc)
      · intro ha
        simp only [runQueueAllowed, hs, Bool.and_eq_true] at ha
        exact i4 ha.2
    · have hrun : ∀ f, queueStep s op = .error f → runQueue s (op :: ops) = .error f := by
        intro f hf
        simp only [runQueue, hf]
      refine ⟨?_, ?_, ?_, ?_⟩
      · intro s2 h2
        rcases herr with e1 | e1 | e1 | ⟨e1, -⟩ <;>
        · rw [hrun _ e1] at h2
          cases h2
      · intro hc
        rcases herr with e1 | e1 | e1 | ⟨e1, -⟩ <;>
        · rw [hrun _ e1] at hc
          cases hc
      · intro hc
        rcases herr with e1 | e1 | e1 | ⟨e1, e2⟩
        · rw [hrun _ e1] at hc
          cases hc
        · rw [hrun _ e1] at hc
          cases hc
        · rw [hrun _ e1] at hc
          cases hc
        · rw [e2]
          exact List.mem_cons_self _ _
      · intro ha
        simp only [runQueueAllowed, hal, Bool.false_and] at ha
        cases ha

/-- C32 (counterexample): after `QEQueue_init` with a ring of 255 slots no
event is queued and `frontEvt` is null, but `nFree` is `(QEQueueCtr)256 = 0`
and not `end + 1 = 256`, and `end + 1 - nFree` is 256, not the number 0 of
queued events. -/
theorem C32_counterexample :
    (QEQueue_init ⟨0, [], 0, 0, 0, 0, 0⟩ (List.replicate 255 0) 255).frontEvt = 0 ∧
      (QEQueue_init ⟨0, [], 0, 0, 0, 0, 0⟩ (List.replicate 255 0) 255).toList = [] ∧
      (QEQueue_init ⟨0, [], 0, 0, 0, 0, 0⟩ (List.replicate 255 0) 255).end_ = 255 ∧
      (QEQueue_init ⟨0, [], 0, 0, 0, 0, 0⟩ (List.replicate 255 0) 255).nFree = 0 ∧
      ¬ ((QEQueue_init ⟨0, [], 0, 0, 0, 0, 0⟩ (List.replicate 255 0) 255).frontEvt = 0 ↔
        (QEQueue_init ⟨0, [], 0, 0, 0, 0, 0⟩ (List.replicate 255 0) 255).nFree =
          (QEQueue_init ⟨0, [], 0, 0, 0, 0, 0⟩ (List.replicate 255 0) 255).end_ + 1) ∧
      (QEQueue_init ⟨0, [], 0, 0, 0, 0, 0⟩ (List.replicate 255 0) 255).end_ + 1 -
        (QEQueue_init ⟨0, [], 0, 0, 0, 0, 0⟩ (List.replicate 255 0) 255).nFree ≠ 0 := by
  refine ⟨rfl, rfl, rfl, rfl, ?_, by decide⟩
  intro h
  have := h.mp rfl
  revert this
  decide

/-- C32 (amended): a queue is initialised by `QEQueue_init` with a ring of
`qLen <= 254` slots and then used through any sequence of `QEQueue_post`,
`QEQueue_postLIFO` and `QEQueue_get`; `n` counts the events posted and not
yet retrieved. In every state reached: `frontEvt` is null iff `n = 0` iff
`nFree = end + 1`; `n = end + 1 - nFree`, which is also the length of the
queue content; `nMin <= nFree`; and when `end > 0` both `head` and `tail`
are below `end`, which does not exceed the size of the ring. No sequence of
operations fails assertion 410; an access outside the ring never happens
(the only undefined behaviour is `QEQueue_postLIFO` of a null event); and
when the callers keep the preconditions (non-null events, a free slot for
`QEQueue_postLIFO` and for `QEQueue_post` with `QF_NO_MARGIN`) every
operation returns. -/
theorem C32_queue_invariant (me : QEQueue) (qSto : List Nat) (qLen : Nat) (mem : EvtMem)
    (ops : List QueueOp) (hlen : qSto.length = qLen) (hq : qLen ≤ 254) :
    (∀ q mem1 n, runQueue (QEQueue_init me qSto qLen, mem, 0) ops = .ok (q, mem1, n) →
      (q.frontEvt = 0 ↔ n = 0) ∧ (n = 0 ↔ q.nFree = q.end_ + 1) ∧
      n = q.end_ + 1 - q.nFree ∧ n = q.toList.length ∧ q.nMin ≤ q.nFree ∧ q.end_ = qLen ∧
      (0 < q.end_ → q.head < q.end_ ∧ q.tail < q.end_) ∧ q.end_ ≤ q.ring.length) ∧
    runQueue (QEQueue_init me qSto qLen, mem, 0) ops ≠ .error (.assertion .qf_qeq 410) ∧
    (runQueue (QEQueue_init me qSto qLen, mem, 0) ops = .error .undefined →
      QueueOp.postLIFO 0 ∈ ops) ∧
    (runQueueAllowed (QEQueue_init me qSto qLen, mem, 0) ops = true →
      ∃ s1, runQueue (QEQueue_init me qSto qLen, mem, 0) ops = .ok s1) := by
  have hwf := (init_WF me qSto qLen hlen (by omega)).1
  have hend : (QEQueue_init me qSto qLen).end_ = qLen := by
    have h1 : qLen % 256 = qLen := Nat.mod_eq_of_lt (by omega)
    by_cases h0 : qLen = 0 <;> simp [QEQueue_init, u8, h0, h1]
  have hnf : (QEQueue_init me qSto qLen).nFree = qLen + 1 := by
    have h2 : (qLen + 1) % 256 = qLen + 1 := Nat.mod_eq_of_lt (by omega)
    by_cases h0 : qLen = 0 <;> simp [QEQueue_init, u8, h0, h2]
  obtain ⟨i1, i2, i3, i4⟩ := runQueue_spec ops (QEQueue_init me qSto qLen, mem, 0) hwf
    (by simp only [hend, hnf]; omega)
  refine ⟨?_, i2, i3, i4⟩
  intro q mem1 n hrun
  obtain ⟨j1, j2, j3⟩ := i1 _ hrun
  simp only at j1 j2 j3
  have hl := toList_length q j1
  obtain ⟨w1, w2, w3, w4, w5, w6, w7⟩ := j1
  refine ⟨?_, ?_, by omega, by omega, w4, j3.trans hend, ?_, w2⟩
  · constructor
    · intro hf
      have := w5.1 hf
      omega
    · intro h0
      exact w5.2 (by omega)
  · constructor
    · intro h0
      omega
    · intro h0
      omega
  · intro hpos
    obtain ⟨t1, t2⟩ := w6 hpos
    refine ⟨?_, t1⟩
    rw [t2]
    unfold slot
    split <;> omega

theorem C32_queue_invariant_witness :
    [(0 : Nat), 0].length = 2 ∧ 2 ≤ 254 ∧
      ∃ q mem1 n, runQueue (QEQueue_init ⟨0, [], 0, 0, 0, 0, 0⟩ [0, 0] 2,
          (fun _ => ⟨4, 0, 0⟩), 0)
          [.post 11 0, .post 12 0, .postLIFO 22, .get, .post 13 1] = .ok (q, mem1, n) ∧
        n = 2 ∧ q.toList = [11, 12] ∧
        (q.frontEvt = 0 ↔ n = 0) ∧ (n = 0 ↔ q.nFree = q.end_ + 1) ∧
        n = q.end_ + 1 - q.nFree ∧ n = q.toList.length ∧ q.nMin ≤ q.nFree ∧ q.end_ = 2 ∧
        (0 < q.end_ → q.head < q.end_ ∧ q.tail < q.end_) ∧ q.end_ ≤ q.ring.length :=
  ⟨rfl, by decide, _, _, _, rfl, rfl, rfl,
    (C32_queue_invariant ⟨0, [], 0, 0, 0, 0, 0⟩ [0, 0] 2 (fun _ => ⟨4, 0, 0⟩)
      [.post 11 0, .post 12 0, .postLIFO 22, .get, .post 13 1] rfl (by decide)).1 _ _ _ rfl⟩

/-! ### The ready set of the cooperative kernel -/

theorem gc_frame (st st1 : QFState) (e : Nat) (h : QF_gc st e = .ok st1) :
    st1.aobj = st.aobj ∧ st1.QF_active_ = st.QF_active_ ∧
      st1.QV_readySet_ = st.QV_readySet_ := by
  unfold QF_gc at h
  split at h
  · split at h
    · cases h; exact ⟨rfl, rfl, rfl⟩
    · dsimp only at h
      split at h
      · cases h
      · split at h
        · cases h
        · split at h
          · cases h
          · cases h; exact ⟨rfl, rfl, rfl⟩
  · cases h; exact ⟨rfl, rfl, rfl⟩

theorem put_err (p : QMPool) (bmem : BlockMem) (b : Nat) (f : Fault)
    (h : QMPool_put p bmem b = .error f) : f ≠ .assertion .qf_actq 0 := by
  unfold QMPool_put at h
  split at h
  · cases h; simp
  · cases h

theorem gc_err (st : QFState) (e : Nat) (f : Fault) (h : QF_gc st e = .error f) :
    f ≠ .assertion .qf_actq 0 := by
  unfold QF_gc at h
  split at h
  · split at h
    · cases h
    · dsimp only at h
      split at h
      · cases h; simp
      · split at h
        · cases h; simp
        · split at h
          · rename_i f1 hp
            cases h
            exact put_err _ _ _ _ hp
          · cases h
  · cases h

theorem post_effect (st st1 : QFState) (a e margin : Nat) (b : Bool)
    (h : QActive_post_ st a e margin = .ok (b, st1)) : PostEffect st st1 a := by
  unfold QActive_post_ at h
  by_cases he : e = 0
  · rw [if_pos he] at h
    cases h
  · rw [if_neg he] at h
    dsimp only at h
    by_cases hp : (st.emem e).poolId_ ≠ 0 <;>
    by_cases hm : margin = QF_NO_MARGIN <;>
    by_cases h1 : (st.aobj a).eQueue.nFree > 0 <;>
    by_cases h2 : (st.aobj a).eQueue.nFree > u8 margin <;>
    by_cases hf : (st.aobj a).eQueue.frontEvt = 0 <;>
    by_cases hn : (st.aobj a).eQueue.nMin > dec8 (st.aobj a).eQueue.nFree <;>
    by_cases hh : (st.aobj a).eQueue.head = 0 <;>
    simp only [hp, hm, h1, h2, hf, hn, hh, if_true, if_false, Bool.false_eq_true, not_true_eq_false,
      not_false_eq_true, ne_eq] at h <;>
    first
    | (exfalso; cases h; done)
    | (simp only [Except.ok.injEq, Prod.mk.injEq] at h
       obtain ⟨-, rfl⟩ := h
       exact ⟨rfl, fun c hc => by simp only [Function.update_noteq hc],
         by simp only [Function.update_same],
         Or.inr ⟨by simp only [Function.update_same]; exact he, rfl⟩⟩)
    | (split at h
       · cases h
       · simp only [Except.ok.injEq, Prod.mk.injEq] at h
         obtain ⟨-, rfl⟩ := h
         exact ⟨rfl, fun c hc => by simp only [Function.update_noteq hc],
           by simp only [Function.update_same],
           Or.inl ⟨by simp only [Function.update_same, hf, hh, if_true, if_false], rfl⟩⟩)
    | (split at h
       · cases h
       · rename_i st2 hg
         simp only [Except.ok.injEq, Prod.mk.injEq] at h
         obtain ⟨-, rfl⟩ := h
         obtain ⟨g1, g2, g3⟩ := gc_frame _ _ _ hg
         exact ⟨g2, fun c _ => by rw [g1], by rw [g1], Or.inl ⟨by rw [g1], g3⟩⟩)

theorem ringWrite_err (ring : List Nat) (i v : Nat) (f : Fault)
    (h : ringWrite ring i v = .error f) : f = .undefined := by
  unfold ringWrite at h
  split at h
  · cases h
  · cases h; rfl

theorem ringRead_err (ring : List Nat) (i : Nat) (f : Fault)
    (h : ringRead ring i = .error f) : f = .undefined := by
  unfold ringRead at h
  split at h
  · cases h
  · cases h; rfl

theorem post_err (st : QFState) (a e margin : Nat) (f : Fault)
    (h : QActive_post_ st a e margin = .error f) : f ≠ .assertion .qf_actq 0 := by
  unfold QActive_post_ at h
  by_cases he : e = 0
  · rw [if_pos he] at h
    cases h
    simp
  · rw [if_neg he] at h
    dsimp only at h
    by_cases hp : (st.emem e).poolId_ ≠ 0 <;>
    by_cases hm : margin = QF_NO_MARGIN <;>
    by_cases h1 : (st.aobj a).eQueue.nFree > 0 <;>
    by_cases h2 : (st.aobj a).eQueue.nFree > u8 margin <;>
    by_cases hf : (st.aobj a).eQueue.frontEvt = 0 <;>
    by_cases hn : (st.aobj a).eQueue.nMin > dec8 (st.aobj a).eQueue.nFree <;>
    by_cases hh : (st.aobj a).eQueue.head = 0 <;>
    simp only [hp, hm, h1, h2, hf, hn, hh, if_true, if_false, Bool.false_eq_true, not_true_eq_false,
      not_false_eq_true, ne_eq] at h <;>
    first
    | (cases h <;> simp)
    | (split at h
       · rename_i f1 hw
         cases h
         rw [ringWrite_err _ _ _ _ hw]
         simp
       · cases h)
    | (split at h
       · rename_i f1 hg
         cases h
         exact gc_err _ _ _ hg
       · cases h)

theorem postLIFO_effect (st st1 : QFState) (a e : Nat)
    (h : QActive_postLIFO_ st a e = .ok st1) : PostEffect st st1 a := by
  unfold QActive_postLIFO_ at h
  dsimp only at h
  by_cases hn0 : (st.aobj a).eQueue.nFree = 0
  · rw [if_pos (not_not.mpr hn0)] at h
    cases h
  · rw [if_neg (not_not.mpr hn0)] at h
    by_cases he : e = 0
    · rw [if_pos he] at h
      cases h
    · rw [if_neg he] at h
      by_cases hp : (st.emem e).poolId_ ≠ 0 <;>
      by_cases hf : (st.aobj a).eQueue.frontEvt = 0 <;>
      by_cases hn : (st.aobj a).eQueue.nMin > dec8 (st.aobj a).eQueue.nFree <;>
      by_cases ht : u8 ((st.aobj a).eQueue.tail + 1) = (st.aobj a).eQueue.end_ <;>
      simp only [hp, hf, hn, ht, if_true, if_false, not_true_eq_false,
        not_false_eq_true, ne_eq] at h <;>
      first
      | (simp only [Except.ok.injEq] at h
         subst h
         exact ⟨rfl, fun c hc => by simp only [Function.update_noteq hc],
           by simp only [Function.update_same],
           Or.inr ⟨by simp only [Function.update_same]; exact he, rfl⟩⟩)
      | (split at h
         · cases h
         · simp only [Except.ok.injEq] at h
           subst h
           exact ⟨rfl, fun c hc => by simp only [Function.update_noteq hc],
             by simp only [Function.update_same],
             Or.inl ⟨by simp only [Function.update_same, hf, he], rfl⟩⟩)

theorem postLIFO_err (st : QFState) (a e : Nat) (f : Fault)
    (h : QActive_postLIFO_ st a e = .error f) : f ≠ .assertion .qf_actq 0 := by
  unfold QActive_postLIFO_ at h
  dsimp only at h
  by_cases hn0 : (st.aobj a).eQueue.nFree = 0
  · rw [if_pos (not_not.mpr hn0)] at h
    cases h
    simp
  · rw [if_neg (not_not.mpr hn0)] at h
    by_cases he : e = 0
    · rw [if_pos he] at h
      cases h
      simp
    · rw [if_neg he] at h
      by_cases hp : (st.emem e).poolId_ ≠ 0 <;>
      by_cases hf : (st.aobj a).eQueue.frontEvt = 0 <;>
      by_cases hn : (st.aobj a).eQueue.nMin > dec8 (st.aobj a).eQueue.nFree <;>
      by_cases ht : u8 ((st.aobj a).eQueue.tail + 1) = (st.aobj a).eQueue.end_ <;>
      simp only [hp, hf, hn, ht, if_true, if_false, not_true_eq_false,
        not_false_eq_true, ne_eq] at h <;>
      first
      | cases h
      | (split at h
         · rename_i f1 hw
           cases h
           rw [ringWrite_err _ _ _ _ hw]
           simp
         · cases h)

theorem registered_prio (started : List Nat) (st : QFState) (a : Nat)
    (hreg : Registry started st) (ha : a ∈ started) :
    a ≠ 0 ∧ st.QF_active_[(st.aobj a).prio]? = some a ∧ 1 ≤ (st.aobj a).prio ∧
      (st.aobj a).prio ≤ 16 := by
  obtain ⟨r1, -, r3, r4⟩ := hreg
  obtain ⟨h0, h1⟩ := r4 a ha
  refine ⟨h0, h1, (r3 _ _ h1 h0).1, ?_⟩
  have hlt : (st.aobj a).prio < st.QF_active_.length := by
    by_contra hcon
    rw [List.getElem?_eq_none (by omega)] at h1
    cases h1
  rw [r1] at hlt
  unfold QF_MAX_ACTIVE at hlt
  omega

theorem effect_inv (busy : Nat) (started : List Nat) (st st1 : QFState) (a : Nat)
    (hreg : Registry started st) (hinv : ReadyInv busy st) (ha : a ∈ started)
    (h : PostEffect st st1 a) : Registry started st1 ∧ ReadyInv busy st1 := by
  obtain ⟨a0, areg, ap1, ap16⟩ := registered_prio started st a hreg ha
  obtain ⟨r1, r2, r3, r4⟩ := hreg
  obtain ⟨e1, e2, e3, e4⟩ := h
  have hprio : ∀ b, (st1.aobj b).prio = (st.aobj b).prio := by
    intro b
    by_cases hb : b = a
    · rw [hb, e3]
    · rw [e2 b hb]
  refine ⟨⟨by rw [e1]; exact r1, ?_, ?_, ?_⟩, ?_⟩
  · rcases e4 with ⟨-, e5⟩ | ⟨-, e5⟩
    · rw [e5]; exact r2
    · rw [e5]; exact insert_lt _ _
  · intro p b hb hb0
    rw [e1] at hb
    rw [hprio]
    exact r3 p b hb hb0
  · intro b hb
    rw [e1, hprio]
    exact r4 b hb
  · intro p hp1 hp16
    have hold := hinv p hp1 hp16
    unfold QF_MAX_ACTIVE at hp16
    have hbit : QPSet_hasElement st.QV_readySet_ p = true →
        QPSet_hasElement st1.QV_readySet_ p = true := by
      intro hb
      rcases e4 with ⟨-, e5⟩ | ⟨-, e5⟩
      · rw [e5]; exact hb
      · rw [e5, insert_hasElement _ _ _ ap1 ap16 hp1 hp16 r2, hb]
        rfl
    by_cases hpb : p = busy
    · rw [if_pos hpb] at hold ⊢
      exact hbit hold
    · rw [if_neg hpb] at hold ⊢
      rw [e1]
      by_cases hpa : p = (st.aobj a).prio
      · rw [hpa, areg]
        rw [hpa, areg] at hold
        have hsome : ∀ s : QFState, (∃ c, some a = some c ∧ c ≠ 0 ∧
            (s.aobj c).eQueue.frontEvt ≠ 0) ↔ (s.aobj a).eQueue.frontEvt ≠ 0 := by
          intro s
          constructor
          · rintro ⟨c, hc, -, hf⟩
            cases hc
            exact hf
          · intro hf
            exact ⟨a, rfl, a0, hf⟩
        rw [hsome] at hold ⊢
        rcases e4 with ⟨e4, e5⟩ | ⟨e4, e5⟩
        · rw [e5, hold]
          exact not_congr e4.symm
        · rw [e5, insert_hasElement _ _ _ ap1 ap16 ap1 ap16 r2]
          simp only [decide_True, Bool.or_true, true_iff]
          exact e4
      · have hbit2 : QPSet_hasElement st1.QV_readySet_ p = QPSet_hasElement st.QV_readySet_ p := by
          rcases e4 with ⟨-, e5⟩ | ⟨-, e5⟩
          · rw [e5]
          · rw [e5, insert_hasElement _ _ _ ap1 ap16 hp1 hp16 r2]
            simp only [hpa, decide_False, Bool.or_false]
        rw [hbit2, hold]
        constructor
        · rintro ⟨c, hc, hc0, hf⟩
          have hca : c ≠ a := by
            intro hca
            rw [hca] at hc
            exact hpa (r3 p a hc a0).2.1.symm
          exact ⟨c, hc, hc0, by rw [e2 c hca]; exact hf⟩
        · rintro ⟨c, hc, hc0, hf⟩
          have hca : c ≠ a := by
            intro hca
            rw [hca] at hc
            exact hpa (r3 p a hc a0).2.1.symm
          exact ⟨c, hc, hc0, by rw [← e2 c hca]; exact hf⟩

theorem get_effect (st st1 : QFState) (a e : Nat) (h : QActive_get_ st a = .ok (e, st1)) :
    st1.QF_active_ = st.QF_active_ ∧ st1.QV_readySet_ = st.QV_readySet_ ∧
      (∀ b, b ≠ a → st1.aobj b = st.aobj b) ∧ (st1.aobj a).prio = (st.aobj a).prio := by
  unfold QActive_get_ at h
  dsimp only at h
  by_cases hf : (st.aobj a).eQueue.frontEvt ≠ 0
  · rw [if_neg (not_not.mpr hf)] at h
    by_cases hn : u8 ((st.aobj a).eQueue.nFree + 1) ≤ (st.aobj a).eQueue.end_
    · rw [if_pos hn] at h
      split at h
      · cases h
      · simp only [Except.ok.injEq, Prod.mk.injEq] at h
        obtain ⟨-, rfl⟩ := h
        exact ⟨rfl, rfl, fun c hc => by simp only [Function.update_noteq hc],
          by simp only [Function.update_same]⟩
    · rw [if_neg hn] at h
      split at h
      · cases h
      · simp only [Except.ok.injEq, Prod.mk.injEq] at h
        obtain ⟨-, rfl⟩ := h
        exact ⟨rfl, rfl, fun c hc => by simp only [Function.update_noteq hc],
          by simp only [Function.update_same]⟩
  · rw [if_pos hf] at h
    cases h

theorem get_err (st : QFState) (a : Nat) (f : Fault) (h : QActive_get_ st a = .error f)
    (hf : (st.aobj a).eQueue.frontEvt ≠ 0) : f ≠ .assertion .qf_actq 0 := by
  unfold QActive_get_ at h
  dsimp only at h
  rw [if_neg (not_not.mpr hf)] at h
  by_cases hn : u8 ((st.aobj a).eQueue.nFree + 1) ≤ (st.aobj a).eQueue.end_
  · rw [if_pos hn] at h
    split at h
    · rename_i f1 hr
      cases h
      rw [ringRead_err _ _ _ hr]
      simp
    · cases h
  · rw [if_neg hn] at h
    split at h
    · cases h
      simp
    · cases h

theorem runPosts_inv (busy : Nat) (started : List Nat) :
    ∀ (acts : List PostOp) (st : QFState), Registry started st → ReadyInv busy st →
      (∀ p, p ∈ acts → p.target ∈ started) →
      (∀ st1, runPosts st acts = .ok st1 → Registry started st1 ∧ ReadyInv busy st1) ∧
      runPosts st acts ≠ .error (.assertion .qf_actq 0) := by
  intro acts
  induction acts with
  | nil =>
    intro st hreg hinv _
    refine ⟨?_, ?_⟩
    · intro st1 h
      cases h
      exact ⟨hreg, hinv⟩
    · intro h
      cases h
  | cons p ps ih =>
    intro st hreg hinv htar
    have hp := htar p (List.mem_cons_self _ _)
    have hps : ∀ q, q ∈ ps → q.target ∈ started := fun q hq => htar q (List.mem_cons_of_mem _ hq)
    cases p with
    | post a e margin =>
      cases hpost : QActive_post_ st a e margin with
      | error f =>
        have herr := post_err st a e margin f hpost
        simp only [runPosts, hpost]
        refine ⟨?_, ?_⟩
        · intro st1 h
          cases h
        · intro h
          cases h
          exact herr rfl
      | ok r =>
        obtain ⟨b, st2⟩ := r
        obtain ⟨g1, g2⟩ := effect_inv busy started st st2 a hreg hinv hp
          (post_effect st st2 a e margin b hpost)
        simp only [runPosts, hpost]
        exact ih st2 g1 g2 hps
    | postLIFO a e =>
      cases hpost : QActive_postLIFO_ st a e with
      | error f =>
        have herr := postLIFO_err st a e f hpost
        simp only [runPosts, hpost]
        refine ⟨?_, ?_⟩
        · intro st1 h
          cases h
        · intro h
          cases h
          exact herr rfl
      | ok st2 =>
        obtain ⟨g1, g2⟩ := effect_inv busy started st st2 a hreg hinv hp
          (postLIFO_effect st st2 a e hpost)
        simp only [runPosts, hpost]
        exact ih st2 g1 g2 hps

theorem inv_congr (busy : Nat) (started : List Nat) (st st1 : QFState)
    (h1 : st1.aobj = st.aobj) (h2 : st1.QF_active_ = st.QF_active_)
    (h3 : st1.QV_readySet_ = st.QV_readySet_) (hreg : Registry started st)
    (hinv : ReadyInv busy st) : Registry started st1 ∧ ReadyInv busy st1 := by
  unfold Registry ReadyInv at *
  rw [h1, h2, h3]
  exact ⟨hreg, hinv⟩

theorem registered_front (started : List Nat) (st : QFState) (a : Nat)
    (hreg : Registry started st) (ha : a ∈ started) :
    (∃ c, st.QF_active_[(st.aobj a).prio]? = some c ∧ c ≠ 0 ∧
      (st.aobj c).eQueue.frontEvt ≠ 0) ↔ (st.aobj a).eQueue.frontEvt ≠ 0 := by
  obtain ⟨a0, areg, -, -⟩ := registered_prio started st a hreg ha
  constructor
  · rintro ⟨c, hc, -, hf⟩
    rw [areg] at hc
    cases hc
    exact hf
  · intro hf
    exact ⟨a, areg, a0, hf⟩

theorem ready_get_inv (started : List Nat) (st st1 : QFState) (a e : Nat)
    (hreg : Registry started st) (hinv : ReadyInv 0 st) (ha : a ∈ started)
    (hbit : QPSet_hasElement st.QV_readySet_ (st.aobj a).prio = true)
    (h : QActive_get_ st a = .ok (e, st1)) :
    Registry started st1 ∧ ReadyInv (st.aobj a).prio st1 ∧
      (st1.aobj a).prio = (st.aobj a).prio := by
  obtain ⟨g1, g2, g3, g4⟩ := get_effect st st1 a e h
  obtain ⟨a0, areg, ap1, ap16⟩ := registered_prio started st a hreg ha
  obtain ⟨r1, r2, r3, r4⟩ := hreg
  have hprio : ∀ b, (st1.aobj b).prio = (st.aobj b).prio := by
    intro b
    by_cases hb : b = a
    · rw [hb, g4]
    · rw [g3 b hb]
  refine ⟨⟨by rw [g1]; exact r1, by rw [g2]; exact r2, ?_, ?_⟩, ?_, g4⟩
  · intro p b hb hb0
    rw [g1] at hb
    rw [hprio]
    exact r3 p b hb hb0
  · intro b hb
    rw [g1, hprio]
    exact r4 b hb
  · intro p hp1 hp16
    have hold := hinv p hp1 hp16
    rw [if_neg (by omega)] at hold
    rw [g1, g2]
    by_cases hpa : p = (st.aobj a).prio
    · rw [if_pos hpa, hpa]
      exact hbit
    · rw [if_neg hpa, hold]
      constructor
      · rintro ⟨c, hc, hc0, hf⟩
        have hca : c ≠ a := by
          intro hca
          rw [hca] at hc
          exact hpa (r3 p a hc a0).2.1.symm
        exact ⟨c, hc, hc0, by rw [g3 c hca]; exact hf⟩
      · rintro ⟨c, hc, hc0, hf⟩
        have hca : c ≠ a := by
          intro hca
          rw [hca] at hc
          exact hpa (r3 p a hc a0).2.1.symm
        exact ⟨c, hc, hc0, by rw [← g3 c hca]; exact hf⟩

theorem finish_inv (started : List Nat) (st : QFState) (a : Nat)
    (hreg : Registry started st) (hinv : ReadyInv (st.aobj a).prio st) (ha : a ∈ started) :
    Registry started (if (st.aobj a).eQueue.frontEvt = 0 then
        { st with QV_readySet_ := QPSet_remove st.QV_readySet_ (st.aobj a).prio } else st) ∧
      ReadyInv 0 (if (st.aobj a).eQueue.frontEvt = 0 then
        { st with QV_readySet_ := QPSet_remove st.QV_readySet_ (st.aobj a).prio } else st) := by
  obtain ⟨a0, areg, ap1, ap16⟩ := registered_prio started st a hreg ha
  have hfront := registered_front started st a hreg ha
  by_cases hf : (st.aobj a).eQueue.frontEvt = 0
  · rw [if_pos hf]
    refine ⟨⟨hreg.1, ?_, hreg.2.2.1, hreg.2.2.2⟩, ?_⟩
    · show QPSet_remove st.QV_readySet_ (st.aobj a).prio < 65536
      unfold QPSet_remove
      exact lt_of_le_of_lt Nat.and_le_left hreg.2.1
    · intro p hp1 hp16
      have hold := hinv p hp1 hp16
      unfold QF_MAX_ACTIVE at hp16
      rw [if_neg (by omega)]
      show QPSet_hasElement (QPSet_remove st.QV_readySet_ (st.aobj a).prio) p = true ↔
        ∃ c, st.QF_active_[p]? = some c ∧ c ≠ 0 ∧ (st.aobj c).eQueue.frontEvt ≠ 0
      rw [remove_hasElement _ _ _ ap1 ap16 hp1 hp16]
      by_cases hpa : p = (st.aobj a).prio
      · rw [hpa, hfront]
        simp only [ne_eq, not_true_eq_false, decide_False, Bool.and_false, Bool.false_eq_true,
          false_iff, not_not]
        exact hf
      · rw [if_neg hpa] at hold
        rw [← hold]
        simp only [ne_eq, hpa, not_false_eq_true, decide_True, Bool.and_true]
  · rw [if_neg hf]
    refine ⟨hreg, ?_⟩
    intro p hp1 hp16
    have hold := hinv p hp1 hp16
    rw [if_neg (by omega)]
    by_cases hpa : p = (st.aobj a).prio
    · rw [if_pos hpa] at hold
      rw [hold, hpa, hfront]
      simp only [true_iff]
      exact hf
    · rw [if_neg hpa] at hold
      exact hold

theorem runPosts_frame : ∀ (acts : List PostOp) (st st1 : QFState),
    runPosts st acts = .ok st1 →
      st1.QF_active_ = st.QF_active_ ∧ ∀ b, (st1.aobj b).prio = (st.aobj b).prio := by
  intro acts
  induction acts with
  | nil =>
    intro st st1 h
    cases h
    exact ⟨rfl, fun _ => rfl⟩
  | cons p ps ih =>
    intro st st1 h
    have step : ∀ st2 a, PostEffect st st2 a → runPosts st2 ps = .ok st1 →
        st1.QF_active_ = st.QF_active_ ∧ ∀ b, (st1.aobj b).prio = (st.aobj b).prio := by
      intro st2 a he h2
      obtain ⟨i1, i2⟩ := ih st2 st1 h2
      obtain ⟨e1, e2, e3, -⟩ := he
      refine ⟨i1.trans e1, ?_⟩
      intro b
      rw [i2 b]
      by_cases hb : b = a
      · rw [hb, e3]
      · rw [e2 b hb]
    cases p with
    | post a e margin =>
      cases hpost : QActive_post_ st a e margin with
      | error f =>
        simp only [runPosts, hpost] at h
        cases h
      | ok r =>
        obtain ⟨b, st2⟩ := r
        simp only [runPosts, hpost] at h
        exact step st2 a (post_effect st st2 a e margin b hpost) h
    | postLIFO a e =>
      cases hpost : QActive_postLIFO_ st a e with
      | error f =>
        simp only [runPosts, hpost] at h
        cases h
      | ok st2 =>
        simp only [runPosts, hpost] at h
        exact step st2 a (postLIFO_effect st st2 a e hpost) h

theorem iter_inv (started : List Nat) (acts : List PostOp) (st : QFState)
    (hreg : Registry started st) (hinv : ReadyInv 0 st)
    (htar : ∀ p, p ∈ acts → p.target ∈ started) :
    (∀ r st1, QF_run_iter (fun s _ _ => runPosts s acts) st = .ok (r, st1) →
      Registry started st1 ∧ ReadyInv 0 st1) ∧
    QF_run_iter (fun s _ _ => runPosts s acts) st ≠ .error (.assertion .qf_actq 0) := by
  unfold QF_run_iter
  by_cases hne : st.QV_readySet_ = 0
  · have hnot : QPSet_notEmpty st.QV_readySet_ = false := by simp [QPSet_notEmpty, hne]
    rw [hnot]
    simp only [Bool.false_eq_true, if_false]
    refine ⟨?_, ?_⟩
    · intro r st1 h
      cases h
      exact ⟨hreg, hinv⟩
    · intro h
      cases h
  · have hnot : QPSet_notEmpty st.QV_readySet_ = true := by simp [QPSet_notEmpty, hne]
    rw [hnot]
    simp only [if_true]
    obtain ⟨f1, f16, fbit, -⟩ := findMax_spec _ hne hreg.2.1
    have hel : QPSet_hasElement st.QV_readySet_ (QPSet_findMax st.QV_readySet_) = true := by
      rw [hasElement_eq _ _ f1 f16]
      exact fbit
    have hp := hinv (QPSet_findMax st.QV_readySet_) f1 f16
    rw [if_neg (by omega)] at hp
    obtain ⟨a, ha, ha0, hfront⟩ := hp.mp hel
    obtain ⟨-, hprio, hast⟩ := hreg.2.2.1 _ a ha ha0
    rw [ha]
    simp only [ha0, if_false]
    cases hget : QActive_get_ st a with
    | error f =>
      have herr := get_err st a f hget hfront
      refine ⟨?_, ?_⟩
      · intro r st1 h
        cases h
      · intro h
        cases h
        exact herr rfl
    | ok r =>
      obtain ⟨e, st2⟩ := r
      rw [← hprio] at hel
      obtain ⟨hreg2, hinv2, hp2⟩ := ready_get_inv started st st2 a e hreg hinv hast hel hget
      obtain ⟨d1, d2⟩ := runPosts_inv (st.aobj a).prio started acts st2 hreg2 hinv2 htar
      simp only []
      cases hd : runPosts st2 acts with
      | error f =>
        refine ⟨?_, ?_⟩
        · intro r st1 h
          cases h
        · intro h
          cases h
          exact d2 hd
      | ok st3 =>
        obtain ⟨hreg3, hinv3⟩ := d1 st3 hd
        obtain ⟨-, hp3⟩ := runPosts_frame acts st2 st3 hd
        simp only []
        cases hgc : QF_gc st3 e with
        | error f =>
          have herr := gc_err st3 e f hgc
          refine ⟨?_, ?_⟩
          · intro r st1 h
            cases h
          · intro h
            cases h
            exact herr rfl
        | ok st4 =>
          obtain ⟨c1, c2, c3⟩ := gc_frame st3 st4 e hgc
          obtain ⟨hreg4, hinv4⟩ := inv_congr _ started st3 st4 c1 c2 c3 hreg3 hinv3
          have hp4 : (st4.aobj a).prio = QPSet_findMax st.QV_readySet_ := by
            rw [c1, hp3, hp2, hprio]
          rw [← hp4.trans hprio.symm] at hinv4
          have hfin := finish_inv started st4 a hreg4 hinv4 hast
          rw [hp4] at hfin
          simp only []
          refine ⟨?_, ?_⟩
          · intro r st1 h
            by_cases hf : (st4.aobj a).eQueue.frontEvt = 0
            · rw [if_pos hf] at h hfin
              cases h
              exact hfin
            · rw [if_neg hf] at h hfin
              cases h
              exact hfin
          · intro h
            by_cases hf : (st4.aobj a).eQueue.frontEvt = 0
            · rw [if_pos hf] at h
              cases h
            · rw [if_neg hf] at h
              cases h

theorem add_inv (started : List Nat) (st0 st : QFState) (me : Nat)
    (hreg : Registry started st0) (hinv : ReadyInv 0 st0) (hme0 : me ≠ 0)
    (hnew : me ∉ started) (h1 : st.QF_active_ = st0.QF_active_)
    (h2 : st.QV_readySet_ = st0.QV_readySet_) (h3 : ∀ b, b ≠ me → st.aobj b = st0.aobj b)
    (h4 : (st.aobj me).eQueue.frontEvt = 0) :
    (∀ st1, QF_add_ st me = .ok st1 → Registry (me :: started) st1 ∧ ReadyInv 0 st1) ∧
      QF_add_ st me ≠ .error (.assertion .qf_actq 0) := by
  obtain ⟨r1, r2, r3, r4⟩ := hreg
  unfold QF_add_
  dsimp only
  by_cases hp : 0 < (st.aobj me).prio ∧ (st.aobj me).prio ≤ QF_MAX_ACTIVE
  · rw [if_neg (not_not.mpr hp)]
    obtain ⟨hp1, hp16⟩ := hp
    unfold QF_MAX_ACTIVE at hp16
    have hlt : (st.aobj me).prio < st0.QF_active_.length := by
      rw [r1]
      unfold QF_MAX_ACTIVE
      omega
    cases hr : st.QF_active_[(st.aobj me).prio]? with
    | none =>
      refine ⟨?_, ?_⟩
      · intro st1 h
        cases h
      · intro h
        cases h
    | some r =>
      by_cases hr0 : r = 0
      · subst hr0
        simp only [not_true_eq_false, if_false]
        rw [h1] at hr
        have hmem : ∀ c, c ∈ started → c ≠ me := by
          intro c hc hcm
          exact hnew (hcm ▸ hc)
        refine ⟨?_, ?_⟩
        · intro st1 h
          cases h
          refine ⟨⟨?_, ?_, ?_, ?_⟩, ?_⟩
          · show (st.QF_active_.set (st.aobj me).prio me).length = QF_MAX_ACTIVE + 1
            rw [List.length_set, h1]
            exact r1
          · show st.QV_readySet_ < 65536
            rw [h2]
            exact r2
          · intro p c hc hc0
            have hc : (st.QF_active_.set (st.aobj me).prio me)[p]? = some c := hc
            show 1 ≤ p ∧ (st.aobj c).prio = p ∧ c ∈ me :: started
            rw [h1] at hc
            by_cases hpp : (st.aobj me).prio = p
            · rw [hpp] at hc hlt
              rw [List.getElem?_set_self hlt] at hc
              cases hc
              exact ⟨by omega, hpp, List.mem_cons_self _ _⟩
            · rw [List.getElem?_set_ne hpp] at hc
              obtain ⟨q1, q2, q3⟩ := r3 p c hc hc0
              rw [h3 c (hmem c q3)]
              exact ⟨q1, q2, List.mem_cons_of_mem _ q3⟩
          · intro c hc
            show c ≠ 0 ∧ (st.QF_active_.set (st.aobj me).prio me)[(st.aobj c).prio]? = some c
            rw [h1]
            rcases List.mem_cons.mp hc with hc | hc
            · rw [hc]
              exact ⟨hme0, List.getElem?_set_self hlt⟩
            · obtain ⟨q1, q2⟩ := r4 c hc
              rw [h3 c (hmem c hc)]
              refine ⟨q1, ?_⟩
              have hne : (st.aobj me).prio ≠ (st0.aobj c).prio := by
                intro heq
                rw [← heq, hr] at q2
                cases q2
                exact q1 rfl
              rw [List.getElem?_set_ne hne]
              exact q2
          · intro p hp1' hp16'
            have hold := hinv p hp1' hp16'
            rw [if_neg (by omega)] at hold ⊢
            show QPSet_hasElement st.QV_readySet_ p = true ↔
              ∃ c, (st.QF_active_.set (st.aobj me).prio me)[p]? = some c ∧ c ≠ 0 ∧
                (st.aobj c).eQueue.frontEvt ≠ 0
            rw [h1, h2, hold]
            by_cases hpp : (st.aobj me).prio = p
            · rw [← hpp, hr, List.getElem?_set_self hlt]
              constructor
              · rintro ⟨c, hc, hc0, -⟩
                cases hc
                exact absurd rfl hc0
              · rintro ⟨c, hc, -, hf⟩
                cases hc
                exact absurd h4 hf
            · rw [List.getElem?_set_ne hpp]
              constructor
              · rintro ⟨c, hc, hc0, hf⟩
                exact ⟨c, hc, hc0, by rw [h3 c (hmem c (r3 p c hc hc0).2.2)]; exact hf⟩
              · rintro ⟨c, hc, hc0, hf⟩
                exact ⟨c, hc, hc0, by rw [← h3 c (hmem c (r3 p c hc hc0).2.2)]; exact hf⟩
        · intro h
          cases h
      · simp only [hr0, not_false_eq_true, if_true]
        refine ⟨?_, ?_⟩
        · intro st1 h
          cases h
        · intro h
          cases h
  · rw [if_pos hp]
    refine ⟨?_, ?_⟩
    · intro st1 h
      cases h
    · intro h
      cases h

theorem init_front (me : QEQueue) (qSto : List Nat) (qLen : Nat) :
    (QEQueue_init me qSto qLen).frontEvt = 0 := by
  unfold QEQueue_init
  dsimp only
  split <;> rfl

theorem start_inv (started : List Nat) (st : QFState) (me prio : Nat) (qSto : List Nat)
    (qLen stkSto : Nat) (acts : List PostOp)
    (hreg : Registry started st) (hinv : ReadyInv 0 st) (hme0 : me ≠ 0)
    (hnew : me ∉ started) (htar : ∀ p, p ∈ acts → p.target ∈ me :: started) :
    (∀ st1, QActive_start_ (fun s _ => runPosts s acts) st me prio qSto qLen stkSto = .ok st1 →
      Registry (me :: started) st1 ∧ ReadyInv 0 st1) ∧
    QActive_start_ (fun s _ => runPosts s acts) st me prio qSto qLen stkSto ≠
      .error (.assertion .qf_actq 0) := by
  unfold QActive_start_
  by_cases hpre : 0 < prio ∧ prio ≤ QF_MAX_ACTIVE ∧ stkSto = 0
  · rw [if_neg (not_not.mpr hpre)]
    dsimp only
    obtain ⟨a1, a2⟩ := add_inv started st
      { st with
        aobj := Function.update st.aobj me
          (QActive.mk (u8 prio) (QEQueue_init (st.aobj me).eQueue qSto qLen)) }
      me hreg hinv hme0 hnew rfl rfl
      (fun b hb => by simp only [Function.update_noteq hb])
      (by simp only [Function.update_same]; exact init_front _ _ _)
    cases hadd : QF_add_
      { st with
        aobj := Function.update st.aobj me
          (QActive.mk (u8 prio) (QEQueue_init (st.aobj me).eQueue qSto qLen)) } me with
    | error f =>
      refine ⟨?_, ?_⟩
      · intro st1 h
        cases h
      · intro h
        cases h
        exact a2 hadd
    | ok st2 =>
      obtain ⟨b1, b2⟩ := a1 st2 hadd
      exact runPosts_inv 0 (me :: started) acts st2 b1 b2 htar
  · rw [if_pos hpre]
    refine ⟨?_, ?_⟩
    · intro st1 h
      cases h
    · intro h
      cases h

theorem runKernel_inv : ∀ (ops : List KernelOp) (started : List Nat) (st : QFState),
    Registry started st → ReadyInv 0 st → opsProtocol started ops = true →
      (∀ st1, runKernel st ops = .ok st1 →
        ∃ started1, Registry started1 st1 ∧ ReadyInv 0 st1) ∧
      runKernel st ops ≠ .error (.assertion .qf_actq 0) := by
  intro ops
  induction ops with
  | nil =>
    intro started st hreg hinv _
    refine ⟨?_, ?_⟩
    · intro st1 h
      cases h
      exact ⟨started, hreg, hinv⟩
    · intro h
      cases h
  | cons op ops ih =>
    intro started st hreg hinv hp
    have step : ∀ started1, opsProtocol started1 ops = true →
        ((∀ st1, kernelStep st op = .ok st1 → Registry started1 st1 ∧ ReadyInv 0 st1) ∧
          kernelStep st op ≠ .error (.assertion .qf_actq 0)) →
        (∀ st1, runKernel st (op :: ops) = .ok st1 →
          ∃ started2, Registry started2 st1 ∧ ReadyInv 0 st1) ∧
        runKernel st (op :: ops) ≠ .error (.assertion .qf_actq 0) := by
      intro started1 hp1 hstep
      obtain ⟨s1, s2⟩ := hstep
      cases hk : kernelStep st op with
      | error f =>
        simp only [runKernel, hk]
        refine ⟨?_, ?_⟩
        · intro st1 h
          cases h
        · intro h
          cases h
          exact s2 hk
      | ok st2 =>
        obtain ⟨g1, g2⟩ := s1 st2 hk
        simp only [runKernel, hk]
        exact ih started1 st2 g1 g2 hp1
    cases op with
    | start me prio qSto qLen stkSto acts =>
      simp only [opsProtocol, Bool.and_eq_true, decide_eq_true_eq, List.all_eq_true] at hp
      obtain ⟨⟨⟨hme0, hnew⟩, htar⟩, hrest⟩ := hp
      exact step (me :: started) hrest
        (start_inv started st me prio qSto qLen stkSto acts hreg hinv hme0 hnew htar)
    | act p =>
      simp only [opsProtocol, Bool.and_eq_true, decide_eq_true_eq] at hp
      obtain ⟨htar, hrest⟩ := hp
      refine step started hrest ?_
      have htar1 : ∀ q, q ∈ [p] → q.target ∈ started := by
        intro q hq
        rw [List.mem_singleton.mp hq]
        exact htar
      exact runPosts_inv 0 started [p] st hreg hinv htar1
    | iter acts =>
      simp only [opsProtocol, Bool.and_eq_true, decide_eq_true_eq, List.all_eq_true] at hp
      obtain ⟨htar, hrest⟩ := hp
      refine step started hrest ?_
      obtain ⟨i1, i2⟩ := iter_inv started acts st hreg hinv htar
      cases hi : QF_run_iter (fun s _ _ => runPosts s acts) st with
      | error f =>
        simp only [kernelStep, hi]
        refine ⟨?_, ?_⟩
        · intro st1 h
          cases h
        · intro h
          cases h
          exact i2 hi
      | ok r =>
        obtain ⟨x, st2⟩ := r
        simp only [kernelStep, hi]
        refine ⟨?_, ?_⟩
        · intro st1 h
          cases h
          exact i1 x st2 hi
        · intro h
          cases h

theorem ready_init_inv (st : QFState) (hact : st.QF_active_ = List.replicate (QF_MAX_ACTIVE + 1) 0)
    (hrs : st.QV_readySet_ = 0) : Registry [] st ∧ ReadyInv 0 st := by
  have hnone : ∀ (p a : Nat), st.QF_active_[p]? = some a → a = 0 := by
    intro p a h
    rw [hact, List.getElem?_replicate] at h
    split at h
    · cases h
      rfl
    · cases h
  refine ⟨⟨?_, ?_, ?_, ?_⟩, ?_⟩
  · rw [hact, List.length_replicate]
  · rw [hrs]
    decide
  · intro p a h h0
    exact absurd (hnone p a h) h0
  · intro a ha
    cases ha
  · intro p hp1 hp16
    rw [if_neg (by omega), hrs]
    constructor
    · intro h
      simp [QPSet_hasElement] at h
    · rintro ⟨a, h, h0, -⟩
      exact absurd (hnone p a h) h0

/-- C33: `QF_active_` is all null and `QV_readySet_` is empty, as after
`QF_init`. Then any sequence of `QActive_start_` calls, posts with
`QActive_post_` and `QActive_postLIFO_` and iterations of the loop of
`QF_run` is run, in which every active object is started at most once and
events are posted only to active objects that have been started; the initial
transitions and the state machines dispatched to may make such posts too.
In every state reached between two operations, for every priority `p` from 1
to `QF_MAX_ACTIVE`, bit `p` of `QV_readySet_` is set if and only if an active
object is registered at `p` and the `frontEvt` of its queue is not null; if
the ready set is not empty, the active object the scheduler picks next is
registered and has a non-empty queue, so `QActive_get_` does not fail its
assertion 0 for it; and no such sequence of operations ends in the failure
of that assertion. -/
theorem C33_ready_set (st : QFState) (ops : List KernelOp)
    (hact : st.QF_active_ = List.replicate (QF_MAX_ACTIVE + 1) 0)
    (hrs : st.QV_readySet_ = 0) (hp : opsProtocol [] ops = true) :
    (∀ st1, runKernel st ops = .ok st1 →
      (∀ p, 1 ≤ p → p ≤ QF_MAX_ACTIVE →
        (QPSet_hasElement st1.QV_readySet_ p = true ↔
          ∃ a, st1.QF_active_[p]? = some a ∧ a ≠ 0 ∧ (st1.aobj a).eQueue.frontEvt ≠ 0)) ∧
      (QPSet_notEmpty st1.QV_readySet_ = true →
        ∃ a, st1.QF_active_[QPSet_findMax st1.QV_readySet_]? = some a ∧ a ≠ 0 ∧
          (st1.aobj a).eQueue.frontEvt ≠ 0 ∧
          ∀ f, QActive_get_ st1 a = .error f → f ≠ .assertion .qf_actq 0)) ∧
    runKernel st ops ≠ .error (.assertion .qf_actq 0) := by
  obtain ⟨hreg, hinv⟩ := ready_init_inv st hact hrs
  obtain ⟨k1, k2⟩ := runKernel_inv ops [] st hreg hinv hp
  refine ⟨?_, k2⟩
  intro st1 hrun
  obtain ⟨started1, hreg1, hinv1⟩ := k1 st1 hrun
  have hall : ∀ p, 1 ≤ p → p ≤ QF_MAX_ACTIVE →
      (QPSet_hasElement st1.QV_readySet_ p = true ↔
        ∃ a, st1.QF_active_[p]? = some a ∧ a ≠ 0 ∧ (st1.aobj a).eQueue.frontEvt ≠ 0) := by
    intro p hp1 hp16
    have := hinv1 p hp1 hp16
    rw [if_neg (by omega)] at this
    exact this
  refine ⟨hall, ?_⟩
  intro hne
  have hne0 : st1.QV_readySet_ ≠ 0 := by
    intro h0
    rw [h0] at hne
    cases hne
  obtain ⟨f1, f16, fbit, -⟩ := findMax_spec _ hne0 hreg1.2.1
  have hel : QPSet_hasElement st1.QV_readySet_ (QPSet_findMax st1.QV_readySet_) = true := by
    rw [hasElement_eq _ _ f1 f16]
    exact fbit
  obtain ⟨a, ha, ha0, hf⟩ := (hall _ f1 f16).mp hel
  exact ⟨a, ha, ha0, hf, fun f hg => get_err st1 a f hg hf⟩


theorem findMax_20 : QPSet_findMax 20 = 5 := by
  simp [QPSet_findMax, QF_LOG2, Nat.log2]

theorem findMax_4 : QPSet_findMax 4 = 3 := by
  simp [QPSet_findMax, QF_LOG2, Nat.log2]

theorem run_cons (st st1 : QFState) (op : KernelOp) (ops : List KernelOp)
    (r : Except Fault QFState) (h : kernelStep st op = .ok st1) (h2 : runKernel st1 ops = r) :
    runKernel st (op :: ops) = r := by
  simp only [runKernel, h]
  exact h2

theorem iter_eval (acts : List PostOp) (st st1 st2 st3 : QFState) (p a e : Nat)
    (hne : QPSet_notEmpty st.QV_readySet_ = true) (hp : QPSet_findMax st.QV_readySet_ = p)
    (ha : st.QF_active_[p]? = some a) (ha0 : a ≠ 0) (hget : QActive_get_ st a = .ok (e, st1))
    (hd : runPosts st1 acts = .ok st2) (hgc : QF_gc st2 e = .ok st3) :
    kernelStep st (.iter acts) = .ok (if (st3.aobj a).eQueue.frontEvt = 0 then
      { st3 with QV_readySet_ := QPSet_remove st3.QV_readySet_ p } else st3) := by
  by_cases hf : (st3.aobj a).eQueue.frontEvt = 0 <;>
  simp only [kernelStep, QF_run_iter, hne, hp, ha, ha0, hget, hd, hgc, hf, if_true, if_false]

theorem C33_ready_set_witness :
    exampleState.QF_active_ = List.replicate (QF_MAX_ACTIVE + 1) 0 ∧
      exampleState.QV_readySet_ = 0 ∧
      opsProtocol [] [.start 500 3 [0, 0] 2 0 [.post 500 700 QF_NO_MARGIN],
        .start 600 5 [0] 1 0 [], .act (.post 600 701 0), .iter [.postLIFO 500 702],
        .iter []] = true ∧
      ∃ st1, runKernel exampleState [.start 500 3 [0, 0] 2 0 [.post 500 700 QF_NO_MARGIN],
          .start 600 5 [0] 1 0 [], .act (.post 600 701 0), .iter [.postLIFO 500 702],
          .iter []] = .ok st1 ∧
        st1.QV_readySet_ = 4 ∧ (st1.aobj 500).eQueue.frontEvt = 700 ∧
        (st1.aobj 600).eQueue.frontEvt = 0 ∧
        ∀ p, 1 ≤ p → p ≤ QF_MAX_ACTIVE →
          (QPSet_hasElement st1.QV_readySet_ p = true ↔
            ∃ a, st1.QF_active_[p]? = some a ∧ a ≠ 0 ∧ (st1.aobj a).eQueue.frontEvt ≠ 0) :=
  ⟨rfl, rfl, by decide, _,
    run_cons _ _ _ _ _ rfl (run_cons _ _ _ _ _ rfl (run_cons _ _ _ _ _ rfl
      (run_cons _ _ _ _ _
        (iter_eval _ _ _ _ _ 5 600 701 rfl findMax_20 rfl (by decide) rfl rfl rfl)
        (run_cons _ _ _ _ _
          (iter_eval _ _ _ _ _ 3 500 702 rfl findMax_4 rfl (by decide) rfl rfl rfl) rfl)))),
    rfl, rfl, rfl,
    ((C33_ready_set exampleState [.start 500 3 [0, 0] 2 0 [.post 500 700 QF_NO_MARGIN],
      .start 600 5 [0] 1 0 [], .act (.post 600 701 0), .iter [.postLIFO 500 702],
      .iter []] rfl rfl (by decide)).1 _
      (run_cons _ _ _ _ _ rfl (run_cons _ _ _ _ _ rfl (run_cons _ _ _ _ _ rfl
        (run_cons _ _ _ _ _
          (iter_eval _ _ _ _ _ 5 600 701 rfl findMax_20 rfl (by decide) rfl rfl rfl)
          (run_cons _ _ _ _ _
            (iter_eval _ _ _ _ _ 3 500 702 rfl findMax_4 rfl (by decide) rfl rfl rfl)
            rfl)))))).1⟩

/-! ### The lists of time events -/

theorem gc_static (st : QFState) (e : Nat) (hpool : (st.emem e).poolId_ = 0) :
    QF_gc st e = .ok st := by
  unfold QF_gc
  simp only [hpool, ne_eq, not_true_eq_false, if_false]

theorem post_time_frame (st st1 : QFState) (a e margin : Nat) (b : Bool)
    (hpool : (st.emem e).poolId_ = 0)
    (h : QActive_post_ st a e margin = .ok (b, st1)) :
    st1.tevt = st.tevt ∧ st1.emem = st.emem ∧ st1.QF_timeEvtHead_ = st.QF_timeEvtHead_ := by
  unfold QActive_post_ at h
  by_cases he : e = 0
  · rw [if_pos he] at h
    cases h
  · rw [if_neg he] at h
    dsimp only at h
    have hp : ¬ (st.emem e).poolId_ ≠ 0 := not_not.mpr hpool
    have hgc := gc_static st e hpool
    by_cases hm : margin = QF_NO_MARGIN <;>
    by_cases h1 : (st.aobj a).eQueue.nFree > 0 <;>
    by_cases h2 : (st.aobj a).eQueue.nFree > u8 margin <;>
    by_cases hf : (st.aobj a).eQueue.frontEvt = 0 <;>
    by_cases hn : (st.aobj a).eQueue.nMin > dec8 (st.aobj a).eQueue.nFree <;>
    by_cases hh : (st.aobj a).eQueue.head = 0 <;>
    simp only [hp, hm, h1, h2, hf, hn, hh, hgc, if_true, if_false, Bool.false_eq_true,
      not_true_eq_false, not_false_eq_true, ne_eq] at h <;>
    first
    | (exfalso; cases h; done)
    | (simp only [Except.ok.injEq, Prod.mk.injEq] at h
       obtain ⟨-, rfl⟩ := h
       exact ⟨rfl, rfl, rfl⟩)
    | (split at h
       · cases h
       · simp only [Except.ok.injEq, Prod.mk.injEq] at h
         obtain ⟨-, rfl⟩ := h
         exact ⟨rfl, rfl, rfl⟩)

theorem tickStep_sim (s s' : QFState) (prev t : Nat) (h1 : s'.tevt = s.tevt)
    (h2 : s'.emem = s.emem) (h3 : s'.QF_timeEvtHead_ = s.QF_timeEvtHead_)
    (hpool : (s.emem t).poolId_ = 0)
    (p : Option (Nat × Nat)) (s2 : QFState) (q : Nat)
    (h : tickStep s prev t = .ok (p, s2, q))
    (p' : Option (Nat × Nat)) (s2' : QFState) (q' : Nat)
    (h' : tickStep s' prev t = .ok (p', s2', q')) :
    p = p' ∧ q = q' ∧ s2.tevt = s2'.tevt ∧ s2.emem = s2'.emem ∧
      s2.QF_timeEvtHead_ = s2'.QF_timeEvtHead_ := by
  unfold tickStep at h h'
  rw [h1] at h'
  by_cases h0 : (s.tevt t).ctr = 0
  · rw [if_pos h0] at h h'
    simp only [Except.ok.injEq, Prod.mk.injEq] at h h'
    obtain ⟨rfl, rfl, rfl⟩ := h
    obtain ⟨rfl, rfl, rfl⟩ := h'
    simp only [teUnlink, QFState.setRefCtr, QFState.setTE, h1, h2, h3, and_self]
  · rw [if_neg h0] at h h'
    simp only [QFState.setTE, Function.update_same, h1] at h h'
    by_cases hd : dec16 (s.tevt t).ctr = 0
    · rw [if_pos hd] at h h'
      by_cases ha : (s.tevt t).act = 0
      · rw [if_pos ha] at h
        cases h
      · rw [if_neg ha] at h h'
        split at h
        · cases h
        · rename_i b st hpost
          split at h'
          · cases h'
          · rename_i b' st' hpost'
            simp only [Except.ok.injEq, Prod.mk.injEq] at h h'
            obtain ⟨rfl, rfl, rfl⟩ := h
            obtain ⟨rfl, rfl, rfl⟩ := h'
            by_cases hi : (s.tevt t).interval = 0
            · simp only [hi, ne_eq, not_true_eq_false, if_false] at hpost hpost' ⊢
              obtain ⟨f1, f2, f3⟩ := post_time_frame _ _ _ _ _ _
                (by simp [teUnlink, QFState.setRefCtr, EvtMem.write, hpool]) hpost
              obtain ⟨g1, g2, g3⟩ := post_time_frame _ _ _ _ _ _
                (by simp [teUnlink, QFState.setRefCtr, EvtMem.write, h2, hpool]) hpost'
              rw [f1, f2, f3, g1, g2, g3]
              simp only [teUnlink, QFState.setRefCtr, h2, h3, and_self]
            · simp only [hi, ne_eq, not_false_eq_true, if_true] at hpost hpost' ⊢
              obtain ⟨f1, f2, f3⟩ := post_time_frame _ _ _ _ _ _ (by exact hpool) hpost
              obtain ⟨g1, g2, g3⟩ := post_time_frame _ _ _ _ _ _
                (by rw [h2]; exact hpool) hpost'
              rw [f1, f2, f3, g1, g2, g3]
              simp only [h2, h3, and_self]
    · rw [if_neg hd] at h h'
      simp only [Except.ok.injEq, Prod.mk.injEq] at h h'
      obtain ⟨rfl, rfl, rfl⟩ := h
      obtain ⟨rfl, rfl, rfl⟩ := h'
      simp only [h2, h3, and_self]

theorem post_no_timeout (st : QFState) (a e margin : Nat) (f : Fault)
    (hpool : (st.emem e).poolId_ = 0)
    (h : QActive_post_ st a e margin = .error f) : f ≠ .timeout := by
  unfold QActive_post_ at h
  by_cases he : e = 0
  · rw [if_pos he] at h
    cases h
    simp
  · rw [if_neg he] at h
    dsimp only at h
    have hp : ¬ (st.emem e).poolId_ ≠ 0 := not_not.mpr hpool
    have hgc := gc_static st e hpool
    by_cases hm : margin = QF_NO_MARGIN <;>
    by_cases h1 : (st.aobj a).eQueue.nFree > 0 <;>
    by_cases h2 : (st.aobj a).eQueue.nFree > u8 margin <;>
    by_cases hf : (st.aobj a).eQueue.frontEvt = 0 <;>
    by_cases hn : (st.aobj a).eQueue.nMin > dec8 (st.aobj a).eQueue.nFree <;>
    by_cases hh : (st.aobj a).eQueue.head = 0 <;>
    simp only [hp, hm, h1, h2, hf, hn, hh, hgc, if_true, if_false, Bool.false_eq_true,
      not_true_eq_false, not_false_eq_true, ne_eq] at h <;>
    first
    | (cases h <;> simp)
    | (split at h
       · rename_i f1 hw
         cases h
         rw [ringWrite_err _ _ _ _ hw]
         simp
       · cases h)

theorem tickStep_no_timeout (s : QFState) (prev t : Nat) (f : Fault)
    (hpool : (s.emem t).poolId_ = 0) (h : tickStep s prev t = .error f) : f ≠ .timeout := by
  unfold tickStep at h
  by_cases h0 : (s.tevt t).ctr = 0
  · rw [if_pos h0] at h
    cases h
  · rw [if_neg h0] at h
    simp only [QFState.setTE, Function.update_same] at h
    by_cases hd : dec16 (s.tevt t).ctr = 0
    · rw [if_pos hd] at h
      by_cases ha : (s.tevt t).act = 0
      · rw [if_pos ha] at h
        cases h
        simp
      · rw [if_neg ha] at h
        split at h
        · rename_i f1 hpost
          cases h
          by_cases hi : (s.tevt t).interval = 0
          · simp only [hi, ne_eq, not_true_eq_false, if_false] at hpost
            exact post_no_timeout _ _ _ _ _
              (by simp [teUnlink, QFState.setRefCtr, EvtMem.write, hpool]) hpost
          · simp only [hi, ne_eq, not_false_eq_true, if_true] at hpost
            exact post_no_timeout _ _ _ _ _ (by exact hpool) hpost
        · cases h
    · rw [if_neg hd] at h
      cases h

theorem roomy_room (s : QFState) (owners : List Nat) : Room s.roomy owners (0 + 1) := by
  intro a _
  refine ⟨(init_WF ⟨0, [], 0, 0, 0, 0, 0⟩ [0] 1 rfl (by decide)).1, ?_⟩
  show 0 + 1 ≤ 2
  decide

theorem step_cond (s : QFState) (hd prev t : Nat) (X : List Nat)
    (hp : Pending s.tevt hd t X) (hnd : (prev :: t :: X).Nodup) (hhd : hd ∉ t :: X)
    (ht0 : t ≠ 0) (hpool : (s.emem t).poolId_ = 0) (hact : (s.tevt t).act ≠ 0)
    (hctr : (s.tevt t).ctr < 65536)
    (p : Option (Nat × Nat)) (s2 : QFState) (q : Nat)
    (h : tickStep s prev t = .ok (p, s2, q)) :
    p = (if (s.tevt t).ctr = 1 then some ((s.tevt t).act, t) else none) ∧
      q = (if keeps (s.tevt t) then t else prev) ∧
      Pending s2.tevt hd (if keeps (s.tevt t) then t else prev) X ∧
      (s2.tevt t).ctr = newCtr (s.tevt t) ∧ (s2.tevt t).interval = (s.tevt t).interval ∧
      (s2.tevt t).act = (s.tevt t).act ∧
      (∀ a, a ≠ t → a ≠ prev → s2.tevt a = s.tevt a) ∧
      (s2.tevt prev).ctr = (s.tevt prev).ctr ∧
      (s2.tevt prev).interval = (s.tevt prev).interval ∧
      (s2.tevt prev).act = (s.tevt prev).act ∧
      (keeps (s.tevt t) = true → s2.tevt prev = s.tevt prev) ∧
      (∀ a, a ≠ t → s2.emem a = s.emem a) ∧
      s2.emem t = (if keeps (s.tevt t) then s.emem t
        else { s.emem t with refCtr_ := (s.emem t).refCtr_ &&& 127 }) ∧
      s2.QF_timeEvtHead_ = s.QF_timeEvtHead_ := by
  have hown : 0 ∉ [(s.tevt t).act] := by
    intro h0
    exact hact (List.mem_singleton.mp h0).symm
  obtain ⟨sb, b1, b2, b3, b4, b5, b6, b7, b8, b9, b10, b11, b12, b13, -⟩ :=
    step_spec s.roomy [(s.tevt t).act] hd prev t X hp hnd hhd ht0 hpool
      (List.mem_singleton.mpr rfl) hown hctr 0 (roomy_room s _)
  obtain ⟨e1, e2, e3, e4, e5⟩ :=
    tickStep_sim s s.roomy prev t rfl rfl rfl hpool p s2 q h _ _ _ b1
  rw [e3, e4, e5]
  exact ⟨e1, e2, b2, b3, b4, b5, b6, b7, b8, b9, b10, b11, b12, b13⟩

theorem tick_loop_cond (hd : Nat) :
    ∀ (X : List Nat) (fuel : Nat) (s : QFState) (prev : Nat),
      prev ≠ 0 → Pending s.tevt hd prev X → (prev :: X).Nodup → hd ∉ X →
      (∀ t, t ∈ X → (s.emem t).poolId_ = 0 ∧ (s.tevt t).act ≠ 0 ∧ (s.tevt t).ctr < 65536) →
      (X.length < fuel → QF_tickX_loop fuel s hd prev ≠ .error .timeout) ∧
      ∀ posts s1, QF_tickX_loop fuel s hd prev = .ok (posts, s1) →
        posts = postsOf s.tevt X ∧
        Chain s1.tevt (s1.tevt prev).next (X.filter (fun t => keeps (s.tevt t))) ∧
        (s1.tevt hd).act = 0 ∧
        (∀ t, t ∈ X → (s1.tevt t).ctr = newCtr (s.tevt t) ∧
          (s1.tevt t).interval = (s.tevt t).interval ∧ (s1.tevt t).act = (s.tevt t).act) ∧
        (∀ a, a ≠ hd → a ≠ prev → a ∉ X → s1.tevt a = s.tevt a) ∧
        (prev ≠ hd → (s1.tevt hd).next = (s.tevt hd).next ∧
          (s1.tevt prev).ctr = (s.tevt prev).ctr ∧
          (s1.tevt prev).interval = (s.tevt prev).interval ∧
          (s1.tevt prev).act = (s.tevt prev).act) ∧
        (∀ a, a ∉ X → s1.emem a = s.emem a) ∧
        (∀ t, t ∈ X → s1.emem t = (if keeps (s.tevt t) then s.emem t
          else { s.emem t with refCtr_ := (s.emem t).refCtr_ &&& 127 })) ∧
        s1.QF_timeEvtHead_ = s.QF_timeEvtHead_ := by
  intro X
  induction X with
  | nil =>
    intro fuel s prev _ hp _ _ _
    obtain ⟨e1, e2⟩ := fetch_none s hd prev hp
    have e3 : (s.tevt prev).next = 0 := by
      obtain ⟨R, A, h1, h2, -⟩ := hp
      obtain ⟨rfl, rfl⟩ := List.append_eq_nil.mp h1.symm
      exact h2
    refine ⟨?_, ?_⟩
    · intro hf
      obtain ⟨f, rfl⟩ : ∃ f, fuel = f + 1 := ⟨fuel - 1, by simp at hf; omega⟩
      rw [QF_tickX_loop, e1]
      intro h
      cases h
    · intro posts s1 h
      cases fuel with
      | zero =>
        rw [QF_tickX_loop] at h
        cases h
      | succ f =>
        rw [QF_tickX_loop, e1] at h
        simp only [Except.ok.injEq, Prod.mk.injEq] at h
        obtain ⟨rfl, rfl⟩ := h
        refine ⟨rfl, e3, e2, ?_, fun _ _ _ _ => rfl, fun _ => ⟨rfl, rfl, rfl, rfl⟩,
          fun _ _ => rfl, ?_, rfl⟩
        · intro t ht
          cases ht
        · intro t ht
          cases ht
  | cons t X ih =>
    intro fuel s prev hprev hp hnd hhd hte
    have hpt : prev ≠ t := by
      intro h
      rw [h] at hnd
      simp at hnd
    have hpX : prev ∉ X := fun h => (List.nodup_cons.mp hnd).1 (List.mem_cons_of_mem _ h)
    have htX : t ∉ X := (List.nodup_cons.mp (List.nodup_cons.mp hnd).2).1
    have hXnd : X.Nodup := (List.nodup_cons.mp (List.nodup_cons.mp hnd).2).2
    have hht : hd ≠ t := fun h => hhd (by rw [h]; exact List.mem_cons_self _ _)
    have hhX : hd ∉ X := fun h => hhd (List.mem_cons_of_mem _ h)
    obtain ⟨sa, a1, a2, a3, a4, a5, a6, a7, a8, a9, a10, a11⟩ :=
      fetch_spec s hd prev t X hp hprev hnd hhd
    have hsat : sa.tevt t = s.tevt t := a5 t hpt.symm hht.symm
    obtain ⟨p1, p2, p3⟩ := hte t (List.mem_cons_self _ _)
    have hpool : (sa.emem t).poolId_ = 0 := by rw [a9]; exact p1
    have hprev2 : (if keeps (s.tevt t) = true then t else prev) ≠ 0 := by
      by_cases hk : keeps (s.tevt t) = true
      · rw [if_pos hk]; exact a2
      · rw [if_neg hk]; exact hprev
    have hnd2 : ((if keeps (s.tevt t) = true then t else prev) :: X).Nodup := by
      by_cases hk : keeps (s.tevt t) = true
      · rw [if_pos hk]; exact List.nodup_cons.mpr ⟨htX, hXnd⟩
      · rw [if_neg hk]; exact List.nodup_cons.mpr ⟨hpX, hXnd⟩
    have hstep : ∀ (p : Option (Nat × Nat)) (sb : QFState) (q : Nat),
        tickStep sa prev t = .ok (p, sb, q) →
        p = (if (s.tevt t).ctr = 1 then some ((s.tevt t).act, t) else none) ∧
        q = (if keeps (s.tevt t) then t else prev) ∧
        Pending sb.tevt hd (if keeps (s.tevt t) then t else prev) X ∧
        (sb.tevt t).ctr = newCtr (s.tevt t) ∧ (sb.tevt t).interval = (s.tevt t).interval ∧
        (sb.tevt t).act = (s.tevt t).act ∧
        (∀ a, a ≠ t → a ≠ prev → sb.tevt a = sa.tevt a) ∧
        (sb.tevt prev).ctr = (sa.tevt prev).ctr ∧
        (sb.tevt prev).interval = (sa.tevt prev).interval ∧
        (sb.tevt prev).act = (sa.tevt prev).act ∧
        (keeps (s.tevt t) = true → sb.tevt prev = sa.tevt prev) ∧
        (∀ a, a ≠ t → sb.emem a = sa.emem a) ∧
        sb.emem t = (if keeps (s.tevt t) then sa.emem t
          else { sa.emem t with refCtr_ := (sa.emem t).refCtr_ &&& 127 }) ∧
        sb.QF_timeEvtHead_ = sa.QF_timeEvtHead_ := by
      intro p sb q hs
      have := step_cond sa hd prev t X a4 hnd hhd a2 hpool (by rw [hsat]; exact p2)
        (by rw [hsat]; exact p3) p sb q hs
      rw [hsat] at this
      exact this
    have hrest : ∀ sb : QFState, (∀ a, a ≠ t → a ≠ prev → sb.tevt a = sa.tevt a) →
        (∀ a, a ≠ t → sb.emem a = sa.emem a) →
        (∀ a, a ∈ X → sb.tevt a = s.tevt a) ∧ (∀ a, a ≠ t → sb.emem a = s.emem a) ∧
        (∀ a, a ∈ X → (sb.emem a).poolId_ = 0 ∧ (sb.tevt a).act ≠ 0 ∧
          (sb.tevt a).ctr < 65536) := by
      intro sb b6 b11
      have hX : ∀ a, a ∈ X → sb.tevt a = s.tevt a := by
        intro a ha
        have e1 : a ≠ t := fun h => htX (h ▸ ha)
        have e2 : a ≠ prev := fun h => hpX (h ▸ ha)
        have e3 : a ≠ hd := fun h => hhX (h ▸ ha)
        rw [b6 a e1 e2, a5 a e2 e3]
      have hXe : ∀ a, a ≠ t → sb.emem a = s.emem a := by
        intro a ha
        rw [b11 a ha, a9]
      refine ⟨hX, hXe, ?_⟩
      intro a ha
      have e1 : a ≠ t := fun h => htX (h ▸ ha)
      rw [hX a ha, hXe a e1]
      exact hte a (List.mem_cons_of_mem _ ha)
    refine ⟨?_, ?_⟩
    · intro hf
      obtain ⟨f, rfl⟩ : ∃ f, fuel = f + 1 := ⟨fuel - 1, by simp at hf; omega⟩
      rw [QF_tickX_loop, a1]
      dsimp only
      cases hs : tickStep sa prev t with
      | error g =>
        have := tickStep_no_timeout sa prev t g hpool hs
        intro h
        cases h
        exact this rfl
      | ok r =>
        obtain ⟨p, sb, q⟩ := r
        obtain ⟨b0, bq, b2, b3, b4, b5, b6, b7, b8, b9, b10, b11, b12, b13⟩ := hstep p sb q hs
        obtain ⟨hX, hXe, hte2⟩ := hrest sb b6 b11
        have hi := (ih f sb (if keeps (s.tevt t) = true then t else prev) hprev2 b2 hnd2 hhX
          hte2).1 (by simp at hf; omega)
        rw [← bq] at hi
        simp only []
        cases hl : QF_tickX_loop f sb hd q with
        | error g =>
          intro h
          cases h
          exact hi hl
        | ok r2 =>
          intro h
          cases h
    · intro posts s1 h
      cases fuel with
      | zero =>
        rw [QF_tickX_loop] at h
        cases h
      | succ f =>
        rw [QF_tickX_loop, a1] at h
        dsimp only at h
        cases hs : tickStep sa prev t with
        | error g =>
          rw [hs] at h
          cases h
        | ok r =>
          obtain ⟨p, sb, q⟩ := r
          rw [hs] at h
          simp only [] at h
          obtain ⟨b0, bq, b2, b3, b4, b5, b6, b7, b8, b9, b10, b11, b12, b13⟩ :=
            hstep p sb q hs
          obtain ⟨hX, hXe, hte2⟩ := hrest sb b6 b11
          cases hl : QF_tickX_loop f sb hd q with
          | error g =>
            rw [hl] at h
            cases h
          | ok r2 =>
            obtain ⟨posts2, s3⟩ := r2
            rw [hl] at h
            simp only [Except.ok.injEq, Prod.mk.injEq] at h
            obtain ⟨hposts, rfl⟩ := h
            rw [bq] at hl
            obtain ⟨c1, c2, c3, c4, c5, c6, c7, c8, c9⟩ :=
              (ih f sb (if keeps (s.tevt t) = true then t else prev) hprev2 b2 hnd2 hhX
                hte2).2 posts2 s3 hl
            rw [postsOf_congr s.tevt sb.tevt X hX] at c1
            rw [keeps_congr s.tevt sb.tevt X hX] at c2
            refine ⟨?_, ?_, c3, ?_, ?_, ?_, ?_, ?_, ?_⟩
            · rw [← hposts, b0, c1, postsOf_cons]
            · -- the list that remains
              by_cases hk : keeps (s.tevt t) = true
              · simp only [hk, if_true] at c2 c5 c6
                rw [List.filter_cons, if_pos hk]
                refine ⟨?_, a2, c2⟩
                by_cases hph : prev = hd
                · rw [hph, (c6 hht.symm).1, ← hph, b10 hk, a3]
                · rw [c5 prev hph hpt hpX, b10 hk, a3]
              · have hk1 : keeps (s.tevt t) = false := by simpa using hk
                simp only [hk1, Bool.false_eq_true, if_false] at c2
                rw [List.filter_cons, if_neg hk]
                exact c2
            · -- the members of the time events visited
              intro a ha
              rcases List.mem_cons.mp ha with h | h
              · subst h
                by_cases hk : keeps (s.tevt a) = true
                · simp only [hk, if_true] at c6
                  obtain ⟨-, d1, d2, d3⟩ := c6 hht.symm
                  rw [d1, d2, d3]
                  exact ⟨b3, b4, b5⟩
                · have hk1 : keeps (s.tevt a) = false := by simpa using hk
                  simp only [hk1, Bool.false_eq_true, if_false] at c5
                  rw [c5 a hht.symm hpt.symm htX]
                  exact ⟨b3, b4, b5⟩
              · obtain ⟨d1, d2, d3⟩ := c4 a h
                rw [d1, d2, d3, hX a h]
                exact ⟨rfl, rfl, rfl⟩
            · -- other time events
              intro a ha1 ha2 ha3
              have e1 : a ≠ t := fun h => ha3 (h ▸ List.mem_cons_self _ _)
              have e2 : a ∉ X := fun h => ha3 (List.mem_cons_of_mem _ h)
              have e3 : a ≠ (if keeps (s.tevt t) = true then t else prev) := by
                by_cases hk : keeps (s.tevt t) = true
                · rw [if_pos hk]; exact e1
                · rw [if_neg hk]; exact ha2
              rw [c5 a ha1 e3 e2, b6 a e1 ha2, a5 a ha2 ha1]
            · -- the head and the predecessor
              intro hph
              obtain ⟨g1, g2⟩ := a8 hph
              have hhd2 : (sb.tevt hd).next = (s.tevt hd).next := by
                rw [b6 hd hht (Ne.symm hph), g2]
              by_cases hk : keeps (s.tevt t) = true
              · simp only [hk, if_true] at c5 c6
                rw [(c6 hht.symm).1, c5 prev hph hpt hpX, b7, b8, b9, a6, a7, g1]
                exact ⟨hhd2, rfl, rfl, rfl⟩
              · have hk1 : keeps (s.tevt t) = false := by simpa using hk
                simp only [hk1, Bool.false_eq_true, if_false] at c6
                obtain ⟨d0, d1, d2, d3⟩ := c6 hph
                rw [d0, d1, d2, d3, b7, b8, b9, a6, a7, g1]
                exact ⟨hhd2, rfl, rfl, rfl⟩
            · intro a ha
              have e1 : a ≠ t := fun h => ha (h ▸ List.mem_cons_self _ _)
              have e2 : a ∉ X := fun h => ha (List.mem_cons_of_mem _ h)
              rw [c7 a e2, hXe a e1]
            · intro a ha
              rcases List.mem_cons.mp ha with h | h
              · subst h
                rw [c7 a htX, b12, a9]
              · have e1 : a ≠ t := fun h' => htX (h' ▸ h)
                rw [c8 a h, hX a h, hXe a e1]
            · rw [c9, b13, a11]

theorem init_teinv (st : QFState) (h : TimeInit st) : TEInv [] (fun _ => []) st := by
  obtain ⟨h1, h2, h3, h4, h5⟩ := h
  refine ⟨h1, h2, h3, ?_, ?_, ?_, ?_⟩
  · intro h hh
    exact ⟨(h4 h hh).1, List.not_mem_nil _⟩
  · intro t _ ht
    exact ⟨(h5 t).1, (h5 t).2.1 ht, (h5 t).2.2⟩
  · intro t ht
    cases ht
  · intro r hd hr
    have hmem : hd ∈ st.QF_timeEvtHead_ := List.getElem?_mem hr
    refine ⟨⟨[], [], rfl, (h4 hd hmem).2, (h5 hd).1⟩, List.nodup_nil, ?_⟩
    intro t
    constructor
    · intro ht
      cases ht
    · rintro ⟨ht, -⟩
      cases ht

theorem field_inv (made : List Nat) (X : Nat → List Nat) (st st1 : QFState) (me : Nat)
    (hinv : TEInv made X st)
    (h1 : ∀ a, a ≠ me → st1.tevt a = st.tevt a)
    (h2 : (st1.tevt me).next = (st.tevt me).next)
    (h2a : (st1.tevt me).act = (st.tevt me).act)
    (h3 : ∀ a, a ≠ me → st1.emem a = st.emem a)
    (h4 : (st1.emem me).sig = (st.emem me).sig)
    (h4a : (st1.emem me).poolId_ = (st.emem me).poolId_)
    (h4b : me ∉ st.QF_timeEvtHead_ → (teLinked st1 me ↔ teLinked st me))
    (h4c : me ∈ made → teRate st1 me = teRate st me ∧ (st1.emem me).refCtr_ < 256)
    (h5 : st1.QF_timeEvtHead_ = st.QF_timeEvtHead_)
    (h6 : me ∉ st.QF_timeEvtHead_ → (st1.tevt me).ctr ≠ 0 → me ∈ made ∧ teLinked st me)
    (h7 : me ∈ made → (st1.tevt me).ctr < 65536 ∧ (st1.tevt me).interval < 65536) :
    TEInv made X st1 := by
  obtain ⟨i1, i2, i3, i4, i5, i6, i7⟩ := hinv
  have hnext : ∀ a, (st1.tevt a).next = (st.tevt a).next := by
    intro a
    by_cases ha : a = me
    · rw [ha, h2]
    · rw [h1 a ha]
  have hact : ∀ a, (st1.tevt a).act = (st.tevt a).act := by
    intro a
    by_cases ha : a = me
    · rw [ha, h2a]
    · rw [h1 a ha]
  have hsig : ∀ a, (st1.emem a).sig = (st.emem a).sig := by
    intro a
    by_cases ha : a = me
    · rw [ha, h4]
    · rw [h3 a ha]
  have hlink : ∀ a, a ∉ st.QF_timeEvtHead_ → (teLinked st1 a ↔ teLinked st a) := by
    intro a hh
    by_cases ha : a = me
    · rw [ha]
      exact h4b (ha ▸ hh)
    · unfold teLinked
      rw [h3 a ha]
  have hrate : ∀ a, a ∈ made → teRate st1 a = teRate st a := by
    intro a hm
    by_cases ha : a = me
    · rw [ha]
      exact (h4c (ha ▸ hm)).1
    · unfold teRate
      rw [h3 a ha]
  have hnh : ∀ a, a ∈ made → a ∉ st.QF_timeEvtHead_ := fun a ha hh => (i4 a hh).2 ha
  refine ⟨by rw [h5]; exact i1, by rw [h5]; exact i2, by rw [h5]; exact i3, ?_, ?_, ?_, ?_⟩
  · intro h hh
    rw [h5] at hh
    rw [hsig]
    exact i4 h hh
  · intro t ht hh
    rw [h5] at hh
    obtain ⟨j1, j2, j3⟩ := i5 t ht hh
    refine ⟨by rw [hact]; exact j1, ?_, fun hl => j3 ((hlink t hh).mp hl)⟩
    by_cases ha : t = me
    · by_contra hc
      rw [ha] at hc ht hh
      exact ht (h6 hh hc).1
    · rw [h1 t ha]
      exact j2
  · intro t ht
    obtain ⟨j1, j2, j3, j4, j5, j6, j7, j8⟩ := i6 t ht
    have hh := hnh t ht
    by_cases ha : t = me
    · subst ha
      refine ⟨j1, by rw [h4a]; exact j2, (h4c ht).2, by rw [hrate t ht]; exact j4,
        (h7 ht).1, (h7 ht).2, ?_, ?_⟩
      · intro hc
        exact (hlink t hh).mpr (h6 hh hc).2
      · intro hl
        rw [hact]
        exact j8 ((hlink t hh).mp hl)
    · refine ⟨j1, by rw [h3 t ha]; exact j2, by rw [h3 t ha]; exact j3,
        by rw [hrate t ht]; exact j4, by rw [h1 t ha]; exact j5, by rw [h1 t ha]; exact j6,
        ?_, ?_⟩
      · intro hc
        rw [h1 t ha] at hc
        exact (hlink t hh).mpr (j7 hc)
      · intro hl
        rw [hact]
        exact j8 ((hlink t hh).mp hl)
  · intro r hd hr
    rw [h5] at hr
    obtain ⟨k1, k2, k3⟩ := i7 r hd hr
    refine ⟨pending_congr st.tevt st1.tevt hd hd hd (X r) (fun a _ => hnext a) (hnext hd)
      (hact hd) k1, k2, ?_⟩
    intro t
    rw [k3 t]
    constructor
    · rintro ⟨m1, m2, m3⟩
      exact ⟨m1, (hlink t (hnh t m1)).mpr m2, by rw [hrate t m1]; exact m3⟩
    · rintro ⟨m1, m2, m3⟩
      exact ⟨m1, (hlink t (hnh t m1)).mp m2, by rw [← hrate t m1]; exact m3⟩

theorem nodup_index_inj (l : List Nat) (hn : l.Nodup) (i j a : Nat)
    (hi : l[i]? = some a) (hj : l[j]? = some a) : i = j := by
  obtain ⟨hi1, hi2⟩ := List.getElem?_eq_some.mp hi
  obtain ⟨hj1, hj2⟩ := List.getElem?_eq_some.mp hj
  exact (List.Nodup.getElem_inj_iff hn).mp (hi2.trans hj2.symm)

theorem link_inv (made : List Nat) (X : Nat → List Nat) (st st1 : QFState) (me r hd n i : Nat)
    (hinv : TEInv made X st) (hme : me ∈ made) (hnl : ¬ teLinked st me)
    (hr : teRate st me = r) (hhd : st.QF_timeEvtHead_[r]? = some hd)
    (a2 : st1.tevt me = ⟨(st.tevt hd).act, (st.tevt me).act, n, i⟩)
    (a3 : st1.tevt hd = { st.tevt hd with act := me })
    (a4 : ∀ a, a ≠ me → a ≠ hd → st1.tevt a = st.tevt a)
    (a5 : ∀ a, a ≠ me → st1.emem a = st.emem a)
    (a6 : (st1.emem me).refCtr_ = u8 ((st.emem me).refCtr_ ||| TE_IS_LINKED))
    (a6a : (st1.emem me).poolId_ = (st.emem me).poolId_)
    (a7 : st1.QF_timeEvtHead_ = st.QF_timeEvtHead_)
    (hn : n < 65536) (hi : i < 65536) (hact : (st.tevt me).act ≠ 0) :
    ∃ X1, TEInv made X1 st1 := by
  obtain ⟨i1, i2, i3, i4, i5, i6, i7⟩ := hinv
  obtain ⟨k1, k2, k3⟩ := i7 r hd hhd
  obtain ⟨R, A, hX, cR, cA⟩ := k1
  have hhm : hd ∈ st.QF_timeEvtHead_ := List.getElem?_mem hhd
  have hnh : ∀ a, a ∈ made → a ∉ st.QF_timeEvtHead_ := fun a ha hh => (i4 a hh).2 ha
  have hmh : me ≠ hd := fun h => hnh me hme (h ▸ hhm)
  obtain ⟨m1, m2, m3, m4, m5, m6, m7, m8⟩ := i6 me hme
  obtain ⟨-, -, -, -, -, -, -, b8, b9, b10, -, -, -, b14, -, -⟩ := flag_bits _ m3
  have hl1 : teLinked st1 me := by
    unfold teLinked TE_IS_LINKED
    rw [a6]
    unfold TE_IS_LINKED
    rw [b8]
    exact b9
  have hr1 : teRate st1 me = r := by
    unfold teRate TE_TICK_RATE
    rw [a6]
    unfold TE_IS_LINKED
    rw [b8, b10]
    exact hr
  have hmeX : ∀ r' hd', st.QF_timeEvtHead_[r']? = some hd' → me ∉ X r' := by
    intro r' hd' hr' hm
    exact hnl (((i7 r' hd' hr').2.2 me).mp hm).2.1
  have hhX : ∀ r' hd', st.QF_timeEvtHead_[r']? = some hd' → hd ∉ X r' := by
    intro r' hd' hr' hm
    exact hnh hd (((i7 r' hd' hr').2.2 hd).mp hm).1 hhm
  have hother : ∀ a, a ∈ X r → st1.tevt a = st.tevt a := fun a ha =>
    a4 a (fun h => hmeX r hd hhd (h ▸ ha)) (fun h => hhX r hd hhd (h ▸ ha))
  have hR : ∀ a, a ∈ R → a ∈ X r := fun a ha => by rw [hX]; exact List.mem_append_left _ ha
  have hA : ∀ a, a ∈ A → a ∈ X r := fun a ha => by rw [hX]; exact List.mem_append_right _ ha
  refine ⟨fun r' => if r' = r then R ++ me :: A else X r', by rw [a7]; exact i1,
    by rw [a7]; exact i2, by rw [a7]; exact i3, ?_, ?_, ?_, ?_⟩
  · intro h hh
    rw [a7] at hh
    have hne : h ≠ me := fun e => hnh me hme (e ▸ hh)
    rw [a5 h hne]
    exact i4 h hh
  · intro t ht hh
    rw [a7] at hh
    have e1 : t ≠ me := fun e => ht (e ▸ hme)
    have e2 : t ≠ hd := fun e => hh (e ▸ hhm)
    unfold teLinked
    rw [a4 t e1 e2, a5 t e1]
    exact i5 t ht hh
  · intro t ht
    by_cases e1 : t = me
    · subst e1
      refine ⟨m1, by rw [a6a]; exact m2, ?_, by rw [hr1, ← hr]; exact m4, by rw [a2]; exact hn,
        by rw [a2]; exact hi, fun _ => hl1, fun _ => by rw [a2]; exact hact⟩
      rw [a6]
      unfold TE_IS_LINKED
      rw [b8]
      exact b14
    · have e2 : t ≠ hd := fun e => hnh t ht (e ▸ hhm)
      unfold teLinked teRate
      rw [a4 t e1 e2, a5 t e1]
      exact i6 t ht
  · intro r' hd' hr'
    rw [a7] at hr'
    by_cases hrr : r' = r
    · subst hrr
      rw [hhd] at hr'
      cases hr'
      simp only [if_true]
      refine ⟨⟨R, me :: A, rfl, ?_, ?_, m1, ?_⟩, ?_, ?_⟩
      · rw [a3]
        exact chain_congr st.tevt _ R _ (fun a ha => by rw [hother a (hR a ha)]) cR
      · rw [a3]
      · rw [a2]
        exact chain_congr st.tevt _ A _ (fun a ha => by rw [hother a (hA a ha)]) cA
      · have hperm : List.Perm (R ++ me :: A) (me :: X r') := by
          rw [hX]
          exact List.perm_middle
        exact hperm.nodup_iff.mpr (List.nodup_cons.mpr ⟨hmeX r' hd hhd, k2⟩)
      · intro t
        have hmem : t ∈ R ++ me :: A ↔ t = me ∨ t ∈ X r' := by
          rw [hX]
          simp only [List.mem_append, List.mem_cons]
          tauto
        rw [hmem, k3 t]
        by_cases e1 : t = me
        · subst e1
          simp only [true_or, true_iff]
          exact ⟨hme, hl1, hr1⟩
        · unfold teLinked teRate
          rw [a5 t e1]
          simp only [e1, false_or]
    · simp only [hrr, if_false]
      obtain ⟨q1, q2, q3⟩ := i7 r' hd' hr'
      have hhm' : hd' ∈ st.QF_timeEvtHead_ := List.getElem?_mem hr'
      have hdd : hd' ≠ hd := by
        intro e
        rw [e] at hr'
        exact hrr (nodup_index_inj _ i3 _ _ _ hr' hhd)
      have hdm : hd' ≠ me := fun e => hnh me hme (e ▸ hhm')
      refine ⟨pending_congr st.tevt st1.tevt hd' hd' hd' (X r') ?_ ?_ ?_ q1, q2, ?_⟩
      · intro a ha
        rw [a4 a (fun e => hmeX r' hd' hr' (e ▸ ha)) (fun e => hhX r' hd' hr' (e ▸ ha))]
      · rw [a4 hd' hdm hdd]
      · rw [a4 hd' hdm hdd]
      · intro t
        rw [q3 t]
        by_cases e1 : t = me
        · subst e1
          constructor
          · rintro ⟨-, hl, -⟩
            exact absurd hl hnl
          · rintro ⟨-, -, hrt⟩
            rw [hr1] at hrt
            exact absurd hrt.symm hrr
        · unfold teLinked teRate
          rw [a5 t e1]

theorem newCtr_keeps (v : QTimeEvt) (h : keeps v = true) : newCtr v ≠ 0 := by
  unfold keeps at h
  simp only [decide_eq_true_eq] at h
  unfold newCtr
  rw [if_neg h.1]
  by_cases h1 : v.ctr = 1
  · rw [if_pos h1]
    rcases h.2 with h2 | h2
    · exact absurd h1 h2
    · exact h2
  · rw [if_neg h1]
    omega

theorem newCtr_drops (v : QTimeEvt) (h : keeps v = false) : newCtr v = 0 := by
  unfold keeps at h
  simp only [decide_eq_false_iff_not, not_and_or, not_not, not_or] at h
  unfold newCtr
  rcases h with h | h
  · rw [if_pos h]
  · rw [if_neg (by omega), if_pos h.1]
    exact h.2

theorem and_191_128 (x : Nat) : (x &&& 191) &&& 128 = x &&& 128 := by
  have h : (191 &&& 128 : Nat) = 128 := by decide
  rw [Nat.land_assoc, h]

theorem teinv_congr (made : List Nat) (X : Nat → List Nat) (st st1 : QFState)
    (h1 : st1.tevt = st.tevt) (h2 : st1.emem = st.emem)
    (h3 : st1.QF_timeEvtHead_ = st.QF_timeEvtHead_) (h : TEInv made X st) :
    TEInv made X st1 := by
  unfold TEInv teLinked teRate at h ⊢
  rw [h1, h2, h3]
  exact h

theorem disarm_inv (made : List Nat) (X : Nat → List Nat) (st : QFState) (me : Nat)
    (hinv : TEInv made X st) : TEInv made X (QTimeEvt_disarm st me).2 := by
  have hinv0 := hinv
  obtain ⟨i1, i2, i3, i4, i5, i6, i7⟩ := hinv
  have hnext : ∀ a, (((QTimeEvt_disarm st me).2.tevt a).next = (st.tevt a).next ∧
      ((QTimeEvt_disarm st me).2.tevt a).act = (st.tevt a).act ∧
      ((QTimeEvt_disarm st me).2.tevt a).interval = (st.tevt a).interval ∧
      ((QTimeEvt_disarm st me).2.emem a).poolId_ = (st.emem a).poolId_ ∧
      ((QTimeEvt_disarm st me).2.emem a).sig = (st.emem a).sig) := by
    intro a
    unfold QTimeEvt_disarm
    by_cases hc : (st.tevt me).ctr = 0
    · by_cases ha : a = me
      · subst ha
        simp [hc, QFState.setRefCtr, EvtMem.write]
      · simp [hc, QFState.setRefCtr, EvtMem.write, ha]
    · by_cases ha : a = me
      · subst ha
        simp [hc, QFState.setRefCtr, QFState.setTE, EvtMem.write]
      · simp [hc, QFState.setRefCtr, QFState.setTE, EvtMem.write, ha,
          Function.update_noteq ha]
  have hother : ∀ a, a ≠ me → (QTimeEvt_disarm st me).2.tevt a = st.tevt a ∧
      (QTimeEvt_disarm st me).2.emem a = st.emem a := by
    intro a ha
    unfold QTimeEvt_disarm
    by_cases hc : (st.tevt me).ctr = 0
    · simp [hc, QFState.setRefCtr, EvtMem.write, ha]
    · simp [hc, QFState.setRefCtr, QFState.setTE, EvtMem.write, ha, Function.update_noteq ha]
  have hctr : ((QTimeEvt_disarm st me).2.tevt me).ctr = 0 := by
    unfold QTimeEvt_disarm
    by_cases hc : (st.tevt me).ctr = 0
    · simp [hc, QFState.setRefCtr]
    · simp [hc, QFState.setRefCtr, QFState.setTE]
  have href : ((QTimeEvt_disarm st me).2.emem me).refCtr_ =
      if (st.tevt me).ctr ≠ 0 then u8 ((st.emem me).refCtr_ ||| 64)
      else (st.emem me).refCtr_ &&& 191 := by
    unfold QTimeEvt_disarm TE_WAS_DISARMED
    by_cases hc : (st.tevt me).ctr = 0
    · simp [hc, QFState.setRefCtr, EvtMem.write]
    · simp [hc, QFState.setRefCtr, QFState.setTE, EvtMem.write]
  have hheads : (QTimeEvt_disarm st me).2.QF_timeEvtHead_ = st.QF_timeEvtHead_ := by
    unfold QTimeEvt_disarm
    by_cases hc : (st.tevt me).ctr = 0
    · simp [hc, QFState.setRefCtr]
    · simp [hc, QFState.setRefCtr, QFState.setTE]
  refine field_inv made X st _ me hinv0 (fun a ha => (hother a ha).1) (hnext me).1
    (hnext me).2.1 (fun a ha => (hother a ha).2) (hnext me).2.2.2.2 (hnext me).2.2.2.1
    ?_ ?_ hheads ?_ ?_
  · intro hh
    unfold teLinked TE_IS_LINKED
    rw [href]
    by_cases hm : me ∈ made
    · obtain ⟨-, -, m3, -⟩ := i6 me hm
      obtain ⟨b1, -, -, b4, -, -, b7, -⟩ := flag_bits _ m3
      by_cases hc : (st.tevt me).ctr = 0
      · simp only [hc, ne_eq, not_true_eq_false, if_false, b7]
      · simp only [hc, ne_eq, not_false_eq_true, if_true, b1, b4]
    · have hc := (i5 me hm hh).2.1
      simp only [hc, ne_eq, not_true_eq_false, if_false, and_191_128]
  · intro hm
    obtain ⟨-, -, m3, -⟩ := i6 me hm
    obtain ⟨b1, -, b3, -, -, b6, -, -, -, -, -, -, -, -, b15, b16⟩ := flag_bits _ m3
    unfold teRate TE_TICK_RATE
    rw [href]
    by_cases hc : (st.tevt me).ctr = 0
    · simp only [hc, ne_eq, not_true_eq_false, if_false, b6, true_and]
      exact b16
    · simp only [hc, ne_eq, not_false_eq_true, if_true, b1, b3, true_and]
      exact b15
  · intro _ hc
    exact absurd hctr hc
  · intro hm
    rw [hctr, (hnext me).2.2.1]
    exact ⟨by decide, (i6 me hm).2.2.2.2.2.1⟩

theorem rate_bits : ∀ r, r < 2 → u8 r = r ∧ r &&& 15 = r ∧ r &&& 128 = 0 := by
  decide

theorem ctor_inv (made : List Nat) (X : Nat → List Nat) (st st1 : QFState)
    (me act sig rate : Nat) (hinv : TEInv made X st) (hme0 : me ≠ 0)
    (hmh : me ∉ st.QF_timeEvtHead_) (hnew : me ∉ made)
    (h : QTimeEvt_ctorX st me act sig rate = .ok st1) : TEInv (me :: made) X st1 := by
  obtain ⟨i1, i2, i3, i4, i5, i6, i7⟩ := hinv
  unfold QTimeEvt_ctorX at h
  by_cases hpre : sig ≥ Q_USER_SIG ∧ rate < QF_MAX_TICK_RATE
  · rw [if_neg (not_not.mpr hpre)] at h
    simp only [Except.ok.injEq] at h
    subst h
    obtain ⟨c1, c2, c3⟩ := rate_bits rate hpre.2
    have ht : ∀ a, a ≠ me →
        Function.update st.tevt me ⟨0, act, 0, 0⟩ a = st.tevt a := fun a ha =>
      Function.update_noteq ha _ _
    have he : ∀ a, a ≠ me → st.emem.write me ⟨u16 sig, 0, u8 rate⟩ a = st.emem a := by
      intro a ha
      simp [EvtMem.write, ha]
    have hem : st.emem.write me ⟨u16 sig, 0, u8 rate⟩ me = ⟨u16 sig, 0, u8 rate⟩ := by
      simp [EvtMem.write]
    have hmeX : ∀ r hd, st.QF_timeEvtHead_[r]? = some hd → me ∉ X r := by
      intro r hd hr hm
      exact hnew (((i7 r hd hr).2.2 me).mp hm).1
    refine ⟨i1, i2, i3, ?_, ?_, ?_, ?_⟩
    · intro h hh
      have hne : h ≠ me := fun e => hmh (e ▸ hh)
      show ((st.emem.write me ⟨u16 sig, 0, u8 rate⟩) h).sig = 0 ∧ h ∉ me :: made
      rw [he h hne]
      refine ⟨(i4 h hh).1, ?_⟩
      intro hm
      rcases List.mem_cons.mp hm with e | e
      · exact hne e
      · exact (i4 h hh).2 e
    · intro t ht' hh
      have hne : t ≠ me := fun e => ht' (e ▸ List.mem_cons_self _ _)
      have htm : t ∉ made := fun e => ht' (List.mem_cons_of_mem _ e)
      show (Function.update st.tevt me ⟨0, act, 0, 0⟩ t).act = 0 ∧
        (Function.update st.tevt me ⟨0, act, 0, 0⟩ t).ctr = 0 ∧
        ¬ ((st.emem.write me ⟨u16 sig, 0, u8 rate⟩) t).refCtr_ &&& TE_IS_LINKED ≠ 0
      rw [ht t hne, he t hne]
      exact i5 t htm hh
    · intro t ht'
      show t ≠ 0 ∧ ((st.emem.write me ⟨u16 sig, 0, u8 rate⟩) t).poolId_ = 0 ∧
        ((st.emem.write me ⟨u16 sig, 0, u8 rate⟩) t).refCtr_ < 256 ∧
        ((st.emem.write me ⟨u16 sig, 0, u8 rate⟩) t).refCtr_ &&& TE_TICK_RATE <
          QF_MAX_TICK_RATE ∧
        (Function.update st.tevt me ⟨0, act, 0, 0⟩ t).ctr < 65536 ∧
        (Function.update st.tevt me ⟨0, act, 0, 0⟩ t).interval < 65536 ∧
        ((Function.update st.tevt me ⟨0, act, 0, 0⟩ t).ctr ≠ 0 →
          ((st.emem.write me ⟨u16 sig, 0, u8 rate⟩) t).refCtr_ &&& TE_IS_LINKED ≠ 0) ∧
        (((st.emem.write me ⟨u16 sig, 0, u8 rate⟩) t).refCtr_ &&& TE_IS_LINKED ≠ 0 →
          (Function.update st.tevt me ⟨0, act, 0, 0⟩ t).act ≠ 0)
      by_cases hne : t = me
      · subst hne
        rw [hem, Function.update_same]
        unfold TE_TICK_RATE TE_IS_LINKED
        simp only [c1, c2, c3, ne_eq, not_true_eq_false, false_implies, and_true]
        have h2 := hpre.2
        unfold QF_MAX_TICK_RATE at h2 ⊢
        exact ⟨hme0, trivial, by omega, h2, by decide, by decide⟩
      · rw [ht t hne, he t hne]
        rcases List.mem_cons.mp ht' with e | e
        · exact absurd e hne
        · exact i6 t e
    · intro r hd hr
      obtain ⟨k1, k2, k3⟩ := i7 r hd hr
      have hhm : hd ∈ st.QF_timeEvtHead_ := List.getElem?_mem hr
      have hdm : hd ≠ me := fun e => hmh (e ▸ hhm)
      refine ⟨pending_congr st.tevt _ hd hd hd (X r) ?_ ?_ ?_ k1, k2, ?_⟩
      · intro a ha
        show (Function.update st.tevt me ⟨0, act, 0, 0⟩ a).next = _
        rw [ht a (fun e => hmeX r hd hr (e ▸ ha))]
      · show (Function.update st.tevt me ⟨0, act, 0, 0⟩ hd).next = _
        rw [ht hd hdm]
      · show (Function.update st.tevt me ⟨0, act, 0, 0⟩ hd).act = _
        rw [ht hd hdm]
      · intro t
        rw [k3 t]
        show (t ∈ made ∧ teLinked st t ∧ teRate st t = r) ↔
          (t ∈ me :: made ∧
            ((st.emem.write me ⟨u16 sig, 0, u8 rate⟩) t).refCtr_ &&& TE_IS_LINKED ≠ 0 ∧
            ((st.emem.write me ⟨u16 sig, 0, u8 rate⟩) t).refCtr_ &&& TE_TICK_RATE = r)
        by_cases hne : t = me
        · subst hne
          rw [hem]
          unfold TE_IS_LINKED
          simp only [c1, c3, ne_eq, not_true_eq_false, false_and, and_false, iff_false,
            not_and]
          intro hm
          exact absurd hm hnew
        · rw [he t hne]
          unfold teLinked teRate
          simp only [List.mem_cons, hne, false_or]
  · rw [if_pos hpre] at h
    cases h

theorem made_of_pre (made : List Nat) (X : Nat → List Nat) (st : QFState) (me : Nat)
    (hinv : TEInv made X st) (hact : (st.tevt me).act ≠ 0)
    (hsig : (st.emem me).sig ≥ Q_USER_SIG) : me ∈ made := by
  obtain ⟨-, -, -, i4, i5, -, -⟩ := hinv
  by_contra hm
  by_cases hh : me ∈ st.QF_timeEvtHead_
  · have := (i4 me hh).1
    rw [this] at hsig
    unfold Q_USER_SIG at hsig
    omega
  · exact hact (i5 me hm hh).1

theorem head_of_rate (made : List Nat) (X : Nat → List Nat) (st : QFState) (r : Nat)
    (hinv : TEInv made X st) (hr : r < QF_MAX_TICK_RATE) :
    ∃ hd, st.QF_timeEvtHead_[r]? = some hd := by
  have hlt : r < st.QF_timeEvtHead_.length := by rw [hinv.1]; exact hr
  exact ⟨_, List.getElem?_eq_getElem hlt⟩

theorem setTE_inv (made : List Nat) (X : Nat → List Nat) (st : QFState) (me n i : Nat)
    (hinv : TEInv made X st) (hme : me ∈ made) (hn : n < 65536) (hi : i < 65536)
    (hl : n ≠ 0 → teLinked st me) :
    TEInv made X (st.setTE me { st.tevt me with ctr := n, interval := i }) := by
  refine field_inv made X st _ me hinv ?_ ?_ ?_ (fun _ _ => rfl) rfl rfl (fun _ => Iff.rfl)
    (fun hm => ⟨rfl, (hinv.2.2.2.2.2.1 me hm).2.2.1⟩) rfl ?_ ?_
  · intro a ha
    simp [QFState.setTE, Function.update_noteq ha]
  · simp [QFState.setTE]
  · simp [QFState.setTE]
  · intro _ hc
    refine ⟨hme, hl ?_⟩
    simpa [QFState.setTE] using hc
  · intro _
    simp only [QFState.setTE, Function.update_same]
    exact ⟨hn, hi⟩

theorem arm_inv (made : List Nat) (X : Nat → List Nat) (st st1 : QFState) (me n i : Nat)
    (hinv : TEInv made X st) (hn : n < 65536) (hi : i < 65536)
    (h : QTimeEvt_armX st me n i = .ok st1) :
    ∃ X1, TEInv made X1 st1 ∧ st1.QF_timeEvtHead_ = st.QF_timeEvtHead_ := by
  by_cases hpre : (st.tevt me).act ≠ 0 ∧ (st.tevt me).ctr = 0 ∧ n ≠ 0 ∧
      (st.emem me).refCtr_ &&& TE_TICK_RATE < QF_MAX_TICK_RATE ∧
      (st.emem me).sig ≥ Q_USER_SIG
  · have hme := made_of_pre made X st me hinv hpre.1 hpre.2.2.2.2
    by_cases hl : (st.emem me).refCtr_ &&& TE_IS_LINKED = 0
    · obtain ⟨hd, hhd⟩ := head_of_rate made X st _ hinv hpre.2.2.2.1
      have hmh : me ≠ hd := fun e =>
        (hinv.2.2.2.1 hd (List.getElem?_mem hhd)).2 (e ▸ hme)
      obtain ⟨s1, a1, a2, a3, a4, a5, a6, a7, -, a9⟩ :=
        arm_unlinked st me n i hd hmh hpre hl hhd
      rw [a1] at h
      simp only [Except.ok.injEq] at h
      subst h
      obtain ⟨X1, hX1⟩ := link_inv made X st s1 me _ hd n i hinv hme (fun hc => hc hl) rfl hhd
        a2 a3 a4 a6 a7 (a5 me) a9 hn hi hpre.1
      exact ⟨X1, hX1, a9⟩
    · have a1 := arm_linked st me n i hpre hl
      rw [a1] at h
      simp only [Except.ok.injEq] at h
      subst h
      exact ⟨X, setTE_inv made X st me n i hinv hme hn hi (fun _ => hl), rfl⟩
  · unfold QTimeEvt_armX at h
    simp only [hpre, not_false_eq_true, if_true] at h
    cases h

theorem rearm_linked (st : QFState) (me n : Nat)
    (hpre : (st.tevt me).act ≠ 0 ∧
      (st.emem me).refCtr_ &&& TE_TICK_RATE < QF_MAX_TICK_RATE ∧ n ≠ 0 ∧
      (st.emem me).sig ≥ Q_USER_SIG)
    (h : (st.tevt me).ctr ≠ 0 ∨ ¬ (st.emem me).refCtr_ &&& TE_IS_LINKED = 0) :
    ∃ b, QTimeEvt_rearm st me n = .ok (b, st.setTE me { st.tevt me with ctr := n }) := by
  unfold QTimeEvt_rearm
  by_cases hc : (st.tevt me).ctr = 0
  · have hl : ¬ (st.emem me).refCtr_ &&& TE_IS_LINKED = 0 := by
      rcases h with h | h
      · exact absurd hc h
      · exact h
    simp only [hpre, ne_eq, not_false_eq_true, and_self, not_true_eq_false, if_false, hc,
      if_true, hl, ge_iff_le]
    exact ⟨false, rfl⟩
  · simp only [hpre, ne_eq, not_false_eq_true, and_self, not_true_eq_false, if_false, hc,
      ge_iff_le]
    exact ⟨true, rfl⟩

theorem rearm_unlinked (st : QFState) (me n hd : Nat) (hmh : me ≠ hd)
    (hpre : (st.tevt me).act ≠ 0 ∧
      (st.emem me).refCtr_ &&& TE_TICK_RATE < QF_MAX_TICK_RATE ∧ n ≠ 0 ∧
      (st.emem me).sig ≥ Q_USER_SIG)
    (hc : (st.tevt me).ctr = 0) (hl : (st.emem me).refCtr_ &&& TE_IS_LINKED = 0)
    (hhd : st.QF_timeEvtHead_[(st.emem me).refCtr_ &&& TE_TICK_RATE]? = some hd) :
    ∃ st1, QTimeEvt_rearm st me n = .ok (false, st1) ∧
      st1.tevt me = ⟨(st.tevt hd).act, (st.tevt me).act, n, (st.tevt me).interval⟩ ∧
      st1.tevt hd = { st.tevt hd with act := me } ∧
      (∀ a, a ≠ me → a ≠ hd → st1.tevt a = st.tevt a) ∧
      (∀ a, (st1.emem a).poolId_ = (st.emem a).poolId_) ∧
      (∀ a, a ≠ me → st1.emem a = st.emem a) ∧
      (st1.emem me).refCtr_ = u8 ((st.emem me).refCtr_ ||| TE_IS_LINKED) ∧
      st1.QF_timeEvtHead_ = st.QF_timeEvtHead_ := by
  unfold QTimeEvt_rearm
  simp only [hpre, ne_eq, not_false_eq_true, and_self, not_true_eq_false, if_false,
    QFState.setTE, hl, if_true, QFState.setRefCtr, hhd, hc, ge_iff_le]
  refine ⟨_, rfl, ?_, ?_, ?_, ?_, ?_, ?_, rfl⟩
  · simp [Function.update_noteq hmh, Function.update_noteq (Ne.symm hmh)]
  · simp [Function.update_noteq (Ne.symm hmh)]
  · intro a h1 h2
    simp [Function.update_noteq h1, Function.update_noteq h2]
  · intro a
    by_cases h : a = me
    · subst h
      simp [EvtMem.write]
    · simp [EvtMem.write, h]
  · intro a h
    simp [EvtMem.write, h]
  · simp [EvtMem.write]

theorem rearm_inv (made : List Nat) (X : Nat → List Nat) (st st1 : QFState) (me n : Nat)
    (b : Bool) (hinv : TEInv made X st) (hn : n < 65536)
    (h : QTimeEvt_rearm st me n = .ok (b, st1)) :
    ∃ X1, TEInv made X1 st1 ∧ st1.QF_timeEvtHead_ = st.QF_timeEvtHead_ := by
  by_cases hpre : (st.tevt me).act ≠ 0 ∧
      (st.emem me).refCtr_ &&& TE_TICK_RATE < QF_MAX_TICK_RATE ∧ n ≠ 0 ∧
      (st.emem me).sig ≥ Q_USER_SIG
  · have hme := made_of_pre made X st me hinv hpre.1 hpre.2.2.2
    obtain ⟨m1, m2, m3, m4, m5, m6, m7, m8⟩ := hinv.2.2.2.2.2.1 me hme
    by_cases hlk : (st.tevt me).ctr ≠ 0 ∨ ¬ (st.emem me).refCtr_ &&& TE_IS_LINKED = 0
    · obtain ⟨b1, a1⟩ := rearm_linked st me n hpre hlk
      rw [a1] at h
      simp only [Except.ok.injEq, Prod.mk.injEq] at h
      obtain ⟨-, rfl⟩ := h
      have hl : teLinked st me := by
        rcases hlk with hc | hl
        · exact m7 hc
        · exact hl
      exact ⟨X, setTE_inv made X st me n (st.tevt me).interval hinv hme hn m6 (fun _ => hl),
        rfl⟩
    · simp only [not_or, not_not] at hlk
      obtain ⟨hc, hl⟩ := hlk
      obtain ⟨hd, hhd⟩ := head_of_rate made X st _ hinv hpre.2.1
      have hmh : me ≠ hd := fun e =>
        (hinv.2.2.2.1 hd (List.getElem?_mem hhd)).2 (e ▸ hme)
      obtain ⟨s1, a1, a2, a3, a4, a5, a6, a7, a9⟩ :=
        rearm_unlinked st me n hd hmh hpre hc hl hhd
      rw [a1] at h
      simp only [Except.ok.injEq, Prod.mk.injEq] at h
      obtain ⟨-, rfl⟩ := h
      obtain ⟨X1, hX1⟩ := link_inv made X st s1 me _ hd n _ hinv hme (fun hc => hc hl) rfl hhd
        a2 a3 a4 a6 a7 (a5 me) a9 hn m6 hpre.1
      exact ⟨X1, hX1, a9⟩
  · unfold QTimeEvt_rearm at h
    simp only [hpre, not_false_eq_true, if_true] at h
    cases h

theorem list_length_le (l made : List Nat) (hn : l.Nodup) (hs : ∀ t, t ∈ l → t ∈ made) :
    l.length ≤ made.length :=
  (List.Nodup.subperm hn hs).length_le

theorem tick_inv (made : List Nat) (X : Nat → List Nat) (st : QFState) (r fuel : Nat)
    (hinv : TEInv made X st) :
    ((X r).length < fuel → QF_tickX_ fuel st r ≠ .error .timeout) ∧
    ∀ posts st1, QF_tickX_ fuel st r = .ok (posts, st1) →
      ∃ X1, TEInv made X1 st1 ∧ st1.QF_timeEvtHead_ = st.QF_timeEvtHead_ ∧
        ∃ hd, st1.QF_timeEvtHead_[r]? = some hd ∧ (st1.tevt hd).act = 0 ∧
          Chain st1.tevt (st1.tevt hd).next (X1 r) ∧ ∀ t, t ∈ X1 r → (st1.tevt t).ctr ≠ 0 := by
  obtain ⟨i1, i2, i3, i4, i5, i6, i7⟩ := hinv
  unfold QF_tickX_
  cases hr : st.QF_timeEvtHead_[r]? with
  | none =>
    refine ⟨?_, ?_⟩
    · intro _ h
      cases h
    · intro posts st1 h
      cases h
  | some hd =>
    dsimp only
    obtain ⟨k1, k2, k3⟩ := i7 r hd hr
    have hhm : hd ∈ st.QF_timeEvtHead_ := List.getElem?_mem hr
    have hd0 : hd ≠ 0 := fun e => i2 (e ▸ hhm)
    have hnh : ∀ a, a ∈ made → a ∉ st.QF_timeEvtHead_ := fun a ha hh => (i4 a hh).2 ha
    have hhX : ∀ r' hd', st.QF_timeEvtHead_[r']? = some hd' →
        ∀ h, h ∈ st.QF_timeEvtHead_ → h ∉ X r' := by
      intro r' hd' hr' h hh hm
      exact hnh h (((i7 r' hd' hr').2.2 h).mp hm).1 hh
    have hX0 : ∀ a, a ≠ hd →
        (st.setTE hd { st.tevt hd with ctr := u16 ((st.tevt hd).ctr + 1) }).tevt a =
          st.tevt a := by
      intro a ha
      simp [QFState.setTE, Function.update_noteq ha]
    have hXm : ∀ a, a ∈ X r →
        (st.setTE hd { st.tevt hd with ctr := u16 ((st.tevt hd).ctr + 1) }).tevt a =
          st.tevt a := fun a ha => hX0 a (fun e => hhX r hd hr hd hhm (e ▸ ha))
    obtain ⟨t1, t2⟩ := tick_loop_cond hd (X r) fuel
      (st.setTE hd { st.tevt hd with ctr := u16 ((st.tevt hd).ctr + 1) }) hd hd0
      (pending_congr st.tevt _ hd hd hd (X r) (fun a ha => by rw [hXm a ha])
        (by simp [QFState.setTE]) (by simp [QFState.setTE]) k1)
      (List.nodup_cons.mpr ⟨hhX r hd hr hd hhm, k2⟩) (hhX r hd hr hd hhm)
      (by
        intro t ht
        rw [hXm t ht]
        obtain ⟨m1, m2, -⟩ := (k3 t).mp ht
        obtain ⟨-, j2, -, -, j5, -, -, j8⟩ := i6 t m1
        exact ⟨j2, j8 m2, j5⟩)
    refine ⟨t1, ?_⟩
    intro posts st1 h
    obtain ⟨-, c2, c3, c4, c5, -, c7, c8, c9⟩ := t2 posts st1 h
    rw [keeps_congr st.tevt _ (X r) hXm] at c2
    have c9' : st1.QF_timeEvtHead_ = st.QF_timeEvtHead_ := c9
    have c7' : ∀ a, a ∉ X r → st1.emem a = st.emem a := c7
    have c5' : ∀ a, a ≠ hd → a ∉ X r → st1.tevt a = st.tevt a := by
      intro a ha hx
      rw [c5 a ha ha hx, hX0 a ha]
    have c4' : ∀ t, t ∈ X r → (st1.tevt t).ctr = newCtr (st.tevt t) ∧
        (st1.tevt t).interval = (st.tevt t).interval ∧ (st1.tevt t).act = (st.tevt t).act := by
      intro t ht
      have := c4 t ht
      rw [hXm t ht] at this
      exact this
    have c8' : ∀ t, t ∈ X r → st1.emem t = (if keeps (st.tevt t) then st.emem t
        else { st.emem t with refCtr_ := (st.emem t).refCtr_ &&& 127 }) := by
      intro t ht
      have := c8 t ht
      rw [hXm t ht] at this
      exact this
    -- the flags and the rate of a time event of the list after the tick
    have hflag : ∀ t, t ∈ X r → (teLinked st1 t ↔ keeps (st.tevt t) = true) ∧
        teRate st1 t = r ∧ (st1.emem t).poolId_ = 0 ∧ (st1.emem t).refCtr_ < 256 := by
      intro t ht
      obtain ⟨m1, m2, m3⟩ := (k3 t).mp ht
      obtain ⟨-, j2, j3, -⟩ := i6 t m1
      obtain ⟨-, -, -, -, -, -, -, -, -, -, b11, b12, b13, -⟩ := flag_bits _ j3
      unfold teLinked TE_IS_LINKED at m2 ⊢
      unfold teRate TE_TICK_RATE at m3 ⊢
      rw [c8' t ht]
      by_cases hk : keeps (st.tevt t) = true
      · simp only [hk, if_true, iff_true]
        exact ⟨m2, m3, j2, j3⟩
      · simp only [hk, Bool.false_eq_true, if_false, b11, ne_eq, not_true_eq_false, b12,
          false_iff, not_false_eq_true, true_and]
        exact ⟨m3, j2, b13⟩
    have hsame : ∀ t, t ∉ X r → (teLinked st1 t ↔ teLinked st t) ∧
        teRate st1 t = teRate st t := by
      intro t ht
      unfold teLinked teRate
      rw [c7' t ht]
      exact ⟨Iff.rfl, rfl⟩
    refine ⟨fun r' => if r' = r then (X r).filter (fun t => keeps (st.tevt t)) else X r',
      ⟨by rw [c9']; exact i1, by rw [c9']; exact i2, by rw [c9']; exact i3, ?_, ?_, ?_, ?_⟩,
      c9', hd, by rw [c9']; exact hr, c3, by simpa using c2, ?_⟩
    · intro h hh
      rw [c9'] at hh
      rw [c7' h (hhX r hd hr h hh)]
      exact i4 h hh
    · intro t ht hh
      rw [c9'] at hh
      have hx : t ∉ X r := fun e => ht ((k3 t).mp e).1
      have hne : t ≠ hd := fun e => hh (e ▸ hhm)
      rw [c5' t hne hx]
      exact ⟨(i5 t ht hh).1, (i5 t ht hh).2.1, fun hl => (i5 t ht hh).2.2 ((hsame t hx).1.mp hl)⟩
    · intro t ht
      obtain ⟨j1, j2, j3, j4, j5, j6, j7, j8⟩ := i6 t ht
      by_cases hx : t ∈ X r
      · obtain ⟨f1, f2, f3, f4⟩ := hflag t hx
        obtain ⟨d1, d2, d3⟩ := c4' t hx
        refine ⟨j1, f3, f4, ?_, by rw [d1]; exact newCtr_lt _ j5 j6, by rw [d2]; exact j6,
          ?_, ?_⟩
        · rw [f2]
          exact ((k3 t).mp hx).2.2 ▸ j4
        · intro hc
          rw [d1] at hc
          apply f1.mpr
          by_contra hk
          exact hc (newCtr_drops _ (by simpa using hk))
        · intro _
          rw [d3]
          exact j8 ((k3 t).mp hx).2.1
      · have hne : t ≠ hd := fun e => hnh t ht (e ▸ hhm)
        obtain ⟨s1, s2⟩ := hsame t hx
        rw [c5' t hne hx, c7' t hx]
        exact ⟨j1, j2, j3, by rw [s2]; exact j4, j5, j6, fun hc => s1.mpr (j7 hc),
          fun hl => j8 (s1.mp hl)⟩
    · intro r' hd' hr'
      rw [c9'] at hr'
      by_cases hrr : r' = r
      · subst hrr
        rw [hr] at hr'
        cases hr'
        simp only [if_true]
        refine ⟨⟨_, [], by simp, c2, by rw [c3]; rfl⟩, k2.filter _, ?_⟩
        intro t
        rw [List.mem_filter]
        constructor
        · rintro ⟨hx, hk⟩
          exact ⟨((k3 t).mp hx).1, (hflag t hx).1.mpr hk, (hflag t hx).2.1⟩
        · rintro ⟨m1, m2, m3⟩
          by_cases hx : t ∈ X r'
          · exact ⟨hx, (hflag t hx).1.mp m2⟩
          · exfalso
            exact hx ((k3 t).mpr ⟨m1, (hsame t hx).1.mp m2, by rw [← (hsame t hx).2]; exact m3⟩)
      · simp only [hrr, if_false]
        obtain ⟨q1, q2, q3⟩ := i7 r' hd' hr'
        have hhm' : hd' ∈ st.QF_timeEvtHead_ := List.getElem?_mem hr'
        have hdd : hd' ≠ hd := by
          intro e
          rw [e] at hr'
          exact hrr (nodup_index_inj _ i3 _ _ _ hr' hr)
        have hdis : ∀ a, a ∈ X r' → a ∉ X r := by
          intro a ha hx
          exact hrr ((((q3 a).mp ha).2.2).symm.trans ((k3 a).mp hx).2.2)
        have hah : ∀ a, a ∈ X r' → a ≠ hd := fun a ha e => hhX r' hd' hr' hd hhm (e ▸ ha)
        refine ⟨pending_congr st.tevt st1.tevt hd' hd' hd' (X r') ?_ ?_ ?_ q1, q2, ?_⟩
        · intro a ha
          rw [c5' a (hah a ha) (hdis a ha)]
        · rw [c5' hd' hdd (hhX r hd hr hd' hhm')]
        · rw [c5' hd' hdd (hhX r hd hr hd' hhm')]
        · intro t
          rw [q3 t]
          by_cases hx : t ∈ X r
          · have hrt := ((k3 t).mp hx).2.2
            constructor
            · rintro ⟨-, -, m3⟩
              exact absurd (m3.symm.trans hrt) hrr
            · rintro ⟨-, -, m3⟩
              rw [(hflag t hx).2.1] at m3
              exact absurd m3.symm hrr
          · obtain ⟨s1, s2⟩ := hsame t hx
            rw [s2]
            constructor
            · rintro ⟨m1, m2, m3⟩
              exact ⟨m1, s1.mpr m2, m3⟩
            · rintro ⟨m1, m2, m3⟩
              exact ⟨m1, s1.mp m2, m3⟩
    · intro t ht
      simp only [if_true, List.mem_filter] at ht
      rw [(c4' t ht.1).1]
      exact newCtr_keeps _ ht.2

theorem ctor_heads (st st1 : QFState) (me act sig rate : Nat)
    (h : QTimeEvt_ctorX st me act sig rate = .ok st1) :
    st1.QF_timeEvtHead_ = st.QF_timeEvtHead_ := by
  unfold QTimeEvt_ctorX at h
  split at h
  · cases h
  · cases h
    rfl

theorem disarm_heads (st : QFState) (me : Nat) :
    (QTimeEvt_disarm st me).2.QF_timeEvtHead_ = st.QF_timeEvtHead_ := by
  unfold QTimeEvt_disarm
  split <;> rfl

theorem timeStep_inv (fuel : Nat) (made : List Nat) (X : Nat → List Nat) (st : QFState)
    (op : TimeOp) (ops : List TimeOp) (hinv : TEInv made X st)
    (hp : timeProtocol st.QF_timeEvtHead_ made (op :: ops) = true) :
    (made.length < fuel → timeStep fuel st op ≠ .error .timeout) ∧
    ∀ st1, timeStep fuel st op = .ok st1 →
      st1.QF_timeEvtHead_ = st.QF_timeEvtHead_ ∧
      ∃ made1 X1, TEInv made1 X1 st1 ∧ made1.length ≤ made.length + 1 ∧
        timeProtocol st.QF_timeEvtHead_ made1 ops = true := by
  cases op with
  | ctorX me act sig rate =>
    simp only [timeProtocol, Bool.and_eq_true, decide_eq_true_eq] at hp
    obtain ⟨⟨⟨p1, p2⟩, p3⟩, p4⟩ := hp
    refine ⟨?_, ?_⟩
    · intro _ h
      simp only [timeStep, QTimeEvt_ctorX] at h
      split at h <;> cases h
    · intro st1 h
      exact ⟨ctor_heads st st1 me act sig rate h, me :: made, X,
        ctor_inv made X st st1 me act sig rate hinv p1 p2 p3 h, by simp, p4⟩
  | armX me n i =>
    simp only [timeProtocol, Bool.and_eq_true, decide_eq_true_eq] at hp
    obtain ⟨⟨p1, p2⟩, p4⟩ := hp
    refine ⟨?_, ?_⟩
    · intro _ h
      simp only [timeStep, QTimeEvt_armX] at h
      split at h
      · cases h
      · split at h
        · split at h <;> cases h
        · cases h
    · intro st1 h
      obtain ⟨X1, h1, h2⟩ := arm_inv made X st st1 me n i hinv p1 p2 h
      exact ⟨h2, made, X1, h1, by omega, p4⟩
  | disarm me =>
    simp only [timeProtocol] at hp
    refine ⟨?_, ?_⟩
    · intro _ h
      cases h
    · intro st1 h
      simp only [timeStep, Except.ok.injEq] at h
      subst h
      exact ⟨disarm_heads st me, made, X, disarm_inv made X st me hinv, by omega, hp⟩
  | rearm me n =>
    simp only [timeProtocol, Bool.and_eq_true, decide_eq_true_eq] at hp
    obtain ⟨p1, p4⟩ := hp
    refine ⟨?_, ?_⟩
    · intro _ h
      simp only [timeStep, QTimeEvt_rearm] at h
      split at h
      · rename_i f hr
        cases h
        split at hr
        · cases hr
        · split at hr
          · split at hr
            · split at hr <;> cases hr
            · cases hr
          · cases hr
      · cases h
    · intro st1 h
      simp only [timeStep] at h
      split at h
      · cases h
      · rename_i b s1 hr
        cases h
        obtain ⟨X1, h1, h2⟩ := rearm_inv made X st st1 me n b hinv p1 hr
        exact ⟨h2, made, X1, h1, by omega, p4⟩
  | tickX r =>
    simp only [timeProtocol] at hp
    obtain ⟨t1, t2⟩ := tick_inv made X st r fuel hinv
    refine ⟨?_, ?_⟩
    · intro hf h
      simp only [timeStep] at h
      split at h
      · rename_i f ht
        cases h
        refine t1 ?_ ht
        by_cases hh : ∃ hd, st.QF_timeEvtHead_[r]? = some hd
        · obtain ⟨hd, hr⟩ := hh
          obtain ⟨-, k2, k3⟩ := hinv.2.2.2.2.2.2 r hd hr
          have := list_length_le (X r) made k2 (fun t ht => ((k3 t).mp ht).1)
          omega
        · exfalso
          unfold QF_tickX_ at ht
          split at ht
          · cases ht
          · rename_i hd hr
            exact hh ⟨hd, hr⟩
      · cases h
    · intro st1 h
      simp only [timeStep] at h
      split at h
      · cases h
      · rename_i posts s1 ht
        cases h
        obtain ⟨X1, h1, h2, -⟩ := t2 posts st1 ht
        exact ⟨h2, made, X1, h1, by omega, hp⟩
  | other f =>
    simp only [timeProtocol] at hp
    refine ⟨?_, ?_⟩
    · intro _ h
      cases h
    · intro st1 h
      simp only [timeStep, Except.ok.injEq] at h
      subst h
      exact ⟨rfl, made, X, teinv_congr made X st _ rfl rfl rfl hinv, by omega, hp⟩

theorem runTime_inv (fuel : Nat) : ∀ (ops : List TimeOp) (made : List Nat)
    (X : Nat → List Nat) (st : QFState), TEInv made X st →
    timeProtocol st.QF_timeEvtHead_ made ops = true →
    (made.length + ops.length < fuel → runTime fuel st ops ≠ .error .timeout) ∧
    ∀ st1, runTime fuel st ops = .ok st1 → ∃ made1 X1, TEInv made1 X1 st1 := by
  intro ops
  induction ops with
  | nil =>
    intro made X st hinv _
    refine ⟨?_, ?_⟩
    · intro _ h
      cases h
    · intro st1 h
      cases h
      exact ⟨made, X, hinv⟩
  | cons op ops ih =>
    intro made X st hinv hp
    obtain ⟨s1, s2⟩ := timeStep_inv fuel made X st op ops hinv hp
    cases hs : timeStep fuel st op with
    | error f =>
      simp only [runTime, hs]
      refine ⟨?_, ?_⟩
      · intro hf h
        cases h
        exact s1 (by simp only [List.length_cons] at hf; omega) hs
      · intro st1 h
        cases h
    | ok st2 =>
      obtain ⟨e1, made1, X1, e2, e3, e4⟩ := s2 st2 hs
      rw [← e1] at e4
      obtain ⟨j1, j2⟩ := ih made1 X1 st2 e2 e4
      simp only [runTime, hs]
      refine ⟨?_, j2⟩
      intro hf
      exact j1 (by simp only [List.length_cons] at hf; omega)

theorem teinv_lists (made : List Nat) (X : Nat → List Nat) (st : QFState)
    (hinv : TEInv made X st) :
    (∀ r, r < QF_MAX_TICK_RATE → ∃ R A, Lists st r R A ∧ (R ++ A).Nodup ∧
      (∀ h, h ∈ st.QF_timeEvtHead_ → h ∉ R ++ A) ∧
      ∀ t, t ∉ st.QF_timeEvtHead_ →
        ((R ++ A).count t = 1 ↔ (teLinked st t ∧ teRate st t = r))) ∧
    (∀ t, t ∉ st.QF_timeEvtHead_ →
      (teLinked st t → teRate st t < QF_MAX_TICK_RATE) ∧
      ((st.tevt t).ctr ≠ 0 → teLinked st t)) := by
  have hinv0 := hinv
  obtain ⟨i1, i2, i3, i4, i5, i6, i7⟩ := hinv
  have hmade : ∀ t, t ∉ st.QF_timeEvtHead_ → teLinked st t → t ∈ made := by
    intro t hh hl
    by_contra hm
    exact (i5 t hm hh).2.2 hl
  refine ⟨?_, ?_⟩
  · intro r hr
    obtain ⟨hd, hhd⟩ := head_of_rate made X st r hinv0 hr
    obtain ⟨⟨R, A, hX, cR, cA⟩, k2, k3⟩ := i7 r hd hhd
    rw [hX] at k2 k3
    refine ⟨R, A, ⟨hd, hhd, cR, cA⟩, k2, ?_, ?_⟩
    · intro h hh hm
      exact (i4 h hh).2 ((k3 h).mp hm).1
    · intro t hh
      constructor
      · intro hc
        have hm : t ∈ R ++ A := List.count_pos_iff.mp (by omega)
        exact ((k3 t).mp hm).2
      · rintro ⟨hl, hrt⟩
        exact List.count_eq_one_of_mem k2 ((k3 t).mpr ⟨hmade t hh hl, hl, hrt⟩)
  · intro t hh
    refine ⟨?_, ?_⟩
    · intro hl
      exact (i6 t (hmade t hh hl)).2.2.2.1
    · intro hc
      by_cases hm : t ∈ made
      · exact (i6 t hm).2.2.2.2.2.2.1 hc
      · exact absurd (i5 t hm hh).2.1 hc

/-- C34: the heads `QF_timeEvtHead_` are distinct and zero and no time event
is armed or linked, as after `QF_init`. Then any sequence of calls of
`QTimeEvt_ctorX`, `QTimeEvt_armX`, `QTimeEvt_disarm`, `QTimeEvt_rearm` and
`QF_tickX_` is run, interleaved with other activity of the active objects, in
which `QTimeEvt_ctorX` is called at most once for a time event. In every
state reached, for every tick rate `r` the active list `R` (linked from the
`next` member of the head) and the newly-armed list `A` (linked from its
`act` member) are well-formed null-terminated lists without repetition that
contain no head, and a time event occurs in them, exactly once, if and only
if its linked flag is set and its tick rate is `r`; the tick rate of a linked
time event is below `QF_MAX_TICK_RATE`; and every time event with a non-zero
countdown is linked. When `QF_tickX_` for rate `r` returns from such a
state, the newly-armed list of `r` is empty and every time event of its
active list has a non-zero countdown. With more fuel than operations, no
loop of `QF_tickX_` runs out of fuel. -/
theorem C34_time_event_lists (fuel : Nat) (st : QFState) (ops : List TimeOp)
    (hinit : TimeInit st) (hp : timeProtocol st.QF_timeEvtHead_ [] ops = true) :
    (∀ st1, runTime fuel st ops = .ok st1 →
      (∀ r, r < QF_MAX_TICK_RATE → ∃ R A, Lists st1 r R A ∧ (R ++ A).Nodup ∧
        (∀ h, h ∈ st1.QF_timeEvtHead_ → h ∉ R ++ A) ∧
        ∀ t, t ∉ st1.QF_timeEvtHead_ →
          ((R ++ A).count t = 1 ↔ (teLinked st1 t ∧ teRate st1 t = r))) ∧
      (∀ t, t ∉ st1.QF_timeEvtHead_ →
        (teLinked st1 t → teRate st1 t < QF_MAX_TICK_RATE) ∧
        ((st1.tevt t).ctr ≠ 0 → teLinked st1 t)) ∧
      (∀ r posts st2, QF_tickX_ fuel st1 r = .ok (posts, st2) →
        ∃ R, Lists st2 r R [] ∧ ∀ t, t ∈ R → (st2.tevt t).ctr ≠ 0)) ∧
    (ops.length < fuel → runTime fuel st ops ≠ .error .timeout) := by
  obtain ⟨r1, r2⟩ := runTime_inv fuel ops [] (fun _ => []) st (init_teinv st hinit) hp
  refine ⟨?_, ?_⟩
  · intro st1 hrun
    obtain ⟨made1, X1, hinv1⟩ := r2 st1 hrun
    obtain ⟨l1, l2⟩ := teinv_lists made1 X1 st1 hinv1
    refine ⟨l1, l2, ?_⟩
    intro r posts st2 ht
    obtain ⟨X2, -, -, hd, t1, t2, t3, t4⟩ := (tick_inv made1 X1 st1 r fuel hinv1).2 posts st2 ht
    exact ⟨X2 r, ⟨hd, t1, t3, t2⟩, t4⟩
  · intro hf
    exact r1 (by simpa using hf)

theorem example3_timeInit : TimeInit exampleState3 := by
  refine ⟨rfl, by decide, by decide, ?_, ?_⟩
  · intro h hh
    have : h = 16 ∨ h = 32 := by
      simpa [exampleState3, exampleState2, exampleState, QFState.start] using hh
    rcases this with rfl | rfl <;> exact ⟨rfl, rfl⟩
  · intro t
    refine ⟨rfl, fun _ => rfl, ?_⟩
    unfold teLinked
    show ¬ ((EvtMem.write (EvtMem.write (fun _ => ⟨0, 0, 0⟩) 1000 ⟨5, 1, 0⟩) 700 ⟨5, 0, 0⟩)
      t).refCtr_ &&& TE_IS_LINKED ≠ 0
    by_cases h7 : t = 700
    · subst h7
      decide
    · by_cases h1 : t = 1000
      · subst h1
        decide
      · simp [EvtMem.write, h7, h1]

theorem C34_time_event_lists_witness :
    TimeInit exampleState3 ∧
      timeProtocol exampleState3.QF_timeEvtHead_ [] [.ctorX 800 500 9 0, .ctorX 810 500 10 1,
        .armX 800 1 0, .armX 810 2 2, .tickX 0, .other (fun s => s), .tickX 1, .disarm 810,
        .rearm 800 5] = true ∧
      ∃ st1, runTime 10 exampleState3 [.ctorX 800 500 9 0, .ctorX 810 500 10 1,
          .armX 800 1 0, .armX 810 2 2, .tickX 0, .other (fun s => s), .tickX 1, .disarm 810,
          .rearm 800 5] = .ok st1 ∧
        Lists st1 0 [] [800] ∧ Lists st1 1 [810] [] ∧ (st1.emem 800).refCtr_ = 128 ∧
        (st1.emem 810).refCtr_ = 193 ∧
        (st1.tevt 800).ctr = 5 ∧ (st1.tevt 810).ctr = 0 ∧
        (st1.aobj 500).eQueue.frontEvt = 800 ∧
        (∀ r, r < QF_MAX_TICK_RATE → ∃ R A, Lists st1 r R A ∧ (R ++ A).Nodup ∧
          (∀ h, h ∈ st1.QF_timeEvtHead_ → h ∉ R ++ A) ∧
          ∀ t, t ∉ st1.QF_timeEvtHead_ →
            ((R ++ A).count t = 1 ↔ (teLinked st1 t ∧ teRate st1 t = r))) ∧
        (∀ t, t ∉ st1.QF_timeEvtHead_ →
          (teLinked st1 t → teRate st1 t < QF_MAX_TICK_RATE) ∧
          ((st1.tevt t).ctr ≠ 0 → teLinked st1 t)) :=
  ⟨example3_timeInit, rfl, _, rfl, ⟨16, rfl, rfl, rfl, by decide, rfl⟩,
    ⟨32, rfl, ⟨rfl, by decide, rfl⟩, rfl⟩, rfl, rfl, rfl, rfl, rfl,
    ((C34_time_event_lists 10 exampleState3 [.ctorX 800 500 9 0, .ctorX 810 500 10 1,
      .armX 800 1 0, .armX 810 2 2, .tickX 0, .other (fun s => s), .tickX 1, .disarm 810,
      .rearm 800 5] example3_timeInit rfl).1 _ rfl).1,
    ((C34_time_event_lists 10 exampleState3 [.ctorX 800 500 9 0, .ctorX 810 500 10 1,
      .armX 800 1 0, .armX 810 2 2, .tickX 0, .other (fun s => s), .tickX 1, .disarm 810,
      .rearm 800 5] example3_timeInit rfl).1 _ rfl).2.1⟩

end QP
